import Mathlib

/-!
# Memory and Router of the GreenSocs base components

A shallow embedding of `greensocs/base-components/memory.h` and
`greensocs/base-components/router.h`.

* 64-bit quantities (`uint64_t`, `sc_dt::uint64`) are natural numbers; every
  addition and subtraction the source performs on them is reduced modulo
  `2^64` (`add64`, `sub64`).
* `assert` / `sc_assert` failures, `SC_REPORT_FATAL`, and undefined behaviour
  (out-of-bounds `memcpy`, null dereference, division by zero, out-of-range
  array index) are results of type `Fault`.
* A reference into the `SubBlock` tree (the `SubBlock&` returned by `access`)
  is the list of child indices leading from the root to the node.
-/

namespace gs

/-! ## Machine arithmetic -/

/-- Two to the power 64, the number of `uint64_t` values. -/
def U64 : Nat := 18446744073709551616

/-- Two to the power 32, the number of `unsigned int` values. -/
def U32 : Nat := 4294967296

/-- Addition of `uint64_t` values. -/
def add64 (a b : Nat) : Nat := (a + b) % U64

/-- Subtraction of `uint64_t` values (operands below `2^64`). -/
def sub64 (a b : Nat) : Nat := (a + U64 - b) % U64

/-- Multiplication of `uint64_t` values. -/
def mul64 (a b : Nat) : Nat := (a * b) % U64

/-! ## Abnormal outcomes -/

/-- Ways in which a call does not return normally. -/
inductive Fault where
  /-- The call reached `SC_REPORT_FATAL`, or `SC_REPORT_ERROR`, whose report is
  thrown. -/
  | fatal
  /-- An `assert` or `sc_assert` failed. -/
  | assertion
  /-- Undefined behaviour in C++: out-of-bounds access, null dereference,
  division by zero. -/
  | undefined
  /-- The embedding ran out of fuel: the source loops or recurses further than
  the fuel allows. -/
  | fuel
  deriving DecidableEq, Repr

/-! ## Host services used by `SubBlock` -/

/-- Host services behind `open`, `mmap`, `aligned_alloc` and `malloc`.  An
allocation returns the initial (indeterminate) contents of the new buffer as a
function of the byte index, or `none` for a null pointer.  The answer may depend
on the address and length of the requesting block: a block requests storage at
most once in its life, so this covers every behaviour of the host over time. -/
structure Host where
  /-- Whether `open(filename, O_RDWR)` gives a valid descriptor. -/
  open_ok : String → Bool
  /-- Result of `mmap(NULL, len, PROT_READ | PROT_WRITE, MAP_SHARED, fd, address)`;
  `none` is `MAP_FAILED`. -/
  mmap : String → Nat → Nat → Option (Nat → Nat)
  /-- Result of `aligned_alloc(0x1000, len)` for the block at `address`. -/
  aligned_alloc : Nat → Nat → Option (Nat → Nat)
  /-- Result of `malloc(len)` for the block at `address`. -/
  malloc : Nat → Nat → Option (Nat → Nat)

/-- A buffer of `len` bytes with the given contents. -/
def mkBuffer (len : Nat) (f : Nat → Nat) : List Nat := (List.range len).map f

/-! ## `Memory::SubBlock<N>` with `N = 2` -/

/-- Data members of `SubBlock` other than the array of children.  `m_ptr` is
`none` for a null pointer and otherwise holds the bytes of the buffer. -/
structure SubBlockData where
  m_len : Nat
  m_address : Nat
  m_max_size : Nat
  m_min_size : Nat
  m_filename : String
  m_ptr : Option (List Nat)
  m_use_sub_blocks : Bool
  m_mapped : Bool

/-- A `std::unique_ptr<SubBlock>`: either null or a block with its data members
and its `1 << N = 4` children `m_sub_blocks`. -/
inductive SubBlock where
  | null : SubBlock
  | mk (d : SubBlockData) (m_sub_blocks : Fin 4 → SubBlock) : SubBlock

/-- Constructor `SubBlock(address, len, max_size, min_size, filename)`. -/
def SubBlock.new (address len max_size min_size : Nat) (filename : String) : SubBlock :=
  .mk { m_len := len, m_address := address, m_max_size := max_size, m_min_size := min_size,
        m_filename := filename, m_ptr := none, m_use_sub_blocks := false, m_mapped := false }
    (fun _ => .null)

/-- Assignment `m_sub_blocks[i] = c`. -/
def setSub (subs : Fin 4 → SubBlock) (i : Fin 4) (c : SubBlock) : Fin 4 → SubBlock :=
  fun j => if j = i then c else subs j

/-- `SubBlock::map`: map the backing file.  Returns the data members after the
call and the boolean result. -/
def SubBlockData.map (h : Host) (d : SubBlockData) (filename : String) :
    Except Fault (SubBlockData × Bool) :=
  if h.open_ok filename then
    match h.mmap filename d.m_address d.m_len with
    | none => .ok ({ d with m_ptr := none }, false)
    | some f => .ok ({ d with m_ptr := some (mkBuffer d.m_len f), m_mapped := true }, true)
  else .error .fatal

/-- The block `if (!m_use_sub_blocks) { ... }` of `SubBlock::access`: try to map
or allocate the buffer.  The boolean is `true` when the source executes
`return *this`. -/
def SubBlockData.allocate (h : Host) (d : SubBlockData) : Except Fault (SubBlockData × Bool) :=
  if d.m_use_sub_blocks then .ok (d, false)
  else if d.m_filename ≠ "" then
    match d.map h d.m_filename with
    | .error e => .error e
    | .ok (d1, true) => .ok (d1, true)
    | .ok (d1, false) => .ok ({ d1 with m_use_sub_blocks := true }, false)
  else
    match h.aligned_alloc d.m_address d.m_len with
    | some f => .ok ({ d with m_ptr := some (mkBuffer d.m_len f) }, true)
    | none =>
      match h.malloc d.m_address d.m_len with
      | some f => .ok ({ d with m_ptr := some (mkBuffer d.m_len f) }, true)
      | none => .ok ({ d with m_ptr := none, m_use_sub_blocks := true }, false)

/-- `SubBlock::access(address)`.  Returns the tree after the call and the
reference to the returned block, as the path of child indices from this block.
The first argument bounds the recursion depth. -/
def SubBlock.access (h : Host) : Nat → SubBlock → Nat → Except Fault (SubBlock × List (Fin 4))
  | 0, _, _ => .error .fuel
  | _ + 1, .null, _ => .error .undefined
  | fuel + 1, .mk d subs, address =>
    if d.m_ptr.isSome && !d.m_use_sub_blocks then
      if address ≥ d.m_address then .ok (.mk d subs, []) else .error .assertion
    else
      let d1 := if d.m_len > d.m_max_size then { d with m_use_sub_blocks := true } else d
      match d1.allocate h with
      | .error e => .error e
      | .ok (d2, true) => .ok (.mk d2 subs, [])
      | .ok (d2, false) =>
        if d2.m_len < d2.m_min_size then .error .fatal
        else if d2.m_len % 4 ≠ 0 then .error .assertion
        else
          let m_sub_size := d2.m_len / 4
          if m_sub_size = 0 then .error .undefined
          else
            let i := (sub64 address d2.m_address / m_sub_size) % U32
            if hi : i < 4 then
              let child :=
                match subs ⟨i, hi⟩ with
                | .null =>
                  SubBlock.new (add64 (mul64 i m_sub_size) d2.m_address) m_sub_size
                    d2.m_max_size d2.m_min_size d2.m_filename
                | c => c
              match SubBlock.access h fuel child address with
              | .error e => .error e
              | .ok (c, p) => .ok (.mk d2 (setSub subs ⟨i, hi⟩ c), ⟨i, hi⟩ :: p)
            else .error .undefined

/-- The block a reference (path of child indices) points to; `null` when the
path leaves the tree. -/
def SubBlock.get : SubBlock → List (Fin 4) → SubBlock
  | t, [] => t
  | .null, _ :: _ => .null
  | .mk _ subs, i :: p => (subs i).get p

/-- The tree after the block a reference points to has been replaced. -/
def SubBlock.set : SubBlock → List (Fin 4) → SubBlock → SubBlock
  | _, [], b => b
  | .null, _ :: _, _ => .null
  | .mk d subs, i :: p, b => .mk d (setSub subs i ((subs i).set p b))

/-- `memcpy(&dst[di], &src[si], n)` on buffers given with their bounds: the
destination buffer after the copy. -/
def memcpy (dst : List Nat) (di : Nat) (src : List Nat) (si n : Nat) : Except Fault (List Nat) :=
  if di + n ≤ dst.length ∧ si + n ≤ src.length then
    .ok (dst.take di ++ (src.drop si).take n ++ dst.drop (di + n))
  else .error .undefined

/-- `SubBlock::read_sub_blocks(&data[di], offset, len)`: the caller's buffer
after the copy and the returned `remain_len`. -/
def SubBlock.read_sub_blocks (blk : SubBlock) (data : List Nat) (di offset len : Nat) :
    Except Fault (List Nat × Nat) :=
  match blk with
  | .null => .error .undefined
  | .mk d _ =>
    let bloc_offset := sub64 offset d.m_address
    let bloc_len := sub64 d.m_len bloc_offset
    let remain_len := if len < bloc_len then len else bloc_len
    match d.m_ptr with
    | none => .error .undefined
    | some buf =>
      match memcpy data di buf bloc_offset remain_len with
      | .error e => .error e
      | .ok data1 => .ok (data1, remain_len)

/-- `SubBlock::write_sub_blocks(&data[di], offset, len)`: the block after the
copy and the returned `remain_len`. -/
def SubBlock.write_sub_blocks (blk : SubBlock) (data : List Nat) (di offset len : Nat) :
    Except Fault (SubBlock × Nat) :=
  match blk with
  | .null => .error .undefined
  | .mk d subs =>
    let bloc_offset := sub64 offset d.m_address
    let bloc_len := sub64 d.m_len bloc_offset
    let remain_len := if len < bloc_len then len else bloc_len
    match d.m_ptr with
    | none => .error .undefined
    | some buf =>
      match memcpy buf bloc_offset data di remain_len with
      | .error e => .error e
      | .ok buf1 => .ok (.mk { d with m_ptr := some buf1 } subs, remain_len)

/-- `SubBlock::get_ptr`. -/
def SubBlock.get_ptr : SubBlock → Option (List Nat)
  | .null => none
  | .mk d _ => d.m_ptr

/-- `SubBlock::get_len`. -/
def SubBlock.get_len : SubBlock → Nat
  | .null => 0
  | .mk d _ => d.m_len

/-- `SubBlock::get_address`. -/
def SubBlock.get_address : SubBlock → Nat
  | .null => 0
  | .mk d _ => d.m_address

/-! ## The generic payload -/

/-- `tlm::tlm_command`. -/
inductive Command where
  | read
  | write
  | ignore
  deriving DecidableEq, Repr

/-- `tlm::tlm_response_status`. -/
inductive Response where
  | ok
  | incomplete
  | generic_error
  | address_error
  | command_error
  | burst_error
  | byte_enable_error
  deriving DecidableEq, Repr

/-- The value `TLM_BYTE_ENABLED`. -/
def TLM_BYTE_ENABLED : Nat := 255

/-- The attributes of `tlm::tlm_generic_payload` the components use.  `data` is
the buffer behind the data pointer, `byte_enable` the array behind the
byte-enable pointer (`none` for a null pointer), and `ext` the attached
`PathIDExtension` (`none` when the payload carries none). -/
structure Txn where
  command : Command
  address : Nat
  data : List Nat
  data_length : Nat
  byte_enable : Option (List Nat)
  byte_enable_length : Nat
  streaming_width : Nat
  response : Response
  dmi_allowed : Bool
  ext : Option (List Int)
  deriving DecidableEq, Repr

/-- `tlm::tlm_dmi::dmi_access_e`. -/
inductive DmiAccess where
  | none
  | read
  | write
  | read_write
  deriving DecidableEq, Repr

/-- `tlm::tlm_dmi`.  The pointer `dmi_ptr` is `none` when null; a non-null
pointer is identified by the reference to the block whose buffer it points to. -/
structure tlm_dmi where
  dmi_ptr : Option (List (Fin 4))
  start_address : Nat
  end_address : Nat
  granted_access : DmiAccess
  read_latency : Nat
  write_latency : Nat
  deriving DecidableEq, Repr

/-- The descriptor after `tlm_dmi::init`: null pointer, the window
`[0, 2^64 - 1]`, no access granted, zero latencies. -/
def tlm_dmi.init : tlm_dmi where
  dmi_ptr := none
  start_address := 0
  end_address := U64 - 1
  granted_access := .none
  read_latency := 0
  write_latency := 0

/-! ## `Memory` -/

/-- Preset values of the configuration broker the memory consults. -/
structure Preset where
  size : Option Nat
  address : Option Nat
  relative_addresses : Option Bool
  deriving DecidableEq, Repr

/-- State of a `Memory<BUSWIDTH>`: its data members, its parameters and the
preset values of its socket.  `m_sub_block` is `SubBlock.null` until
`before_end_of_elaboration`. -/
structure Memory where
  m_size : Nat
  m_address : Nat
  m_address_valid : Bool
  m_relative_addresses : Bool
  m_sub_block : SubBlock
  p_rom : Bool
  p_dmi : Bool
  p_mapfile : String
  p_max_bloc_size : Nat
  p_min_bloc_size : Nat
  preset : Preset
  /-- The parameter `latency`, in nanoseconds (default 10 ns). -/
  p_latency : Nat := 10

/-- Recursion bound handed to `SubBlock.access`: a block length is below `2^64`
and each level divides it by four. -/
def accessFuel : Nat := 33

/-- `Memory::size`. -/
def Memory.size (m : Memory) : Except Fault (Memory × Nat) :=
  if m.m_size = 0 then
    match m.preset.size with
    | none => .error .fatal
    | some s => .ok ({ m with m_size := s }, s)
  else .ok (m, m.m_size)

/-- `Memory::base`. -/
def Memory.base (m : Memory) : Memory × Nat :=
  if !m.m_address_valid then
    match m.preset.address with
    | none => ({ m with m_address := 0, m_address_valid := true }, 0)
    | some a => ({ m with m_address := a, m_address_valid := true }, a)
  else (m, m.m_address)

/-- `Memory::before_end_of_elaboration`. -/
def Memory.before_end_of_elaboration (m : Memory) : Except Fault Memory :=
  match m.m_sub_block with
  | .mk _ _ => .ok m
  | .null =>
    let (m1, a) := m.base
    match ({ m1 with m_address := a } : Memory).size with
    | .error e => .error e
    | .ok (m2, s) =>
      .ok { m2 with
        m_size := s
        m_sub_block := SubBlock.new 0 s m2.p_max_bloc_size m2.p_min_bloc_size m2.p_mapfile
        m_relative_addresses :=
          match m2.preset.relative_addresses with
          | some b => b
          | none => true }

/-- The loop `while (len > 0)` of `Memory::read` on the tree `root`, copying
into `&data[di]`.  The first argument bounds the number of iterations. -/
def Memory.read_loop (h : Host) :
    Nat → SubBlock → List Nat → Nat → Nat → Nat → Nat → Except Fault (SubBlock × List Nat)
  | 0, root, data, _, _, _, len => if len = 0 then .ok (root, data) else .error .fuel
  | fuel + 1, root, data, di, offset, data_ptr_offset, len =>
    if len = 0 then .ok (root, data)
    else
      match root.access h accessFuel (add64 offset data_ptr_offset) with
      | .error e => .error e
      | .ok (root1, p) =>
        match (root1.get p).read_sub_blocks data (di + data_ptr_offset)
            (add64 offset data_ptr_offset) len with
        | .error e => .error e
        | .ok (data1, remain_len) =>
          Memory.read_loop h fuel root1 data1 di offset (add64 data_ptr_offset remain_len)
            (len - remain_len)

/-- The loop `while (len > 0)` of `Memory::write` on the tree `root`, copying
from `&data[di]`.  The first argument bounds the number of iterations. -/
def Memory.write_loop (h : Host) :
    Nat → SubBlock → List Nat → Nat → Nat → Nat → Nat → Except Fault SubBlock
  | 0, root, _, _, _, _, len => if len = 0 then .ok root else .error .fuel
  | fuel + 1, root, data, di, offset, data_ptr_offset, len =>
    if len = 0 then .ok root
    else
      match root.access h accessFuel (add64 offset data_ptr_offset) with
      | .error e => .error e
      | .ok (root1, p) =>
        match (root1.get p).write_sub_blocks data (di + data_ptr_offset)
            (add64 offset data_ptr_offset) len with
        | .error e => .error e
        | .ok (blk, remain_len) =>
          Memory.write_loop h fuel (root1.set p blk) data di offset
            (add64 data_ptr_offset remain_len) (len - remain_len)

/-- `Memory::read(&data[di], offset, len)`: the memory and the caller's buffer
after the call.  Each iteration of the loop that moves a byte shortens `len`, so
`len` iterations are allowed. -/
def Memory.read (h : Host) (m : Memory) (data : List Nat) (di offset len : Nat) :
    Except Fault (Memory × List Nat) :=
  match m.before_end_of_elaboration with
  | .error e => .error e
  | .ok m1 =>
    if add64 offset len < m1.m_size then
      match Memory.read_loop h len m1.m_sub_block data di offset 0 len with
      | .error e => .error e
      | .ok (root, data1) => .ok ({ m1 with m_sub_block := root }, data1)
    else .error .assertion

/-- `Memory::write(&data[di], offset, len)`: the memory after the call. -/
def Memory.write (h : Host) (m : Memory) (data : List Nat) (di offset len : Nat) :
    Except Fault Memory :=
  match m.before_end_of_elaboration with
  | .error e => .error e
  | .ok m1 =>
    if add64 offset len < m1.m_size then
      match Memory.write_loop h len m1.m_sub_block data di offset 0 len with
      | .error e => .error e
      | .ok root => .ok { m1 with m_sub_block := root }
    else .error .assertion

/-- The loop `for (i = 0; i < len; i++) if (byt[i % bel] == TLM_BYTE_ENABLED)
read(&(ptr[i]), (addr + i), 1)` of `Memory::b_transport`, from index `i`, with
`n` iterations left. -/
def Memory.read_enabled (h : Host) (byt : List Nat) (bel addr : Nat) :
    Nat → Nat → Memory → List Nat → Except Fault (Memory × List Nat)
  | 0, _, m, ptr => .ok (m, ptr)
  | n + 1, i, m, ptr =>
    if bel = 0 then .error .undefined
    else
      match byt.get? (i % bel) with
      | none => .error .undefined
      | some b =>
        if b = TLM_BYTE_ENABLED then
          match m.read h ptr i (add64 addr i) 1 with
          | .error e => .error e
          | .ok (m1, ptr1) => Memory.read_enabled h byt bel addr n (i + 1) m1 ptr1
        else Memory.read_enabled h byt bel addr n (i + 1) m ptr

/-- The loop `for (i = 0; i < len; i++) if (byt[i % bel] == TLM_BYTE_ENABLED)
write(&(ptr[i]), (addr + i), 1)` of `Memory::b_transport`, from index `i`, with
`n` iterations left. -/
def Memory.write_enabled (h : Host) (byt : List Nat) (bel addr : Nat) (ptr : List Nat) :
    Nat → Nat → Memory → Except Fault Memory
  | 0, _, m => .ok m
  | n + 1, i, m =>
    if bel = 0 then .error .undefined
    else
      match byt.get? (i % bel) with
      | none => .error .undefined
      | some b =>
        if b = TLM_BYTE_ENABLED then
          match m.write h ptr i (add64 addr i) 1 with
          | .error e => .error e
          | .ok m1 => Memory.write_enabled h byt bel addr ptr n (i + 1) m1
        else Memory.write_enabled h byt bel addr ptr n (i + 1) m

/-- The end of `Memory::b_transport` after the `switch`: set the OK response
and, with `p_dmi`, the DMI hint. -/
def Memory.complete (m : Memory) (txn : Txn) : Txn :=
  { txn with response := .ok, dmi_allowed := if m.p_dmi then true else txn.dmi_allowed }

/-- `Memory::b_transport(txn, delay)`: the memory and the transaction after the
call.  The delay is not used by the source. -/
def Memory.b_transport (h : Host) (m : Memory) (txn : Txn) : Except Fault (Memory × Txn) :=
  let len := txn.data_length
  let ptr := txn.data
  let bel := txn.byte_enable_length
  if !m.m_relative_addresses && txn.address < m.m_address then
    .ok (m, { txn with response := .address_error })
  else
    let addr := if !m.m_relative_addresses then sub64 txn.address m.m_address else txn.address
    if add64 addr len > m.m_size then .ok (m, { txn with response := .address_error })
    else
      match txn.command with
      | .read =>
        match txn.byte_enable with
        | some byt =>
          match Memory.read_enabled h byt bel addr len 0 m ptr with
          | .error e => .error e
          | .ok (m1, ptr1) => .ok (m1, m1.complete { txn with data := ptr1 })
        | none =>
          match m.read h ptr 0 addr len with
          | .error e => .error e
          | .ok (m1, ptr1) => .ok (m1, m1.complete { txn with data := ptr1 })
      | .write =>
        if m.p_rom then .ok (m, { txn with response := .command_error })
        else
          match txn.byte_enable with
          | some byt =>
            match Memory.write_enabled h byt bel addr ptr len 0 m with
            | .error e => .error e
            | .ok m1 => .ok (m1, m1.complete txn)
          | none =>
            match m.write h ptr 0 addr len with
            | .error e => .error e
            | .ok m1 => .ok (m1, m1.complete txn)
      | .ignore => .error .fatal

/-- `Memory::transport_dbg(txn)`: the memory, the transaction and the returned
count. -/
def Memory.transport_dbg (h : Host) (m : Memory) (txn : Txn) : Except Fault (Memory × Txn × Nat) :=
  let len := txn.data_length
  match m.b_transport h txn with
  | .error e => .error e
  | .ok (m1, txn1) => if txn1.response = .ok then .ok (m1, txn1, len) else .ok (m1, txn1, 0)

/-- `Memory::get_direct_mem_ptr(txn, dmi_data)`: the memory, the transaction,
the descriptor and the returned status. -/
def Memory.get_direct_mem_ptr (h : Host) (m : Memory) (txn : Txn) (dmi_data : tlm_dmi) :
    Except Fault (Memory × Txn × tlm_dmi × Bool) :=
  if !m.p_dmi then .ok (m, txn, dmi_data, false)
  else if !m.m_relative_addresses && txn.address < m.m_address then
    .ok (m, { txn with response := .address_error }, dmi_data, false)
  else
    let addr := if !m.m_relative_addresses then sub64 txn.address m.m_address else txn.address
    if addr ≥ m.m_size then .ok (m, { txn with response := .address_error }, dmi_data, false)
    else
      let dmi1 : tlm_dmi :=
        { dmi_data with granted_access := if m.p_rom then .read else .read_write }
      match m.m_sub_block.access h accessFuel addr with
      | .error e => .error e
      | .ok (root, p) =>
        let blk := root.get p
        let size := blk.get_len
        let bloc_address := blk.get_address
        .ok ({ m with m_sub_block := root }, txn,
          { dmi1 with
            dmi_ptr := blk.get_ptr.map (fun _ => p)
            start_address :=
              if !m.m_relative_addresses then add64 bloc_address m.m_address else bloc_address
            end_address :=
              if !m.m_relative_addresses then
                sub64 (add64 (add64 bloc_address m.m_address) size) 1
              else sub64 (add64 bloc_address size) 1
            read_latency := m.p_latency
            write_latency := m.p_latency },
          true)

/-! ## `Router` -/

/-- `Router::target_info`. -/
structure target_info where
  index : Nat
  name : String
  address : Nat
  size : Nat
  mask_addr : Bool
  deriving DecidableEq, Repr

/-- State of a `Router<BUSWIDTH>`: the target table and the pool of
`PathIDExtension` objects at rest (each a `std::vector<int>`). -/
structure Router where
  targets : List target_info
  m_pathIDPool : List (List Int)
  deriving DecidableEq, Repr

/-- The forward transport interface of a target bound to an initiator socket of
the router.  The type `σ` is the state of everything bound below the router. -/
structure Target (σ : Type) where
  b_transport : Txn → σ → Except Fault (σ × Txn)
  transport_dbg : Txn → σ → Except Fault (σ × Txn × Nat)
  get_direct_mem_ptr : Txn → tlm_dmi → σ → Except Fault (σ × Txn × tlm_dmi × Bool)

/-- The range test of `Router::decode_address`:
`addr >= ti.address && addr < (ti.address + ti.size)`, the sum being a 64-bit
sum. -/
def target_info.matches (ti : target_info) (addr : Nat) : Bool :=
  decide (addr ≥ ti.address) && decide (addr < add64 ti.address ti.size)

/-- The loop of `Router::decode_address` over the entries not yet visited. -/
def decode_loop : List target_info → Nat → Option target_info
  | [], _ => none
  | ti :: rest, addr => if ti.matches addr then some ti else decode_loop rest addr

/-- `Router::decode_address(addr)`: the matched entry, `none` for `nullptr`. -/
def Router.decode_address (r : Router) (addr : Nat) : Option target_info :=
  decode_loop r.targets addr

/-- `Router::stamp_txn(id, txn)`. -/
def Router.stamp_txn (r : Router) (id : Int) (txn : Txn) : Router × Txn :=
  match txn.ext with
  | some ext => (r, { txn with ext := some (ext ++ [id]) })
  | none =>
    match r.m_pathIDPool.getLast? with
    | none => (r, { txn with ext := some ([] ++ [id]) })
    | some ext => ({ r with m_pathIDPool := r.m_pathIDPool.dropLast },
        { txn with ext := some (ext ++ [id]) })

/-- `Router::unstamp_txn(id, txn)`. -/
def Router.unstamp_txn (r : Router) (id : Int) (txn : Txn) : Except Fault (Router × Txn) :=
  match txn.ext with
  | none => .error .assertion
  | some ext =>
    match ext.getLast? with
    | none => .error .undefined
    | some b =>
      if b = id then
        if ext.dropLast.length = 0 then
          .ok ({ r with m_pathIDPool := r.m_pathIDPool ++ [ext.dropLast] }, { txn with ext := none })
        else .ok (r, { txn with ext := some ext.dropLast })
      else .error .assertion

/-- `Router::b_transport(id, trans, delay)` with the bound targets
`initiator_socket`: the router, the state below it and the transaction after
the call. -/
def Router.b_transport {σ : Type} (initiator_socket : List (Target σ)) (r : Router) (id : Int)
    (trans : Txn) (s : σ) : Except Fault (Router × σ × Txn) :=
  let addr := trans.address
  match r.decode_address addr with
  | none => .ok (r, s, { trans with response := .address_error })
  | some ti =>
    let (r1, t1) := r.stamp_txn id trans
    let t2 := if ti.mask_addr then { t1 with address := sub64 addr ti.address } else t1
    match initiator_socket.get? ti.index with
    | none => .error .undefined
    | some tgt =>
      match tgt.b_transport t2 s with
      | .error e => .error e
      | .ok (s1, t3) =>
        let t4 := if ti.mask_addr then { t3 with address := addr } else t3
        match r1.unstamp_txn id t4 with
        | .error e => .error e
        | .ok (r2, t5) => .ok (r2, s1, t5)

/-- `Router::transport_dbg(id, trans)` with the bound targets
`initiator_socket`: the state below the router, the transaction and the
returned count. -/
def Router.transport_dbg {σ : Type} (initiator_socket : List (Target σ)) (r : Router)
    (trans : Txn) (s : σ) : Except Fault (σ × Txn × Nat) :=
  let addr := trans.address
  match r.decode_address addr with
  | none => .ok (s, { trans with response := .address_error }, 0)
  | some ti =>
    let t1 := if ti.mask_addr then { trans with address := sub64 addr ti.address } else trans
    match initiator_socket.get? ti.index with
    | none => .error .undefined
    | some tgt =>
      match tgt.transport_dbg t1 s with
      | .error e => .error e
      | .ok (s1, t2, ret) =>
        let t3 := if ti.mask_addr then { t2 with address := addr } else t2
        .ok (s1, t3, ret)

/-- `Router::compose_address(index, address)`. -/
def Router.compose_address (r : Router) (index address : Nat) : Except Fault Nat :=
  match r.targets.get? index with
  | none => .error .undefined
  | some ti => if address < ti.size then .ok (add64 ti.address address) else .error .assertion

/-- `Router::get_direct_mem_ptr(id, trans, dmi_data)` with the bound targets
`initiator_socket`: the state below the router, the transaction, the descriptor
and the returned status. -/
def Router.get_direct_mem_ptr {σ : Type} (initiator_socket : List (Target σ)) (r : Router)
    (trans : Txn) (dmi_data : tlm_dmi) (s : σ) : Except Fault (σ × Txn × tlm_dmi × Bool) :=
  let addr := trans.address
  match r.decode_address addr with
  | none => .ok (s, trans, dmi_data, false)
  | some ti =>
    let t1 := if ti.mask_addr then { trans with address := sub64 addr ti.address } else trans
    match initiator_socket.get? ti.index with
    | none => .error .undefined
    | some tgt =>
      match tgt.get_direct_mem_ptr t1 dmi_data s with
      | .error e => .error e
      | .ok (s1, t2, dmi1, status) =>
        if ti.mask_addr then
          match r.compose_address ti.index dmi1.start_address with
          | .error e => .error e
          | .ok start =>
            match r.compose_address ti.index dmi1.end_address with
            | .error e => .error e
            | .ok stop =>
              .ok (s1, { t2 with address := addr },
                { dmi1 with start_address := start, end_address := stop }, status)
        else .ok (s1, t2, dmi1, status)

/-- `Router::invalidate_direct_mem_ptr(id, start, end)` on a router with
`n` bound initiators (`target_socket.size()`): the calls of
`target_socket[i]->invalidate_direct_mem_ptr`, in order, each as the socket index
and the range it is given. -/
def Router.invalidate_direct_mem_ptr (r : Router) (n : Nat) (id : Int) (start stop : Nat) :
    Except Fault (List (Nat × Nat × Nat)) :=
  if id < 0 then .error .undefined
  else
    match r.targets.get? id.toNat with
    | none => .error .undefined
    | some ti =>
      if ti.mask_addr then
        match r.compose_address id.toNat start with
        | .error e => .error e
        | .ok bw_start_range =>
          match r.compose_address id.toNat stop with
          | .error e => .error e
          | .ok bw_end_range =>
            .ok ((List.range n).map (fun i => (i, bw_start_range, bw_end_range)))
      else .ok ((List.range n).map (fun i => (i, start, stop)))

/-- Preset values of the configuration broker the router consults: for the
target named `s`, the values of `s.address`, `s.size` and
`s.relative_addresses`, `none` when there is no preset. -/
structure Broker where
  address : String → Option Nat
  size : String → Option Nat
  relative_addresses : String → Option Bool

/-- `Router::register_boundto(s)`, called when the target named `s` is bound. -/
def Router.register_boundto (r : Router) (s : String) : Router :=
  { r with
    targets := r.targets ++
      [{ index := r.targets.length, name := s, address := 0, size := 0, mask_addr := false }] }

/-- The loop `for (auto& ti : targets)` of `Router::before_end_of_elaboration`
over the entries not yet visited.  A missing preset is reported with
`SC_REPORT_ERROR`. -/
def Router.resolve (m_broker : Broker) : List target_info → Except Fault (List target_info)
  | [] => .ok []
  | ti :: rest =>
    match m_broker.address ti.name with
    | none => .error .fatal
    | some address =>
      match m_broker.size ti.name with
      | none => .error .fatal
      | some size =>
        let mask :=
          match m_broker.relative_addresses ti.name with
          | some v => v
          | none => true
        match Router.resolve m_broker rest with
        | .error e => .error e
        | .ok rest1 =>
          .ok ({ ti with address := address, size := size, mask_addr := mask } :: rest1)

/-- `Router::before_end_of_elaboration`: the router with its table resolved. -/
def Router.before_end_of_elaboration (m_broker : Broker) (r : Router) : Except Fault Router :=
  match Router.resolve m_broker r.targets with
  | .error e => .error e
  | .ok ts => .ok { r with targets := ts }

/-! ## `QUPv3`, the UART -/

/-- The constants of `qupv3_regs.h` that `QUPv3::qupv3_write` uses: register
offsets, the bit `M_CMD_DONE` and the value `RX_FIFO_LAST`.  The header gives
their values; here they are parameters. -/
structure qupv3_regs where
  GENI_M_CMD_0 : Nat
  GENI_M_IRQ_STATUS : Nat
  GENI_M_IRQ_CLEAR : Nat
  GENI_S_IRQ_CLEAR : Nat
  GENI_S_IRQ_STATUS : Nat
  GENI_TX_FIFO_0 : Nat
  UART_TX_TRANS_LEN : Nat
  M_CMD_DONE : Nat
  RX_FIFO_LAST : Nat
  deriving DecidableEq, Repr

/-- State of a `QUPv3`: the register map `qupv3_handle` (a key that is absent
reads as 0), the character backend `chr` as the bytes written to it so far
(`none` while `chr` is `NULL`), the values written to `irq`, the number of
notifications of `update_event`, and the number of error reports made with
`SCP_ERR`.  Such a report is the last effect of the call that makes it, whether
or not the report handler lets the call return. -/
structure QUPv3 where
  qupv3_handle : Nat → Nat
  chr : Option (List Nat)
  irq : List Bool
  update_event : Nat
  scp_err : Nat

/-- Assignment `qupv3_handle[key] = v`. -/
def QUPv3.set (s : QUPv3) (key v : Nat) : QUPv3 :=
  { s with qupv3_handle := fun k => if k = key then v else s.qupv3_handle k }

/-- `QUPv3::qupv3_update`. -/
def QUPv3.qupv3_update (regs : qupv3_regs) (s : QUPv3) : QUPv3 :=
  if s.qupv3_handle regs.GENI_M_IRQ_STATUS = regs.M_CMD_DONE ∨
      s.qupv3_handle regs.GENI_S_IRQ_STATUS = regs.RX_FIFO_LAST then
    { s with update_event := s.update_event + 1 }
  else s

/-- The loop `while ((count != 4) && (qupv3_handle[UART_TX_TRANS_LEN] != 0))` of
`qupv3_write`, with `n = 4 - count` iterations left before `count` reaches 4. -/
def QUPv3.tx_loop (regs : qupv3_regs) (value : Nat) : Nat → Nat → QUPv3 → Except Fault QUPv3
  | 0, _, s => .ok s
  | n + 1, count, s =>
    if s.qupv3_handle regs.UART_TX_TRANS_LEN ≠ 0 then
      let ch := (value >>> (count * 8)) &&& 255
      match s.chr with
      | none => .error .undefined
      | some out =>
        QUPv3.tx_loop regs value n (count + 1)
          (({ s with chr := some (out ++ [ch]) } : QUPv3).set regs.UART_TX_TRANS_LEN
            ((s.qupv3_handle regs.UART_TX_TRANS_LEN + U32 - 1) % U32))
    else .ok s

/-- `QUPv3::qupv3_write(offset, value)`. -/
def QUPv3.qupv3_write (regs : qupv3_regs) (s : QUPv3) (offset value : Nat) : Except Fault QUPv3 :=
  if offset = regs.GENI_M_CMD_0 then
    if s.qupv3_handle regs.GENI_M_CMD_0 = 0 ∧ value = 134217728 then
      .ok (s.set regs.GENI_M_CMD_0 value)
    else .ok s
  else if offset = regs.GENI_M_IRQ_CLEAR then
    .ok { (s.set regs.GENI_M_IRQ_STATUS
            (s.qupv3_handle regs.GENI_M_IRQ_STATUS &&& (U32 - 1 - value))) with
          irq := s.irq ++ [false] }
  else if offset = regs.GENI_S_IRQ_CLEAR then
    .ok (s.set regs.GENI_S_IRQ_STATUS
      (s.qupv3_handle regs.GENI_S_IRQ_STATUS &&& (U32 - 1 - value)))
  else if offset = regs.GENI_TX_FIFO_0 then
    if s.qupv3_handle regs.GENI_M_CMD_0 = 134217728 ∧
        s.qupv3_handle regs.UART_TX_TRANS_LEN ≥ 1 then
      match QUPv3.tx_loop regs value 4 0 s with
      | .error e => .error e
      | .ok s1 =>
        if s1.qupv3_handle regs.GENI_M_CMD_0 = 134217728 ∧
            s1.qupv3_handle regs.UART_TX_TRANS_LEN = 0 then
          let s2 := s1.set regs.GENI_M_CMD_0 0
          .ok (QUPv3.qupv3_update regs
            (s2.set regs.GENI_M_IRQ_STATUS
              (s2.qupv3_handle regs.GENI_M_IRQ_STATUS ||| regs.M_CMD_DONE)))
        else .ok s1
    else .ok { s with scp_err := s.scp_err + 1 }
  else if offset = regs.UART_TX_TRANS_LEN then
    if value ≥ 1 then .ok (s.set regs.UART_TX_TRANS_LEN value)
    else .ok { s with scp_err := s.scp_err + 1 }
  else .ok s

/-- The target socket of the `i`-th of the memories bound below a router: its
calls act on the `i`-th memory of the list. -/
def Memory.target (h : Host) (i : Nat) : Target (List Memory) where
  b_transport := fun txn ms =>
    match ms.get? i with
    | none => .error .undefined
    | some m =>
      match m.b_transport h txn with
      | .error e => .error e
      | .ok (m1, txn1) => .ok (ms.set i m1, txn1)
  transport_dbg := fun txn ms =>
    match ms.get? i with
    | none => .error .undefined
    | some m =>
      match m.transport_dbg h txn with
      | .error e => .error e
      | .ok (m1, txn1, ret) => .ok (ms.set i m1, txn1, ret)
  get_direct_mem_ptr := fun txn dmi_data ms =>
    match ms.get? i with
    | none => .error .undefined
    | some m =>
      match m.get_direct_mem_ptr h txn dmi_data with
      | .error e => .error e
      | .ok (m1, txn1, dmi1, status) => .ok (ms.set i m1, txn1, dmi1, status)

/-- The initiator sockets of a router to which `n` memories are bound, in
binding order. -/
def memorySockets (h : Host) (n : Nat) : List (Target (List Memory)) :=
  (List.range n).map (Memory.target h)

/-- A target that records every transaction it receives in its state, the list
of the transactions received so far.  It answers OK, overwrites the address
field with `a`, and leaves the path tag alone; asked for direct access it grants
the window `grant` with read and write access, or refuses when `grant` is
`none`. -/
def probe (a : Nat) (grant : Option (Nat × Nat)) : Target (List Txn) where
  b_transport := fun txn log => .ok (log ++ [txn], { txn with response := .ok, address := a })
  transport_dbg := fun txn log =>
    .ok (log ++ [txn], { txn with response := .ok, address := a }, txn.data_length)
  get_direct_mem_ptr := fun txn dmi_data log =>
    match grant with
    | none => .ok (log ++ [txn], { txn with address := a }, dmi_data, false)
    | some (s, e) =>
      .ok (log ++ [txn], { txn with address := a },
        { dmi_data with start_address := s, end_address := e, granted_access := .read_write },
        true)

/-- A chain of routers above the target `leaf`.  The list gives, outermost
router first, the port of each router's target socket on which the transaction
arrives; each router has one initiator socket, bound to the next router of the
chain, the last one to `leaf`.  The state is the list of the routers, outermost
first, and the state of `leaf`, to which every router of the chain appends the
transaction it receives. -/
def chainTarget (leaf : Target (List Txn)) : List Int → Target (List Router × List Txn)
  | [] =>
    { b_transport := fun txn st =>
        match leaf.b_transport txn st.2 with
        | .error e => .error e
        | .ok (log1, t1) => .ok ((st.1, log1), t1)
      transport_dbg := fun txn st =>
        match leaf.transport_dbg txn st.2 with
        | .error e => .error e
        | .ok (log1, t1, ret) => .ok ((st.1, log1), t1, ret)
      get_direct_mem_ptr := fun txn dmi_data st =>
        match leaf.get_direct_mem_ptr txn dmi_data st.2 with
        | .error e => .error e
        | .ok (log1, t1, dmi1, status) => .ok ((st.1, log1), t1, dmi1, status) }
  | id :: ids =>
    { b_transport := fun txn st =>
        match st.1 with
        | [] => .error .undefined
        | r :: rest =>
          match r.b_transport [chainTarget leaf ids] id txn (rest, st.2 ++ [txn]) with
          | .error e => .error e
          | .ok (r1, (rest1, log1), t1) => .ok ((r1 :: rest1, log1), t1)
      transport_dbg := fun txn st =>
        match st.1 with
        | [] => .error .undefined
        | r :: rest =>
          match r.transport_dbg [chainTarget leaf ids] txn (rest, st.2 ++ [txn]) with
          | .error e => .error e
          | .ok ((rest1, log1), t1, ret) => .ok ((r :: rest1, log1), t1, ret)
      get_direct_mem_ptr := fun txn dmi_data st =>
        match st.1 with
        | [] => .error .undefined
        | r :: rest =>
          match r.get_direct_mem_ptr [chainTarget leaf ids] txn dmi_data (rest, st.2 ++ [txn]) with
          | .error e => .error e
          | .ok ((rest1, log1), t1, dmi1, status) => .ok ((r :: rest1, log1), t1, dmi1, status) }

/-! ## Specification-level notions -/

/-- The number of `PathIDExtension` objects `stamp_txn` creates with `new` for
this transaction: one when the transaction carries none and the pool is empty. -/
def Router.stamp_creates (r : Router) (txn : Txn) : Nat :=
  match txn.ext, r.m_pathIDPool with
  | none, [] => 1
  | _, _ => 0

/-- The states of a router reachable from its construction, where the pool is
empty, through calls of `stamp_txn` and returning calls of `unstamp_txn` on any
transactions. -/
inductive Router.Reachable : Router → Prop where
  | init (targets : List target_info) : Router.Reachable { targets := targets, m_pathIDPool := [] }
  | stamp (r : Router) (id : Int) (txn : Txn) :
      Router.Reachable r → Router.Reachable (r.stamp_txn id txn).1
  | unstamp (r : Router) (id : Int) (txn : Txn) (r1 : Router) (t1 : Txn) :
      Router.Reachable r → r.unstamp_txn id txn = .ok (r1, t1) → Router.Reachable r1

/-- Every router of a chain decodes the address it receives to an entry bound to
its first initiator socket, so that each forwards the transaction to the next. -/
def Forwards : List Router → Nat → Prop
  | [], _ => True
  | r :: rs, addr =>
    ∃ ti, r.decode_address addr = some ti ∧ ti.index = 0 ∧
      Forwards rs (if ti.mask_addr then sub64 addr ti.address else addr)

/-- The byte stored for address `a` in the tree: the byte of the allocated leaf
covering `a`, `none` when no leaf has been allocated there. -/
def SubBlock.peek : SubBlock → Nat → Option Nat
  | .null, _ => none
  | .mk d subs, a =>
    if d.m_address ≤ a ∧ a < d.m_address + d.m_len then
      if d.m_use_sub_blocks then
        if hi : (a - d.m_address) / (d.m_len / 4) < 4 then
          (subs ⟨(a - d.m_address) / (d.m_len / 4), hi⟩).peek a
        else none
      else
        match d.m_ptr with
        | some buf => buf.get? (a - d.m_address)
        | none => none
    else none

/-- Whether a pointer is non-null. -/
def SubBlock.isBlock : SubBlock → Bool
  | .null => false
  | .mk _ _ => true

/-- Invariant of the trees built by `access`: the range of a block fits the
64-bit address space, a buffer has the length of its block and belongs to an
unsplit block, and an existing child `i` covers the `i`-th quarter of its
parent, which is split, not shorter than the minimum size and of a length
divisible by four. -/
def SubBlock.WF : SubBlock → Prop
  | .null => True
  | .mk d subs =>
    d.m_address + d.m_len ≤ U64 ∧
    (∀ buf, d.m_ptr = some buf → buf.length = d.m_len ∧ d.m_use_sub_blocks = false) ∧
    (∀ i : Fin 4, (subs i).isBlock = true →
      d.m_use_sub_blocks = true ∧ 0 < d.m_len / 4 ∧
      d.m_min_size ≤ d.m_len ∧ d.m_len % 4 = 0 ∧
      (subs i).get_len = d.m_len / 4 ∧
      (subs i).get_address = d.m_address + i.val * (d.m_len / 4)) ∧
    (∀ i : Fin 4, (subs i).WF)

/-- The reference `p` leads, through split blocks, to an allocated unsplit block
with data members `dl`. -/
def SubBlock.LeafAt : SubBlock → List (Fin 4) → SubBlockData → Prop
  | .null, _, _ => False
  | .mk d _, [], dl => d = dl ∧ d.m_ptr.isSome = true ∧ d.m_use_sub_blocks = false
  | .mk d subs, i :: p, dl => d.m_use_sub_blocks = true ∧ (subs i).LeafAt p dl

/-- A memory after `before_end_of_elaboration`: the root block exists, starts
at 0, has the size of the memory, and the tree is well formed. -/
def Memory.Elaborated (m : Memory) : Prop :=
  m.m_size < U64 ∧ m.m_address < U64 ∧ m.m_sub_block.isBlock = true ∧
  m.m_sub_block.get_address = 0 ∧ m.m_sub_block.get_len = m.m_size ∧ m.m_sub_block.WF

/-- The region offset `b_transport` derives from the address of a transaction. -/
def Memory.offset (m : Memory) (address : Nat) : Nat :=
  if m.m_relative_addresses then address else address - m.m_address

/-- The address of the first byte of the region as the transactions sent to the
memory see it: the base in absolute mode, 0 in region-relative mode. -/
def Memory.origin (m : Memory) : Nat :=
  if m.m_relative_addresses then 0 else m.m_address

/-- Whether the host gives the block a buffer: the mapping of the backing file
when a file name is configured, otherwise `aligned_alloc` or, failing that,
`malloc`. -/
def SubBlockData.allocSucceeds (h : Host) (d : SubBlockData) : Bool :=
  if d.m_filename ≠ "" then
    h.open_ok d.m_filename && (h.mmap d.m_filename d.m_address d.m_len).isSome
  else (h.aligned_alloc d.m_address d.m_len).isSome || (h.malloc d.m_address d.m_len).isSome

/-- Whether every allocation attempt for the block fails, without a fatal
error: the backing file opens and cannot be mapped, or both `aligned_alloc` and
`malloc` return null. -/
def SubBlockData.allocFails (h : Host) (d : SubBlockData) : Bool :=
  if d.m_filename ≠ "" then
    h.open_ok d.m_filename && (h.mmap d.m_filename d.m_address d.m_len).isNone
  else (h.aligned_alloc d.m_address d.m_len).isNone && (h.malloc d.m_address d.m_len).isNone

/-- The split rule `access` implements, for every block of the tree: a block is
split exactly when it is longer than the maximum leaf size or every allocation
attempt for it fails; a split block has no buffer and an unsplit one has a
buffer. -/
def SubBlock.SplitRule (h : Host) : SubBlock → Prop
  | .null => True
  | .mk d subs =>
    (d.m_use_sub_blocks = true ↔ (d.m_len > d.m_max_size ∨ d.allocFails h = true)) ∧
    (d.m_use_sub_blocks = true → d.m_ptr = none) ∧
    (d.m_use_sub_blocks = false → d.m_ptr.isSome = true) ∧
    ∀ i : Fin 4, (subs i).SplitRule h

/-- A block as its constructor leaves it: no buffer, not split, no child. -/
def SubBlock.Fresh : SubBlock → Prop
  | .null => False
  | .mk d subs => d.m_ptr = none ∧ d.m_use_sub_blocks = false ∧ ∀ i : Fin 4, subs i = .null

/-- The number of bytes of all the buffers of the tree. -/
def SubBlock.allocated : SubBlock → Nat
  | .null => 0
  | .mk d subs =>
    (match d.m_ptr with
      | some buf => buf.length
      | none => 0)
      + ((subs 0).allocated + (subs 1).allocated + (subs 2).allocated + (subs 3).allocated)

/-- A sequence of calls `access(a)` on the tree, for the addresses of the list in
order: the tree after the calls and the references returned, in order. -/
def SubBlock.accesses (h : Host) :
    SubBlock → List Nat → Except Fault (SubBlock × List (List (Fin 4)))
  | t, [] => .ok (t, [])
  | t, a :: rest =>
    match t.access h accessFuel a with
    | .error e => .error e
    | .ok (t1, p) =>
      match SubBlock.accesses h t1 rest with
      | .error e => .error e
      | .ok (t2, ps) => .ok (t2, p :: ps)

/-- The tree a sequence of accesses leaves; the tree itself when one of the
calls does not return. -/
def SubBlock.after (h : Host) (t : SubBlock) (as : List Nat) : SubBlock :=
  match t.accesses h as with
  | .ok (t2, _) => t2
  | .error _ => t

/-- Every block of the tree below the root has the maximum and minimum leaf
size and the file name of its parent. -/
def SubBlock.Inherits : SubBlock → Prop
  | .null => True
  | .mk d subs =>
    (∀ (i : Fin 4) (cd : SubBlockData) (cs : Fin 4 → SubBlock), subs i = .mk cd cs →
      cd.m_max_size = d.m_max_size ∧ cd.m_min_size = d.m_min_size ∧
      cd.m_filename = d.m_filename) ∧
    ∀ i : Fin 4, (subs i).Inherits

/-- The loop of `Memory::write` with a record of its iterations: for each one
the reference `access` returned, the region offset `offset + data_ptr_offset`
it was called with, and the number `remain_len` of bytes moved. -/
def Memory.write_trace (h : Host) :
    Nat → SubBlock → List Nat → Nat → Nat → Nat → Nat →
      Except Fault (SubBlock × List (List (Fin 4) × Nat × Nat))
  | 0, root, _, _, _, _, len => if len = 0 then .ok (root, []) else .error .fuel
  | fuel + 1, root, data, di, offset, data_ptr_offset, len =>
    if len = 0 then .ok (root, [])
    else
      match root.access h accessFuel (add64 offset data_ptr_offset) with
      | .error e => .error e
      | .ok (root1, p) =>
        match (root1.get p).write_sub_blocks data (di + data_ptr_offset)
            (add64 offset data_ptr_offset) len with
        | .error e => .error e
        | .ok (blk, remain_len) =>
          match Memory.write_trace h fuel (root1.set p blk) data di offset
              (add64 data_ptr_offset remain_len) (len - remain_len) with
          | .error e => .error e
          | .ok (root2, cs) =>
            .ok (root2, (p, add64 offset data_ptr_offset, remain_len) :: cs)

/-- The loop of `Memory::read` with a record of its iterations, as for
`Memory.write_trace`. -/
def Memory.read_trace (h : Host) :
    Nat → SubBlock → List Nat → Nat → Nat → Nat → Nat →
      Except Fault (SubBlock × List Nat × List (List (Fin 4) × Nat × Nat))
  | 0, root, data, _, _, _, len => if len = 0 then .ok (root, data, []) else .error .fuel
  | fuel + 1, root, data, di, offset, data_ptr_offset, len =>
    if len = 0 then .ok (root, data, [])
    else
      match root.access h accessFuel (add64 offset data_ptr_offset) with
      | .error e => .error e
      | .ok (root1, p) =>
        match (root1.get p).read_sub_blocks data (di + data_ptr_offset)
            (add64 offset data_ptr_offset) len with
        | .error e => .error e
        | .ok (data1, remain_len) =>
          match Memory.read_trace h fuel root1 data1 di offset
              (add64 data_ptr_offset remain_len) (len - remain_len) with
          | .error e => .error e
          | .ok (root2, data2, cs) =>
            .ok (root2, data2, (p, add64 offset data_ptr_offset, remain_len) :: cs)

/-- The chunks of a transfer of `len` bytes from region offset `start` on: each
moves at least one byte, starts where the one before ended, and lies within the
leaf its reference leads to in the tree `t`; together they move `len` bytes. -/
def SubBlock.Chunks (t : SubBlock) : Nat → Nat → List (List (Fin 4) × Nat × Nat) → Prop
  | _, len, [] => len = 0
  | start, len, (p, s, n) :: cs =>
    s = start ∧ 1 ≤ n ∧ n ≤ len ∧
    (∃ dl, t.LeafAt p dl ∧ dl.m_address ≤ s ∧ s + n ≤ dl.m_address + dl.m_len) ∧
    SubBlock.Chunks t (start + n) (len - n) cs

/-- The later tree keeps every leaf of the earlier one: each reference to a leaf
still leads to a leaf with the same data members, the bytes of its buffer
apart. -/
def SubBlock.Keeps (t t1 : SubBlock) : Prop :=
  ∀ (q : List (Fin 4)) (dl : SubBlockData), t.LeafAt q dl →
    ∃ buf1, t1.LeafAt q { dl with m_ptr := some buf1 }

/-- The operations on a memory that reach its tree: a call of `access` on the
root block, `Memory::read`, `Memory::write`, and the three calls of the target
socket. -/
inductive Memory.Op where
  | access (address : Nat)
  | read (data : List Nat) (di offset len : Nat)
  | write (data : List Nat) (di offset len : Nat)
  | b_transport (txn : Txn)
  | transport_dbg (txn : Txn)
  | get_direct_mem_ptr (txn : Txn) (dmi_data : tlm_dmi)

/-- The memory after an operation. -/
def Memory.apply (h : Host) (m : Memory) : Memory.Op → Except Fault Memory
  | .access address =>
    match m.m_sub_block.access h accessFuel address with
    | .error e => .error e
    | .ok (root, _) => .ok { m with m_sub_block := root }
  | .read data di offset len =>
    match m.read h data di offset len with
    | .error e => .error e
    | .ok (m1, _) => .ok m1
  | .write data di offset len => m.write h data di offset len
  | .b_transport txn =>
    match m.b_transport h txn with
    | .error e => .error e
    | .ok (m1, _) => .ok m1
  | .transport_dbg txn =>
    match m.transport_dbg h txn with
    | .error e => .error e
    | .ok (m1, _) => .ok m1
  | .get_direct_mem_ptr txn dmi_data =>
    match m.get_direct_mem_ptr h txn dmi_data with
    | .error e => .error e
    | .ok (m1, _) => .ok m1

/-- The memory after a sequence of operations, each of which returns. -/
def Memory.run (h : Host) : Memory → List Memory.Op → Except Fault Memory
  | m, [] => .ok m
  | m, op :: ops =>
    match m.apply h op with
    | .error e => .error e
    | .ok m1 => Memory.run h m1 ops

/-- The memory a sequence of operations leaves; the memory itself when one of
the operations does not return. -/
def Memory.after (h : Host) (m : Memory) (ops : List Memory.Op) : Memory :=
  match m.run h ops with
  | .ok m1 => m1
  | .error _ => m

/-- The arguments of an operation are 64-bit values. -/
def Memory.Op.typed : Memory.Op → Prop
  | .access address => address < U64
  | .read _ _ offset _ => offset < U64
  | .write _ _ offset _ => offset < U64
  | .b_transport txn => txn.address < U64
  | .transport_dbg txn => txn.address < U64
  | .get_direct_mem_ptr txn _ => txn.address < U64

/-- Whether one of the `len` bytes from `offset` on, in 64-bit arithmetic, is the
byte `b`. -/
def inRange64 (offset len b : Nat) : Bool :=
  (List.range len).any (fun i => decide (b = add64 offset i))

/-- Whether the operation is a write whose range holds the byte at region
offset `b`: a call of `Memory::write`, or a transaction with the write
command. -/
def Memory.Op.writes (m : Memory) : Memory.Op → Nat → Bool
  | .write _ _ offset len, b => inRange64 offset len b
  | .b_transport txn, b =>
    decide (txn.command = .write) &&
      inRange64 (if !m.m_relative_addresses then sub64 txn.address m.m_address else txn.address)
        txn.data_length b
  | .transport_dbg txn, b =>
    decide (txn.command = .write) &&
      inRange64 (if !m.m_relative_addresses then sub64 txn.address m.m_address else txn.address)
        txn.data_length b
  | _, _ => false

/-- The response status a returning call of `b_transport` leaves in the
transaction; `none` when the call does not return. -/
def responseOf (r : Except Fault (Memory × Txn)) : Option Response :=
  match r with
  | .ok (_, t) => some t.response
  | .error _ => none

/-- What a routed blocking call leaves behind for its initiator: the state
below the router, the response status and the data buffer. -/
def observedBlocking {σ : Type} (x : Except Fault (Router × σ × Txn)) :
    Except Fault (σ × Response × List Nat) :=
  match x with
  | .ok (_, s, t) => .ok (s, t.response, t.data)
  | .error e => .error e

/-- What a routed debug call leaves behind for its initiator: the state below
the router, the response status and the data buffer. -/
def observedDebug {σ : Type} (x : Except Fault (σ × Txn × Nat)) :
    Except Fault (σ × Response × List Nat) :=
  match x with
  | .ok (s, t, _) => .ok (s, t.response, t.data)
  | .error e => .error e

/-! ## Concrete objects used to instantiate the theorems -/

/-- The target table `[(T0, base 0, size 0x1000), (T1, base 0x2000, size 0x1000)]`,
both targets region-relative. -/
def demoTable : List target_info :=
  [{ index := 0, name := "T0", address := 0, size := 4096, mask_addr := true },
   { index := 1, name := "T1", address := 8192, size := 4096, mask_addr := true }]

/-- A router whose two table entries overlap: `A` covers `[0, 0x100)` and `B`
covers `[0x10, 0x110)`. -/
def demoOverlapRouter : Router where
  targets :=
    [{ index := 0, name := "A", address := 0, size := 256, mask_addr := true },
     { index := 1, name := "B", address := 16, size := 256, mask_addr := true }]
  m_pathIDPool := []

/-- A table entry whose range `[2^64 - 0x1000, 2^64)` ends at the top of the
address space. -/
def demoTopEntry : target_info where
  index := 0
  name := "TOP"
  address := U64 - 4096
  size := 4096
  mask_addr := true

/-- A router whose only target is `demoTopEntry`. -/
def demoTopRouter : Router where
  targets := [demoTopEntry]
  m_pathIDPool := []

/-- A router with the target `demoTopEntry` bound first and, bound second, a
target `ALL` with the range `[0, 2^64 - 1)`. -/
def demoTopFirstRouter : Router where
  targets :=
    [demoTopEntry,
     { index := 1, name := "ALL", address := 0, size := U64 - 1, mask_addr := true }]
  m_pathIDPool := []

/-- A router with the table `demoTable` and an empty tag pool. -/
def demoRouter : Router where
  targets := demoTable
  m_pathIDPool := []


/-- A host on which `aligned_alloc` always succeeds and returns zeroed bytes. -/
def demoHost : Host where
  open_ok := fun _ => false
  mmap := fun _ _ _ => none
  aligned_alloc := fun _ _ => some (fun _ => 0)
  malloc := fun _ _ => none

/-- An elaborated memory of 16 bytes at base `address`, with leaves of at most
4 bytes. -/
def demoMemory (address : Nat) (relative rom : Bool) : Memory where
  m_size := 16
  m_address := address
  m_address_valid := true
  m_relative_addresses := relative
  m_sub_block := SubBlock.new 0 16 4 1 ""
  p_rom := rom
  p_dmi := true
  p_mapfile := ""
  p_max_bloc_size := 4
  p_min_bloc_size := 1
  preset := { size := some 16, address := some address, relative_addresses := some relative }

/-- An elaborated relative-addressed writable memory of 16 bytes with the
default leaf sizes of the source (maximum `0x100000000`, minimum one page), so
that the whole memory is one leaf. -/
def demoFlatMemory : Memory where
  m_size := 16
  m_address := 0
  m_address_valid := true
  m_relative_addresses := true
  m_sub_block := SubBlock.new 0 16 4294967296 4096 ""
  p_rom := false
  p_dmi := true
  p_mapfile := ""
  p_max_bloc_size := 4294967296
  p_min_bloc_size := 4096
  preset := { size := some 16, address := some 0, relative_addresses := some true }

/-- A write transaction without byte enables. -/
def demoWrite (address : Nat) (data : List Nat) : Txn where
  command := .write
  address := address
  data := data
  data_length := data.length
  byte_enable := none
  byte_enable_length := 0
  streaming_width := data.length
  response := .incomplete
  dmi_allowed := false
  ext := none

/-- A read transaction of `n` bytes without byte enables. -/
def demoRead (address n : Nat) : Txn where
  command := .read
  address := address
  data := List.replicate n 0
  data_length := n
  byte_enable := none
  byte_enable_length := 0
  streaming_width := n
  response := .incomplete
  dmi_allowed := false
  ext := none

/-- The tree `access(a)` leaves on `demoHost`; the tree itself when the call
does not return. -/
def demoTouched (t : SubBlock) (a : Nat) : SubBlock :=
  match t.access demoHost accessFuel a with
  | .ok (t1, _) => t1
  | .error _ => t

/-- A host short of memory: `aligned_alloc` and `malloc` succeed only for
requests of at most 4 bytes. -/
def demoScarceHost : Host where
  open_ok := fun _ => false
  mmap := fun _ _ _ => none
  aligned_alloc := fun _ len => if len ≤ 4 then some (fun _ => 0) else none
  malloc := fun _ len => if len ≤ 4 then some (fun _ => 0) else none

/-- An elaborated region-relative memory of `size` bytes at base 0 with the given
maximum and minimum leaf sizes, not yet touched. -/
def demoSizedMemory (size max_size min_size : Nat) : Memory where
  m_size := size
  m_address := 0
  m_address_valid := true
  m_relative_addresses := true
  m_sub_block := SubBlock.new 0 size max_size min_size ""
  p_rom := false
  p_dmi := true
  p_mapfile := ""
  p_max_bloc_size := max_size
  p_min_bloc_size := min_size
  preset := { size := some size, address := some 0, relative_addresses := some true }

/-- Broker presets that place target `A` at `[0, 0x100)` and target `B` at
`[0x10, 0x110)`. -/
def demoOverlapBroker : Broker where
  address := fun s => if s = "A" then some 0 else if s = "B" then some 16 else none
  size := fun s => if s = "A" ∨ s = "B" then some 256 else none
  relative_addresses := fun _ => none

/-- A host without memory: no file can be opened and every allocation fails. -/
def demoFailHost : Host where
  open_ok := fun _ => false
  mmap := fun _ _ _ => none
  aligned_alloc := fun _ _ => none
  malloc := fun _ _ => none

/-- A memory like `demoMemory 0 true false` whose parameter `dmi_allowed` is
false. -/
def demoNoDmiMemory : Memory := { demoMemory 0 true false with p_dmi := false }

/-- The data members of an allocated leaf of 4 bytes at base 4 that holds
`[1, 2, 3, 4]`. -/
def demoLeaf : SubBlockData where
  m_len := 4
  m_address := 4
  m_max_size := 4
  m_min_size := 1
  m_filename := ""
  m_ptr := some [1, 2, 3, 4]
  m_use_sub_blocks := false
  m_mapped := false

/-- The data members of a block of 16 bytes at 0 with leaves of at most 4 bytes,
as its constructor leaves them. -/
def demoRootData : SubBlockData where
  m_len := 16
  m_address := 0
  m_max_size := 4
  m_min_size := 1
  m_filename := ""
  m_ptr := none
  m_use_sub_blocks := false
  m_mapped := false

/-- A write transaction with the byte-enable array `mask`. -/
def demoMaskedWrite (address : Nat) (data mask : List Nat) : Txn :=
  { demoWrite address data with byte_enable := some mask, byte_enable_length := mask.length }

/-- A read transaction of `n` bytes with the byte-enable array `mask`. -/
def demoMaskedRead (address n : Nat) (mask : List Nat) : Txn :=
  { demoRead address n with byte_enable := some mask, byte_enable_length := mask.length }

/-- Example values for the constants of `qupv3_regs.h`, pairwise distinct
register offsets. -/
def demoRegs : qupv3_regs where
  GENI_M_CMD_0 := 1536
  GENI_M_IRQ_STATUS := 1552
  GENI_M_IRQ_CLEAR := 1560
  GENI_S_IRQ_CLEAR := 1608
  GENI_S_IRQ_STATUS := 1600
  GENI_TX_FIFO_0 := 1792
  UART_TX_TRANS_LEN := 624
  M_CMD_DONE := 1
  RX_FIFO_LAST := 134217728

/-- A `QUPv3` with a character backend that has received nothing yet, armed for
a transfer of `len` bytes. -/
def demoUart (len : Nat) : QUPv3 where
  qupv3_handle := fun k =>
    if k = demoRegs.GENI_M_CMD_0 then 134217728
    else if k = demoRegs.UART_TX_TRANS_LEN then len
    else 0
  chr := some []
  irq := []
  update_event := 0
  scp_err := 0

/-! ## Arithmetic and buffers -/

theorem add64_of_lt {a b : Nat} (hab : a + b < U64) : add64 a b = a + b := by
  unfold add64; exact Nat.mod_eq_of_lt hab

theorem sub64_of_le {a b : Nat} (hba : b ≤ a) (ha : a < U64) : sub64 a b = a - b := by
  unfold sub64 U64 at *; omega

theorem mul64_of_lt {a b : Nat} (hab : a * b < U64) : mul64 a b = a * b := by
  unfold mul64; exact Nat.mod_eq_of_lt hab

theorem length_mkBuffer (len : Nat) (f : Nat → Nat) : (mkBuffer len f).length = len := by
  simp [mkBuffer]

theorem memcpy_ok {dst src : List Nat} {di si n : Nat} {out : List Nat}
    (hc : memcpy dst di src si n = .ok out) :
    di + n ≤ dst.length ∧ si + n ≤ src.length ∧
    out = dst.take di ++ (src.drop si).take n ++ dst.drop (di + n) := by
  unfold memcpy at hc
  split at hc
  · rename_i hb
    injection hc with hc
    exact ⟨hb.1, hb.2, hc.symm⟩
  · cases hc

theorem memcpy_length {dst src : List Nat} {di si n : Nat} {out : List Nat}
    (hc : memcpy dst di src si n = .ok out) : out.length = dst.length := by
  obtain ⟨h1, h2, rfl⟩ := memcpy_ok hc
  simp
  omega

theorem memcpy_get? {dst src : List Nat} {di si n : Nat} {out : List Nat}
    (hc : memcpy dst di src si n = .ok out) (j : Nat) :
    out.get? j = if di ≤ j ∧ j < di + n then src.get? (si + (j - di)) else dst.get? j := by
  obtain ⟨h1, h2, rfl⟩ := memcpy_ok hc
  simp only [List.get?_eq_getElem?]
  by_cases hj1 : j < di
  · have : ¬ (di ≤ j ∧ j < di + n) := by omega
    rw [if_neg this, List.append_assoc, List.getElem?_append_left (by simp; omega)]
    simp [List.getElem?_take, hj1]
  · by_cases hj2 : j < di + n
    · have : (di ≤ j ∧ j < di + n) := by omega
      rw [if_pos this, List.append_assoc, List.getElem?_append_right (by simp; omega)]
      rw [List.getElem?_append_left (by simp; omega)]
      simp [List.getElem?_take]
      have e : min di dst.length = di := by omega
      rw [e, if_pos (by omega)]
    · have : ¬ (di ≤ j ∧ j < di + n) := by omega
      rw [if_neg this, List.append_assoc, List.getElem?_append_right (by simp; omega)]
      rw [List.getElem?_append_right (by simp; omega)]
      simp
      have e : min di dst.length = di := by omega
      have e2 : min n (src.length - si) = n := by omega
      rw [e, e2]
      congr 1
      omega
/-! ## Facts about `allocate` -/

theorem map_ok {h : Host} {d d2 : SubBlockData} {fn : String} {b : Bool}
    (hm : d.map h fn = .ok (d2, b)) :
    d2.m_len = d.m_len ∧ d2.m_address = d.m_address ∧ d2.m_max_size = d.m_max_size ∧
    d2.m_min_size = d.m_min_size ∧ d2.m_filename = d.m_filename ∧
    d2.m_use_sub_blocks = d.m_use_sub_blocks ∧
    (b = true → ∃ buf, d2.m_ptr = some buf ∧ buf.length = d.m_len) ∧
    (b = false → d2.m_ptr = none) := by
  unfold SubBlockData.map at hm
  split at hm
  · split at hm
    · injection hm with hm
      injection hm with h1 h2
      subst h1 h2
      simp
    · injection hm with hm
      injection hm with h1 h2
      subst h1 h2
      simp [length_mkBuffer]
  · cases hm

theorem allocate_ok {h : Host} {d d2 : SubBlockData} {b : Bool}
    (ha : d.allocate h = .ok (d2, b)) :
    d2.m_len = d.m_len ∧ d2.m_address = d.m_address ∧ d2.m_max_size = d.m_max_size ∧
    d2.m_min_size = d.m_min_size ∧ d2.m_filename = d.m_filename ∧
    (b = true → d.m_use_sub_blocks = false ∧ d2.m_use_sub_blocks = false ∧
      ∃ buf, d2.m_ptr = some buf ∧ buf.length = d.m_len) ∧
    (b = false → d2.m_use_sub_blocks = true ∧ (d.m_ptr = none → d2.m_ptr = none)) := by
  unfold SubBlockData.allocate at ha
  split at ha
  · rename_i hu
    injection ha with ha
    injection ha with h1 h2
    subst h1 h2
    simp [hu]
  · rename_i hu
    split at ha
    · split at ha
      · cases ha
      · rename_i d1 hmap
        injection ha with ha
        injection ha with h1 h2
        subst h1 h2
        obtain ⟨a1, a2, a3, a4, a5, a6, a7, _⟩ := map_ok hmap
        simp at hu
        refine ⟨a1, a2, a3, a4, a5, ?_, by simp⟩
        intro _
        exact ⟨hu, by rw [a6, hu], a7 rfl⟩
      · rename_i d1 hmap
        injection ha with ha
        injection ha with h1 h2
        subst h1 h2
        obtain ⟨a1, a2, a3, a4, a5, a6, _, a8⟩ := map_ok hmap
        refine ⟨a1, a2, a3, a4, a5, by simp, ?_⟩
        intro _
        exact ⟨rfl, fun _ => a8 rfl⟩
    · split at ha
      · injection ha with ha
        injection ha with h1 h2
        subst h1 h2
        simp at hu
        simp [length_mkBuffer, hu]
      · split at ha
        · injection ha with ha
          injection ha with h1 h2
          subst h1 h2
          simp at hu
          simp [length_mkBuffer, hu]
        · injection ha with ha
          injection ha with h1 h2
          subst h1 h2
          simp
/-! ## Well-formed trees -/

@[simp] theorem get_len_mk (d : SubBlockData) (subs : Fin 4 → SubBlock) :
    (SubBlock.mk d subs).get_len = d.m_len := rfl

@[simp] theorem get_address_mk (d : SubBlockData) (subs : Fin 4 → SubBlock) :
    (SubBlock.mk d subs).get_address = d.m_address := rfl

@[simp] theorem isBlock_mk (d : SubBlockData) (subs : Fin 4 → SubBlock) :
    (SubBlock.mk d subs).isBlock = true := rfl

@[simp] theorem isBlock_null : SubBlock.null.isBlock = false := rfl

theorem WF_mk (d : SubBlockData) (subs : Fin 4 → SubBlock) :
    (SubBlock.mk d subs).WF ↔
      d.m_address + d.m_len ≤ U64 ∧
      (∀ buf, d.m_ptr = some buf → buf.length = d.m_len ∧ d.m_use_sub_blocks = false) ∧
      (∀ i : Fin 4, (subs i).isBlock = true →
        d.m_use_sub_blocks = true ∧ 0 < d.m_len / 4 ∧
        d.m_min_size ≤ d.m_len ∧ d.m_len % 4 = 0 ∧
        (subs i).get_len = d.m_len / 4 ∧
        (subs i).get_address = d.m_address + i.val * (d.m_len / 4)) ∧
      (∀ i : Fin 4, (subs i).WF) := by
  simp [SubBlock.WF]

theorem WF_new (address len max_size min_size : Nat) (filename : String)
    (hfit : address + len ≤ U64) : (SubBlock.new address len max_size min_size filename).WF := by
  unfold SubBlock.new
  rw [WF_mk]
  refine ⟨hfit, ?_, ?_, ?_⟩
  · intro buf hb
    cases hb
  · intro i hi
    simp at hi
  · intro i
    simp [SubBlock.WF]

theorem setSub_same (subs : Fin 4 → SubBlock) (i : Fin 4) (c : SubBlock) :
    setSub subs i c i = c := by
  simp [setSub]

theorem setSub_other (subs : Fin 4 → SubBlock) (i j : Fin 4) (c : SubBlock) (hne : j ≠ i) :
    setSub subs i c j = subs j := by
  simp [setSub, hne]

theorem peek_mk (d : SubBlockData) (subs : Fin 4 → SubBlock) (a : Nat) :
    (SubBlock.mk d subs).peek a =
      if d.m_address ≤ a ∧ a < d.m_address + d.m_len then
        if d.m_use_sub_blocks then
          if hi : (a - d.m_address) / (d.m_len / 4) < 4 then
            (subs ⟨(a - d.m_address) / (d.m_len / 4), hi⟩).peek a
          else none
        else
          match d.m_ptr with
          | some buf => buf.get? (a - d.m_address)
          | none => none
      else none := by
  simp [SubBlock.peek]

theorem peek_null (a : Nat) : SubBlock.null.peek a = none := by
  simp [SubBlock.peek]

/-- The stored byte of a split block is the stored byte of the child covering
the address. -/
theorem peek_split {d : SubBlockData} {subs : Fin 4 → SubBlock} {a : Nat} (i : Fin 4)
    (hu : d.m_use_sub_blocks = true)
    (hlo : d.m_address + i.val * (d.m_len / 4) ≤ a)
    (hhi : a < d.m_address + (i.val + 1) * (d.m_len / 4)) :
    (SubBlock.mk d subs).peek a = (subs i).peek a := by
  have h4 : 4 * (d.m_len / 4) ≤ d.m_len := Nat.mul_div_le d.m_len 4
  have hi4 : i.val < 4 := i.isLt
  have hle : (i.val + 1) * (d.m_len / 4) ≤ 4 * (d.m_len / 4) :=
    Nat.mul_le_mul_right _ (by omega)
  have hr : d.m_address ≤ a ∧ a < d.m_address + d.m_len := by
    constructor
    · have := Nat.zero_le (i.val * (d.m_len / 4)); omega
    · omega
  have hq : (a - d.m_address) / (d.m_len / 4) = i.val := by
    apply Nat.div_eq_of_lt_le
    · omega
    · omega
  rw [peek_mk, if_pos hr, if_pos hu]
  have hq4 : (a - d.m_address) / (d.m_len / 4) < 4 := by omega
  rw [dif_pos hq4]
  have e : (⟨(a - d.m_address) / (d.m_len / 4), hq4⟩ : Fin 4) = i := Fin.ext hq
  rw [e]
theorem LeafAt_nil (d : SubBlockData) (subs : Fin 4 → SubBlock) (dl : SubBlockData) :
    (SubBlock.mk d subs).LeafAt [] dl ↔
      d = dl ∧ d.m_ptr.isSome = true ∧ d.m_use_sub_blocks = false := by
  simp [SubBlock.LeafAt]

theorem LeafAt_cons (d : SubBlockData) (subs : Fin 4 → SubBlock) (i : Fin 4) (p : List (Fin 4))
    (dl : SubBlockData) :
    (SubBlock.mk d subs).LeafAt (i :: p) dl ↔
      d.m_use_sub_blocks = true ∧ (subs i).LeafAt p dl := by
  simp [SubBlock.LeafAt]

/-- What a returning `access` establishes, for any address: the tree stays well
formed, keeps its range and every byte stored so far, and the returned reference
leads to an allocated leaf, which covers the address when the block does. -/
theorem access_ok (h : Host) : ∀ (fuel : Nat) (t : SubBlock) (a : Nat) (t1 : SubBlock)
    (p : List (Fin 4)), t.WF → a < U64 → t.access h fuel a = .ok (t1, p) →
    t1.WF ∧ t1.isBlock = true ∧ t1.get_len = t.get_len ∧ t1.get_address = t.get_address ∧
    (∀ b v, t.peek b = some v → t1.peek b = some v) ∧
    ∃ dl, t1.LeafAt p dl ∧
      (t.get_address ≤ a → a < t.get_address + t.get_len →
        dl.m_address ≤ a ∧ a < dl.m_address + dl.m_len) := by
  intro fuel
  induction fuel with
  | zero =>
    intro t a t1 p _ _ hacc
    simp [SubBlock.access] at hacc
  | succ fuel ih =>
    intro t a t1 p hwf ha hacc
    cases t with
    | null => simp [SubBlock.access] at hacc
    | mk d subs =>
      have hwf0 := hwf
      rw [WF_mk] at hwf
      obtain ⟨hfit, hbuf, hch, hsubwf⟩ := hwf
      simp only [SubBlock.access] at hacc
      split at hacc
      · -- allocated leaf
        rename_i hleaf
        split at hacc
        · rename_i hge
          injection hacc with hacc
          injection hacc with e1 e2
          subst e1 e2
          refine ⟨hwf0, rfl, rfl, rfl, fun _ _ hv => hv, d, ?_, ?_⟩
          · rw [LeafAt_nil]
            simp at hleaf
            exact ⟨rfl, hleaf.1, hleaf.2⟩
          · intro h1 h2
            exact ⟨h1, h2⟩
        · cases hacc
      · rename_i hnl
        -- the block holds no buffer
        have hptr : d.m_ptr = none := by
          cases hp : d.m_ptr with
          | none => rfl
          | some buf =>
            have := (hbuf buf hp).2
            simp [hp, this] at hnl
        have hpk0 : d.m_use_sub_blocks = false → ∀ b, (SubBlock.mk d subs).peek b = none := by
          intro hu b
          rw [peek_mk]
          simp [hu, hptr]
        split at hacc
        · cases hacc
        · -- allocation succeeded
          rename_i d2 halloc
          injection hacc with hacc
          injection hacc with e1 e2
          subst e1 e2
          obtain ⟨a1, a2, _, _, _, a6, _⟩ := allocate_ok halloc
          obtain ⟨u1, u2, buf, hb, hbl⟩ := a6 rfl
          have hd1 : (if d.m_len > d.m_max_size then { d with m_use_sub_blocks := true } else d) = d := by
            split
            · rename_i hgt
              simp [hgt] at u1
            · rfl
          rw [hd1] at a1 a2 u1 hbl
          have hnoch : ∀ i : Fin 4, (subs i).isBlock = true → False := by
            intro i hi
            have := (hch i hi).1
            rw [u1] at this
            cases this
          refine ⟨?_, rfl, a1, a2, ?_, d2, ?_, ?_⟩
          · rw [WF_mk]
            refine ⟨by rw [a1, a2]; exact hfit, ?_, ?_, hsubwf⟩
            · intro buf2 hb2
              rw [hb] at hb2
              injection hb2 with hb2
              subst hb2
              exact ⟨by rw [hbl, a1], u2⟩
            · intro i hi
              exact (hnoch i hi).elim
          · intro b v hv
            rw [hpk0 u1 b] at hv
            cases hv
          · rw [LeafAt_nil]
            exact ⟨rfl, by simp [hb], u2⟩
          · intro h1 h2
            simp only [get_address_mk, get_len_mk] at h1 h2
            rw [a1, a2]
            exact ⟨h1, h2⟩
        · -- descend into a child
          rename_i d2 halloc
          obtain ⟨a1, a2, a3, a4, a5, _, a7⟩ := allocate_ok halloc
          obtain ⟨u2, hp2⟩ := a7 rfl
          have hd1len : (if d.m_len > d.m_max_size then { d with m_use_sub_blocks := true } else d).m_len = d.m_len := by
            split <;> rfl
          have hd1ad : (if d.m_len > d.m_max_size then { d with m_use_sub_blocks := true } else d).m_address = d.m_address := by
            split <;> rfl
          have hd1p : (if d.m_len > d.m_max_size then { d with m_use_sub_blocks := true } else d).m_ptr = none := by
            split <;> exact hptr
          rw [hd1len] at a1
          rw [hd1ad] at a2
          have hp2 := hp2 hd1p
          split at hacc
          · cases hacc
          · rename_i hmin
            split at hacc
            · cases hacc
            · rename_i hdiv
              split at hacc
              · cases hacc
              · rename_i hsub0
                generalize hiv : sub64 a d2.m_address / (d2.m_len / 4) % U32 = iv at hacc
                generalize hsz : d2.m_len / 4 = sz at hacc
                generalize hcadr : add64 (mul64 iv sz) d2.m_address = cadr at hacc
                split at hacc
                · rename_i hi
                  split at hacc
                  · cases hacc
                  · rename_i c q hrec
                    injection hacc with hacc
                    injection hacc with e1 e2
                    subst e1 e2
                    have hd1mn : (if d.m_len > d.m_max_size then { d with m_use_sub_blocks := true } else d).m_min_size = d.m_min_size := by
                      split <;> rfl
                    rw [hd1mn] at a4
                    rw [a1, a4] at hmin
                    clear a3 a5 hd1len hd1ad hd1p halloc hd1mn
                    rw [a1, a2] at hiv
                    rw [a1] at hsub0 hdiv hsz
                    rw [a2] at hcadr
                    subst hsz hcadr
                    have hsub : 0 < d.m_len / 4 := Nat.pos_of_ne_zero hsub0
                    have h4 : 4 * (d.m_len / 4) = d.m_len := by omega
                    have hchild : ∃ child : SubBlock,
                        SubBlock.access h fuel child a = .ok (c, q) ∧ child.WF ∧
                        child.get_len = d.m_len / 4 ∧
                        child.get_address = d.m_address + iv * (d.m_len / 4) ∧
                        (∀ b, (subs ⟨iv, hi⟩).peek b = child.peek b) := by
                      cases hs : subs ⟨iv, hi⟩ with
                      | null =>
                        rw [hs] at hrec
                        simp only at hrec
                        have hm : mul64 iv (d.m_len / 4) = iv * (d.m_len / 4) := by
                          apply mul64_of_lt
                          have : iv * (d.m_len / 4) ≤ 3 * (d.m_len / 4) :=
                            Nat.mul_le_mul_right _ (by omega)
                          omega
                        have hadd : add64 (iv * (d.m_len / 4)) d.m_address
                            = d.m_address + iv * (d.m_len / 4) := by
                          rw [add64_of_lt]
                          · omega
                          · have : iv * (d.m_len / 4) ≤ 3 * (d.m_len / 4) :=
                              Nat.mul_le_mul_right _ (by omega)
                            omega
                        rw [hm, hadd] at hrec
                        refine ⟨_, hrec, ?_, rfl, rfl, ?_⟩
                        · apply WF_new
                          have : iv * (d.m_len / 4) ≤ 3 * (d.m_len / 4) :=
                            Nat.mul_le_mul_right _ (by omega)
                          omega
                        · intro b
                          rw [peek_null]
                          unfold SubBlock.new
                          rw [peek_mk]
                          simp
                      | mk cd cs =>
                        rw [hs] at hrec
                        simp only at hrec
                        have hc := hch ⟨iv, hi⟩ (by rw [hs]; rfl)
                        have hw := hsubwf ⟨iv, hi⟩
                        rw [hs] at hc hw
                        exact ⟨_, hrec, hw, hc.2.2.2.2.1, hc.2.2.2.2.2, fun _ => rfl⟩
                    obtain ⟨child, hrec2, hcwf, hclen, hcad, hcpeek⟩ := hchild
                    obtain ⟨i1, i2, i3, i4, i5, dl, i6, i7⟩ := ih child a c q hcwf ha hrec2
                    refine ⟨?_, rfl, a1, a2, ?_, dl, ?_, ?_⟩
                    · rw [WF_mk]
                      refine ⟨by rw [a1, a2]; exact hfit, ?_, ?_, ?_⟩
                      · intro buf hb
                        rw [hp2] at hb
                        cases hb
                      · intro j hj
                        by_cases hji : j = ⟨iv, hi⟩
                        · subst hji
                          rw [setSub_same] at hj ⊢
                          rw [a1, a2, a4, i3, i4, hclen, hcad]
                          exact ⟨u2, hsub, by omega, by omega, rfl, rfl⟩
                        · rw [setSub_other _ _ _ _ hji] at hj ⊢
                          rw [a1, a2, a4]
                          have := hch j hj
                          exact ⟨u2, this.2.1, this.2.2.1, this.2.2.2.1, this.2.2.2.2.1,
                            this.2.2.2.2.2⟩
                      · intro j
                        by_cases hji : j = ⟨iv, hi⟩
                        · subst hji
                          rw [setSub_same]
                          exact i1
                        · rw [setSub_other _ _ _ _ hji]
                          exact hsubwf j
                    · intro b v hv
                      have hu : d.m_use_sub_blocks = true := by
                        cases hu : d.m_use_sub_blocks with
                        | true => rfl
                        | false =>
                          rw [hpk0 hu b] at hv
                          cases hv
                      rw [peek_mk] at hv ⊢
                      rw [a1, a2, u2]
                      rw [hu] at hv
                      split at hv
                      · rename_i hr
                        rw [if_pos hr]
                        simp only [if_true] at hv ⊢
                        split at hv
                        · rename_i hq
                          rw [dif_pos hq]
                          by_cases hji : (⟨(b - d.m_address) / (d.m_len / 4), hq⟩ : Fin 4) = ⟨iv, hi⟩
                          · rw [hji] at hv ⊢
                            rw [setSub_same]
                            rw [hcpeek b] at hv
                            exact i5 b v hv
                          · rw [setSub_other _ _ _ _ hji]
                            exact hv
                        · cases hv
                      · cases hv
                    · rw [LeafAt_cons, setSub_same]
                      exact ⟨u2, i6⟩
                    · intro h1 h2
                      simp only [get_address_mk, get_len_mk] at h1 h2
                      apply i7
                      · rw [hcad]
                        have hs64 : sub64 a d.m_address = a - d.m_address := sub64_of_le h1 ha
                        rw [hs64] at hiv
                        have hq4 : (a - d.m_address) / (d.m_len / 4) < 4 := by
                          apply Nat.div_lt_of_lt_mul
                          omega
                        have hmod : (a - d.m_address) / (d.m_len / 4) % U32 = (a - d.m_address) / (d.m_len / 4) :=
                          Nat.mod_eq_of_lt (by unfold U32; omega)
                        rw [hmod] at hiv
                        have := Nat.div_mul_le_self (a - d.m_address) (d.m_len / 4)
                        rw [hiv] at this
                        omega
                      · rw [hcad, hclen]
                        have hs64 : sub64 a d.m_address = a - d.m_address := sub64_of_le h1 ha
                        rw [hs64] at hiv
                        have hq4 : (a - d.m_address) / (d.m_len / 4) < 4 := by
                          apply Nat.div_lt_of_lt_mul
                          omega
                        have hmod : (a - d.m_address) / (d.m_len / 4) % U32 = (a - d.m_address) / (d.m_len / 4) :=
                          Nat.mod_eq_of_lt (by unfold U32; omega)
                        rw [hmod] at hiv
                        have hlt : (a - d.m_address) / (d.m_len / 4) < iv + 1 := by omega
                        rw [Nat.div_lt_iff_lt_mul hsub, Nat.succ_mul] at hlt
                        omega
                · cases hacc
/-! ## References to leaves -/

theorem LeafAt_range : ∀ (p : List (Fin 4)) (t : SubBlock) (dl : SubBlockData),
    t.WF → t.LeafAt p dl →
    t.get_address ≤ dl.m_address ∧ dl.m_address + dl.m_len ≤ t.get_address + t.get_len ∧
    dl.m_use_sub_blocks = false ∧ ∃ buf, dl.m_ptr = some buf ∧ buf.length = dl.m_len := by
  intro p
  induction p with
  | nil =>
    intro t dl hwf hl
    cases t with
    | null => simp [SubBlock.LeafAt] at hl
    | mk d subs =>
      rw [LeafAt_nil] at hl
      obtain ⟨rfl, hp, hu⟩ := hl
      rw [WF_mk] at hwf
      cases hb : d.m_ptr with
      | none => simp [hb] at hp
      | some buf =>
        exact ⟨Nat.le_refl _, Nat.le_refl _, hu, buf, rfl, (hwf.2.1 buf hb).1⟩
  | cons i p ih =>
    intro t dl hwf hl
    cases t with
    | null => simp [SubBlock.LeafAt] at hl
    | mk d subs =>
      rw [LeafAt_cons] at hl
      rw [WF_mk] at hwf
      obtain ⟨_, _, hch, hsw⟩ := hwf
      have hblk : (subs i).isBlock = true := by
        cases hs : subs i with
        | null =>
          rw [hs] at hl
          simp [SubBlock.LeafAt] at hl
        | mk _ _ => rfl
      obtain ⟨_, hsub, _, _, hcl, hca⟩ := hch i hblk
      obtain ⟨r1, r2, r3, r4⟩ := ih (subs i) dl (hsw i) hl.2
      refine ⟨?_, ?_, r3, r4⟩
      · simp only [get_address_mk]
        rw [hca] at r1
        have := Nat.zero_le (i.val * (d.m_len / 4))
        omega
      · simp only [get_address_mk, get_len_mk]
        rw [hca, hcl] at r2
        have h4 : 4 * (d.m_len / 4) ≤ d.m_len := Nat.mul_div_le d.m_len 4
        have hi4 : i.val < 4 := i.isLt
        have hle : (i.val + 1) * (d.m_len / 4) ≤ 4 * (d.m_len / 4) :=
          Nat.mul_le_mul_right _ (by omega)
        rw [Nat.succ_mul] at hle
        omega

theorem LeafAt_get : ∀ (p : List (Fin 4)) (t : SubBlock) (dl : SubBlockData),
    t.LeafAt p dl → ∃ subs, t.get p = .mk dl subs := by
  intro p
  induction p with
  | nil =>
    intro t dl hl
    cases t with
    | null => simp [SubBlock.LeafAt] at hl
    | mk d subs =>
      rw [LeafAt_nil] at hl
      obtain ⟨rfl, _, _⟩ := hl
      exact ⟨subs, by simp [SubBlock.get]⟩
  | cons i p ih =>
    intro t dl hl
    cases t with
    | null => simp [SubBlock.LeafAt] at hl
    | mk d subs =>
      rw [LeafAt_cons] at hl
      obtain ⟨cs, hcs⟩ := ih (subs i) dl hl.2
      exact ⟨cs, by simp [SubBlock.get, hcs]⟩

/-- The bytes stored for the addresses of a leaf are the bytes of its buffer. -/
theorem peek_LeafAt : ∀ (p : List (Fin 4)) (t : SubBlock) (dl : SubBlockData) (buf : List Nat)
    (b : Nat), t.WF → t.LeafAt p dl → dl.m_ptr = some buf →
    dl.m_address ≤ b → b < dl.m_address + dl.m_len →
    t.peek b = buf.get? (b - dl.m_address) := by
  intro p
  induction p with
  | nil =>
    intro t dl buf b hwf hl hb h1 h2
    cases t with
    | null => simp [SubBlock.LeafAt] at hl
    | mk d subs =>
      rw [LeafAt_nil] at hl
      obtain ⟨rfl, _, hu⟩ := hl
      rw [peek_mk, if_pos ⟨h1, h2⟩, hu, hb]
      simp
  | cons i p ih =>
    intro t dl buf b hwf hl hb h1 h2
    cases t with
    | null => simp [SubBlock.LeafAt] at hl
    | mk d subs =>
      rw [LeafAt_cons] at hl
      have hwf0 := hwf
      rw [WF_mk] at hwf
      obtain ⟨_, _, hch, hsw⟩ := hwf
      have hblk : (subs i).isBlock = true := by
        cases hs : subs i with
        | null =>
          rw [hs] at hl
          simp [SubBlock.LeafAt] at hl
        | mk _ _ => rfl
      obtain ⟨_, hsub, _, _, hcl, hca⟩ := hch i hblk
      obtain ⟨r1, r2, _, _⟩ := LeafAt_range p (subs i) dl (hsw i) hl.2
      rw [hca] at r1
      rw [hca, hcl] at r2
      rw [peek_split i hl.1 (by omega) (by rw [Nat.succ_mul]; omega)]
      exact ih (subs i) dl buf b (hsw i) hl.2 hb h1 h2

/-- Replacing the buffer of a leaf by one of the same length keeps the tree well
formed and changes no byte stored outside the leaf. -/
theorem set_LeafAt : ∀ (p : List (Fin 4)) (t : SubBlock) (dl : SubBlockData)
    (subs : Fin 4 → SubBlock) (buf : List Nat),
    t.WF → t.LeafAt p dl → t.get p = .mk dl subs → buf.length = dl.m_len →
    (t.set p (.mk { dl with m_ptr := some buf } subs)).WF ∧
    (t.set p (.mk { dl with m_ptr := some buf } subs)).isBlock = true ∧
    (t.set p (.mk { dl with m_ptr := some buf } subs)).get_len = t.get_len ∧
    (t.set p (.mk { dl with m_ptr := some buf } subs)).get_address = t.get_address ∧
    (t.set p (.mk { dl with m_ptr := some buf } subs)).LeafAt p { dl with m_ptr := some buf } ∧
    (∀ b, ¬ (dl.m_address ≤ b ∧ b < dl.m_address + dl.m_len) →
      (t.set p (.mk { dl with m_ptr := some buf } subs)).peek b = t.peek b) := by
  intro p
  induction p with
  | nil =>
    intro t dl subs buf hwf hl hg hlen
    cases t with
    | null => simp [SubBlock.LeafAt] at hl
    | mk d ds =>
      rw [LeafAt_nil] at hl
      obtain ⟨rfl, _, hu⟩ := hl
      simp only [SubBlock.get] at hg
      injection hg with _ hs
      subst hs
      simp only [SubBlock.set]
      rw [WF_mk] at hwf
      obtain ⟨w1, w2, w3, w4⟩ := hwf
      refine ⟨?_, rfl, rfl, rfl, ?_, ?_⟩
      · rw [WF_mk]
        refine ⟨w1, ?_, w3, w4⟩
        intro b2 hb2
        simp only at hb2
        injection hb2 with hb2
        subst hb2
        exact ⟨hlen, hu⟩
      · rw [LeafAt_nil]
        exact ⟨rfl, rfl, hu⟩
      · intro b hb
        rw [peek_mk, peek_mk, if_neg hb, if_neg hb]
  | cons i p ih =>
    intro t dl subs buf hwf hl hg hlen
    cases t with
    | null => simp [SubBlock.LeafAt] at hl
    | mk d ds =>
      rw [LeafAt_cons] at hl
      simp only [SubBlock.get] at hg
      rw [WF_mk] at hwf
      obtain ⟨w1, w2, w3, w4⟩ := hwf
      obtain ⟨j1, j2, j3, j4, j5, j6⟩ := ih (ds i) dl subs buf (w4 i) hl.2 hg hlen
      simp only [SubBlock.set]
      refine ⟨?_, rfl, rfl, rfl, ?_, ?_⟩
      · rw [WF_mk]
        refine ⟨w1, w2, ?_, ?_⟩
        · intro j hj
          by_cases hji : j = i
          · subst hji
            rw [setSub_same] at hj ⊢
            have hblk : (ds j).isBlock = true := by
              cases hs : ds j with
              | null =>
                rw [hs] at hl
                simp [SubBlock.LeafAt] at hl
              | mk _ _ => rfl
            rw [j3, j4]
            exact w3 j hblk
          · rw [setSub_other _ _ _ _ hji] at hj ⊢
            exact w3 j hj
        · intro j
          by_cases hji : j = i
          · subst hji
            rw [setSub_same]
            exact j1
          · rw [setSub_other _ _ _ _ hji]
            exact w4 j
      · rw [LeafAt_cons, setSub_same]
        exact ⟨hl.1, j5⟩
      · intro b hb
        rw [peek_mk, peek_mk]
        split
        · split
          · split
            · rename_i hq
              by_cases hji : (⟨(b - d.m_address) / (d.m_len / 4), hq⟩ : Fin 4) = i
              · rw [hji, setSub_same]
                exact j6 b hb
              · rw [setSub_other _ _ _ _ hji]
            · rfl
          · rfl
        · rfl
theorem setSub_self (subs : Fin 4 → SubBlock) (i : Fin 4) : setSub subs i (subs i) = subs := by
  funext j
  unfold setSub
  split
  · rename_i hj
    rw [hj]
  · rfl

theorem allocate_split {h : Host} {d : SubBlockData} (hu : d.m_use_sub_blocks = true) :
    d.allocate h = .ok (d, false) := by
  unfold SubBlockData.allocate
  rw [if_pos hu]

/-- An address whose byte is stored is served by `access` without any change to
the tree, given fuel for the depth of the tree. -/
theorem access_present (h : Host) : ∀ (fuel : Nat) (t : SubBlock) (a v : Nat),
    t.WF → a < U64 → t.peek a = some v → t.get_len < 4 ^ fuel →
    ∃ p dl, t.access h (fuel + 1) a = .ok (t, p) ∧ t.LeafAt p dl ∧
      dl.m_address ≤ a ∧ a < dl.m_address + dl.m_len := by
  intro fuel
  induction fuel with
  | zero =>
    intro t a v hwf ha hv hlen
    cases t with
    | null => simp [peek_null] at hv
    | mk d subs =>
      rw [peek_mk] at hv
      simp only [get_len_mk, pow_zero] at hlen
      split at hv
      · omega
      · cases hv
  | succ fuel ih =>
    intro t a v hwf ha hv hlen
    cases t with
    | null => simp [peek_null] at hv
    | mk d subs =>
      have hwf0 := hwf
      rw [WF_mk] at hwf
      obtain ⟨hfit, hbuf, hch, hsubwf⟩ := hwf
      rw [peek_mk] at hv
      split at hv
      · rename_i hr
        cases hu : d.m_use_sub_blocks with
        | false =>
          rw [hu] at hv
          simp only [Bool.false_eq_true, if_false] at hv
          cases hp : d.m_ptr with
          | none =>
            rw [hp] at hv
            cases hv
          | some buf =>
            refine ⟨[], d, ?_, ?_, hr.1, hr.2⟩
            · simp only [SubBlock.access, hp, hu]
              simp [hr.1]
            · rw [LeafAt_nil]
              simp [hp, hu]
        | true =>
          rw [hu] at hv
          simp only [if_true] at hv
          split at hv
          · rename_i hq
            have hptr : d.m_ptr = none := by
              cases hp : d.m_ptr with
              | none => rfl
              | some buf =>
                have := (hbuf buf hp).2
                rw [hu] at this
                cases this
            have hblk : (subs ⟨(a - d.m_address) / (d.m_len / 4), hq⟩).isBlock = true := by
              cases hs : subs ⟨(a - d.m_address) / (d.m_len / 4), hq⟩ with
              | null =>
                rw [hs, peek_null] at hv
                cases hv
              | mk _ _ => rfl
            obtain ⟨_, hsub, hmin, hdiv, hcl, hca⟩ := hch _ hblk
            have hclt : (subs ⟨(a - d.m_address) / (d.m_len / 4), hq⟩).get_len < 4 ^ fuel := by
              rw [hcl]
              simp only [get_len_mk] at hlen
              rw [pow_succ] at hlen
              exact Nat.div_lt_of_lt_mul (by omega)
            obtain ⟨p, dl, hacc, hl, h1, h2⟩ := ih _ a v (hsubwf _) ha hv hclt
            have hd1 : (if d.m_len > d.m_max_size then { d with m_use_sub_blocks := true } else d)
                = d := by
              split
              · cases d
                simp only at hu
                simp [hu]
              · rfl
            have hs64 : sub64 a d.m_address = a - d.m_address := sub64_of_le hr.1 ha
            have hmod : (a - d.m_address) / (d.m_len / 4) % U32 = (a - d.m_address) / (d.m_len / 4) :=
              Nat.mod_eq_of_lt (by unfold U32; omega)
            refine ⟨⟨(a - d.m_address) / (d.m_len / 4), hq⟩ :: p, dl, ?_, ?_, h1, h2⟩
            · simp only [SubBlock.access]
              rw [hd1, allocate_split hu]
              simp only [hptr, hu, Option.isSome_none, Bool.false_and, Bool.false_eq_true, if_false,
                hs64, hmod]
              rw [if_neg (by omega), if_neg (by omega), if_neg (by omega), dif_pos hq]
              cases hs : subs ⟨(a - d.m_address) / (d.m_len / 4), hq⟩ with
              | null =>
                rw [hs] at hblk
                cases hblk
              | mk cd cs =>
                rw [hs] at hacc
                simp only
                rw [hacc]
                simp only
                rw [← hs, setSub_self]
            · rw [LeafAt_cons]
              exact ⟨hu, hl⟩
          · cases hv
      · cases hv
/-! ## Transfers on a leaf -/

theorem write_sub_blocks_ok {dl : SubBlockData} {subs : Fin 4 → SubBlock} {buf data : List Nat}
    {di a len n : Nat} {blk : SubBlock} (hp : dl.m_ptr = some buf)
    (hw : (SubBlock.mk dl subs).write_sub_blocks data di a len = .ok (blk, n)) :
    n = (if len < sub64 dl.m_len (sub64 a dl.m_address) then len
          else sub64 dl.m_len (sub64 a dl.m_address)) ∧
    ∃ buf1, blk = .mk { dl with m_ptr := some buf1 } subs ∧
      memcpy buf (sub64 a dl.m_address) data di n = .ok buf1 := by
  simp only [SubBlock.write_sub_blocks, hp] at hw
  split at hw
  · cases hw
  · rename_i buf1 hc
    injection hw with hw
    injection hw with e1 e2
    subst e1 e2
    exact ⟨rfl, buf1, rfl, hc⟩

theorem read_sub_blocks_ok {dl : SubBlockData} {subs : Fin 4 → SubBlock} {buf data data1 : List Nat}
    {di a len n : Nat} (hp : dl.m_ptr = some buf)
    (hw : (SubBlock.mk dl subs).read_sub_blocks data di a len = .ok (data1, n)) :
    n = (if len < sub64 dl.m_len (sub64 a dl.m_address) then len
          else sub64 dl.m_len (sub64 a dl.m_address)) ∧
    memcpy data di buf (sub64 a dl.m_address) n = .ok data1 := by
  simp only [SubBlock.read_sub_blocks, hp] at hw
  split at hw
  · cases hw
  · rename_i buf1 hc
    injection hw with hw
    injection hw with e1 e2
    subst e1 e2
    exact ⟨rfl, hc⟩

/-- The number of bytes a leaf transfers for an address it covers: at least one
when `len` is positive, and never past the end of the leaf. -/
theorem chunk_in_leaf (dl : SubBlockData) (a len : Nat) (ha : a < U64)
    (hfit : dl.m_len < U64)
    (h1 : dl.m_address ≤ a) (h2 : a < dl.m_address + dl.m_len) :
    sub64 a dl.m_address = a - dl.m_address ∧
    (if len < sub64 dl.m_len (sub64 a dl.m_address) then len
      else sub64 dl.m_len (sub64 a dl.m_address)) = min len (dl.m_address + dl.m_len - a) := by
  have e1 : sub64 a dl.m_address = a - dl.m_address := sub64_of_le h1 ha
  have e2 : sub64 dl.m_len (a - dl.m_address) = dl.m_address + dl.m_len - a := by
    rw [sub64_of_le (by omega) (by omega)]
    omega
  rw [e1, e2]
  refine ⟨rfl, ?_⟩
  split <;> omega

theorem add64_add64_zero (offset dpo : Nat) : add64 offset (add64 dpo 0) = add64 offset dpo := by
  unfold add64
  simp [Nat.add_mod]

/-! ## The transfer loops -/

/-- A write loop positioned at or beyond the end of the root block with bytes
left to move never returns: the leaf `access` returns cannot take a byte. -/
theorem write_loop_stuck (h : Host) (data : List Nat) (di offset len : Nat) (hlen : 0 < len) :
    ∀ (fuel : Nat) (root : SubBlock) (dpo : Nat) (root1 : SubBlock),
    root.WF → root.get_address = 0 → root.get_len ≤ add64 offset dpo →
    Memory.write_loop h fuel root data di offset dpo len ≠ .ok root1 := by
  intro fuel
  induction fuel with
  | zero =>
    intro root dpo root1 _ _ _ hw
    simp only [Memory.write_loop] at hw
    rw [if_neg (by omega)] at hw
    cases hw
  | succ fuel ih =>
    intro root dpo root1 hwf had hpos hw
    simp only [Memory.write_loop] at hw
    rw [if_neg (by omega)] at hw
    have ha : add64 offset dpo < U64 := Nat.mod_lt _ (by unfold U64; omega)
    split at hw
    · cases hw
    · rename_i r1 p hacc
      obtain ⟨w1, _, w3, w4, _, dl, hl, _⟩ := access_ok h _ _ _ _ _ hwf ha hacc
      obtain ⟨g1, g2, g3, buf, hb, hbl⟩ := LeafAt_range p r1 dl w1 hl
      obtain ⟨subs, hget⟩ := LeafAt_get p r1 dl hl
      rw [hget] at hw
      split at hw
      · cases hw
      · rename_i blk n hwsb
        obtain ⟨hn, buf1, rfl, hc⟩ := write_sub_blocks_ok hb hwsb
        obtain ⟨c1, _, _⟩ := memcpy_ok hc
        rw [w3, w4, had] at g2
        rw [w4, had] at g1
        have hs : sub64 (add64 offset dpo) dl.m_address = add64 offset dpo - dl.m_address :=
          sub64_of_le (by omega) ha
        rw [hs] at c1
        have hn0 : n = 0 := by omega
        subst hn0
        obtain ⟨s1, _, s3, s4, _, _⟩ :=
          set_LeafAt p r1 dl subs buf1 w1 hl hget (by rw [memcpy_length hc, hbl])
        refine ih _ _ root1 s1 (by rw [s4, w4, had]) ?_ hw
        rw [s3, w3, add64_add64_zero]
        exact hpos
/-- What a returning write loop establishes: the request ends inside the root
block, every byte of the request is stored, and every byte stored elsewhere is
kept. -/
theorem write_loop_ok (h : Host) (data : List Nat) (di offset : Nat) :
    ∀ (fuel : Nat) (root : SubBlock) (dpo len : Nat) (root1 : SubBlock),
    root.WF → root.isBlock = true → root.get_address = 0 → root.get_len < U64 →
    offset + dpo ≤ root.get_len →
    Memory.write_loop h fuel root data di offset dpo len = .ok root1 →
    root1.WF ∧ root1.isBlock = true ∧ root1.get_address = 0 ∧ root1.get_len = root.get_len ∧
    offset + dpo + len ≤ root.get_len ∧
    (∀ b, offset + dpo ≤ b → b < offset + dpo + len →
      ∃ v, data.get? (di + (b - offset)) = some v ∧ root1.peek b = some v) ∧
    (∀ b v, ¬ (offset + dpo ≤ b ∧ b < offset + dpo + len) →
      root.peek b = some v → root1.peek b = some v) := by
  intro fuel
  induction fuel with
  | zero =>
    intro root dpo len root1 hwf hblk had hlt hpos hw
    simp only [Memory.write_loop] at hw
    split at hw
    · rename_i hl0
      injection hw with hw
      subst hw hl0
      exact ⟨hwf, hblk, had, rfl, by omega, fun b _ _ => by omega, fun _ _ _ hv => hv⟩
    · cases hw
  | succ fuel ih =>
    intro root dpo len root1 hwf hblk had hlt hpos hw
    by_cases hl0 : len = 0
    · simp only [Memory.write_loop] at hw
      rw [if_pos hl0] at hw
      injection hw with hw
      subst hw hl0
      exact ⟨hwf, hblk, had, rfl, by omega, fun b _ _ => by omega, fun _ _ _ hv => hv⟩
    · have hadd : add64 offset dpo = offset + dpo := add64_of_lt (by omega)
      by_cases hend : offset + dpo = root.get_len
      · exact absurd hw (write_loop_stuck h data di offset len (by omega) _ root dpo root1 hwf had
          (by rw [hadd, hend]))
      · simp only [Memory.write_loop] at hw
        rw [if_neg hl0, hadd] at hw
        split at hw
        · cases hw
        · rename_i r1 p hacc
          obtain ⟨w1, _, w3, w4, w5, dl, hl, w6⟩ :=
            access_ok h _ _ _ _ _ hwf (by omega) hacc
          obtain ⟨c1, c2⟩ := w6 (by omega) (by omega)
          obtain ⟨g1, g2, g3, buf, hb, hbl⟩ := LeafAt_range p r1 dl w1 hl
          obtain ⟨subs, hget⟩ := LeafAt_get p r1 dl hl
          rw [w3, w4, had] at g2
          rw [hget] at hw
          split at hw
          · cases hw
          · rename_i blk n hwsb
            obtain ⟨hn, buf1, rfl, hc⟩ := write_sub_blocks_ok hb hwsb
            obtain ⟨k1, k2⟩ := chunk_in_leaf dl (offset + dpo) len (show offset + dpo < U64 by omega)
              (show dl.m_len < U64 by omega) c1 c2
            rw [k2] at hn
            rw [k1] at hc
            obtain ⟨m1, m2, _⟩ := memcpy_ok hc
            have hbl1 : buf1.length = dl.m_len := by rw [memcpy_length hc, hbl]
            obtain ⟨s1, s2, s3, s4, s5, s6⟩ := set_LeafAt p r1 dl subs buf1 w1 hl hget hbl1
            have hn1 : n ≤ len := by omega
            have hn2 : offset + dpo + n ≤ dl.m_address + dl.m_len := by omega
            have hadd2 : add64 dpo n = dpo + n := add64_of_lt (by omega)
            rw [hadd2] at hw
            obtain ⟨r1w, r2w, r3w, r4w, r5w, r6w, r7w⟩ :=
              ih _ (dpo + n) (len - n) root1 s1 s2 (by rw [s4, w4, had])
                (by rw [s3, w3]; exact hlt) (by rw [s3, w3]; omega) hw
            rw [s3, w3] at r4w r5w
            have hpk2 : ∀ b, dl.m_address ≤ b → b < dl.m_address + dl.m_len →
                (r1.set p (SubBlock.mk { dl with m_ptr := some buf1 } subs)).peek b
                  = if offset + dpo ≤ b ∧ b < offset + dpo + n then
                      data.get? (di + (b - offset)) else r1.peek b := by
              intro b hb1 hb2
              rw [peek_LeafAt p _ _ buf1 b s1 s5 rfl hb1 hb2, memcpy_get? hc]
              rw [peek_LeafAt p r1 dl buf b w1 hl hb hb1 hb2]
              by_cases hin : offset + dpo ≤ b ∧ b < offset + dpo + n
              · rw [if_pos hin, if_pos (by simp only; omega)]
                congr 1
                simp only
                omega
              · rw [if_neg hin, if_neg (by simp only; omega)]
            refine ⟨r1w, r2w, r3w, r4w, by omega, ?_, ?_⟩
            · intro b hb1 hb2
              by_cases hbn : b < offset + dpo + n
              · have hidx : di + (b - offset) < data.length := by omega
                refine ⟨data[di + (b - offset)], ?_, ?_⟩
                · rw [List.get?_eq_getElem?, List.getElem?_eq_getElem hidx]
                · apply r7w b _ (by omega)
                  rw [hpk2 b (by omega) (by omega), if_pos ⟨hb1, hbn⟩]
                  rw [List.get?_eq_getElem?, List.getElem?_eq_getElem hidx]
              · exact r6w b (by omega) (by omega)
            · intro b v hout hv
              apply r7w b v (by omega)
              have hv1 := w5 b v hv
              by_cases hin : dl.m_address ≤ b ∧ b < dl.m_address + dl.m_len
              · rw [hpk2 b hin.1 hin.2, if_neg (by omega)]
                exact hv1
              · rw [s6 b hin]
                exact hv1
theorem memcpy_eq_ok (dst : List Nat) (di : Nat) (src : List Nat) (si n : Nat)
    (h1 : di + n ≤ dst.length)
    (h2 : si + n ≤ src.length) :
    memcpy dst di src si n = .ok (dst.take di ++ (src.drop si).take n ++ dst.drop (di + n)) := by
  unfold memcpy
  rw [if_pos ⟨h1, h2⟩]

theorem U64_eq_pow : U64 = 4 ^ 32 := by
  unfold U64
  norm_num

theorem before_end_of_elaboration_elaborated {m : Memory} (hm : m.Elaborated) :
    m.before_end_of_elaboration = .ok m := by
  obtain ⟨_, _, hb, _⟩ := hm
  unfold Memory.before_end_of_elaboration
  cases hs : m.m_sub_block with
  | null =>
    rw [hs] at hb
    cases hb
  | mk d subs => rfl

/-- What a returning `Memory::write` establishes on an elaborated memory. -/
theorem Memory.write_ok {h : Host} {m m1 : Memory} {data : List Nat} {di offset len : Nat}
    (hm : m.Elaborated) (hoff : offset < U64) (hw : m.write h data di offset len = .ok m1) :
    m1 = { m with m_sub_block := m1.m_sub_block } ∧ m1.Elaborated ∧ offset + len < m.m_size ∧
    (∀ b, offset ≤ b → b < offset + len →
      ∃ v, data.get? (di + (b - offset)) = some v ∧ m1.m_sub_block.peek b = some v) ∧
    (∀ b v, ¬ (offset ≤ b ∧ b < offset + len) →
      m.m_sub_block.peek b = some v → m1.m_sub_block.peek b = some v) := by
  unfold Memory.write at hw
  rw [before_end_of_elaboration_elaborated hm] at hw
  simp only at hw
  obtain ⟨e1, e2, e3, e4, e5, e6⟩ := hm
  split at hw
  · rename_i hassert
    split at hw
    · cases hw
    · rename_i root hloop
      injection hw with hw
      subst hw
      by_cases hle : offset ≤ m.m_sub_block.get_len
      · obtain ⟨r1, r2, r3, r4, r5, r6, r7⟩ :=
          write_loop_ok h data di offset len m.m_sub_block 0 len root e6 e3 e4
            (by rw [e5]; exact e1) (by omega) hloop
        rw [e5] at r4 r5
        have hadd : add64 offset len = offset + len := add64_of_lt (by omega)
        rw [hadd] at hassert
        refine ⟨rfl, ⟨e1, e2, r2, r3, r4, r1⟩, hassert, ?_, ?_⟩
        · intro b hb1 hb2
          exact r6 b (by omega) (by omega)
        · intro b v hout hv
          exact r7 b v (by omega) hv
      · by_cases hl0 : len = 0
        · subst hl0
          have hadd : add64 offset 0 = offset := add64_of_lt (by omega)
          rw [hadd] at hassert
          omega
        · exact absurd hloop (write_loop_stuck h data di offset len (by omega) len
            m.m_sub_block 0 root e6 e4 (by rw [add64_of_lt (by omega)]; omega))
  · cases hw

theorem Elaborated_demoMemory (address : Nat) (relative rom : Bool) (ha : address < U64) :
    (demoMemory address relative rom).Elaborated := by
  refine ⟨show 16 < U64 by unfold U64; omega, ha, rfl, rfl, rfl, ?_⟩
  exact WF_new 0 16 4 1 "" (by unfold U64; omega)

/-- `before_end_of_elaboration` on a memory without a root block, whose size and
base are 64-bit values, gives an elaborated memory. -/
theorem Elaborated_of_before_end_of_elaboration {m m1 : Memory}
    (hnull : m.m_sub_block = .null) (hsz : m.m_size < U64) (had : m.m_address < U64)
    (hps : ∀ s, m.preset.size = some s → s < U64)
    (hpa : ∀ a, m.preset.address = some a → a < U64)
    (hel : m.before_end_of_elaboration = .ok m1) : m1.Elaborated := by
  unfold Memory.before_end_of_elaboration at hel
  rw [hnull] at hel
  simp only at hel
  split at hel
  · cases hel
  · rename_i m2 s hs
    injection hel with hel
    subst hel
    have hbase : (m.base).2 < U64 ∧ (m.base).1.m_size = m.m_size ∧
        (m.base).1.preset = m.preset := by
      unfold Memory.base
      split
      · cases hp : m.preset.address with
        | none =>
          refine ⟨?_, rfl, rfl⟩
          show (0 : Nat) < U64
          unfold U64
          omega
        | some a => exact ⟨hpa a hp, rfl, rfl⟩
      · exact ⟨had, rfl, rfl⟩
    unfold Memory.size at hs
    simp only at hs
    have hs64 : s < U64 ∧ m2.m_address = (m.base).2 := by
      split at hs
      · split at hs
        · cases hs
        · rename_i s1 hp
          injection hs with hs
          injection hs with e1 e2
          subst e1 e2
          rw [hbase.2.2] at hp
          exact ⟨hps _ hp, rfl⟩
      · injection hs with hs
        injection hs with e1 e2
        subst e1 e2
        exact ⟨by rw [hbase.2.1]; exact hsz, rfl⟩
    refine ⟨hs64.1, ?_, rfl, rfl, rfl, ?_⟩
    · show m2.m_address < U64
      rw [hs64.2]
      exact hbase.1
    · exact WF_new 0 s _ _ _ (by have := hs64.1; omega)

/-- A returning read loop keeps the root block well formed, with its range and
with every byte stored so far. -/
theorem read_loop_ok (h : Host) (di offset : Nat) :
    ∀ (fuel : Nat) (root : SubBlock) (data : List Nat) (dpo len : Nat) (root1 : SubBlock)
      (data1 : List Nat),
    root.WF → root.isBlock = true →
    Memory.read_loop h fuel root data di offset dpo len = .ok (root1, data1) →
    root1.WF ∧ root1.isBlock = true ∧ root1.get_address = root.get_address ∧
    root1.get_len = root.get_len ∧
    (∀ b v, root.peek b = some v → root1.peek b = some v) := by
  intro fuel
  induction fuel with
  | zero =>
    intro root data dpo len root1 data1 hwf hblk hr
    simp only [Memory.read_loop] at hr
    split at hr
    · injection hr with hr
      injection hr with e1 e2
      subst e1
      exact ⟨hwf, hblk, rfl, rfl, fun _ _ hv => hv⟩
    · cases hr
  | succ fuel ih =>
    intro root data dpo len root1 data1 hwf hblk hr
    simp only [Memory.read_loop] at hr
    split at hr
    · injection hr with hr
      injection hr with e1 e2
      subst e1
      exact ⟨hwf, hblk, rfl, rfl, fun _ _ hv => hv⟩
    · split at hr
      · cases hr
      · rename_i r1 p hacc
        have ha : add64 offset dpo < U64 := Nat.mod_lt _ (by unfold U64; omega)
        obtain ⟨w1, w2, w3, w4, w5, _⟩ := access_ok h _ _ _ _ _ hwf ha hacc
        split at hr
        · cases hr
        · rename_i d2 n hrd
          obtain ⟨i1, i2, i3, i4, i5⟩ := ih r1 _ _ _ root1 data1 w1 w2 hr
          exact ⟨i1, i2, by rw [i3, w4], by rw [i4, w3], fun b v hv => i5 b v (w5 b v hv)⟩

/-- A returning `Memory::read` keeps an elaborated memory elaborated, changes
nothing but the tree, and keeps every stored byte. -/
theorem Memory.read_ok {h : Host} {m m1 : Memory} {data data1 : List Nat} {di offset len : Nat}
    (hm : m.Elaborated) (hr : m.read h data di offset len = .ok (m1, data1)) :
    m1 = { m with m_sub_block := m1.m_sub_block } ∧ m1.Elaborated ∧
    (∀ b v, m.m_sub_block.peek b = some v → m1.m_sub_block.peek b = some v) := by
  unfold Memory.read at hr
  rw [before_end_of_elaboration_elaborated hm] at hr
  simp only at hr
  obtain ⟨e1, e2, e3, e4, e5, e6⟩ := hm
  split at hr
  · split at hr
    · cases hr
    · rename_i root d1 hloop
      injection hr with hr
      injection hr with k1 k2
      subst k1
      obtain ⟨r1, r2, r3, r4, r5⟩ := read_loop_ok h di offset _ _ _ _ _ _ _ e6 e3 hloop
      exact ⟨rfl, ⟨e1, e2, r2, by rw [r3]; exact e4, by rw [r4]; exact e5, r1⟩, r5⟩
  · cases hr

theorem read_enabled_elaborated (h : Host) (byt : List Nat) (bel addr : Nat) :
    ∀ (n i : Nat) (m : Memory) (ptr : List Nat) (m1 : Memory) (ptr1 : List Nat),
    m.Elaborated → Memory.read_enabled h byt bel addr n i m ptr = .ok (m1, ptr1) →
    m1 = { m with m_sub_block := m1.m_sub_block } ∧ m1.Elaborated := by
  intro n
  induction n with
  | zero =>
    intro i m ptr m1 ptr1 hm hr
    simp only [Memory.read_enabled] at hr
    injection hr with hr
    injection hr with k1 k2
    subst k1
    exact ⟨rfl, hm⟩
  | succ n ih =>
    intro i m ptr m1 ptr1 hm hr
    simp only [Memory.read_enabled] at hr
    split at hr
    · cases hr
    · split at hr
      · cases hr
      · split at hr
        · split at hr
          · cases hr
          · rename_i m2 p2 hrd
            obtain ⟨a1, a2, _⟩ := Memory.read_ok hm hrd
            obtain ⟨b1, b2⟩ := ih _ _ _ _ _ a2 hr
            refine ⟨?_, b2⟩
            rw [b1, a1]
        · exact ih _ _ _ _ _ hm hr

theorem write_enabled_elaborated (h : Host) (byt : List Nat) (bel addr : Nat) (ptr : List Nat) :
    ∀ (n i : Nat) (m m1 : Memory),
    m.Elaborated → Memory.write_enabled h byt bel addr ptr n i m = .ok m1 →
    m1 = { m with m_sub_block := m1.m_sub_block } ∧ m1.Elaborated := by
  intro n
  induction n with
  | zero =>
    intro i m m1 hm hr
    simp only [Memory.write_enabled] at hr
    injection hr with hr
    subst hr
    exact ⟨rfl, hm⟩
  | succ n ih =>
    intro i m m1 hm hr
    simp only [Memory.write_enabled] at hr
    split at hr
    · cases hr
    · split at hr
      · cases hr
      · split at hr
        · split at hr
          · cases hr
          · rename_i m2 hwr
            have hlt : add64 addr i < U64 := Nat.mod_lt _ (by unfold U64; omega)
            obtain ⟨a1, a2, _⟩ := Memory.write_ok hm hlt hwr
            obtain ⟨b1, b2⟩ := ih _ _ _ a2 hr
            refine ⟨?_, b2⟩
            rw [b1, a1]
        · exact ih _ _ _ hm hr

/-- Every returning `b_transport` on an elaborated memory leaves an elaborated
memory with the same size, base, address mode and parameters: the states
reachable from elaboration by transactions are elaborated. -/
theorem b_transport_elaborated {h : Host} {m m1 : Memory} {t t1 : Txn}
    (hm : m.Elaborated) (hta : t.address < U64) (hres : m.b_transport h t = .ok (m1, t1)) :
    m1 = { m with m_sub_block := m1.m_sub_block } ∧ m1.Elaborated := by
  rcases t with ⟨cmd, address, data, data_length, be, bel, sw, resp, dmi, ext⟩
  simp only at hta
  unfold Memory.b_transport at hres
  simp only at hres
  by_cases hbase : (!m.m_relative_addresses && decide (address < m.m_address)) = true
  · simp only [if_pos hbase] at hres
    injection hres with hres
    injection hres with e1 _
    subst e1
    exact ⟨rfl, hm⟩
  · simp only [if_neg hbase] at hres
    generalize hgen : (if (!m.m_relative_addresses) = true then sub64 address m.m_address
      else address) = addr at hres
    by_cases hov : add64 addr data_length > m.m_size
    · simp only [if_pos hov] at hres
      injection hres with hres
      injection hres with e1 _
      subst e1
      exact ⟨rfl, hm⟩
    · simp only [if_neg hov] at hres
      cases cmd with
      | read =>
        simp only at hres
        cases be with
        | none =>
          simp only at hres
          cases hr : Memory.read h m data 0 addr data_length with
          | error x =>
            rw [hr] at hres
            cases hres
          | ok v =>
            obtain ⟨m2, d2⟩ := v
            rw [hr] at hres
            injection hres with hres
            injection hres with e1 _
            subst e1
            obtain ⟨a1, a2, _⟩ := Memory.read_ok hm hr
            exact ⟨a1, a2⟩
        | some byt =>
          simp only at hres
          cases hr : Memory.read_enabled h byt bel addr data_length 0 m data with
          | error x =>
            rw [hr] at hres
            cases hres
          | ok v =>
            obtain ⟨m2, d2⟩ := v
            rw [hr] at hres
            injection hres with hres
            injection hres with e1 _
            subst e1
            exact read_enabled_elaborated h byt bel addr _ _ _ _ _ _ hm hr
      | write =>
        simp only at hres
        by_cases hrom : m.p_rom = true
        · simp only [if_pos hrom] at hres
          injection hres with hres
          injection hres with e1 _
          subst e1
          exact ⟨rfl, hm⟩
        · simp only [if_neg hrom] at hres
          cases be with
          | none =>
            simp only at hres
            cases hr : Memory.write h m data 0 addr data_length with
            | error x =>
              rw [hr] at hres
              cases hres
            | ok v =>
              rw [hr] at hres
              injection hres with hres
              injection hres with e1 _
              subst e1
              have hlt : addr < U64 := by
                rw [← hgen]
                split
                · exact Nat.mod_lt _ (by unfold U64; omega)
                · exact hta
              obtain ⟨a1, a2, _⟩ := Memory.write_ok hm hlt hr
              exact ⟨a1, a2⟩
          | some byt =>
            simp only at hres
            cases hr : Memory.write_enabled h byt bel addr data data_length 0 m with
            | error x =>
              rw [hr] at hres
              cases hres
            | ok v =>
              rw [hr] at hres
              injection hres with hres
              injection hres with e1 _
              subst e1
              exact write_enabled_elaborated h byt bel addr data _ _ _ _ hm hr
      | ignore => cases hres
/-- `Memory::b_transport` neither reads nor changes the path extension of the
transaction. -/
theorem b_transport_ext (h : Host) (m : Memory) (t : Txn) (e : Option (List Int)) :
    m.b_transport h { t with ext := e } =
      match m.b_transport h t with
      | .ok (m1, t1) => .ok (m1, { t1 with ext := e })
      | .error x => .error x := by
  rcases t with ⟨cmd, address, data, data_length, be, bel, sw, resp, dmi, ext⟩
  unfold Memory.b_transport
  simp only
  by_cases hbase : (!m.m_relative_addresses && decide (address < m.m_address)) = true
  · simp only [if_pos hbase]
  · simp only [if_neg hbase]
    generalize (if (!m.m_relative_addresses) = true then sub64 address m.m_address
      else address) = addr
    by_cases hov : add64 addr data_length > m.m_size
    · simp only [if_pos hov]
    · simp only [if_neg hov]
      cases cmd with
      | read =>
        simp only
        cases be with
        | none =>
          simp only
          cases Memory.read h m data 0 addr data_length with
          | error x => rfl
          | ok v => rfl
        | some byt =>
          simp only
          cases Memory.read_enabled h byt bel addr data_length 0 m data with
          | error x => rfl
          | ok v => rfl
      | write =>
        simp only
        by_cases hrom : m.p_rom = true
        · simp only [if_pos hrom]
        · simp only [if_neg hrom]
          cases be with
          | none =>
            simp only
            cases Memory.write h m data 0 addr data_length with
            | error x => rfl
            | ok v => rfl
          | some byt =>
            simp only
            cases Memory.write_enabled h byt bel addr data data_length 0 m with
            | error x => rfl
            | ok v => rfl
      | ignore => rfl

/-- A returning `Memory::b_transport` leaves the address, the data length and
the path extension of the transaction as they were and sets one of the three
responses OK, address error, command error. -/
theorem b_transport_frame {h : Host} {m m1 : Memory} {t t1 : Txn}
    (hres : m.b_transport h t = .ok (m1, t1)) :
    t1.address = t.address ∧ t1.data_length = t.data_length ∧ t1.ext = t.ext ∧
    (t1.response = .ok ∨ t1.response = .address_error ∨ t1.response = .command_error) := by
  rcases t with ⟨cmd, address, data, data_length, be, bel, sw, resp, dmi, ext⟩
  unfold Memory.b_transport at hres
  simp only at hres
  by_cases hbase : (!m.m_relative_addresses && decide (address < m.m_address)) = true
  · simp only [if_pos hbase] at hres
    injection hres with hres
    injection hres with _ e2
    subst e2
    simp
  · simp only [if_neg hbase] at hres
    generalize (if (!m.m_relative_addresses) = true then sub64 address m.m_address
      else address) = addr at hres
    by_cases hov : add64 addr data_length > m.m_size
    · simp only [if_pos hov] at hres
      injection hres with hres
      injection hres with _ e2
      subst e2
      simp
    · simp only [if_neg hov] at hres
      cases cmd with
      | read =>
        simp only at hres
        cases be with
        | none =>
          simp only at hres
          cases hr : Memory.read h m data 0 addr data_length with
          | error x =>
            rw [hr] at hres
            cases hres
          | ok v =>
            rw [hr] at hres
            injection hres with hres
            injection hres with _ e2
            subst e2
            simp [Memory.complete]
        | some byt =>
          simp only at hres
          cases hr : Memory.read_enabled h byt bel addr data_length 0 m data with
          | error x =>
            rw [hr] at hres
            cases hres
          | ok v =>
            rw [hr] at hres
            injection hres with hres
            injection hres with _ e2
            subst e2
            simp [Memory.complete]
      | write =>
        simp only at hres
        by_cases hrom : m.p_rom = true
        · simp only [if_pos hrom] at hres
          injection hres with hres
          injection hres with _ e2
          subst e2
          simp
        · simp only [if_neg hrom] at hres
          cases be with
          | none =>
            simp only at hres
            cases hr : Memory.write h m data 0 addr data_length with
            | error x =>
              rw [hr] at hres
              cases hres
            | ok v =>
              rw [hr] at hres
              injection hres with hres
              injection hres with _ e2
              subst e2
              simp [Memory.complete]
          | some byt =>
            simp only at hres
            cases hr : Memory.write_enabled h byt bel addr data data_length 0 m with
            | error x =>
              rw [hr] at hres
              cases hres
            | ok v =>
              rw [hr] at hres
              injection hres with hres
              injection hres with _ e2
              subst e2
              simp [Memory.complete]
      | ignore => cases hres
/-- The address `b_transport` uses after its first check is the region offset. -/
theorem b_transport_addr {m : Memory} {address : Nat} (ha : address < U64)
    (hbase : ¬ ((!m.m_relative_addresses && decide (address < m.m_address)) = true)) :
    (if (!m.m_relative_addresses) = true then sub64 address m.m_address else address)
      = m.offset address := by
  unfold Memory.offset
  cases hr : m.m_relative_addresses with
  | true => simp
  | false =>
    simp only [Bool.not_false, if_true, Bool.false_eq_true, if_false]
    simp [hr] at hbase
    exact sub64_of_le hbase ha

/-- C2 (boundary rejection).  For every memory state and every transaction of
any command whose region offset (the address, minus the base in absolute mode)
and length satisfy `offset + len > size` without exceeding 64 bits,
`b_transport` returns with the address-error response and the memory, hence
every stored byte, exactly as it was. -/
theorem boundary_rejection (h : Host) (m : Memory) (txn : Txn) (hta : txn.address < U64)
    (hno : m.offset txn.address + txn.data_length < U64)
    (hover : m.offset txn.address + txn.data_length > m.m_size) :
    m.b_transport h txn = .ok (m, { txn with response := .address_error }) := by
  unfold Memory.b_transport
  simp only
  split
  · rfl
  · rename_i hbase
    rw [b_transport_addr hta hbase, add64_of_lt hno, if_pos hover]

/-- Instance of C2: a 2-byte write at offset `size - 1` of a 16-byte memory. -/
theorem boundary_rejection_witness :
    (demoWrite 15 [255, 255]).address < U64 ∧
    (demoMemory 0 true false).offset (demoWrite 15 [255, 255]).address
      + (demoWrite 15 [255, 255]).data_length < U64 ∧
    (demoMemory 0 true false).offset (demoWrite 15 [255, 255]).address
      + (demoWrite 15 [255, 255]).data_length > (demoMemory 0 true false).m_size ∧
    (demoMemory 0 true false).b_transport demoHost (demoWrite 15 [255, 255])
      = .ok (demoMemory 0 true false,
          { demoWrite 15 [255, 255] with response := .address_error }) :=
  ⟨by decide, by decide, by decide,
    boundary_rejection demoHost (demoMemory 0 true false) (demoWrite 15 [255, 255])
      (by decide) (by decide) (by decide)⟩

/-- C3 (failing input).  A 1-byte write to the last byte of a 16-byte writable
memory satisfies `offset + len <= size` and passes the bounds check of
`b_transport`, but fails `sc_assert(offset + len < m_size)` in `Memory::write`:
the call does not complete with an OK response. -/
theorem last_byte_write_fails_assertion :
    (demoMemory 0 true false).offset (demoWrite 15 [7]).address + (demoWrite 15 [7]).data_length
      ≤ (demoMemory 0 true false).m_size ∧
    (demoMemory 0 true false).b_transport demoHost (demoWrite 15 [7]) = .error .assertion ∧
    (demoMemory 0 true false).b_transport demoHost (demoRead 15 1) = .error .assertion := by
  refine ⟨by decide, rfl, rfl⟩

/-- C4 (failing input).  A 2-byte write at address `2^64 - 1` to a 16-byte
memory: the 64-bit sum `addr + len` wraps to 1, the transaction passes the
bounds check and the assertion, and `access` is called with an address outside
the root block, where it indexes `m_sub_blocks` out of range; on a memory that
is a single leaf the `memcpy` of `write_sub_blocks` starts at `&m_ptr[2^64 - 1]`,
outside the buffer.  The transaction is not answered with an address error. -/
theorem wrapping_write_not_rejected :
    (demoMemory 0 true false).b_transport demoHost (demoWrite (U64 - 1) [1, 2])
      = .error .undefined ∧
    demoFlatMemory.b_transport demoHost (demoWrite (U64 - 1) [1, 2]) = .error .undefined ∧
    responseOf ((demoMemory 0 true false).b_transport demoHost (demoWrite (U64 - 1) [1, 2]))
      ≠ some .address_error := by
  refine ⟨rfl, rfl, by decide⟩

/-- C5 (counterexample).  It is not the case that every write to a read-only
memory gets the command-error response: a 1-byte write at offset 16 of a
16-byte read-only memory gets the address-error response. -/
theorem rom_write_not_always_command_error :
    ¬ ∀ (h : Host) (m : Memory) (txn : Txn), m.p_rom = true → txn.command = .write →
        responseOf (m.b_transport h txn) = some .command_error := by
  intro hall
  have := hall demoHost (demoMemory 0 true true) (demoWrite 16 [4]) rfl rfl
  revert this
  decide

/-- C5 (amended).  For every read-only memory and every write transaction whose
region offset and length do not exceed 64 bits, `b_transport` returns with the
memory unchanged and with the address-error response when the address is below
the base in absolute mode or `offset + len > size`, and with the command-error
response otherwise. -/
theorem rom_write_response (h : Host) (m : Memory) (txn : Txn) (hrom : m.p_rom = true)
    (hc : txn.command = .write) (hta : txn.address < U64)
    (hno : m.offset txn.address + txn.data_length < U64) :
    m.b_transport h txn = .ok (m, { txn with response :=
      (if (m.m_relative_addresses = false ∧ txn.address < m.m_address) ∨
          m.offset txn.address + txn.data_length > m.m_size then Response.address_error
        else Response.command_error) }) := by
  unfold Memory.b_transport
  simp only [hc]
  by_cases hbase : (!m.m_relative_addresses && decide (txn.address < m.m_address)) = true
  · rw [if_pos hbase]
    simp only [Bool.and_eq_true, Bool.not_eq_true', decide_eq_true_eq] at hbase
    rw [if_pos (Or.inl hbase)]
  · rw [if_neg hbase, b_transport_addr hta hbase, add64_of_lt hno]
    simp only [Bool.and_eq_true, Bool.not_eq_true', decide_eq_true_eq] at hbase
    by_cases hov : m.offset txn.address + txn.data_length > m.m_size
    · rw [if_pos hov, if_pos (Or.inr hov)]
    · rw [if_neg hov, if_pos hrom, if_neg (not_or.mpr ⟨hbase, hov⟩)]

/-- Instance of C5 (amended): a 4-byte write inside a 16-byte read-only memory
is answered with the command error and changes nothing. -/
theorem rom_write_response_witness :
    (demoMemory 0 true true).p_rom = true ∧ (demoWrite 4 [1, 2, 3, 4]).command = .write ∧
    (demoMemory 0 true true).b_transport demoHost (demoWrite 4 [1, 2, 3, 4])
      = .ok (demoMemory 0 true true,
          { demoWrite 4 [1, 2, 3, 4] with response := .command_error }) :=
  ⟨rfl, rfl,
    rom_write_response demoHost (demoMemory 0 true true) (demoWrite 4 [1, 2, 3, 4]) rfl rfl
      (by decide) (by decide)⟩
/-- C6 (failing input).  On a 16-byte read-only memory a 1-byte read of the last
byte is in bounds, yet neither `b_transport` nor `transport_dbg` returns OK with
the stored byte: `sc_assert(offset + len < m_size)` in `Memory::read` fails. -/
theorem rom_last_byte_read_fails_assertion :
    (demoMemory 0 true true).p_rom = true ∧
    (demoMemory 0 true true).offset (demoRead 15 1).address + (demoRead 15 1).data_length
      ≤ (demoMemory 0 true true).m_size ∧
    (demoMemory 0 true true).b_transport demoHost (demoRead 15 1) = .error .assertion ∧
    (demoMemory 0 true true).transport_dbg demoHost (demoRead 15 1) = .error .assertion := by
  refine ⟨rfl, by decide, rfl, rfl⟩

/-- C7 (failing inputs).  In absolute mode with base `0x1000` and size 16 a
1-byte write at address `0x100F` has `base <= A` and `(A - base) + len = size`,
yet it is not served: the assertion of `Memory::write` fails.  With base 0 a
2-byte access at address `2^64 - 1` has `(A - base) + len > size`, in either
address mode, yet it is not answered with an address error: the 64-bit sum
wraps and the access runs outside the root block. -/
theorem address_mode_boundary_failures :
    (demoMemory 4096 false false).m_address ≤ (demoWrite 4111 [7]).address ∧
    ((demoWrite 4111 [7]).address - (demoMemory 4096 false false).m_address)
      + (demoWrite 4111 [7]).data_length ≤ (demoMemory 4096 false false).m_size ∧
    (demoMemory 4096 false false).b_transport demoHost (demoWrite 4111 [7]) = .error .assertion ∧
    (demoMemory 0 false false).b_transport demoHost (demoWrite (U64 - 1) [1, 2])
      = .error .undefined ∧
    (demoMemory 0 true false).b_transport demoHost (demoRead (U64 - 1) 2)
      = .error .undefined := by
  refine ⟨by decide, by decide, rfl, rfl, rfl⟩

/-- C8 (debug transport return value).  `Memory::transport_dbg` is
`b_transport` followed by the choice of the return value: the data length of the
transaction when the response it finds is OK, and 0 for the two other responses
`b_transport` can leave, address error and command error; the data length of the
transaction is not changed by the call.  `Router::transport_dbg` returns 0 with
the address-error response and nothing else changed when the address decodes to
no target, and otherwise hands the transaction, with the address translated for
a region-relative target, to the matched target and returns that target's return
value with that target's transaction, the address restored. -/
theorem transport_dbg_return_value (h : Host) (m : Memory) (txn : Txn) (σ : Type)
    (initiator_socket : List (Target σ)) (r : Router) (s : σ) :
    (m.transport_dbg h txn =
      match m.b_transport h txn with
      | .ok (m1, t1) => .ok (m1, t1, if t1.response = .ok then txn.data_length else 0)
      | .error e => .error e) ∧
    (∀ m1 t1 ret, m.transport_dbg h txn = .ok (m1, t1, ret) →
      t1.data_length = txn.data_length ∧
      ((t1.response = .ok ∧ ret = txn.data_length) ∨
       ((t1.response = .address_error ∨ t1.response = .command_error) ∧ ret = 0))) ∧
    (r.decode_address txn.address = none →
      r.transport_dbg initiator_socket txn s
        = .ok (s, { txn with response := .address_error }, 0)) ∧
    (∀ ti tgt, r.decode_address txn.address = some ti →
      initiator_socket.get? ti.index = some tgt →
      r.transport_dbg initiator_socket txn s =
        match tgt.transport_dbg
          (if ti.mask_addr then { txn with address := sub64 txn.address ti.address } else txn) s with
        | .ok (s1, t2, ret) =>
          .ok (s1, (if ti.mask_addr then { t2 with address := txn.address } else t2), ret)
        | .error e => .error e) := by
  refine ⟨?_, ?_, ?_, ?_⟩
  · unfold Memory.transport_dbg
    simp only
    cases m.b_transport h txn with
    | error e => rfl
    | ok v =>
      obtain ⟨m1, t1⟩ := v
      simp only
      split <;> rename_i hr <;> simp [hr]
  · intro m1 t1 ret hd
    unfold Memory.transport_dbg at hd
    simp only at hd
    cases hb : m.b_transport h txn with
    | error e =>
      rw [hb] at hd
      cases hd
    | ok v =>
      obtain ⟨m2, t2⟩ := v
      rw [hb] at hd
      simp only at hd
      obtain ⟨_, f2, _, f4⟩ := b_transport_frame hb
      split at hd
      · rename_i hr
        injection hd with hd
        injection hd with _ hd
        injection hd with e2 e3
        subst e2 e3
        exact ⟨f2, Or.inl ⟨hr, rfl⟩⟩
      · rename_i hr
        injection hd with hd
        injection hd with _ hd
        injection hd with e2 e3
        subst e2 e3
        refine ⟨f2, Or.inr ⟨?_, rfl⟩⟩
        rcases f4 with f4 | f4 | f4
        · exact absurd f4 hr
        · exact Or.inl f4
        · exact Or.inr f4
  · intro hnone
    unfold Router.transport_dbg
    simp only [hnone]
  · intro ti tgt hsome hsock
    unfold Router.transport_dbg
    simp only [hsome, hsock]
    cases tgt.transport_dbg
        (if ti.mask_addr = true then { txn with address := sub64 txn.address ti.address }
          else txn) s with
    | error e => rfl
    | ok v =>
      obtain ⟨s1, t2, ret⟩ := v
      rfl
/-- Instance of C8: a 1-byte debug write routed to the first memory. -/
theorem transport_dbg_return_value_witness :
    (demoMemory 0 true false).transport_dbg demoHost (demoWrite 0 [4]) =
      match (demoMemory 0 true false).b_transport demoHost (demoWrite 0 [4]) with
      | .ok (m1, t1) =>
        .ok (m1, t1, if t1.response = .ok then (demoWrite 0 [4]).data_length else 0)
      | .error e => .error e :=
  (transport_dbg_return_value demoHost (demoMemory 0 true false) (demoWrite 0 [4]) (List Memory)
    (memorySockets demoHost 2) demoRouter
    [demoMemory 0 true false, demoMemory 8192 true false]).1

/-! ## Router -/

theorem stamp_txn_ext (r : Router) (id : Int) (txn : Txn) :
    ∃ r1 e0, r.stamp_txn id txn = (r1, { txn with ext := some (e0 ++ [id]) }) := by
  unfold Router.stamp_txn
  cases txn.ext with
  | some ext => exact ⟨_, ext, rfl⟩
  | none =>
    simp only
    cases r.m_pathIDPool.getLast? with
    | none => exact ⟨_, [], rfl⟩
    | some ext => exact ⟨_, ext, rfl⟩

theorem unstamp_txn_ext (r : Router) (id : Int) (txn : Txn) (e0 : List Int)
    (hext : txn.ext = some (e0 ++ [id])) :
    ∃ r1 e1, r.unstamp_txn id txn = .ok (r1, { txn with ext := e1 }) := by
  have h1 : (e0 ++ [id]).getLast? = some id := by simp
  have h2 : (e0 ++ [id]).dropLast = e0 := by simp
  unfold Router.unstamp_txn
  rw [hext]
  simp only [h1, h2, if_true]
  by_cases hl : e0.length = 0
  · rw [if_pos hl]
    exact ⟨_, _, rfl⟩
  · rw [if_neg hl]
    exact ⟨_, _, rfl⟩

theorem memorySockets_get? (h : Host) (n k : Nat) :
    (memorySockets h n).get? k = if k < n then some (Memory.target h k) else none := by
  unfold memorySockets
  rw [List.get?_eq_getElem?, List.getElem?_map]
  by_cases hk : k < n
  · rw [if_pos hk, List.getElem?_range hk]
    rfl
  · rw [if_neg hk, List.getElem?_eq_none (by simp; omega)]
    rfl

/-- C9 (debug and blocking transport are interchangeable).  For every router,
every list of memories bound to it, every memory state and every transaction,
the blocking call and the debug call through the router either both fail in the
same way or both return, leaving the same memories, the same response status and
the same data buffer. -/
theorem debug_blocking_interchangeable (h : Host) (n : Nat) (r : Router) (id : Int) (txn : Txn)
    (ms : List Memory) :
    observedBlocking (r.b_transport (memorySockets h n) id txn ms)
      = observedDebug (r.transport_dbg (memorySockets h n) txn ms) := by
  unfold Router.b_transport Router.transport_dbg
  simp only
  cases r.decode_address txn.address with
  | none => rfl
  | some ti =>
    simp only
    obtain ⟨r1, e0, hst⟩ := stamp_txn_ext r id txn
    rw [hst]
    simp only [memorySockets_get?]
    by_cases hk : ti.index < n
    · simp only [if_pos hk, Memory.target]
      cases ms.get? ti.index with
      | none => rfl
      | some mem =>
        simp only
        generalize htr : (if ti.mask_addr = true then
            { txn with address := sub64 txn.address ti.address } else txn) = tdown
        have hE : (if ti.mask_addr = true then
              { ({ txn with ext := some (e0 ++ [id]) } : Txn) with
                address := sub64 txn.address ti.address }
            else { txn with ext := some (e0 ++ [id]) })
            = { tdown with ext := some (e0 ++ [id]) } := by
          rw [← htr]
          split <;> rfl
        rw [hE, b_transport_ext]
        unfold Memory.transport_dbg
        simp only
        cases Memory.b_transport h mem tdown with
        | error e => rfl
        | ok v =>
          obtain ⟨m1, t1⟩ := v
          simp only
          generalize hup : (if ti.mask_addr = true then
                { ({ t1 with ext := some (e0 ++ [id]) } : Txn) with address := txn.address }
              else { t1 with ext := some (e0 ++ [id]) }) = tup
          have hext : tup.ext = some (e0 ++ [id]) := by
            rw [← hup]
            split <;> rfl
          have hresp : tup.response = t1.response ∧ tup.data = t1.data := by
            rw [← hup]
            split <;> exact ⟨rfl, rfl⟩
          obtain ⟨r2, e1, hun⟩ := unstamp_txn_ext r1 id tup e0 hext
          rw [hun]
          simp only [observedBlocking]
          rw [hresp.1, hresp.2]
          by_cases hr : t1.response = .ok
          · simp only [if_pos hr, observedDebug]
            split <;> rfl
          · simp only [if_neg hr, observedDebug]
            split <;> rfl
    · simp only [if_neg hk]
      rfl
/-- Instance of C9: a 1-byte write to the second memory of the test bench. -/
theorem debug_blocking_interchangeable_witness :
    observedBlocking (demoRouter.b_transport (memorySockets demoHost 2) 0 (demoWrite 8192 [4])
        [demoMemory 0 true false, demoMemory 8192 true false])
      = observedDebug (demoRouter.transport_dbg (memorySockets demoHost 2) (demoWrite 8192 [4])
        [demoMemory 0 true false, demoMemory 8192 true false]) :=
  debug_blocking_interchangeable demoHost 2 demoRouter 0 (demoWrite 8192 [4])
    [demoMemory 0 true false, demoMemory 8192 true false]

theorem decode_loop_some (addr : Nat) : ∀ (l : List target_info) (ti : target_info),
    decode_loop l addr = some ti ↔
      ∃ i, l.get? i = some ti ∧ ti.matches addr = true ∧
        ∀ j tj, j < i → l.get? j = some tj → tj.matches addr = false := by
  intro l
  induction l with
  | nil =>
    intro ti
    simp [decode_loop]
  | cons t rest ih =>
    intro ti
    unfold decode_loop
    by_cases hm : t.matches addr = true
    · rw [if_pos hm]
      constructor
      · intro he
        injection he with he
        subst he
        exact ⟨0, rfl, hm, fun j tj hj => absurd hj (Nat.not_lt_zero j)⟩
      · rintro ⟨i, hi, _, hfirst⟩
        cases i with
        | zero =>
          simp only [List.get?] at hi
          rw [hi]
        | succ k =>
          have := hfirst 0 t (Nat.succ_pos k) rfl
          rw [hm] at this
          cases this
    · rw [if_neg hm, ih ti]
      constructor
      · rintro ⟨i, hi, hmi, hfirst⟩
        refine ⟨i + 1, hi, hmi, ?_⟩
        intro j tj hj hget
        cases j with
        | zero =>
          simp only [List.get?] at hget
          injection hget with hget
          subst hget
          simpa using hm
        | succ k => exact hfirst k tj (by omega) hget
      · rintro ⟨i, hi, hmi, hfirst⟩
        cases i with
        | zero =>
          simp only [List.get?] at hi
          injection hi with hi
          subst hi
          exact absurd hmi hm
        | succ k =>
          exact ⟨k, hi, hmi, fun j tj hj hget => hfirst (j + 1) tj (by omega) hget⟩

theorem decode_loop_none (addr : Nat) : ∀ (l : List target_info),
    decode_loop l addr = none ↔ ∀ ti ∈ l, ti.matches addr = false := by
  intro l
  induction l with
  | nil => simp [decode_loop]
  | cons t rest ih =>
    unfold decode_loop
    by_cases hm : t.matches addr = true
    · rw [if_pos hm]
      simp [hm]
    · rw [if_neg hm, ih]
      simp at hm
      simp [hm]

/-- First match.  For every target table and every address,
`decode_address` returns an entry exactly when it is the entry at the smallest
table position whose range test `base <= addr < base + size` (the sum taken in
64 bits, as in the source) holds, so that on overlap the first inserted entry
wins, and it returns no match exactly when the test fails for every entry.  For
an entry with `base + size < 2^64` the test is membership in the interval
`[base, base + size)`.  For the table `[(T0, 0, 0x1000), (T1, 0x2000, 0x1000)]`
address `0x0FFF` gives T0, `0x2000` gives T1 and `0x1500` gives no match. -/
theorem decode_address_first_match (r : Router) (addr : Nat) :
    (∀ ti, r.decode_address addr = some ti ↔
      ∃ i, r.targets.get? i = some ti ∧ ti.matches addr = true ∧
        ∀ j tj, j < i → r.targets.get? j = some tj → tj.matches addr = false) ∧
    (r.decode_address addr = none ↔ ∀ ti ∈ r.targets, ti.matches addr = false) ∧
    (∀ ti : target_info, ti.address + ti.size < U64 →
      (ti.matches addr = true ↔ ti.address ≤ addr ∧ addr < ti.address + ti.size)) ∧
    demoRouter.decode_address 4095 = demoTable.get? 0 ∧
    demoRouter.decode_address 8192 = demoTable.get? 1 ∧
    demoRouter.decode_address 5376 = none := by
  refine ⟨decode_loop_some addr r.targets, decode_loop_none addr r.targets, ?_, by decide,
    by decide, by decide⟩
  intro ti hfit
  unfold target_info.matches
  rw [add64_of_lt hfit]
  simp

/-- Instance of the first match on a table with two overlapping entries: the address `0x10`
lies in both and the first inserted entry is returned. -/
theorem decode_address_first_match_witness :
    demoOverlapRouter.decode_address 16
        = some { index := 0, name := "A", address := 0, size := 256, mask_addr := true } ↔
      ∃ i, demoOverlapRouter.targets.get? i
          = some { index := 0, name := "A", address := 0, size := 256, mask_addr := true } ∧
        ({ index := 0, name := "A", address := 0, size := 256, mask_addr := true }
          : target_info).matches 16 = true ∧
        ∀ j tj, j < i → demoOverlapRouter.targets.get? j = some tj → tj.matches 16 = false :=
  (decode_address_first_match demoOverlapRouter 16).1
    { index := 0, name := "A", address := 0, size := 256, mask_addr := true }

/-! ## Claims on decoding and forwarding -/

/-- C11 (failing input).  A target whose range ends at the top of the address
space, base `2^64 - 0x1000` and size `0x1000`: every address from the base to
`2^64 - 1` has `base <= addr` and `addr - base < size`, yet the range test of
`decode_address` fails for it, because the 64-bit sum `base + size` wraps to 0;
the address `2^64 - 1` decodes to no target. -/
theorem top_of_address_space_never_matches :
    demoTopRouter.targets = [demoTopEntry] ∧
    demoTopEntry.address ≤ U64 - 1 ∧ (U64 - 1) - demoTopEntry.address < demoTopEntry.size ∧
    demoTopEntry.matches (U64 - 1) = false ∧
    demoTopRouter.decode_address (U64 - 1) = none ∧
    (∀ addr, demoTopEntry.matches addr = false) := by
  refine ⟨rfl, by decide, by decide, by decide, by decide, ?_⟩
  intro addr
  simp [target_info.matches, demoTopEntry, add64, U64]

/-- C13 (decode miss).  For every router, every set of bound targets and every
transaction whose address matches no table entry, `Router::b_transport` returns
with the address-error response set and nothing else changed: the router with
its tag pool, the state of everything below the router (no target is invoked),
and the address, the path tag and every other attribute of the transaction. -/
theorem decode_miss_is_terminal (σ : Type) (initiator_socket : List (Target σ)) (r : Router)
    (id : Int) (txn : Txn) (s : σ) (hmiss : ∀ ti ∈ r.targets, ti.matches txn.address = false) :
    r.b_transport initiator_socket id txn s = .ok (r, s, { txn with response := .address_error }) ∧
    ({ txn with response := .address_error } : Txn).address = txn.address ∧
    ({ txn with response := .address_error } : Txn).ext = txn.ext := by
  have hnone : r.decode_address txn.address = none := (decode_loop_none txn.address r.targets).2 hmiss
  refine ⟨?_, rfl, rfl⟩
  unfold Router.b_transport
  simp only [hnone]

/-- Instance of C13: address `0x1500` lies in the gap of the table
`[(T0, 0, 0x1000), (T1, 0x2000, 0x1000)]`. -/
theorem decode_miss_is_terminal_witness :
    (∀ ti ∈ demoRouter.targets, ti.matches (demoWrite 5376 [4]).address = false) ∧
    demoRouter.b_transport [probe 0 none, probe 0 none] 0 (demoWrite 5376 [4]) []
      = .ok (demoRouter, [], { demoWrite 5376 [4] with response := .address_error }) :=
  ⟨by decide,
    (decode_miss_is_terminal (List Txn) [probe 0 none, probe 0 none] demoRouter 0
      (demoWrite 5376 [4]) [] (by decide)).1⟩

/-- `stamp_txn` changes nothing of the transaction but its path tag. -/
theorem stamp_txn_fields (r : Router) (id : Int) (txn : Txn) :
    (r.stamp_txn id txn).2 = { txn with ext := (r.stamp_txn id txn).2.ext } := by
  unfold Router.stamp_txn
  cases txn.ext with
  | some ext => rfl
  | none =>
    simp only
    cases r.m_pathIDPool.getLast? with
    | none => rfl
    | some ext => rfl

/-- The forward call of `Router::b_transport`: when the address decodes to the
entry `ti` bound to `tgt`, the router calls `tgt` with the stamped transaction,
the address translated for a region-relative entry, then restores the address
for a region-relative entry and unstamps. -/
theorem b_transport_forward {σ : Type} (initiator_socket : List (Target σ)) (r : Router)
    (id : Int) (txn : Txn) (s : σ) (ti : target_info) (tgt : Target σ)
    (hdec : r.decode_address txn.address = some ti)
    (hsock : initiator_socket.get? ti.index = some tgt) :
    r.b_transport initiator_socket id txn s =
      match tgt.b_transport
          { (r.stamp_txn id txn).2 with
            address := if ti.mask_addr then sub64 txn.address ti.address else txn.address } s with
      | .error e => .error e
      | .ok (s1, t3) =>
        match (r.stamp_txn id txn).1.unstamp_txn id
            (if ti.mask_addr then { t3 with address := txn.address } else t3) with
        | .error e => .error e
        | .ok (r2, t5) => .ok (r2, s1, t5) := by
  unfold Router.b_transport
  simp only [hdec, hsock]
  have haddr : (r.stamp_txn id txn).2.address = txn.address := by
    rw [stamp_txn_fields]
  have heta : ({ (r.stamp_txn id txn).2 with address := txn.address } : Txn)
      = (r.stamp_txn id txn).2 := by
    rw [← haddr]
  cases hm : ti.mask_addr with
  | true =>
    simp only [if_true]
  | false =>
    simp only [Bool.false_eq_true, if_false]
    rw [heta]

theorem transport_dbg_forward {σ : Type} (initiator_socket : List (Target σ)) (r : Router)
    (txn : Txn) (s : σ) (ti : target_info) (tgt : Target σ)
    (hdec : r.decode_address txn.address = some ti)
    (hsock : initiator_socket.get? ti.index = some tgt) :
    r.transport_dbg initiator_socket txn s =
      match tgt.transport_dbg
          { txn with
            address := if ti.mask_addr then sub64 txn.address ti.address else txn.address } s with
      | .error e => .error e
      | .ok (s1, t2, ret) =>
        .ok (s1, (if ti.mask_addr then { t2 with address := txn.address } else t2), ret) := by
  unfold Router.transport_dbg
  simp only [hdec, hsock]
  cases hm : ti.mask_addr with
  | true =>
    simp only [if_true]
  | false =>
    simp only [Bool.false_eq_true, if_false]

theorem get_direct_mem_ptr_forward {σ : Type} (initiator_socket : List (Target σ)) (r : Router)
    (txn : Txn) (dmi_data : tlm_dmi) (s : σ) (ti : target_info) (tgt : Target σ)
    (hdec : r.decode_address txn.address = some ti)
    (hsock : initiator_socket.get? ti.index = some tgt) :
    r.get_direct_mem_ptr initiator_socket txn dmi_data s =
      match tgt.get_direct_mem_ptr
          { txn with
            address := if ti.mask_addr then sub64 txn.address ti.address else txn.address }
          dmi_data s with
      | .error e => .error e
      | .ok (s1, t2, dmi1, status) =>
        if ti.mask_addr then
          match r.compose_address ti.index dmi1.start_address with
          | .error e => .error e
          | .ok start =>
            match r.compose_address ti.index dmi1.end_address with
            | .error e => .error e
            | .ok stop =>
              .ok (s1, { t2 with address := txn.address },
                { dmi1 with start_address := start, end_address := stop }, status)
        else .ok (s1, t2, dmi1, status) := by
  unfold Router.get_direct_mem_ptr
  simp only [hdec, hsock]
  cases hm : ti.mask_addr with
  | true =>
    simp only [if_true]
  | false =>
    simp only [Bool.false_eq_true, if_false]

theorem decode_address_matches {r : Router} {addr : Nat} {ti : target_info}
    (hdec : r.decode_address addr = some ti) : ti.address ≤ addr := by
  obtain ⟨_, _, hm, _⟩ := (decode_loop_some addr r.targets ti).1 hdec
  unfold target_info.matches at hm
  simp only [Bool.and_eq_true, decide_eq_true_eq] at hm
  exact hm.1

/-- A returning `unstamp_txn` changes nothing of the transaction but its path
tag. -/
theorem unstamp_txn_fields {r r1 : Router} {id : Int} {t t1 : Txn}
    (hu : r.unstamp_txn id t = .ok (r1, t1)) : t1 = { t with ext := t1.ext } := by
  unfold Router.unstamp_txn at hu
  split at hu
  · cases hu
  · split at hu
    · cases hu
    · split at hu
      · split at hu
        · injection hu with hu
          injection hu with _ e2
          subst e2
          rfl
        · injection hu with hu
          injection hu with _ e2
          subst e2
          rfl
      · cases hu

/-- C12 (address translation is local and reversible).  For every transaction
that decodes to the entry `ti` bound to the target `tgt`, each of
`Router::b_transport`, `transport_dbg` and `get_direct_mem_ptr` calls `tgt` with
the address field `addr - ti.base` when `ti` is region-relative and `addr` when
it is pass-through, and continues from what `tgt` returns; and for a
region-relative entry, whenever the router call returns, the address field of the
transaction is the original `addr`, whatever address `tgt` left in it. -/
theorem address_translation_reversible (σ : Type) (initiator_socket : List (Target σ))
    (r : Router) (id : Int) (txn : Txn) (dmi_data : tlm_dmi) (s : σ) (ti : target_info)
    (tgt : Target σ) (hta : txn.address < U64)
    (hdec : r.decode_address txn.address = some ti)
    (hsock : initiator_socket.get? ti.index = some tgt) :
    (r.b_transport initiator_socket id txn s =
      match tgt.b_transport
          { (r.stamp_txn id txn).2 with
            address := if ti.mask_addr then txn.address - ti.address else txn.address } s with
      | .error e => .error e
      | .ok (s1, t3) =>
        match (r.stamp_txn id txn).1.unstamp_txn id
            (if ti.mask_addr then { t3 with address := txn.address } else t3) with
        | .error e => .error e
        | .ok (r2, t5) => .ok (r2, s1, t5)) ∧
    (r.transport_dbg initiator_socket txn s =
      match tgt.transport_dbg
          { txn with
            address := if ti.mask_addr then txn.address - ti.address else txn.address } s with
      | .error e => .error e
      | .ok (s1, t2, ret) =>
        .ok (s1, (if ti.mask_addr then { t2 with address := txn.address } else t2), ret)) ∧
    (r.get_direct_mem_ptr initiator_socket txn dmi_data s =
      match tgt.get_direct_mem_ptr
          { txn with
            address := if ti.mask_addr then txn.address - ti.address else txn.address }
          dmi_data s with
      | .error e => .error e
      | .ok (s1, t2, dmi1, status) =>
        if ti.mask_addr then
          match r.compose_address ti.index dmi1.start_address with
          | .error e => .error e
          | .ok start =>
            match r.compose_address ti.index dmi1.end_address with
            | .error e => .error e
            | .ok stop =>
              .ok (s1, { t2 with address := txn.address },
                { dmi1 with start_address := start, end_address := stop }, status)
        else .ok (s1, t2, dmi1, status)) ∧
    (ti.mask_addr = true →
      (∀ r2 s2 t5, r.b_transport initiator_socket id txn s = .ok (r2, s2, t5) →
        t5.address = txn.address) ∧
      (∀ s2 t2 ret, r.transport_dbg initiator_socket txn s = .ok (s2, t2, ret) →
        t2.address = txn.address) ∧
      (∀ s2 t2 dmi2 status, r.get_direct_mem_ptr initiator_socket txn dmi_data s
          = .ok (s2, t2, dmi2, status) → t2.address = txn.address)) := by
  have hsub : sub64 txn.address ti.address = txn.address - ti.address :=
    sub64_of_le (decode_address_matches hdec) hta
  have hb := b_transport_forward initiator_socket r id txn s ti tgt hdec hsock
  have hd := transport_dbg_forward initiator_socket r txn s ti tgt hdec hsock
  have hg := get_direct_mem_ptr_forward initiator_socket r txn dmi_data s ti tgt hdec hsock
  rw [hsub] at hb hd hg
  refine ⟨hb, hd, hg, ?_⟩
  intro hmask
  simp only [hmask, if_true] at hb hd hg
  refine ⟨?_, ?_, ?_⟩
  · intro r2 s2 t5 hres
    rw [hb] at hres
    split at hres
    · cases hres
    · split at hres
      · cases hres
      · rename_i hun
        injection hres with hres
        injection hres with _ hres
        injection hres with _ e3
        subst e3
        rw [unstamp_txn_fields hun]
  · intro s2 t2 ret hres
    rw [hd] at hres
    split at hres
    · cases hres
    · injection hres with hres
      injection hres with _ hres
      injection hres with e2 _
      subst e2
      rfl
  · intro s2 t2 dmi2 status hres
    rw [hg] at hres
    split at hres
    · cases hres
    · split at hres
      · cases hres
      · split at hres
        · cases hres
        · injection hres with hres
          injection hres with _ hres
          injection hres with e2 _
          subst e2
          rfl

/-- Instance of C12: a write at `0x2004` through the table
`[(T0, 0, 0x1000), (T1, 0x2000, 0x1000)]` reaches the second target, a probe
that overwrites the address with `0xDEAD`, with address 4, and returns with
address `0x2004`. -/
theorem address_translation_reversible_witness :
    demoRouter.b_transport [probe 0 none, probe 57005 none] 0 (demoWrite 8196 [4]) []
      = .ok ({ demoRouter with m_pathIDPool := [[]] },
          [{ demoWrite 8196 [4] with address := 4, ext := some [0] }],
          { demoWrite 8196 [4] with response := .ok }) ∧
    ∀ r2 s2 t5,
      demoRouter.b_transport [probe 0 none, probe 57005 none] 0 (demoWrite 8196 [4]) []
        = .ok (r2, s2, t5) → t5.address = (demoWrite 8196 [4]).address :=
  ⟨rfl,
    ((address_translation_reversible (List Txn) [probe 0 none, probe 57005 none] demoRouter 0
      (demoWrite 8196 [4]) tlm_dmi.init []
      { index := 1, name := "T1", address := 8192, size := 4096, mask_addr := true }
      (probe 57005 none) (by decide) (by decide) rfl).2.2.2 rfl).1⟩

/-- C14 (counterexample).  A write at `0x2004` arriving on port 7 of the router
with the table `[(T0, 0, 0x1000), (T1, 0x2000, 0x1000)]` decodes to the entry
with index 1, and the target receives it with the path tag `[7]`: the entry
pushed is not the index of the matched target. -/
theorem pushed_entry_is_not_target_index :
    demoRouter.decode_address (demoWrite 8196 [4]).address
      = some { index := 1, name := "T1", address := 8192, size := 4096, mask_addr := true } ∧
    demoRouter.b_transport [probe 0 none, probe 0 none] 7 (demoWrite 8196 [4]) []
      = .ok ({ demoRouter with m_pathIDPool := [[]] },
          [{ demoWrite 8196 [4] with address := 4, ext := some [7] }],
          { demoWrite 8196 [4] with response := .ok }) ∧
    ([7] : List Int).getLast? ≠ some 1 := by
  refine ⟨by decide, rfl, by decide⟩

/-- C14 (amended).  For every transaction that `Router::b_transport` forwards,
the entry pushed on the path tag is the `id` with which `b_transport` was called,
the port of the router's target socket on which the transaction arrived: the
matched target is called with a tag whose last entry is `id`, pushed after the
entries the tag had on arrival. -/
theorem pushed_entry_is_port_id (σ : Type) (initiator_socket : List (Target σ))
    (r : Router) (id : Int) (txn : Txn) (s : σ) (ti : target_info) (tgt : Target σ)
    (hdec : r.decode_address txn.address = some ti)
    (hsock : initiator_socket.get? ti.index = some tgt) :
    (r.b_transport initiator_socket id txn s =
      match tgt.b_transport
          { (r.stamp_txn id txn).2 with
            address := if ti.mask_addr then sub64 txn.address ti.address else txn.address } s with
      | .error e => .error e
      | .ok (s1, t3) =>
        match (r.stamp_txn id txn).1.unstamp_txn id
            (if ti.mask_addr then { t3 with address := txn.address } else t3) with
        | .error e => .error e
        | .ok (r2, t5) => .ok (r2, s1, t5)) ∧
    (∃ e0, (r.stamp_txn id txn).2.ext = some (e0 ++ [id])) ∧
    (∀ e, txn.ext = some e → (r.stamp_txn id txn).2.ext = some (e ++ [id])) := by
  refine ⟨b_transport_forward initiator_socket r id txn s ti tgt hdec hsock, ?_, ?_⟩
  · obtain ⟨r1, e0, hst⟩ := stamp_txn_ext r id txn
    exact ⟨e0, by rw [hst]⟩
  · intro e he
    unfold Router.stamp_txn
    rw [he]

/-- Instance of C14 (amended): the write at `0x2004` arriving on port 7. -/
theorem pushed_entry_is_port_id_witness :
    demoRouter.decode_address (demoWrite 8196 [4]).address
      = some { index := 1, name := "T1", address := 8192, size := 4096, mask_addr := true } ∧
    ∃ e0, (demoRouter.stamp_txn 7 (demoWrite 8196 [4])).2.ext = some (e0 ++ [7]) :=
  ⟨by decide,
    (pushed_entry_is_port_id (List Txn) [probe 0 none, probe 0 none] demoRouter 7
      (demoWrite 8196 [4]) []
      { index := 1, name := "T1", address := 8192, size := 4096, mask_addr := true }
      (probe 0 none) (by decide) rfl).2.1⟩

/-! ## The tag pool -/

/-- What a returning `unstamp_txn` does: the tag of the transaction ends with
`id`; the entry is removed; the tag is detached and put at the back of the pool
exactly when no entry is left. -/
theorem unstamp_txn_ok {r r1 : Router} {id : Int} {txn t1 : Txn}
    (hu : r.unstamp_txn id txn = .ok (r1, t1)) :
    ∃ e, txn.ext = some (e ++ [id]) ∧
      ((e = [] ∧ t1.ext = none ∧ r1.m_pathIDPool = r.m_pathIDPool ++ [[]]) ∨
       (e ≠ [] ∧ t1.ext = some e ∧ r1.m_pathIDPool = r.m_pathIDPool)) ∧
      r1.targets = r.targets := by
  unfold Router.unstamp_txn at hu
  split at hu
  · cases hu
  · rename_i ext hext
    split at hu
    · cases hu
    · rename_i b hb
      split at hu
      · rename_i hbid
        subst hbid
        have hcat : ext = ext.dropLast ++ [b] := by
          have := List.dropLast_append_getLast? b (by simpa using hb)
          exact this.symm
        refine ⟨ext.dropLast, by rw [hext, ← hcat], ?_⟩
        split at hu
        · rename_i hl
          injection hu with hu
          injection hu with e1 e2
          subst e1 e2
          have hnil : ext.dropLast = [] := List.length_eq_zero.mp hl
          refine ⟨Or.inl ⟨hnil, rfl, ?_⟩, rfl⟩
          simp only [hnil]
        · rename_i hl
          injection hu with hu
          injection hu with e1 e2
          subst e1 e2
          have hnn : ext.dropLast ≠ [] := fun hc => hl (by rw [hc]; rfl)
          exact ⟨Or.inr ⟨hnn, rfl, rfl⟩, rfl⟩
      · cases hu

theorem stamp_txn_pool (r : Router) (id : Int) (txn : Txn) :
    (∀ e, txn.ext = some e →
      r.stamp_txn id txn = (r, { txn with ext := some (e ++ [id]) })) ∧
    (txn.ext = none → r.m_pathIDPool = [] →
      r.stamp_txn id txn = (r, { txn with ext := some [id] })) ∧
    (∀ e, txn.ext = none → r.m_pathIDPool.getLast? = some e →
      r.stamp_txn id txn = ({ r with m_pathIDPool := r.m_pathIDPool.dropLast },
        { txn with ext := some (e ++ [id]) })) := by
  refine ⟨?_, ?_, ?_⟩
  · intro e he
    unfold Router.stamp_txn
    rw [he]
  · intro he hp
    unfold Router.stamp_txn
    rw [he, hp]
    rfl
  · intro e he hp
    unfold Router.stamp_txn
    rw [he, hp]

theorem reachable_pool_empty {r : Router} (hr : Router.Reachable r) :
    ∀ e ∈ r.m_pathIDPool, e = [] := by
  induction hr with
  | init targets =>
    intro e he
    cases he
  | stamp r id txn _ ih =>
    intro e he
    apply ih e
    unfold Router.stamp_txn at he
    split at he
    · exact he
    · split at he
      · exact he
      · exact List.mem_of_mem_dropLast he
  | unstamp r id txn r1 t1 _ hu ih =>
    intro e he
    obtain ⟨e0, _, hcase, _⟩ := unstamp_txn_ok hu
    rcases hcase with ⟨_, _, hp⟩ | ⟨_, _, hp⟩
    · rw [hp] at he
      rcases List.mem_append.mp he with h1 | h1
      · exact ih e h1
      · simpa using h1
    · rw [hp] at he
      exact ih e he

/-- C17 (pool invariant).  In every state of a router reachable from its
construction through `stamp_txn` and returning `unstamp_txn` calls, on any
transactions, every tag at rest in the pool is empty.  A returning
`unstamp_txn(id, txn)` removes the last entry `id` of the tag, and detaches the
tag and appends it to the pool exactly when no entry is left; otherwise the tag
stays attached and the pool is unchanged.  A tag `stamp_txn` takes from the pool,
for a transaction carrying none, holds exactly the pushed `id` afterwards and is
no longer in the pool. -/
theorem pool_invariant (r : Router) (hr : Router.Reachable r) (id : Int) (txn : Txn) :
    (∀ e ∈ r.m_pathIDPool, e = []) ∧
    (∀ r1 t1, r.unstamp_txn id txn = .ok (r1, t1) →
      ∃ e, txn.ext = some (e ++ [id]) ∧
        ((e = [] ∧ t1.ext = none ∧ r1.m_pathIDPool = r.m_pathIDPool ++ [[]]) ∨
         (e ≠ [] ∧ t1.ext = some e ∧ r1.m_pathIDPool = r.m_pathIDPool))) ∧
    (txn.ext = none → r.m_pathIDPool ≠ [] →
      (r.stamp_txn id txn).2.ext = some [id] ∧
      (r.stamp_txn id txn).1.m_pathIDPool = r.m_pathIDPool.dropLast) := by
  have hinv := reachable_pool_empty hr
  refine ⟨hinv, ?_, ?_⟩
  · intro r1 t1 hu
    obtain ⟨e, h1, h2, _⟩ := unstamp_txn_ok hu
    exact ⟨e, h1, h2⟩
  · intro hnone hne
    cases hl : r.m_pathIDPool.getLast? with
    | none =>
      rw [List.getLast?_eq_none_iff] at hl
      exact absurd hl hne
    | some e =>
      have he : e = [] := hinv e (List.mem_of_getLast?_eq_some hl)
      rw [((stamp_txn_pool r id txn).2.2 e hnone hl)]
      subst he
      exact ⟨rfl, rfl⟩

/-- Instance of C17: the router state after one stamp and its unstamp, whose
pool holds one empty tag. -/
theorem pool_invariant_witness :
    Router.Reachable { demoRouter with m_pathIDPool := [[]] } ∧
    ∀ e ∈ ({ demoRouter with m_pathIDPool := [[]] } : Router).m_pathIDPool, e = [] :=
  ⟨Router.Reachable.unstamp demoRouter 3 (demoRouter.stamp_txn 3 (demoWrite 0 [4])).2 _ _
      (Router.Reachable.init demoTable) rfl,
    (pool_invariant { demoRouter with m_pathIDPool := [[]] }
      (Router.Reachable.unstamp demoRouter 3 (demoRouter.stamp_txn 3 (demoWrite 0 [4])).2 _ _
        (Router.Reachable.init demoTable) rfl) 3 (demoWrite 0 [4])).1⟩

/-! ## Tags across a forward call -/

theorem unstamp_txn_many (r : Router) (id : Int) (txn : Txn) (e : List Int)
    (hext : txn.ext = some (e ++ [id])) (hne : e ≠ []) :
    r.unstamp_txn id txn = .ok (r, { txn with ext := some e }) := by
  have h1 : (e ++ [id]).getLast? = some id := by simp
  have h2 : (e ++ [id]).dropLast = e := by simp
  unfold Router.unstamp_txn
  rw [hext]
  simp only [h1, h2, if_true]
  rw [if_neg (fun hl => hne (List.length_eq_zero.mp hl))]

theorem unstamp_txn_last (r : Router) (id : Int) (txn : Txn) (hext : txn.ext = some [id]) :
    r.unstamp_txn id txn
      = .ok ({ r with m_pathIDPool := r.m_pathIDPool ++ [[]] }, { txn with ext := none }) := by
  unfold Router.unstamp_txn
  rw [hext]
  simp

/-- The pool after a tag has been taken from it and put back. -/
theorem dropLast_append_nil_of_getLast? {pool : List (List Int)} {e : List Int}
    (hl : pool.getLast? = some e) (he : e = []) : pool.dropLast ++ [[]] = pool := by
  subst he
  exact List.dropLast_append_getLast? [] (by simpa using hl)

/-- A forward call whose target returns the path tag as it received it, for a
transaction arriving with no tag or with a non-empty tag at a router whose pool
holds empty tags only: the call returns, the transaction leaves with the tag it
arrived with, and the pool is the old pool plus the tag `stamp_txn` created, if
it created one. -/
theorem b_transport_tag {σ : Type} (initiator_socket : List (Target σ)) (r : Router)
    (id : Int) (txn : Txn) (s s1 : σ) (ti : target_info) (tgt : Target σ) (t3 : Txn)
    (hdec : r.decode_address txn.address = some ti)
    (hsock : initiator_socket.get? ti.index = some tgt)
    (hpool : ∀ e ∈ r.m_pathIDPool, e = [])
    (hin : txn.ext ≠ some [])
    (hcall : tgt.b_transport
        { (r.stamp_txn id txn).2 with
          address := if ti.mask_addr then sub64 txn.address ti.address else txn.address } s
        = .ok (s1, t3))
    (hkeep : t3.ext = (r.stamp_txn id txn).2.ext) :
    r.b_transport initiator_socket id txn s
      = .ok ({ r with m_pathIDPool := r.m_pathIDPool ++ List.replicate (r.stamp_creates txn) [] },
          s1,
          { (if ti.mask_addr then { t3 with address := txn.address } else t3) with
            ext := txn.ext }) := by
  rw [b_transport_forward initiator_socket r id txn s ti tgt hdec hsock, hcall]
  simp only
  generalize hup : (if ti.mask_addr then { t3 with address := txn.address } else t3) = tup
  have hupext : tup.ext = t3.ext := by
    rw [← hup]
    split <;> rfl
  rw [hkeep] at hupext
  cases hx : txn.ext with
  | some e =>
    have hne : e ≠ [] := fun hc => hin (by rw [hx, hc])
    have hst := (stamp_txn_pool r id txn).1 e hx
    rw [hst] at hupext ⊢
    simp only at hupext ⊢
    rw [unstamp_txn_many r id tup e hupext hne]
    have hcr : r.stamp_creates txn = 0 := by
      unfold Router.stamp_creates
      rw [hx]
    rw [hcr]
    simp
  | none =>
    cases hp : r.m_pathIDPool with
    | nil =>
      have hst := (stamp_txn_pool r id txn).2.1 hx hp
      rw [hst] at hupext ⊢
      simp only at hupext ⊢
      rw [unstamp_txn_last r id tup hupext]
      have hcr : r.stamp_creates txn = 1 := by
        unfold Router.stamp_creates
        rw [hx, hp]
      rw [hcr, hp]
      rfl
    | cons p ps =>
      have hsome : ∃ e, r.m_pathIDPool.getLast? = some e := by
        cases hl : r.m_pathIDPool.getLast? with
        | none =>
          rw [List.getLast?_eq_none_iff, hp] at hl
          cases hl
        | some e => exact ⟨e, rfl⟩
      obtain ⟨e, hl⟩ := hsome
      have he : e = [] := hpool e (List.mem_of_getLast?_eq_some hl)
      have hst := (stamp_txn_pool r id txn).2.2 e hx hl
      rw [hst] at hupext ⊢
      simp only at hupext ⊢
      have hupext2 : tup.ext = some [id] := by
        rw [hupext, he]
        rfl
      rw [unstamp_txn_last _ id tup hupext2]
      have hcr : r.stamp_creates txn = 0 := by
        unfold Router.stamp_creates
        rw [hx, hp]
      rw [hcr]
      simp only [List.replicate_zero, List.append_nil]
      rw [dropLast_append_nil_of_getLast? hl he, ← hp]

theorem b_transport_tagged {σ : Type} (initiator_socket : List (Target σ)) (r : Router)
    (id : Int) (txn : Txn) (s s1 : σ) (ti : target_info) (tgt : Target σ) (t3 : Txn)
    (e : List Int)
    (hdec : r.decode_address txn.address = some ti)
    (hsock : initiator_socket.get? ti.index = some tgt)
    (hx : txn.ext = some e) (hne : e ≠ [])
    (hcall : tgt.b_transport
        { txn with
          ext := some (e ++ [id])
          address := if ti.mask_addr then sub64 txn.address ti.address else txn.address } s
        = .ok (s1, t3))
    (hkeep : t3.ext = some (e ++ [id])) :
    r.b_transport initiator_socket id txn s
      = .ok (r, s1,
          { (if ti.mask_addr then { t3 with address := txn.address } else t3) with
            ext := some e }) := by
  rw [b_transport_forward initiator_socket r id txn s ti tgt hdec hsock]
  have hst := (stamp_txn_pool r id txn).1 e hx
  rw [hst]
  simp only
  rw [hcall]
  simp only
  generalize hup : (if ti.mask_addr then { t3 with address := txn.address } else t3) = tup
  have hupext : tup.ext = some (e ++ [id]) := by
    rw [← hup, ← hkeep]
    split <;> rfl
  rw [unstamp_txn_many r id tup e hupext hne]

theorem chainTarget_nil (leaf : Target (List Txn)) (txn : Txn) (rs : List Router)
    (log : List Txn) :
    (chainTarget leaf []).b_transport txn (rs, log) =
      match leaf.b_transport txn log with
      | .error e => .error e
      | .ok (log1, t1) => .ok ((rs, log1), t1) := rfl

theorem chainTarget_cons (leaf : Target (List Txn)) (id : Int) (ids : List Int) (txn : Txn)
    (r : Router) (rest : List Router) (log : List Txn) :
    (chainTarget leaf (id :: ids)).b_transport txn (r :: rest, log) =
      match r.b_transport [chainTarget leaf ids] id txn (rest, log ++ [txn]) with
      | .error e => .error e
      | .ok (r1, (rest1, log1), t1) => .ok ((r1 :: rest1, log1), t1) := rfl

/-- A transaction entering a chain of forwarding routers with a non-empty tag:
the call returns with the routers unchanged and the tag as on entry, and the
transaction seen by the `k`-th level below the entry carries the entry tag
followed by the first `k` port ids. -/
theorem chain_tagged (a : Nat) (grant : Option (Nat × Nat)) :
    ∀ (ids : List Int) (rs : List Router) (txn : Txn) (log : List Txn) (e : List Int),
    rs.length = ids.length → txn.ext = some e → e ≠ [] → Forwards rs txn.address →
    ∃ t1 ts, (chainTarget (probe a grant) ids).b_transport txn (rs, log)
        = .ok ((rs, log ++ ts), t1) ∧
      t1.ext = some e ∧ ts.length = ids.length + 1 ∧
      ∀ k, k ≤ ids.length → (ts.get? k).map Txn.ext = some (some (e ++ ids.take k)) := by
  intro ids
  induction ids with
  | nil =>
    intro rs txn log e hlen hx hne hfw
    refine ⟨{ txn with response := .ok, address := a }, [txn], rfl, hx, rfl, ?_⟩
    intro k hk
    have hk0 : k = 0 := by simpa using hk
    subst hk0
    simp [hx]
  | cons id ids ih =>
    intro rs txn log e hlen hx hne hfw
    cases rs with
    | nil => simp at hlen
    | cons r rest =>
      simp only [List.length_cons, Nat.add_right_cancel_iff] at hlen
      obtain ⟨ti, hdec, hidx, hfw2⟩ := hfw
      have hsock : [chainTarget (probe a grant) ids].get? ti.index
          = some (chainTarget (probe a grant) ids) := by
        rw [hidx]
        rfl
      obtain ⟨t3, ts, hin, h3, hl, htags⟩ :=
        ih rest
          { txn with
            ext := some (e ++ [id])
            address := if ti.mask_addr then sub64 txn.address ti.address else txn.address }
          (log ++ [txn]) (e ++ [id]) hlen rfl (by simp) hfw2
      have hb := b_transport_tagged [chainTarget (probe a grant) ids] r id txn
        (rest, log ++ [txn]) (rest, log ++ [txn] ++ ts) ti _ t3 e hdec hsock hx hne hin h3
      refine ⟨{ (if ti.mask_addr then { t3 with address := txn.address } else t3) with
          ext := some e }, txn :: ts, ?_, rfl, by simp [hl], ?_⟩
      · rw [chainTarget_cons, hb]
        simp
      · intro k hk
        cases k with
        | zero => simp [hx]
        | succ k =>
          simp only [List.length_cons, Nat.add_le_add_iff_right] at hk
          have := htags k hk
          simp only [List.get?_cons_succ, List.take_succ_cons]
          rw [this]
          simp

theorem stamp_txn_untagged (r : Router) (id : Int) (txn : Txn) (hx : txn.ext = none)
    (hpool : ∀ e ∈ r.m_pathIDPool, e = []) : (r.stamp_txn id txn).2.ext = some [id] := by
  cases hl : r.m_pathIDPool.getLast? with
  | none =>
    rw [List.getLast?_eq_none_iff] at hl
    rw [(stamp_txn_pool r id txn).2.1 hx hl]
  | some e =>
    have he : e = [] := hpool e (List.mem_of_getLast?_eq_some hl)
    rw [(stamp_txn_pool r id txn).2.2 e hx hl, he]
    rfl

/-- A transaction entering a chain of forwarding routers with no tag or with a
non-empty tag, the pool of the first router holding empty tags only: the call
returns, the transaction leaves with the tag it entered with, only the first
router's pool may have changed, by the tag it created, and the transaction seen
by the `k`-th level below the entry carries the entry tag followed by the first
`k` port ids. -/
theorem chain_entry (a : Nat) (grant : Option (Nat × Nat)) (ids : List Int) (rs : List Router)
    (txn : Txn) (log : List Txn) (hlen : rs.length = ids.length) (hin : txn.ext ≠ some [])
    (hpool : ∀ r ∈ rs.head?, ∀ e ∈ r.m_pathIDPool, e = [])
    (hfw : Forwards rs txn.address) :
    ∃ t1 ts, (chainTarget (probe a grant) ids).b_transport txn (rs, log)
        = .ok ((match rs with
                | [] => []
                | r :: rest =>
                  { r with m_pathIDPool :=
                      r.m_pathIDPool ++ List.replicate (r.stamp_creates txn) [] } :: rest,
                log ++ ts), t1) ∧
      t1.ext = txn.ext ∧ ts.length = ids.length + 1 ∧
      ∀ k, k ≤ ids.length → (ts.get? k).map Txn.ext
        = some (if k = 0 then txn.ext else some (txn.ext.getD [] ++ ids.take k)) := by
  cases ids with
  | nil =>
    cases rs with
    | cons r rest => simp at hlen
    | nil =>
      refine ⟨{ txn with response := .ok, address := a }, [txn], rfl, rfl, rfl, ?_⟩
      intro k hk
      have hk0 : k = 0 := by simpa using hk
      subst hk0
      simp
  | cons id ids =>
    cases rs with
    | nil => simp at hlen
    | cons r rest =>
      simp only [List.length_cons, Nat.add_right_cancel_iff] at hlen
      obtain ⟨ti, hdec, hidx, hfw2⟩ := hfw
      have hsock : [chainTarget (probe a grant) ids].get? ti.index
          = some (chainTarget (probe a grant) ids) := by
        rw [hidx]
        rfl
      have hp : ∀ e ∈ r.m_pathIDPool, e = [] := hpool r (by simp)
      obtain ⟨e1, he1⟩ := stamp_txn_ext r id txn
      obtain ⟨e0, hst⟩ := he1
      have hstext : (r.stamp_txn id txn).2.ext = some (e0 ++ [id]) := by rw [hst]
      have he0 : e0 = txn.ext.getD [] := by
        cases hx : txn.ext with
        | none =>
          have := stamp_txn_untagged r id txn hx hp
          rw [hstext] at this
          injection this with this
          simpa using this
        | some e =>
          have := (stamp_txn_pool r id txn).1 e hx
          rw [this] at hstext
          simp only at hstext
          injection hstext with hstext
          simpa using hstext.symm
      obtain ⟨t3, ts, hcall, h3, hl, htags⟩ :=
        chain_tagged a grant ids rest
          { (r.stamp_txn id txn).2 with
            address := if ti.mask_addr then sub64 txn.address ti.address else txn.address }
          (log ++ [txn]) (e0 ++ [id]) hlen hstext (by simp) hfw2
      have hb := b_transport_tag [chainTarget (probe a grant) ids] r id txn
        (rest, log ++ [txn]) (rest, log ++ [txn] ++ ts) ti _ t3 hdec hsock hp hin hcall
        (by rw [h3, hstext])
      refine ⟨{ (if ti.mask_addr then { t3 with address := txn.address } else t3) with
          ext := txn.ext }, txn :: ts, ?_, rfl, by simp [hl], ?_⟩
      · rw [chainTarget_cons, hb]
        simp
      · intro k hk
        cases k with
        | zero => simp
        | succ k =>
          simp only [List.length_cons, Nat.add_le_add_iff_right] at hk
          have := htags k hk
          simp only [List.get?_cons_succ, List.take_succ_cons]
          rw [this, he0]
          simp

/-- C15 (counterexample).  A transaction that arrives with an empty tag attached
is forwarded to a target that returns the tag as it received it (the probe
receives the tag `[0]` and leaves it alone); after the call no tag is attached,
and the tag is at rest in the router's pool although `stamp_txn` created none:
the tag state differs from the one before the call and one tag fewer is
outstanding. -/
theorem tag_symmetry_fails_for_empty_tag :
    demoRouter.b_transport [probe 0 none, probe 0 none] 0
        { demoWrite 0 [4] with ext := some [] } []
      = .ok ({ demoRouter with m_pathIDPool := [[]] },
          [{ demoWrite 0 [4] with ext := some [0] }],
          { demoWrite 0 [4] with response := .ok, ext := none }) ∧
    demoRouter.stamp_creates { demoWrite 0 [4] with ext := some [] } = 0 ∧
    ({ demoWrite 0 [4] with ext := some [] } : Txn).ext ≠ none := by
  refine ⟨rfl, rfl, by decide⟩

/-- C15 (amended).  For every `Router::b_transport` call that forwards a
transaction arriving with no tag or with a non-empty tag, at a router whose pool
holds empty tags only, to a target that returns with the path tag as it
received it: the call returns, the transaction has the tag it had before the
call (none if it had none), and the pool is the pool before the call plus the
tag `stamp_txn` created, if any, so that the number of tags created and not at
rest in the pool is unchanged.  The same holds for a chain of any number of
routers forwarding to one another above such a target: the transaction leaves
the chain with the tag it entered with. -/
theorem tag_symmetry (σ : Type) (initiator_socket : List (Target σ)) (r : Router)
    (id : Int) (txn : Txn) (s s1 : σ) (ti : target_info) (tgt : Target σ) (t3 : Txn)
    (hdec : r.decode_address txn.address = some ti)
    (hsock : initiator_socket.get? ti.index = some tgt)
    (hpool : ∀ e ∈ r.m_pathIDPool, e = [])
    (hin : txn.ext ≠ some [])
    (hcall : tgt.b_transport
        { (r.stamp_txn id txn).2 with
          address := if ti.mask_addr then sub64 txn.address ti.address else txn.address } s
        = .ok (s1, t3))
    (hkeep : t3.ext = (r.stamp_txn id txn).2.ext) :
    (∃ r2 t5, r.b_transport initiator_socket id txn s = .ok (r2, s1, t5) ∧
      t5.ext = txn.ext ∧ r2.targets = r.targets ∧
      r2.m_pathIDPool = r.m_pathIDPool ++ List.replicate (r.stamp_creates txn) [] ∧
      r2.m_pathIDPool.length = r.m_pathIDPool.length + r.stamp_creates txn) ∧
    (∀ (a : Nat) (grant : Option (Nat × Nat)) (ids : List Int) (rs : List Router)
      (log : List Txn), rs.length = ids.length →
      (∀ r0 ∈ rs.head?, ∀ e ∈ r0.m_pathIDPool, e = []) → Forwards rs txn.address →
      ∃ rs1 log1 t1, (chainTarget (probe a grant) ids).b_transport txn (rs, log)
          = .ok ((rs1, log1), t1) ∧ t1.ext = txn.ext ∧
        rs1.map Router.targets = rs.map Router.targets ∧
        (rs1.map (fun r0 => r0.m_pathIDPool.length)).sum
          = (rs.map (fun r0 => r0.m_pathIDPool.length)).sum
            + (match rs with
               | [] => 0
               | r0 :: _ => r0.stamp_creates txn)) := by
  constructor
  · refine ⟨_, _, b_transport_tag initiator_socket r id txn s s1 ti tgt t3 hdec hsock hpool hin
      hcall hkeep, rfl, rfl, rfl, ?_⟩
    simp
  · intro a grant ids rs log hlen hp hfw
    obtain ⟨t1, ts, hres, hext, _, _⟩ := chain_entry a grant ids rs txn log hlen hin hp hfw
    refine ⟨_, _, t1, hres, hext, ?_, ?_⟩
    · cases rs with
      | nil => rfl
      | cons r0 rest => rfl
    · cases rs with
      | nil => rfl
      | cons r0 rest =>
        simp only [List.map_cons, List.sum_cons, List.length_append, List.length_replicate]
        omega

/-- Instance of C15 (amended): a write arriving with no tag at the router with
the table `[(T0, 0, 0x1000), (T1, 0x2000, 0x1000)]` and an empty pool. -/
theorem tag_symmetry_witness :
    ∃ r2 t5, demoRouter.b_transport [probe 0 none, probe 0 none] 3 (demoWrite 16 [4]) []
        = .ok (r2, [{ demoWrite 16 [4] with ext := some [3] }], t5) ∧
      t5.ext = (demoWrite 16 [4]).ext ∧ r2.targets = demoRouter.targets ∧
      r2.m_pathIDPool = demoRouter.m_pathIDPool
        ++ List.replicate (demoRouter.stamp_creates (demoWrite 16 [4])) [] ∧
      r2.m_pathIDPool.length
        = demoRouter.m_pathIDPool.length + demoRouter.stamp_creates (demoWrite 16 [4]) :=
  (tag_symmetry (List Txn) [probe 0 none, probe 0 none] demoRouter 3 (demoWrite 16 [4]) []
    [{ demoWrite 16 [4] with ext := some [3] }]
    { index := 0, name := "T0", address := 0, size := 4096, mask_addr := true }
    (probe 0 none) { demoWrite 16 [4] with ext := some [3], response := .ok, address := 0 }
    (by decide) rfl (by decide) (by decide) rfl rfl).1

/-- C16 (nesting depth).  For every chain of `N` routers in reachable states,
each forwarding the blocking transaction to the next, and every transaction
entering the first router with no tag: the call returns; the transaction the
`k`-th router hands to its target, for `1 <= k <= N`, carries the tag made of the
port ids of the first `k` routers in push order, exactly `k` entries; so the leaf
target receives exactly `N` entries; and the transaction leaves the chain with no
tag.  In the statement `ts` lists the transactions seen at the successive levels:
`ts[0]` enters the first router and `ts[k]` is handed over by the `k`-th
router. -/
theorem nesting_depth (a : Nat) (grant : Option (Nat × Nat)) (ids : List Int)
    (rs : List Router) (txn : Txn) (log : List Txn) (hlen : rs.length = ids.length)
    (hnone : txn.ext = none) (hreach : ∀ r ∈ rs, Router.Reachable r)
    (hfw : Forwards rs txn.address) :
    ∃ rs1 t1 ts, (chainTarget (probe a grant) ids).b_transport txn (rs, log)
        = .ok ((rs1, log ++ ts), t1) ∧
      ts.length = ids.length + 1 ∧
      (ts.get? 0).map Txn.ext = some none ∧
      (∀ k, 1 ≤ k → k ≤ ids.length →
        (ts.get? k).map Txn.ext = some (some (ids.take k)) ∧ (ids.take k).length = k) ∧
      (1 ≤ ids.length → (ts.get? ids.length).map Txn.ext = some (some ids)) ∧
      t1.ext = none := by
  have hp : ∀ r ∈ rs.head?, ∀ e ∈ r.m_pathIDPool, e = [] := by
    intro r hr
    exact reachable_pool_empty (hreach r (List.mem_of_mem_head? hr))
  obtain ⟨t1, ts, hres, hext, hl, htags⟩ :=
    chain_entry a grant ids rs txn log hlen (by rw [hnone]; simp) hp hfw
  have hk : ∀ k, 1 ≤ k → k ≤ ids.length →
      (ts.get? k).map Txn.ext = some (some (ids.take k)) ∧ (ids.take k).length = k := by
    intro k h1 h2
    have := htags k h2
    rw [if_neg (by omega), hnone] at this
    refine ⟨by simpa using this, ?_⟩
    rw [List.length_take]
    omega
  refine ⟨_, t1, ts, hres, hl, ?_, hk, ?_, by rw [hext, hnone]⟩
  · have := htags 0 (Nat.zero_le _)
    rw [if_pos rfl, hnone] at this
    exact this
  · intro h1
    have := (hk ids.length h1 (Nat.le_refl _)).1
    rw [List.take_length] at this
    exact this

/-- Instance of C16: two routers with the table
`[(T0, 0, 0x1000), (T1, 0x2000, 0x1000)]`, entered on ports 5 and 9, above a
probe; the probe receives the tag `[5, 9]`. -/
theorem nesting_depth_witness :
    (chainTarget (probe 0 none) [5, 9]).b_transport (demoWrite 16 [4])
        ([demoRouter, demoRouter], [])
      = .ok (([{ demoRouter with m_pathIDPool := [[]] }, demoRouter],
              [demoWrite 16 [4], { demoWrite 16 [4] with ext := some [5] },
               { demoWrite 16 [4] with ext := some [5, 9] }]),
          { demoWrite 16 [4] with response := .ok }) ∧
    ∃ rs1 t1 ts, (chainTarget (probe 0 none) [5, 9]).b_transport (demoWrite 16 [4])
        ([demoRouter, demoRouter], [])
        = .ok ((rs1, [] ++ ts), t1) ∧
      ts.length = [(5 : Int), 9].length + 1 ∧
      (ts.get? 0).map Txn.ext = some none ∧
      (∀ k, 1 ≤ k → k ≤ [(5 : Int), 9].length →
        (ts.get? k).map Txn.ext = some (some ([(5 : Int), 9].take k)) ∧
        ([(5 : Int), 9].take k).length = k) ∧
      (1 ≤ [(5 : Int), 9].length →
        (ts.get? [(5 : Int), 9].length).map Txn.ext = some (some [5, 9])) ∧
      t1.ext = none :=
  ⟨rfl,
    nesting_depth 0 none [5, 9] [demoRouter, demoRouter] (demoWrite 16 [4]) [] rfl rfl
      (fun r hr => by
        have hr2 : r = demoRouter := by simpa using hr
        rw [hr2]
        exact Router.Reachable.init demoTable)
      ⟨{ index := 0, name := "T0", address := 0, size := 4096, mask_addr := true },
        by decide, rfl,
        ⟨{ index := 0, name := "T0", address := 0, size := 4096, mask_addr := true },
          by decide, rfl, trivial⟩⟩⟩

/-- C18 (counterexample).  The region-relative target `T0` (base 0, size 0x1000)
grants the window `[0, 0x1FFF]`; `Router::get_direct_mem_ptr` does not return
the window `[base + 0, base + 0x1FFF]`: the assertion of `compose_address` fails
for the end address.  The same happens when the target refuses and leaves the
descriptor in its initial state, whose window is `[0, 2^64 - 1]`. -/
theorem dmi_window_beyond_target_size_fails_assertion :
    demoRouter.get_direct_mem_ptr [probe 0 (some (0, 8191)), probe 0 none]
        (demoRead 16 4) tlm_dmi.init []
      = .error .assertion ∧
    (probe 0 (some (0, 8191))).get_direct_mem_ptr (demoRead 16 4) tlm_dmi.init []
      = .ok ([demoRead 16 4], { demoRead 16 4 with address := 0 },
          { tlm_dmi.init with
            start_address := 0, end_address := 8191, granted_access := .read_write }, true) ∧
    demoRouter.get_direct_mem_ptr [probe 0 none, probe 0 none]
        (demoRead 16 4) tlm_dmi.init []
      = .error .assertion := by
  refine ⟨rfl, rfl, rfl⟩

/-- C18 (amended).  For every transaction that decodes to the table entry `ti`,
where `ti` is the entry the table holds at position `ti.index`, and every
answer `(dmi1, status)` of the target to the forwarded request: if `ti` is
region-relative and both ends of the window `[s, e]` in `dmi1` are below the
size of the entry, `Router::get_direct_mem_ptr` returns the status and the
descriptor of the target with the window
`[(base + s) mod 2^64, (base + e) mod 2^64]`, which is `[base + s, base + e]`
when the range of the entry fits the address space, and with the transaction's
address restored; if `ti` is region-relative and an end of the window is not
below the size of the entry, the assertion of `compose_address` fails; if `ti`
is pass-through, the answer of the target is returned unchanged. -/
theorem dmi_window_translation (σ : Type) (initiator_socket : List (Target σ)) (r : Router)
    (trans : Txn) (dmi_data : tlm_dmi) (s s1 : σ) (ti : target_info) (tgt : Target σ)
    (t2 : Txn) (dmi1 : tlm_dmi) (status : Bool)
    (hdec : r.decode_address trans.address = some ti)
    (hsock : initiator_socket.get? ti.index = some tgt)
    (hentry : r.targets.get? ti.index = some ti)
    (hcall : tgt.get_direct_mem_ptr
        { trans with
          address := if ti.mask_addr then sub64 trans.address ti.address else trans.address }
        dmi_data s = .ok (s1, t2, dmi1, status)) :
    (ti.mask_addr = true → dmi1.start_address < ti.size → dmi1.end_address < ti.size →
      r.get_direct_mem_ptr initiator_socket trans dmi_data s
        = .ok (s1, { t2 with address := trans.address },
            { dmi1 with
              start_address := add64 ti.address dmi1.start_address
              end_address := add64 ti.address dmi1.end_address }, status) ∧
      (ti.address + ti.size ≤ U64 →
        add64 ti.address dmi1.start_address = ti.address + dmi1.start_address ∧
        add64 ti.address dmi1.end_address = ti.address + dmi1.end_address)) ∧
    (ti.mask_addr = true → ¬ (dmi1.start_address < ti.size ∧ dmi1.end_address < ti.size) →
      r.get_direct_mem_ptr initiator_socket trans dmi_data s = .error .assertion) ∧
    (ti.mask_addr = false →
      r.get_direct_mem_ptr initiator_socket trans dmi_data s = .ok (s1, t2, dmi1, status)) := by
  have hfw := get_direct_mem_ptr_forward initiator_socket r trans dmi_data s ti tgt hdec hsock
  rw [hcall] at hfw
  simp only at hfw
  refine ⟨?_, ?_, ?_⟩
  · intro hmask hs he
    refine ⟨?_, ?_⟩
    · rw [hfw, if_pos hmask]
      simp only [Router.compose_address, hentry, if_pos hs, if_pos he]
    · intro hfit
      exact ⟨add64_of_lt (by omega), add64_of_lt (by omega)⟩
  · intro hmask hno
    rw [hfw, if_pos hmask]
    simp only [Router.compose_address, hentry]
    by_cases hs : dmi1.start_address < ti.size
    · rw [if_pos hs]
      simp only
      rw [if_neg (fun he => hno ⟨hs, he⟩)]
    · rw [if_neg hs]
  · intro hmask
    rw [hfw, if_neg (by rw [hmask]; simp)]

/-- Instance of C18 (amended): the target `T1` (base 0x2000, size 0x1000) grants
the window `[0x10, 0x1F]`, and the router returns `[0x2010, 0x201F]`. -/
theorem dmi_window_translation_witness :
    demoRouter.get_direct_mem_ptr [probe 0 none, probe 7 (some (16, 31))]
        (demoRead 8196 4) tlm_dmi.init []
      = .ok ([{ demoRead 8196 4 with address := 4 }], demoRead 8196 4,
          { tlm_dmi.init with
            start_address := 8208, end_address := 8223, granted_access := .read_write },
          true) ∧
    (demoRouter.get_direct_mem_ptr [probe 0 none, probe 7 (some (16, 31))]
        (demoRead 8196 4) tlm_dmi.init []
      = .ok ([{ demoRead 8196 4 with address := 4 }],
          { ({ demoRead 8196 4 with address := 7 } : Txn) with address := 8196 },
          { ({ tlm_dmi.init with
              start_address := 16, end_address := 31, granted_access := .read_write } : tlm_dmi)
            with
            start_address := add64 8192 16
            end_address := add64 8192 31 }, true) ∧
      (8192 + 4096 ≤ U64 → add64 8192 16 = 8192 + 16 ∧ add64 8192 31 = 8192 + 31)) :=
  ⟨rfl,
    (dmi_window_translation (List Txn) [probe 0 none, probe 7 (some (16, 31))] demoRouter
      (demoRead 8196 4) tlm_dmi.init [] [{ demoRead 8196 4 with address := 4 }]
      { index := 1, name := "T1", address := 8192, size := 4096, mask_addr := true }
      (probe 7 (some (16, 31))) { demoRead 8196 4 with address := 7 }
      { tlm_dmi.init with
        start_address := 16, end_address := 31, granted_access := .read_write } true
      (by decide) rfl rfl rfl).1 rfl (by decide) (by decide)⟩

/-! ## Direct access to the leaves -/

theorem map_error {h : Host} {d : SubBlockData} {fn : String} {e : Fault}
    (hm : d.map h fn = .error e) : e = .fatal := by
  unfold SubBlockData.map at hm
  split at hm
  · split at hm <;> cases hm
  · injection hm with hm
    exact hm.symm

theorem allocate_error {h : Host} {d : SubBlockData} {e : Fault}
    (ha : d.allocate h = .error e) : e = .fatal := by
  unfold SubBlockData.allocate at ha
  split at ha
  · cases ha
  · split at ha
    · split at ha
      · rename_i e1 hmap
        injection ha with ha
        subst ha
        exact map_error hmap
      · cases ha
      · cases ha
    · split at ha
      · cases ha
      · split at ha <;> cases ha

/-- The recursion bound is never what stops `access`: a block shorter than
`4 ^ fuel` is resolved, or refused, within `fuel + 1` levels. -/
theorem access_fuel (h : Host) : ∀ (fuel : Nat) (t : SubBlock) (a : Nat),
    t.WF → t.get_len < 4 ^ fuel → t.access h (fuel + 1) a ≠ .error .fuel := by
  intro fuel
  induction fuel with
  | zero =>
    intro t a hwf hlen hacc
    cases t with
    | null => simp [SubBlock.access] at hacc
    | mk d subs =>
      simp only [get_len_mk, pow_zero] at hlen
      simp only [SubBlock.access] at hacc
      split at hacc
      · split at hacc <;> cases hacc
      · split at hacc
        · rename_i e halloc
          injection hacc with hacc
          subst hacc
          cases allocate_error halloc
        · cases hacc
        · rename_i d2 halloc
          obtain ⟨a1, _⟩ := allocate_ok halloc
          have hd1len : (if d.m_len > d.m_max_size then { d with m_use_sub_blocks := true }
              else d).m_len = d.m_len := by
            split <;> rfl
          rw [hd1len] at a1
          split at hacc
          · cases hacc
          · split at hacc
            · cases hacc
            · split at hacc
              · cases hacc
              · rename_i hsub0
                rw [a1] at hsub0
                omega
  | succ fuel ih =>
    intro t a hwf hlen hacc
    cases t with
    | null => simp [SubBlock.access] at hacc
    | mk d subs =>
      rw [WF_mk] at hwf
      obtain ⟨hfit, hbuf, hch, hsubwf⟩ := hwf
      simp only [get_len_mk] at hlen
      simp only [SubBlock.access] at hacc
      split at hacc
      · split at hacc <;> cases hacc
      · split at hacc
        · rename_i e halloc
          injection hacc with hacc
          subst hacc
          cases allocate_error halloc
        · cases hacc
        · rename_i d2 halloc
          obtain ⟨a1, a2, _⟩ := allocate_ok halloc
          have hd1len : (if d.m_len > d.m_max_size then { d with m_use_sub_blocks := true }
              else d).m_len = d.m_len := by
            split <;> rfl
          have hd1ad : (if d.m_len > d.m_max_size then { d with m_use_sub_blocks := true }
              else d).m_address = d.m_address := by
            split <;> rfl
          rw [hd1len] at a1
          rw [hd1ad] at a2
          split at hacc
          · cases hacc
          · split at hacc
            · cases hacc
            · rename_i hdiv
              split at hacc
              · cases hacc
              · rename_i hsub0
                generalize hiv : sub64 a d2.m_address / (d2.m_len / 4) % U32 = iv at hacc
                rw [a1] at hsub0 hdiv
                rw [a1, a2] at hacc
                split at hacc
                · rename_i hi
                  have hsub : 0 < d.m_len / 4 := Nat.pos_of_ne_zero hsub0
                  have hlt : d.m_len / 4 < 4 ^ fuel := by
                    rw [pow_succ] at hlen
                    exact Nat.div_lt_of_lt_mul (by omega)
                  have hbound : iv * (d.m_len / 4) ≤ 3 * (d.m_len / 4) :=
                    Nat.mul_le_mul_right _ (by omega)
                  split at hacc
                  · rename_i e hrec
                    injection hacc with hacc
                    subst hacc
                    cases hs : subs ⟨iv, hi⟩ with
                    | null =>
                      rw [hs] at hrec
                      simp only at hrec
                      have hm : mul64 iv (d.m_len / 4) = iv * (d.m_len / 4) :=
                        mul64_of_lt (by omega)
                      have hadd : add64 (iv * (d.m_len / 4)) d.m_address
                          = d.m_address + iv * (d.m_len / 4) := by
                        rw [add64_of_lt (by omega)]
                        omega
                      rw [hm, hadd] at hrec
                      exact ih _ a (WF_new _ _ _ _ _ (by omega)) hlt hrec
                    | mk cd cs =>
                      rw [hs] at hrec
                      simp only at hrec
                      have hc := hch ⟨iv, hi⟩ (by rw [hs]; rfl)
                      have hw := hsubwf ⟨iv, hi⟩
                      rw [hs] at hc hw
                      exact ih _ a hw (by rw [hc.2.2.2.2.1]; exact hlt) hrec
                  · cases hacc
                · cases hacc

theorem LeafAt_isBlock : ∀ (t : SubBlock) (p : List (Fin 4)) (dl : SubBlockData),
    t.LeafAt p dl → t.isBlock = true := by
  intro t p dl hl
  cases t with
  | null => cases p <;> simp [SubBlock.LeafAt] at hl
  | mk d subs => rfl

/-- Leaves stay where they are: a reference that leads to a leaf before a call
of `access` leads to the same leaf, with the same data members, after it. -/
theorem access_LeafAt (h : Host) : ∀ (fuel : Nat) (t : SubBlock) (a : Nat) (t1 : SubBlock)
    (p : List (Fin 4)), t.access h fuel a = .ok (t1, p) →
    ∀ (q : List (Fin 4)) (dl : SubBlockData), t.LeafAt q dl → t1.LeafAt q dl := by
  intro fuel
  induction fuel with
  | zero =>
    intro t a t1 p hacc
    simp [SubBlock.access] at hacc
  | succ fuel ih =>
    intro t a t1 p hacc q dl hl
    cases t with
    | null => simp [SubBlock.access] at hacc
    | mk d subs =>
      simp only [SubBlock.access] at hacc
      split at hacc
      · split at hacc
        · injection hacc with hacc
          injection hacc with e1 e2
          subst e1 e2
          exact hl
        · cases hacc
      · rename_i hnl
        cases q with
        | nil =>
          rw [LeafAt_nil] at hl
          obtain ⟨_, h1, h2⟩ := hl
          simp [h1, h2] at hnl
        | cons j q =>
          rw [LeafAt_cons] at hl
          obtain ⟨hu, hlc⟩ := hl
          have hd1u : (if d.m_len > d.m_max_size then { d with m_use_sub_blocks := true }
              else d).m_use_sub_blocks = true := by
            split
            · rfl
            · exact hu
          split at hacc
          · cases hacc
          · rename_i d2 halloc
            obtain ⟨_, _, _, _, _, a6, _⟩ := allocate_ok halloc
            have := (a6 rfl).1
            rw [hd1u] at this
            cases this
          · rename_i d2 halloc
            obtain ⟨_, _, _, _, _, _, a7⟩ := allocate_ok halloc
            have u2 := (a7 rfl).1
            split at hacc
            · cases hacc
            · split at hacc
              · cases hacc
              · split at hacc
                · cases hacc
                · generalize hiv : sub64 a d2.m_address / (d2.m_len / 4) % U32 = iv at hacc
                  split at hacc
                  · rename_i hi
                    split at hacc
                    · cases hacc
                    · rename_i c q1 hrec
                      injection hacc with hacc
                      injection hacc with e1 e2
                      subst e1 e2
                      rw [LeafAt_cons]
                      refine ⟨u2, ?_⟩
                      by_cases hji : j = ⟨iv, hi⟩
                      · subst hji
                        rw [setSub_same]
                        cases hs : subs ⟨iv, hi⟩ with
                        | null =>
                          rw [hs] at hlc
                          cases q <;> simp [SubBlock.LeafAt] at hlc
                        | mk cd cs =>
                          rw [hs] at hrec hlc
                          simp only at hrec
                          exact ih _ a c q1 hrec q dl hlc
                      · rw [setSub_other _ _ _ _ hji]
                        exact hlc
                  · cases hacc

/-- Two leaves of a well-formed tree are the same leaf or cover disjoint
ranges. -/
theorem LeafAt_disjoint : ∀ (p q : List (Fin 4)) (t : SubBlock) (d1 d2 : SubBlockData),
    t.WF → t.LeafAt p d1 → t.LeafAt q d2 →
    (p = q ∧ d1 = d2) ∨ d1.m_address + d1.m_len ≤ d2.m_address ∨
      d2.m_address + d2.m_len ≤ d1.m_address := by
  intro p
  induction p with
  | nil =>
    intro q t d1 d2 hwf h1 h2
    cases t with
    | null => simp [SubBlock.LeafAt] at h1
    | mk d subs =>
      rw [LeafAt_nil] at h1
      cases q with
      | nil =>
        rw [LeafAt_nil] at h2
        left
        exact ⟨rfl, by rw [← h1.1, ← h2.1]⟩
      | cons j q =>
        rw [LeafAt_cons] at h2
        rw [h1.2.2] at h2
        cases h2.1
  | cons i p ih =>
    intro q t d1 d2 hwf h1 h2
    cases t with
    | null => simp [SubBlock.LeafAt] at h1
    | mk d subs =>
      rw [LeafAt_cons] at h1
      cases q with
      | nil =>
        rw [LeafAt_nil] at h2
        rw [h2.2.2] at h1
        cases h1.1
      | cons j q =>
        rw [LeafAt_cons] at h2
        rw [WF_mk] at hwf
        obtain ⟨hfit, hbuf, hch, hsubwf⟩ := hwf
        by_cases hij : i = j
        · subst hij
          rcases ih q (subs i) d1 d2 (hsubwf i) h1.2 h2.2 with h | h
          · left
            exact ⟨by rw [h.1], h.2⟩
          · right
            exact h
        · right
          obtain ⟨_, hs, _, _, il, ia⟩ := hch i (LeafAt_isBlock _ _ _ h1.2)
          obtain ⟨_, _, _, _, jl, ja⟩ := hch j (LeafAt_isBlock _ _ _ h2.2)
          obtain ⟨r1, r2, _⟩ := LeafAt_range p (subs i) d1 (hsubwf i) h1.2
          obtain ⟨r3, r4, _⟩ := LeafAt_range q (subs j) d2 (hsubwf j) h2.2
          rw [il, ia] at r2
          rw [ia] at r1
          rw [jl, ja] at r4
          rw [ja] at r3
          have hne : i.val ≠ j.val := fun hv => hij (Fin.ext hv)
          rcases Nat.lt_or_gt_of_ne hne with hlt | hgt
          · left
            have : (i.val + 1) * (d.m_len / 4) ≤ j.val * (d.m_len / 4) :=
              Nat.mul_le_mul_right _ hlt
            rw [Nat.succ_mul] at this
            omega
          · right
            have : (j.val + 1) * (d.m_len / 4) ≤ i.val * (d.m_len / 4) :=
              Nat.mul_le_mul_right _ hgt
            rw [Nat.succ_mul] at this
            omega

/-- On an elaborated memory with direct access enabled, a valid address that
`access` resolves is granted the range of the returned leaf. -/
theorem get_direct_mem_ptr_ok (h : Host) (m : Memory) (txn : Txn) (dmi_data : tlm_dmi)
    (root : SubBlock) (p : List (Fin 4))
    (hm : m.Elaborated) (hdmi : m.p_dmi = true) (hta : txn.address < U64)
    (hbase : m.m_relative_addresses = true ∨ m.m_address ≤ txn.address)
    (hoff : m.offset txn.address < m.m_size)
    (hfit : m.m_relative_addresses = false → m.m_address + m.m_size ≤ U64)
    (hacc : m.m_sub_block.access h accessFuel (m.offset txn.address) = .ok (root, p)) :
    ∃ dl, root.LeafAt p dl ∧ ({ m with m_sub_block := root } : Memory).Elaborated ∧
      dl.m_address ≤ m.offset txn.address ∧ m.offset txn.address < dl.m_address + dl.m_len ∧
      dl.m_address + dl.m_len ≤ m.m_size ∧
      txn.address = m.origin + m.offset txn.address ∧
      m.get_direct_mem_ptr h txn dmi_data
        = .ok ({ m with m_sub_block := root }, txn,
            { dmi_ptr := some p
              start_address := m.origin + dl.m_address
              end_address := m.origin + dl.m_address + dl.m_len - 1
              granted_access := if m.p_rom then .read else .read_write
              read_latency := m.p_latency
              write_latency := m.p_latency }, true) := by
  obtain ⟨hsz, had, hblk, hra, hrl, hwf⟩ := hm
  have hoffU : m.offset txn.address < U64 := by omega
  obtain ⟨w1, w2, w3, w4, _, dl, hl, hin⟩ :=
    access_ok h accessFuel m.m_sub_block (m.offset txn.address) root p hwf hoffU hacc
  rw [hra, hrl] at hin
  obtain ⟨hin1, hin2⟩ := hin (Nat.zero_le _) (by omega)
  obtain ⟨g1, g2, _, buf, hbuf, _⟩ := LeafAt_range p root dl w1 hl
  rw [w3, w4, hra, hrl, Nat.zero_add] at g2
  obtain ⟨subs, hget⟩ := LeafAt_get p root dl hl
  have hfirst : ¬ ((!m.m_relative_addresses && decide (txn.address < m.m_address)) = true) := by
    rcases hbase with hrel | hrel
    · simp [hrel]
    · simp
      intro _
      exact hrel
  have haddr : (if (!m.m_relative_addresses) = true then sub64 txn.address m.m_address
      else txn.address) = m.offset txn.address := by
    unfold Memory.offset
    cases hr : m.m_relative_addresses with
    | true => simp
    | false =>
      simp only [Bool.not_false, if_true, Bool.false_eq_true, if_false]
      rcases hbase with hrel | hrel
      · rw [hr] at hrel
        cases hrel
      · exact sub64_of_le hrel hta
  have horig : txn.address = m.origin + m.offset txn.address := by
    unfold Memory.origin Memory.offset
    cases hr : m.m_relative_addresses with
    | true => simp
    | false =>
      simp only [Bool.false_eq_true, if_false]
      rcases hbase with hrel | hrel
      · rw [hr] at hrel
        cases hrel
      · omega
  refine ⟨dl, hl, ⟨hsz, had, w2, by rw [w4, hra], by rw [w3, hrl], w1⟩, hin1, hin2, g2, horig, ?_⟩
  unfold Memory.get_direct_mem_ptr
  rw [if_neg (by simp [hdmi]), if_neg hfirst]
  simp only [haddr]
  rw [if_neg (by omega), hacc]
  simp only [hget, SubBlock.get_ptr, SubBlock.get_len, SubBlock.get_address, hbuf, Option.map_some']
  have hstart : (if (!m.m_relative_addresses) = true then add64 dl.m_address m.m_address
      else dl.m_address) = m.origin + dl.m_address := by
    unfold Memory.origin
    cases hr : m.m_relative_addresses with
    | true => simp
    | false =>
      simp only [Bool.not_false, if_true, Bool.false_eq_true, if_false]
      have := hfit hr
      rw [add64_of_lt (by omega)]
      omega
  have hend : (if (!m.m_relative_addresses) = true then
        sub64 (add64 (add64 dl.m_address m.m_address) dl.m_len) 1
      else sub64 (add64 dl.m_address dl.m_len) 1) = m.origin + dl.m_address + dl.m_len - 1 := by
    unfold Memory.origin
    cases hr : m.m_relative_addresses with
    | true =>
      simp only [Bool.not_true, Bool.false_eq_true, if_false, if_true]
      unfold sub64 add64
      by_cases htop : dl.m_address + dl.m_len = U64
      · rw [htop]
        simp only [Nat.mod_self, Nat.zero_add]
        rw [Nat.mod_eq_of_lt (by unfold U64; omega)]
        omega
      · rw [Nat.mod_eq_of_lt (a := dl.m_address + dl.m_len) (by omega)]
        have : dl.m_address + dl.m_len + U64 - 1 = (dl.m_address + dl.m_len - 1) + U64 := by omega
        rw [this, Nat.add_mod_right, Nat.mod_eq_of_lt (by omega)]
        omega
    | false =>
      simp only [Bool.not_false, if_true, Bool.false_eq_true, if_false]
      have := hfit hr
      unfold sub64 add64
      rw [Nat.mod_eq_of_lt (a := dl.m_address + m.m_address) (by omega)]
      by_cases htop : dl.m_address + m.m_address + dl.m_len = U64
      · rw [htop]
        simp only [Nat.mod_self, Nat.zero_add]
        rw [Nat.mod_eq_of_lt (by unfold U64; omega)]
        omega
      · rw [Nat.mod_eq_of_lt (a := dl.m_address + m.m_address + dl.m_len) (by omega)]
        have : dl.m_address + m.m_address + dl.m_len + U64 - 1
            = (dl.m_address + m.m_address + dl.m_len - 1) + U64 := by omega
        rw [this, Nat.add_mod_right, Nat.mod_eq_of_lt (by omega)]
        omega
  rw [hstart, hend]

/-- The window of a direct-access request.  On an elaborated memory with
direct access enabled, whose range fits the address space in absolute mode, for
every transaction at a valid address `a` (not below the base in absolute mode,
offset below the size): `get_direct_mem_ptr` fails only when `access` fails to
resolve the offset, with the fault of `access`, which is never the recursion
bound of the model; `access` resolves every offset whose byte is already stored;
and whenever `access` resolves the offset to a leaf, `get_direct_mem_ptr` returns
`true`, leaves the transaction as it is, and grants the pointer to that leaf and
the window `[start, end]` with `start` the leaf base (plus the region base in
absolute mode) and `end - start + 1` the leaf length, which contains `a` and
lies within `[0, size)`, respectively `[base, base + size)`. -/
theorem dmi_window_containment (h : Host) (m : Memory) (txn : Txn) (dmi_data : tlm_dmi)
    (hm : m.Elaborated) (hdmi : m.p_dmi = true) (hta : txn.address < U64)
    (hbase : m.m_relative_addresses = true ∨ m.m_address ≤ txn.address)
    (hoff : m.offset txn.address < m.m_size)
    (hfit : m.m_relative_addresses = false → m.m_address + m.m_size ≤ U64) :
    m.m_sub_block.access h accessFuel (m.offset txn.address) ≠ .error .fuel ∧
    (∀ e, m.m_sub_block.access h accessFuel (m.offset txn.address) = .error e →
      m.get_direct_mem_ptr h txn dmi_data = .error e) ∧
    (∀ v, m.m_sub_block.peek (m.offset txn.address) = some v →
      ∃ p, m.m_sub_block.access h accessFuel (m.offset txn.address) = .ok (m.m_sub_block, p)) ∧
    (∀ root p, m.m_sub_block.access h accessFuel (m.offset txn.address) = .ok (root, p) →
      ∃ dl dmi1, root.LeafAt p dl ∧
        m.get_direct_mem_ptr h txn dmi_data
          = .ok ({ m with m_sub_block := root }, txn, dmi1, true) ∧
        dmi1.dmi_ptr = some p ∧
        dmi1.granted_access = (if m.p_rom then .read else .read_write) ∧
        dmi1.start_address = m.origin + dl.m_address ∧
        dmi1.end_address - dmi1.start_address + 1 = dl.m_len ∧
        dmi1.start_address ≤ txn.address ∧ txn.address ≤ dmi1.end_address ∧
        m.origin ≤ dmi1.start_address ∧ dmi1.end_address < m.origin + m.m_size) := by
  have hoffU : m.offset txn.address < U64 := by
    have := hm.1
    omega
  have hlen : m.m_sub_block.get_len < 4 ^ 32 := by
    rw [hm.2.2.2.2.1, ← U64_eq_pow]
    exact hm.1
  refine ⟨access_fuel h 32 m.m_sub_block _ hm.2.2.2.2.2 hlen, ?_, ?_, ?_⟩
  · intro e hacc
    have hfirst : ¬ ((!m.m_relative_addresses && decide (txn.address < m.m_address)) = true) := by
      rcases hbase with hrel | hrel
      · simp [hrel]
      · simp
        intro _
        exact hrel
    have haddr : (if (!m.m_relative_addresses) = true then sub64 txn.address m.m_address
        else txn.address) = m.offset txn.address := by
      unfold Memory.offset
      cases hr : m.m_relative_addresses with
      | true => simp
      | false =>
        simp only [Bool.not_false, if_true, Bool.false_eq_true, if_false]
        rcases hbase with hrel | hrel
        · rw [hr] at hrel
          cases hrel
        · exact sub64_of_le hrel hta
    unfold Memory.get_direct_mem_ptr
    rw [if_neg (by simp [hdmi]), if_neg hfirst]
    simp only [haddr]
    rw [if_neg (by omega), hacc]
  · intro v hv
    obtain ⟨p, _, hacc, _⟩ :=
      access_present h 32 m.m_sub_block _ v hm.2.2.2.2.2 hoffU hv hlen
    exact ⟨p, hacc⟩
  · intro root p hacc
    obtain ⟨dl, hl, _, h1, h2, h3, h4, hres⟩ :=
      get_direct_mem_ptr_ok h m txn dmi_data root p hm hdmi hta hbase hoff hfit hacc
    refine ⟨dl, _, hl, hres, rfl, rfl, rfl, ?_, ?_, ?_, ?_, ?_⟩ <;> dsimp only <;> omega

/-- Instance of the window of a request: a 16-byte memory at base 0x1000 in absolute mode, with
4-byte leaves; the address 0x1005 is granted the window `[0x1004, 0x1007]` of
the second leaf. -/
theorem dmi_window_containment_witness :
    (∃ m1, (demoMemory 4096 false false).get_direct_mem_ptr demoHost (demoRead 4101 1)
        tlm_dmi.init
      = .ok (m1, demoRead 4101 1,
          { dmi_ptr := some [1], start_address := 4100, end_address := 4103,
            granted_access := .read_write, read_latency := 10, write_latency := 10 }, true)) ∧
    ∀ root p, (demoMemory 4096 false false).m_sub_block.access demoHost accessFuel
        ((demoMemory 4096 false false).offset (demoRead 4101 1).address) = .ok (root, p) →
      ∃ dl dmi1, root.LeafAt p dl ∧
        (demoMemory 4096 false false).get_direct_mem_ptr demoHost (demoRead 4101 1) tlm_dmi.init
          = .ok ({ demoMemory 4096 false false with m_sub_block := root }, demoRead 4101 1,
              dmi1, true) ∧
        dmi1.dmi_ptr = some p ∧
        dmi1.granted_access
          = (if (demoMemory 4096 false false).p_rom then .read else .read_write) ∧
        dmi1.start_address = (demoMemory 4096 false false).origin + dl.m_address ∧
        dmi1.end_address - dmi1.start_address + 1 = dl.m_len ∧
        dmi1.start_address ≤ (demoRead 4101 1).address ∧
        (demoRead 4101 1).address ≤ dmi1.end_address ∧
        (demoMemory 4096 false false).origin ≤ dmi1.start_address ∧
        dmi1.end_address
          < (demoMemory 4096 false false).origin + (demoMemory 4096 false false).m_size :=
  ⟨⟨_, rfl⟩,
    (dmi_window_containment demoHost (demoMemory 4096 false false) (demoRead 4101 1) tlm_dmi.init
      (Elaborated_demoMemory 4096 false false (by decide)) rfl (by decide)
      (Or.inr (by decide)) (by decide) (fun _ => by decide)).2.2.2⟩

theorem LeafAt_unique (p : List (Fin 4)) (t : SubBlock) (d1 d2 : SubBlockData)
    (h1 : t.LeafAt p d1) (h2 : t.LeafAt p d2) : d1 = d2 := by
  obtain ⟨s1, e1⟩ := LeafAt_get p t d1 h1
  obtain ⟨s2, e2⟩ := LeafAt_get p t d2 h2
  rw [e1] at e2
  injection e2

/-- C20 (windows are identical or disjoint).  On an elaborated memory with
direct access enabled, whose range fits the address space in absolute mode, for
any two valid addresses `a` and `b`: when `access` resolves `a`, and then `b` in
the tree the first call leaves, the two negotiations return `true` with windows
`Wa` containing `a` and `Wb` containing `b` that are identical or disjoint; they
are identical exactly when the two calls of `access` return the same leaf (the
same reference, which is the pointer granted), and this is the case exactly when
`b` lies in `Wa`; so an address outside `Wa` is granted a window disjoint from
`Wa`. -/
theorem dmi_windows_identical_or_disjoint (h : Host) (m : Memory) (ta tb : Txn)
    (da db : tlm_dmi) (root1 root2 : SubBlock) (pa pb : List (Fin 4))
    (hm : m.Elaborated) (hdmi : m.p_dmi = true)
    (hta : ta.address < U64) (htb : tb.address < U64)
    (hbasea : m.m_relative_addresses = true ∨ m.m_address ≤ ta.address)
    (hbaseb : m.m_relative_addresses = true ∨ m.m_address ≤ tb.address)
    (hoffa : m.offset ta.address < m.m_size) (hoffb : m.offset tb.address < m.m_size)
    (hfit : m.m_relative_addresses = false → m.m_address + m.m_size ≤ U64)
    (hacca : m.m_sub_block.access h accessFuel (m.offset ta.address) = .ok (root1, pa))
    (haccb : root1.access h accessFuel (m.offset tb.address) = .ok (root2, pb)) :
    ∃ wa wb,
      m.get_direct_mem_ptr h ta da = .ok ({ m with m_sub_block := root1 }, ta, wa, true) ∧
      ({ m with m_sub_block := root1 } : Memory).get_direct_mem_ptr h tb db
        = .ok ({ m with m_sub_block := root2 }, tb, wb, true) ∧
      wa.dmi_ptr = some pa ∧ wb.dmi_ptr = some pb ∧
      wa.start_address ≤ ta.address ∧ ta.address ≤ wa.end_address ∧
      wb.start_address ≤ tb.address ∧ tb.address ≤ wb.end_address ∧
      ((wa.start_address = wb.start_address ∧ wa.end_address = wb.end_address) ∨
        wa.end_address < wb.start_address ∨ wb.end_address < wa.start_address) ∧
      ((wa.start_address = wb.start_address ∧ wa.end_address = wb.end_address) ↔ pa = pb) ∧
      (pa = pb ↔ (wa.start_address ≤ tb.address ∧ tb.address ≤ wa.end_address)) ∧
      (¬ (wa.start_address ≤ tb.address ∧ tb.address ≤ wa.end_address) →
        wa.end_address < wb.start_address ∨ wb.end_address < wa.start_address) := by
  obtain ⟨dla, hla, hm1, a1, a2, a3, a4, hga⟩ :=
    get_direct_mem_ptr_ok h m ta da root1 pa hm hdmi hta hbasea hoffa hfit hacca
  obtain ⟨dlb, hlb, hm2, b1, b2, b3, b4, hgb⟩ :=
    get_direct_mem_ptr_ok h { m with m_sub_block := root1 } tb db root2 pb hm1 hdmi htb
      hbaseb hoffb hfit haccb
  have hla2 : root2.LeafAt pa dla := access_LeafAt h accessFuel root1 _ root2 pb haccb pa dla hla
  have hwf2 : root2.WF := hm2.2.2.2.2.2
  have hdis := LeafAt_disjoint pa pb root2 dla dlb hwf2 hla2 hlb
  have b1m : dlb.m_address ≤ m.offset tb.address := b1
  have b2m : m.offset tb.address < dlb.m_address + dlb.m_len := b2
  have b4m : tb.address = m.origin + m.offset tb.address := b4
  have hsame : pa = pb → dla = dlb := by
    intro hp
    rw [← hp] at hlb
    exact LeafAt_unique pa root2 dla dlb hla2 hlb
  refine ⟨_, _, hga, hgb, rfl, rfl, ?_, ?_, ?_, ?_, ?_, ?_, ?_, ?_⟩
  · dsimp only
    omega
  · dsimp only
    omega
  · show m.origin + dlb.m_address ≤ tb.address
    omega
  · show tb.address ≤ m.origin + dlb.m_address + dlb.m_len - 1
    omega
  · show (m.origin + dla.m_address = m.origin + dlb.m_address ∧
        m.origin + dla.m_address + dla.m_len - 1 = m.origin + dlb.m_address + dlb.m_len - 1) ∨
      m.origin + dla.m_address + dla.m_len - 1 < m.origin + dlb.m_address ∨
      m.origin + dlb.m_address + dlb.m_len - 1 < m.origin + dla.m_address
    rcases hdis with ⟨_, hd⟩ | hd | hd
    · left
      rw [hd]
      exact ⟨rfl, rfl⟩
    · right
      left
      omega
    · right
      right
      omega
  · show (m.origin + dla.m_address = m.origin + dlb.m_address ∧
        m.origin + dla.m_address + dla.m_len - 1 = m.origin + dlb.m_address + dlb.m_len - 1) ↔
      pa = pb
    constructor
    · intro hw
      rcases hdis with ⟨hp, _⟩ | hd | hd
      · exact hp
      · omega
      · omega
    · intro hp
      rw [hsame hp]
      exact ⟨rfl, rfl⟩
  · show pa = pb ↔ (m.origin + dla.m_address ≤ tb.address ∧
        tb.address ≤ m.origin + dla.m_address + dla.m_len - 1)
    constructor
    · intro hp
      rw [hsame hp]
      omega
    · intro hw
      rcases hdis with ⟨hp, _⟩ | hd | hd
      · exact hp
      · omega
      · omega
  · show ¬ (m.origin + dla.m_address ≤ tb.address ∧
        tb.address ≤ m.origin + dla.m_address + dla.m_len - 1) →
      m.origin + dla.m_address + dla.m_len - 1 < m.origin + dlb.m_address ∨
      m.origin + dlb.m_address + dlb.m_len - 1 < m.origin + dla.m_address
    intro hw
    rcases hdis with ⟨hp, hd⟩ | hd | hd
    · rw [hd] at hw
      omega
    · left
      omega
    · right
      omega

/-- Instance of C20: on a 16-byte memory with 4-byte leaves, address 5 is granted
the window `[4, 7]` and then address 8, just outside it, the window `[8, 11]`. -/
theorem dmi_windows_identical_or_disjoint_witness :
    (∃ m1 m2, (demoMemory 0 true false).get_direct_mem_ptr demoHost (demoRead 5 1) tlm_dmi.init
        = .ok (m1, demoRead 5 1,
            { dmi_ptr := some [1], start_address := 4, end_address := 7,
              granted_access := .read_write, read_latency := 10, write_latency := 10 }, true) ∧
      m1.get_direct_mem_ptr demoHost (demoRead 8 1) tlm_dmi.init
        = .ok (m2, demoRead 8 1,
            { dmi_ptr := some [2], start_address := 8, end_address := 11,
              granted_access := .read_write, read_latency := 10, write_latency := 10 }, true)) ∧
    ∃ wa wb,
      (demoMemory 0 true false).get_direct_mem_ptr demoHost (demoRead 5 1) tlm_dmi.init
        = .ok ({ demoMemory 0 true false with
                 m_sub_block := demoTouched (demoMemory 0 true false).m_sub_block 5 },
            demoRead 5 1, wa, true) ∧
      ({ demoMemory 0 true false with
         m_sub_block := demoTouched (demoMemory 0 true false).m_sub_block 5 } : Memory
        ).get_direct_mem_ptr demoHost (demoRead 8 1) tlm_dmi.init
        = .ok ({ demoMemory 0 true false with
                 m_sub_block :=
                   demoTouched (demoTouched (demoMemory 0 true false).m_sub_block 5) 8 },
            demoRead 8 1, wb, true) ∧
      wa.dmi_ptr = some [1] ∧ wb.dmi_ptr = some [2] ∧
      wa.start_address ≤ (demoRead 5 1).address ∧ (demoRead 5 1).address ≤ wa.end_address ∧
      wb.start_address ≤ (demoRead 8 1).address ∧ (demoRead 8 1).address ≤ wb.end_address ∧
      ((wa.start_address = wb.start_address ∧ wa.end_address = wb.end_address) ∨
        wa.end_address < wb.start_address ∨ wb.end_address < wa.start_address) ∧
      ((wa.start_address = wb.start_address ∧ wa.end_address = wb.end_address) ↔
        ([1] : List (Fin 4)) = [2]) ∧
      (([1] : List (Fin 4)) = [2] ↔
        (wa.start_address ≤ (demoRead 8 1).address ∧ (demoRead 8 1).address ≤ wa.end_address)) ∧
      (¬ (wa.start_address ≤ (demoRead 8 1).address ∧
          (demoRead 8 1).address ≤ wa.end_address) →
        wa.end_address < wb.start_address ∨ wb.end_address < wa.start_address) :=
  ⟨⟨_, _, rfl, rfl⟩,
    dmi_windows_identical_or_disjoint demoHost (demoMemory 0 true false) (demoRead 5 1)
      (demoRead 8 1) tlm_dmi.init tlm_dmi.init
      (demoTouched (demoMemory 0 true false).m_sub_block 5)
      (demoTouched (demoTouched (demoMemory 0 true false).m_sub_block 5) 8) [1] [2]
      (Elaborated_demoMemory 0 true false (by decide)) rfl (by decide) (by decide)
      (Or.inl rfl) (Or.inl rfl) (by decide) (by decide) (fun hr => by cases hr) rfl rfl⟩

/-! ## Refusal of direct access -/

/-- C22 (direct-access refusal).  With direct access disabled,
`Memory::get_direct_mem_ptr` returns `false` for every request and leaves the
memory with its tree, the transaction and the descriptor as they were.  With
direct access enabled it returns `false`, with the address-error response set
and nothing else changed (the tree is not touched, so no leaf is allocated), for
every address below the base in absolute mode and every address whose offset is
not below the size. -/
theorem dmi_refusal (h : Host) (m : Memory) (txn : Txn) (dmi_data : tlm_dmi) :
    (m.p_dmi = false → m.get_direct_mem_ptr h txn dmi_data = .ok (m, txn, dmi_data, false)) ∧
    (m.p_dmi = true → m.m_relative_addresses = false → txn.address < m.m_address →
      m.get_direct_mem_ptr h txn dmi_data
        = .ok (m, { txn with response := .address_error }, dmi_data, false)) ∧
    (m.p_dmi = true → txn.address < U64 →
      (m.m_relative_addresses = true ∨ m.m_address ≤ txn.address) →
      m.m_size ≤ m.offset txn.address →
      m.get_direct_mem_ptr h txn dmi_data
        = .ok (m, { txn with response := .address_error }, dmi_data, false)) := by
  refine ⟨?_, ?_, ?_⟩
  · intro hd
    unfold Memory.get_direct_mem_ptr
    rw [if_pos (by simp [hd])]
  · intro hd hrel hlt
    unfold Memory.get_direct_mem_ptr
    rw [if_neg (by simp [hd]), if_pos (by simp [hrel, hlt])]
  · intro hd hta hbase hoff
    have hfirst : ¬ ((!m.m_relative_addresses && decide (txn.address < m.m_address)) = true) := by
      rcases hbase with hrel | hrel
      · simp [hrel]
      · simp
        intro _
        exact hrel
    have haddr : (if (!m.m_relative_addresses) = true then sub64 txn.address m.m_address
        else txn.address) = m.offset txn.address := by
      unfold Memory.offset
      cases hr : m.m_relative_addresses with
      | true => simp
      | false =>
        simp only [Bool.not_false, if_true, Bool.false_eq_true, if_false]
        rcases hbase with hrel | hrel
        · rw [hr] at hrel
          cases hrel
        · exact sub64_of_le hrel hta
    unfold Memory.get_direct_mem_ptr
    rw [if_neg (by simp [hd]), if_neg hfirst]
    simp only [haddr]
    rw [if_pos (by omega)]

/-- C23 (postcondition of `access`).  For every well-formed block, every
address inside its range and every host: a call of `access` is not stopped by
the recursion bound of the model when the bound exceeds the depth the length
allows, and when it returns the returned block is unsplit, has a buffer, of the
length of the block, and its range contains the address. -/
theorem access_postcondition (h : Host) (fuel : Nat) (t : SubBlock) (a : Nat) (hwf : t.WF)
    (ha : a < U64) (hlo : t.get_address ≤ a) (hhi : a < t.get_address + t.get_len) :
    (t.get_len < 4 ^ fuel → t.access h (fuel + 1) a ≠ .error .fuel) ∧
    (∀ t1 p, t.access h fuel a = .ok (t1, p) →
      ∃ dl subs buf, t1.get p = .mk dl subs ∧ dl.m_use_sub_blocks = false ∧
        dl.m_ptr = some buf ∧ buf.length = dl.m_len ∧
        dl.m_address ≤ a ∧ a < dl.m_address + dl.m_len) := by
  refine ⟨fun hlen => access_fuel h fuel t a hwf hlen, ?_⟩
  intro t1 p hacc
  obtain ⟨w1, _, _, _, _, dl, hl, hin⟩ := access_ok h fuel t a t1 p hwf ha hacc
  obtain ⟨h1, h2⟩ := hin hlo hhi
  obtain ⟨_, _, g3, buf, hb, hbl⟩ := LeafAt_range p t1 dl w1 hl
  obtain ⟨subs, hget⟩ := LeafAt_get p t1 dl hl
  exact ⟨dl, subs, buf, hget, g3, hb, hbl, h1, h2⟩

/-- Instance of C23: the first access to address 5 of a 16-byte tree with 4-byte
leaves returns the second child, the leaf `[4, 8)`. -/
theorem access_postcondition_witness :
    (∃ t1, (SubBlock.new 0 16 4 1 "").access demoHost accessFuel 5 = .ok (t1, [1]) ∧
      (t1.get [1]).get_address = 4 ∧ (t1.get [1]).get_len = 4 ∧
      (t1.get [1]).get_ptr = some [0, 0, 0, 0]) ∧
    ∀ t1 p, (SubBlock.new 0 16 4 1 "").access demoHost 33 5 = .ok (t1, p) →
      ∃ dl subs buf, t1.get p = .mk dl subs ∧ dl.m_use_sub_blocks = false ∧
        dl.m_ptr = some buf ∧ buf.length = dl.m_len ∧
        dl.m_address ≤ 5 ∧ 5 < dl.m_address + dl.m_len :=
  ⟨⟨_, rfl, rfl, rfl, rfl⟩,
    (access_postcondition demoHost 33 (SubBlock.new 0 16 4 1 "") 5
      (WF_new 0 16 4 1 "" (by decide)) (by decide) (by decide) (by decide)).2⟩

/-- Instance of C22: a request at offset 16 of a 16-byte memory at base 0x1000
in absolute mode. -/
theorem dmi_refusal_witness :
    (demoMemory 4096 false false).get_direct_mem_ptr demoHost (demoRead 4112 1) tlm_dmi.init
      = .ok (demoMemory 4096 false false,
          { demoRead 4112 1 with response := .address_error }, tlm_dmi.init, false) :=
  (dmi_refusal demoHost (demoMemory 4096 false false) (demoRead 4112 1) tlm_dmi.init).2.2
    rfl (by decide) (Or.inr (by decide)) (by decide)

/-! ## One block or several -/

theorem allocate_succeeds {h : Host} {d : SubBlockData} (hu : d.m_use_sub_blocks = false)
    (hs : d.allocSucceeds h = true) : ∃ d2, d.allocate h = .ok (d2, true) := by
  unfold SubBlockData.allocSucceeds at hs
  unfold SubBlockData.allocate
  rw [if_neg (by simp [hu])]
  by_cases hf : d.m_filename ≠ ""
  · rw [if_pos hf] at hs ⊢
    simp only [Bool.and_eq_true] at hs
    unfold SubBlockData.map
    rw [if_pos hs.1]
    cases hmm : h.mmap d.m_filename d.m_address d.m_len with
    | none =>
      rw [hmm] at hs
      simp at hs
    | some f => exact ⟨_, rfl⟩
  · rw [if_neg hf] at hs ⊢
    cases ha : h.aligned_alloc d.m_address d.m_len with
    | some f => exact ⟨_, rfl⟩
    | none =>
      rw [ha] at hs
      cases hm : h.malloc d.m_address d.m_len with
      | some f => exact ⟨_, rfl⟩
      | none =>
        rw [hm] at hs
        simp at hs

/-- A root block within the maximum leaf size that has its buffer, or gets it
from the host, is the leaf `access` returns for every address. -/
theorem access_root_leaf (h : Host) (fuel : Nat) (d : SubBlockData) (subs : Fin 4 → SubBlock)
    (a : Nat) (hmax : d.m_len ≤ d.m_max_size) (hu : d.m_use_sub_blocks = false)
    (ha : d.m_address ≤ a) (hs : d.m_ptr.isSome = true ∨ d.allocSucceeds h = true) :
    ∃ d2, (SubBlock.mk d subs).access h (fuel + 1) a = .ok (.mk d2 subs, []) := by
  simp only [SubBlock.access]
  by_cases hp : d.m_ptr.isSome = true
  · rw [if_pos (by simp [hp, hu]), if_pos ha]
    exact ⟨d, rfl⟩
  · rw [if_neg (by simp [hp])]
    have hd1 : (if d.m_len > d.m_max_size then { d with m_use_sub_blocks := true } else d) = d :=
      if_neg (by omega)
    rw [hd1]
    rcases hs with hs | hs
    · exact absurd hs hp
    · obtain ⟨d2, h2⟩ := allocate_succeeds hu hs
      rw [h2]
      exact ⟨d2, rfl⟩

/-- A block longer than the maximum leaf size, without buffer, is split by
`access`, which returns a block below it. -/
theorem access_root_split (h : Host) (fuel : Nat) (d : SubBlockData) (subs : Fin 4 → SubBlock)
    (a : Nat) (t1 : SubBlock) (p : List (Fin 4)) (hmax : d.m_max_size < d.m_len)
    (hp : d.m_ptr = none) (hacc : (SubBlock.mk d subs).access h (fuel + 1) a = .ok (t1, p)) :
    ∃ d2 subs2 i q, t1 = .mk d2 subs2 ∧ p = i :: q ∧ d2.m_use_sub_blocks = true ∧
      d2.m_len = d.m_len := by
  simp only [SubBlock.access] at hacc
  rw [if_neg (by simp [hp])] at hacc
  have hd1 : (if d.m_len > d.m_max_size then { d with m_use_sub_blocks := true } else d)
      = { d with m_use_sub_blocks := true } := if_pos hmax
  rw [hd1, allocate_split rfl] at hacc
  simp only at hacc
  split at hacc
  · cases hacc
  · split at hacc
    · cases hacc
    · split at hacc
      · cases hacc
      · split at hacc
        · split at hacc
          · cases hacc
          · injection hacc with hacc
            injection hacc with e1 e2
            subst e1 e2
            exact ⟨_, _, _, _, rfl, rfl, rfl, rfl⟩
        · cases hacc

theorem get_direct_mem_ptr_err (h : Host) (m : Memory) (txn : Txn) (dmi_data : tlm_dmi)
    (e : Fault) (hdmi : m.p_dmi = true) (hta : txn.address < U64)
    (hbase : m.m_relative_addresses = true ∨ m.m_address ≤ txn.address)
    (hoff : m.offset txn.address < m.m_size)
    (hacc : m.m_sub_block.access h accessFuel (m.offset txn.address) = .error e) :
    m.get_direct_mem_ptr h txn dmi_data = .error e := by
  have hfirst : ¬ ((!m.m_relative_addresses && decide (txn.address < m.m_address)) = true) := by
    rcases hbase with hrel | hrel
    · simp [hrel]
    · simp
      intro _
      exact hrel
  have haddr : (if (!m.m_relative_addresses) = true then sub64 txn.address m.m_address
      else txn.address) = m.offset txn.address := by
    unfold Memory.offset
    cases hr : m.m_relative_addresses with
    | true => simp
    | false =>
      simp only [Bool.not_false, if_true, Bool.false_eq_true, if_false]
      rcases hbase with hrel | hrel
      · rw [hr] at hrel
        cases hrel
      · exact sub64_of_le hrel hta
  unfold Memory.get_direct_mem_ptr
  rw [if_neg (by simp [hdmi]), if_neg hfirst]
  simp only [haddr]
  rw [if_neg (by omega), hacc]

/-- C21 (counterexample).  A 16-byte memory with a maximum leaf size of 4 bytes
is served by four blocks of 4 bytes: the window granted for address 5 is
`[4, 7]`, not `[0, size - 1] = [0, 15]`, and the one granted next for address 8
is `[8, 11]`. -/
theorem window_is_not_the_whole_memory :
    (demoMemory 0 true false).m_size = 16 ∧
    (∃ m1 m2, (demoMemory 0 true false).get_direct_mem_ptr demoHost (demoRead 5 1) tlm_dmi.init
        = .ok (m1, demoRead 5 1,
            { dmi_ptr := some [1], start_address := 4, end_address := 7,
              granted_access := .read_write, read_latency := 10, write_latency := 10 }, true) ∧
      m1.get_direct_mem_ptr demoHost (demoRead 8 1) tlm_dmi.init
        = .ok (m2, demoRead 8 1,
            { dmi_ptr := some [2], start_address := 8, end_address := 11,
              granted_access := .read_write, read_latency := 10, write_latency := 10 }, true) ∧
      m2.m_sub_block.allocated = 8) := by
  refine ⟨rfl, _, _, rfl, rfl, rfl⟩

/-- C21 (amended).  On an elaborated memory with direct access enabled, whose
range fits the address space in absolute mode, for every valid address: if the
size is within the maximum leaf size and the root block is unsplit and has its
buffer or gets it from the host, `get_direct_mem_ptr` returns `true` with the
pointer to the root block, which is one block covering the whole memory, and the
window `[0, size - 1]`, from the base in absolute mode; if the size exceeds the
maximum leaf size (the root block then has no buffer), every window
`get_direct_mem_ptr` grants is the range of a block below the root and spans at
most a quarter of the memory. -/
theorem single_block_window (h : Host) (m : Memory) (txn : Txn) (dmi_data : tlm_dmi)
    (d : SubBlockData) (subs : Fin 4 → SubBlock)
    (hm : m.Elaborated) (hdmi : m.p_dmi = true) (hta : txn.address < U64)
    (hbase : m.m_relative_addresses = true ∨ m.m_address ≤ txn.address)
    (hoff : m.offset txn.address < m.m_size)
    (hfit : m.m_relative_addresses = false → m.m_address + m.m_size ≤ U64)
    (hroot : m.m_sub_block = .mk d subs) :
    (d.m_len ≤ d.m_max_size → d.m_use_sub_blocks = false →
      (d.m_ptr.isSome = true ∨ d.allocSucceeds h = true) →
      ∃ d2 buf, d2.m_address = 0 ∧ d2.m_len = m.m_size ∧ d2.m_ptr = some buf ∧
        buf.length = m.m_size ∧
        m.get_direct_mem_ptr h txn dmi_data
          = .ok ({ m with m_sub_block := .mk d2 subs }, txn,
              { dmi_ptr := some []
                start_address := m.origin
                end_address := m.origin + m.m_size - 1
                granted_access := if m.p_rom then .read else .read_write
                read_latency := m.p_latency
                write_latency := m.p_latency }, true)) ∧
    (d.m_max_size < d.m_len → d.m_ptr = none →
      ∀ m1 t1 w, m.get_direct_mem_ptr h txn dmi_data = .ok (m1, t1, w, true) →
        (∃ i q, w.dmi_ptr = some (i :: q)) ∧
        w.end_address + 1 - w.start_address ≤ m.m_size / 4 ∧ m.m_size / 4 < m.m_size) := by
  have had : d.m_address = 0 := by
    have := hm.2.2.2.1
    rw [hroot] at this
    exact this
  have hlen : d.m_len = m.m_size := by
    have := hm.2.2.2.2.1
    rw [hroot] at this
    exact this
  refine ⟨?_, ?_⟩
  · intro hmax hu hs
    obtain ⟨d2, hacc⟩ := access_root_leaf h 32 d subs (m.offset txn.address) hmax hu
      (by rw [had]; exact Nat.zero_le _) hs
    have hacc2 : m.m_sub_block.access h accessFuel (m.offset txn.address)
        = .ok (.mk d2 subs, []) := by
      rw [hroot]
      exact hacc
    obtain ⟨dl, hl, hm1, _, _, _, _, hres⟩ :=
      get_direct_mem_ptr_ok h m txn dmi_data _ _ hm hdmi hta hbase hoff hfit hacc2
    rw [LeafAt_nil] at hl
    obtain ⟨hd, _, _⟩ := hl
    subst hd
    have e1 : d2.m_address = 0 := hm1.2.2.2.1
    have e2 : d2.m_len = m.m_size := hm1.2.2.2.2.1
    obtain ⟨_, _, _, buf, hb, hbl⟩ :=
      LeafAt_range [] (.mk d2 subs) d2 hm1.2.2.2.2.2 (by rw [LeafAt_nil]; exact ⟨rfl, ‹_›, ‹_›⟩)
    refine ⟨d2, buf, e1, e2, hb, by rw [hbl, e2], ?_⟩
    rw [hres, e1, e2, Nat.add_zero]
  · intro hmax hp m1 t1 w hres
    cases hacc : m.m_sub_block.access h accessFuel (m.offset txn.address) with
    | error e =>
      rw [get_direct_mem_ptr_err h m txn dmi_data e hdmi hta hbase hoff hacc] at hres
      cases hres
    | ok v =>
      obtain ⟨root, p⟩ := v
      obtain ⟨dl, hl, hm1, c1, c2, _, _, hres2⟩ :=
        get_direct_mem_ptr_ok h m txn dmi_data root p hm hdmi hta hbase hoff hfit hacc
      rw [hres2] at hres
      injection hres with hres
      injection hres with _ hres
      injection hres with _ hres
      injection hres with hw _
      subst hw
      rw [hroot] at hacc
      obtain ⟨d2, subs2, i, q, e1, e2, e3, e4⟩ :=
        access_root_split h 32 d subs _ root p hmax hp hacc
      subst e1 e2
      have hwf : (SubBlock.mk d2 subs2).WF := hm1.2.2.2.2.2
      rw [LeafAt_cons] at hl
      rw [WF_mk] at hwf
      obtain ⟨_, _, hch, hsubwf⟩ := hwf
      obtain ⟨_, hpos, _, _, cl, _⟩ := hch i (LeafAt_isBlock _ _ _ hl.2)
      obtain ⟨r1, r2, _⟩ := LeafAt_range q (subs2 i) dl (hsubwf i) hl.2
      rw [cl, e4, hlen] at r2
      rw [e4, hlen] at hpos
      refine ⟨⟨i, q, rfl⟩, ?_, ?_⟩
      · dsimp only
        omega
      · omega

/-- Instance of C21 (amended): a 16-byte memory with the default leaf sizes is
one block, and the window granted for address 5 is `[0, 15]`. -/
theorem single_block_window_witness :
    (∃ m1, demoFlatMemory.get_direct_mem_ptr demoHost (demoRead 5 1) tlm_dmi.init
      = .ok (m1, demoRead 5 1,
          { dmi_ptr := some [], start_address := 0, end_address := 15,
            granted_access := .read_write, read_latency := 10, write_latency := 10 }, true)) ∧
    ∃ d2 buf, d2.m_address = 0 ∧ d2.m_len = demoFlatMemory.m_size ∧ d2.m_ptr = some buf ∧
      buf.length = demoFlatMemory.m_size ∧
      demoFlatMemory.get_direct_mem_ptr demoHost (demoRead 5 1) tlm_dmi.init
        = .ok ({ demoFlatMemory with m_sub_block := .mk d2 (fun _ => .null) }, demoRead 5 1,
            { dmi_ptr := some []
              start_address := demoFlatMemory.origin
              end_address := demoFlatMemory.origin + demoFlatMemory.m_size - 1
              granted_access := if demoFlatMemory.p_rom then .read else .read_write
              read_latency := demoFlatMemory.p_latency
              write_latency := demoFlatMemory.p_latency }, true) :=
  ⟨⟨_, rfl⟩,
    (single_block_window demoHost demoFlatMemory (demoRead 5 1) tlm_dmi.init
      { m_len := 16, m_address := 0, m_max_size := 4294967296, m_min_size := 4096,
        m_filename := "", m_ptr := none, m_use_sub_blocks := false, m_mapped := false }
      (fun _ => .null)
      ⟨by decide, by decide, rfl, rfl, rfl, WF_new 0 16 4294967296 4096 "" (by decide)⟩
      rfl (by decide) (Or.inl rfl) (by decide) (fun hr => by cases hr) rfl).1
      (by decide) rfl (Or.inr rfl)⟩

/-! ## Backward invalidation -/

/-- C28 (counterexample).  Target 0 of the table
`[(T0, 0, 0x1000), (T1, 0x2000, 0x1000)]` is region-relative; an invalidation of
`[0, 0x1FFF]` arriving from it fails the assertion of `compose_address`, and no
initiator is notified. -/
theorem invalidation_beyond_target_size_fails_assertion :
    demoRouter.invalidate_direct_mem_ptr 2 0 0 8191 = .error .assertion ∧
    demoRouter.invalidate_direct_mem_ptr 2 1 0 (U64 - 1) = .error .assertion := by
  refine ⟨rfl, rfl⟩

/-- C28 (amended).  For every invalidation of `[start, end]` arriving from the
target with index `id`, whose table entry is `ti`, at a router with `n` bound
initiators: if `ti` is region-relative and `start` and `end` are below the size
of the entry, every initiator is notified exactly once, in socket order, with
the range `[(base + start) mod 2^64, (base + end) mod 2^64]`, which is
`[base + start, base + end]` when the range of the entry fits the address space;
if `ti` is region-relative and `start` or `end` is not below the size, the
assertion of `compose_address` fails and nobody is notified; if `ti` is
pass-through, every initiator is notified exactly once with `[start, end]`. -/
theorem backward_invalidation (r : Router) (n : Nat) (id : Nat) (start stop : Nat)
    (ti : target_info) (hentry : r.targets.get? id = some ti) :
    (ti.mask_addr = true → start < ti.size → stop < ti.size →
      r.invalidate_direct_mem_ptr n id start stop
        = .ok ((List.range n).map
            (fun i => (i, add64 ti.address start, add64 ti.address stop))) ∧
      (ti.address + ti.size ≤ U64 →
        add64 ti.address start = ti.address + start ∧
        add64 ti.address stop = ti.address + stop)) ∧
    (ti.mask_addr = true → ¬ (start < ti.size ∧ stop < ti.size) →
      r.invalidate_direct_mem_ptr n id start stop = .error .assertion) ∧
    (ti.mask_addr = false →
      r.invalidate_direct_mem_ptr n id start stop
        = .ok ((List.range n).map (fun i => (i, start, stop)))) ∧
    (∀ s e : Nat,
      (((List.range n).map (fun i => (i, s, e))).map Prod.fst = List.range n) ∧
      ∀ i, i < n → (((List.range n).map (fun i => (i, s, e))).map Prod.fst).count i = 1) := by
  have hid : ¬ ((id : Int) < 0) := by omega
  have hnat : (id : Int).toNat = id := Int.toNat_natCast id
  refine ⟨?_, ?_, ?_, ?_⟩
  · intro hmask hs he
    refine ⟨?_, fun hfit => ⟨add64_of_lt (by omega), add64_of_lt (by omega)⟩⟩
    unfold Router.invalidate_direct_mem_ptr
    rw [if_neg hid, hnat, hentry]
    simp only [hmask, if_true, Router.compose_address, hentry, if_pos hs, if_pos he]
  · intro hmask hno
    unfold Router.invalidate_direct_mem_ptr
    rw [if_neg hid, hnat, hentry]
    simp only [hmask, if_true, Router.compose_address, hentry]
    by_cases hs : start < ti.size
    · rw [if_pos hs]
      simp only
      rw [if_neg (fun he => hno ⟨hs, he⟩)]
    · rw [if_neg hs]
  · intro hmask
    unfold Router.invalidate_direct_mem_ptr
    rw [if_neg hid, hnat, hentry]
    simp only [hmask, Bool.false_eq_true, if_false]
  · intro s e
    have hmap : ((List.range n).map (fun i => (i, s, e))).map Prod.fst = List.range n := by
      rw [List.map_map]
      exact List.map_id _
    refine ⟨hmap, ?_⟩
    intro i hi
    rw [hmap]
    exact List.count_eq_one_of_mem (List.nodup_range n) (List.mem_range.2 hi)

/-- Instance of C28 (amended): target 1 (base 0x2000, size 0x1000) invalidates
`[0x10, 0x1F]`; the three initiators are notified of `[0x2010, 0x201F]`. -/
theorem backward_invalidation_witness :
    demoRouter.invalidate_direct_mem_ptr 3 1 16 31
      = .ok [(0, 8208, 8223), (1, 8208, 8223), (2, 8208, 8223)] ∧
    (demoRouter.invalidate_direct_mem_ptr 3 (1 : Nat) 16 31
        = .ok ((List.range 3).map (fun i => (i, add64 8192 16, add64 8192 31))) ∧
      (8192 + 4096 ≤ U64 → add64 8192 16 = 8192 + 16 ∧ add64 8192 31 = 8192 + 31)) :=
  ⟨rfl,
    (backward_invalidation demoRouter 3 1 16 31
      { index := 1, name := "T1", address := 8192, size := 4096, mask_addr := true } rfl).1
      rfl (by decide) (by decide)⟩

/-! ## Elaboration of the router -/

theorem resolve_total (b : Broker) : ∀ (ts : List target_info),
    (∀ ti ∈ ts, (b.address ti.name).isSome = true ∧ (b.size ti.name).isSome = true) →
    ∃ ts1, Router.resolve b ts = .ok ts1 ∧
      ts1 = ts.map (fun ti =>
        { ti with
          address := (b.address ti.name).getD 0
          size := (b.size ti.name).getD 0
          mask_addr := (b.relative_addresses ti.name).getD true }) := by
  intro ts
  induction ts with
  | nil =>
    intro _
    exact ⟨[], rfl, rfl⟩
  | cons ti rest ih =>
    intro hall
    obtain ⟨ha, hs⟩ := hall ti (List.mem_cons_self _ _)
    obtain ⟨ts1, h1, h2⟩ := ih (fun t ht => hall t (List.mem_cons_of_mem _ ht))
    cases hadr : b.address ti.name with
    | none =>
      rw [hadr] at ha
      cases ha
    | some address =>
      cases hsz : b.size ti.name with
      | none =>
        rw [hsz] at hs
        cases hs
      | some size =>
        refine ⟨_, ?_, rfl⟩
        simp only [Router.resolve, hadr, hsz, h1, h2, List.map_cons, Option.getD_some]
        cases b.relative_addresses ti.name <;> rfl

/-- C29 (counterexample).  Two targets `A` and `B` are bound to a router and the
broker places them at `[0, 0x100)` and `[0x10, 0x110)`, which overlap:
`before_end_of_elaboration` returns without reporting anything, with both
entries in the table; address `0x10` matches both.  Resolution checks nothing but
the presence of the presets: every table whose entries have an address and a
size preset passes, whatever the ranges. -/
theorem overlapping_table_passes_resolution :
    ((({ targets := [], m_pathIDPool := [] } : Router).register_boundto "A").register_boundto
        "B").before_end_of_elaboration demoOverlapBroker = .ok demoOverlapRouter ∧
    (∀ ti ∈ demoOverlapRouter.targets, ti.matches 16 = true) ∧
    (∀ (b : Broker) (r : Router),
      (∀ ti ∈ r.targets, (b.address ti.name).isSome = true ∧ (b.size ti.name).isSome = true) →
      ∃ r1, r.before_end_of_elaboration b = .ok r1) := by
  refine ⟨rfl, by decide, ?_⟩
  intro b r hall
  obtain ⟨ts1, h1, _⟩ := resolve_total b r.targets hall
  exact ⟨{ r with targets := ts1 }, by simp only [Router.before_end_of_elaboration, h1]⟩

/-! ## Splitting -/

/-- C30 (failing input).  A block of 6 bytes with a maximum leaf size of 4 is
split by the first `access`, and the assertion `(m_len & 3) == 0` fails.  The
same happens one level down for a memory of 24 bytes, whose children have 6
bytes, on a write, a read and a direct-access request; and with the default leaf
sizes (maximum `0x100000000`, minimum `0x1000`) for a memory of
`0x100000002` bytes. -/
theorem split_assertion_fails :
    (SubBlock.new 0 6 4 1 "").access demoHost accessFuel 0 = .error .assertion ∧
    (demoSizedMemory 24 4 1).b_transport demoHost (demoWrite 0 [1]) = .error .assertion ∧
    (demoSizedMemory 24 4 1).b_transport demoHost (demoRead 0 1) = .error .assertion ∧
    (demoSizedMemory 24 4 1).get_direct_mem_ptr demoHost (demoRead 0 1) tlm_dmi.init
      = .error .assertion ∧
    (demoSizedMemory 4294967298 4294967296 4096).b_transport demoHost (demoWrite 0 [1])
      = .error .assertion := by
  refine ⟨rfl, rfl, rfl, rfl, rfl⟩

/-- C26 (failing input).  A block of 16 bytes, within the maximum leaf size of
64, with minimum leaf size 8, on a host that cannot allocate more than 4 bytes
at once: every allocation attempt for the block fails and the child length
`16 / 4 = 4` is below the minimum, yet `access` is not a fatal error: it splits
the block, creates a child of 4 bytes and returns it with a buffer of 4
bytes. -/
theorem child_below_minimum_is_created :
    (SubBlock.new 0 16 64 8 "").get_len / 4 < 8 ∧
    (∃ t1, (SubBlock.new 0 16 64 8 "").access demoScarceHost accessFuel 5 = .ok (t1, [1]) ∧
      (t1.get [1]).get_address = 4 ∧ (t1.get [1]).get_len = 4 ∧
      (t1.get [1]).get_ptr = some [0, 0, 0, 0] ∧ t1.allocated = 4) := by
  refine ⟨by decide, _, rfl, rfl, rfl, rfl, rfl⟩

/-- C25 (counterexample).  A block of 16 bytes, within the maximum leaf size of
64, on a host that cannot allocate more than 4 bytes at once: after `access` the
block is split although its length does not exceed the maximum leaf size. -/
theorem block_within_maximum_is_split :
    ∃ d subs, (SubBlock.new 0 16 64 1 "").access demoScarceHost accessFuel 5
        = .ok (.mk d subs, [1]) ∧
      d.m_use_sub_blocks = true ∧ d.m_len = 16 ∧ d.m_max_size = 64 ∧ d.m_len ≤ d.m_max_size := by
  refine ⟨_, _, rfl, rfl, rfl, rfl, by decide⟩

/-! ## One step of `access` -/

theorem allocate_cases {h : Host} {d d2 : SubBlockData} {b : Bool}
    (hu : d.m_use_sub_blocks = false) (hp : d.m_ptr = none)
    (ha : d.allocate h = .ok (d2, b)) :
    (b = true → d.allocFails h = false ∧
      ∃ buf mp, d2 = { d with m_ptr := some buf, m_mapped := mp } ∧ buf.length = d.m_len) ∧
    (b = false → d.allocFails h = true ∧ d2 = { d with m_use_sub_blocks := true }) := by
  rcases d with ⟨len, address, max_size, min_size, filename, ptr, use, mapped⟩
  simp only at hu hp
  subst hu hp
  unfold SubBlockData.allocate at ha
  unfold SubBlockData.allocFails
  simp only [Bool.false_eq_true, if_false] at ha
  by_cases hf : filename ≠ ""
  · simp only [if_pos hf] at ha ⊢
    unfold SubBlockData.map at ha
    by_cases ho : h.open_ok filename = true
    · simp only [if_pos ho] at ha
      cases hmm : h.mmap filename address len with
      | none =>
        simp only [hmm] at ha
        injection ha with ha
        injection ha with e1 e2
        subst e1 e2
        simp [ho]
      | some f =>
        simp only [hmm] at ha
        injection ha with ha
        injection ha with e1 e2
        subst e1 e2
        simp only [true_implies, Option.isNone_some, Bool.and_false, true_and, Bool.true_eq_false,
          false_implies, and_true]
        exact ⟨_, _, rfl, length_mkBuffer _ _⟩
    · simp only [if_neg ho] at ha
      cases ha
  · simp only [if_neg hf] at ha ⊢
    cases hal : h.aligned_alloc address len with
    | some f =>
      simp only [hal] at ha
      injection ha with ha
      injection ha with e1 e2
      subst e1 e2
      simp only [true_implies, Option.isNone_some, Bool.false_and, true_and, Bool.true_eq_false,
        false_implies, and_true]
      exact ⟨_, _, rfl, length_mkBuffer _ _⟩
    | none =>
      simp only [hal] at ha
      cases hml : h.malloc address len with
      | some f =>
        simp only [hml] at ha
        injection ha with ha
        injection ha with e1 e2
        subst e1 e2
        simp only [true_implies, Option.isNone_some, Bool.and_false, true_and, Bool.true_eq_false,
          false_implies, and_true]
        exact ⟨_, _, rfl, length_mkBuffer _ _⟩
      | none =>
        simp only [hml] at ha
        injection ha with ha
        injection ha with e1 e2
        subst e1 e2
        simp

/-- The three ways in which a call of `access` on a well-formed block returns:
the block has its buffer; the block gets its buffer from the host; or the block
is split and the call returns what `access` returns on the child that covers
the address, created if it does not exist. -/
theorem access_inv (h : Host) (fuel : Nat) (d : SubBlockData) (subs : Fin 4 → SubBlock)
    (a : Nat) (t1 : SubBlock) (p : List (Fin 4)) (hwf : (SubBlock.mk d subs).WF)
    (hacc : (SubBlock.mk d subs).access h (fuel + 1) a = .ok (t1, p)) :
    (d.m_ptr.isSome = true ∧ d.m_use_sub_blocks = false ∧ t1 = .mk d subs ∧ p = []) ∨
    (d.m_ptr = none ∧ d.m_use_sub_blocks = false ∧ d.m_len ≤ d.m_max_size ∧
      d.allocFails h = false ∧
      ∃ buf mp, buf.length = d.m_len ∧
        t1 = .mk { d with m_ptr := some buf, m_mapped := mp } subs ∧ p = []) ∨
    (d.m_ptr = none ∧
      (d.m_use_sub_blocks = true ∨ d.m_max_size < d.m_len ∨ d.allocFails h = true) ∧
      d.m_len % 4 = 0 ∧ 0 < d.m_len / 4 ∧ d.m_min_size ≤ d.m_len ∧
      ∃ i child c q,
        t1 = .mk { d with m_use_sub_blocks := true } (setSub subs i c) ∧ p = i :: q ∧
        child.WF ∧ child.get_len = d.m_len / 4 ∧
        child.get_address = d.m_address + i.val * (d.m_len / 4) ∧
        child.access h fuel a = .ok (c, q) ∧
        ((subs i = child ∧ child.isBlock = true) ∨
         (subs i = .null ∧ child = SubBlock.new (d.m_address + i.val * (d.m_len / 4))
            (d.m_len / 4) d.m_max_size d.m_min_size d.m_filename))) := by
  have hwf0 := hwf
  rw [WF_mk] at hwf
  obtain ⟨hfit, hbuf, hch, hsubwf⟩ := hwf
  simp only [SubBlock.access] at hacc
  split at hacc
  · rename_i hleaf
    split at hacc
    · injection hacc with hacc
      injection hacc with e1 e2
      subst e1 e2
      simp at hleaf
      exact Or.inl ⟨hleaf.1, hleaf.2, rfl, rfl⟩
    · cases hacc
  · rename_i hnl
    right
    have hptr : d.m_ptr = none := by
      cases hp : d.m_ptr with
      | none => rfl
      | some buf =>
        have := (hbuf buf hp).2
        simp [hp, this] at hnl
    -- the block after the test of the maximum leaf size
    have hd1 : (if d.m_len > d.m_max_size then { d with m_use_sub_blocks := true } else d)
        = { d with m_use_sub_blocks := d.m_use_sub_blocks || decide (d.m_len > d.m_max_size) } := by
      split
      · rename_i hgt
        simp [hgt]
      · rename_i hgt
        simp [hgt]
    rw [hd1] at hacc
    -- the outcome of the allocation
    have hsplit : ∀ d2, ({ d with m_use_sub_blocks :=
          d.m_use_sub_blocks || decide (d.m_len > d.m_max_size) } : SubBlockData).allocate h
          = .ok (d2, false) →
        d2 = { d with m_use_sub_blocks := true } ∧
        (d.m_use_sub_blocks = true ∨ d.m_max_size < d.m_len ∨ d.allocFails h = true) := by
      intro d2 halloc
      by_cases hu : (d.m_use_sub_blocks || decide (d.m_len > d.m_max_size)) = true
      · rw [hu, allocate_split rfl] at halloc
        injection halloc with halloc
        injection halloc with e1 _
        subst e1
        simp only [Bool.or_eq_true, decide_eq_true_eq] at hu
        exact ⟨rfl, by rcases hu with hu | hu; exact Or.inl hu; exact Or.inr (Or.inl hu)⟩
      · have hu0 : (d.m_use_sub_blocks || decide (d.m_len > d.m_max_size)) = false := by
          simpa using hu
        rw [hu0] at halloc
        have huse : d.m_use_sub_blocks = false := by
          cases hx : d.m_use_sub_blocks with
          | false => rfl
          | true => simp [hx] at hu0
        have hd : ({ d with m_use_sub_blocks := false } : SubBlockData) = d := by
          cases d
          simp only at huse
          subst huse
          rfl
        rw [hd] at halloc
        obtain ⟨_, k⟩ := allocate_cases huse hptr halloc
        obtain ⟨k1, k2⟩ := k rfl
        exact ⟨k2, Or.inr (Or.inr k1)⟩
    split at hacc
    · cases hacc
    · rename_i d2 halloc
      injection hacc with hacc
      injection hacc with e1 e2
      subst e1 e2
      left
      by_cases hu : (d.m_use_sub_blocks || decide (d.m_len > d.m_max_size)) = true
      · rw [hu, allocate_split rfl] at halloc
        injection halloc with halloc
        injection halloc with _ e
        cases e
      · have hu0 : (d.m_use_sub_blocks || decide (d.m_len > d.m_max_size)) = false := by
          simpa using hu
        rw [hu0] at halloc
        have huse : d.m_use_sub_blocks = false := by
          cases hx : d.m_use_sub_blocks with
          | false => rfl
          | true => simp [hx] at hu0
        have hmax : d.m_len ≤ d.m_max_size := by
          simp only [Bool.or_eq_false_iff, decide_eq_false_iff_not] at hu0
          omega
        have hd : ({ d with m_use_sub_blocks := false } : SubBlockData) = d := by
          cases d
          simp only at huse
          subst huse
          rfl
        rw [hd] at halloc
        obtain ⟨k, _⟩ := allocate_cases huse hptr halloc
        obtain ⟨k1, buf, mp, k2, k3⟩ := k rfl
        exact ⟨hptr, huse, hmax, k1, buf, mp, k3, by rw [k2], rfl⟩
    · rename_i d2 halloc
      obtain ⟨e2, hwhy⟩ := hsplit d2 halloc
      subst e2
      right
      simp only at hacc
      split at hacc
      · cases hacc
      · rename_i hmin
        split at hacc
        · cases hacc
        · rename_i hdiv
          split at hacc
          · cases hacc
          · rename_i hsub0
            generalize hiv : sub64 a d.m_address / (d.m_len / 4) % U32 = iv at hacc
            split at hacc
            · rename_i hi
              split at hacc
              · cases hacc
              · rename_i c q hrec
                injection hacc with hacc
                injection hacc with e1 e2
                subst e1 e2
                have hsub : 0 < d.m_len / 4 := Nat.pos_of_ne_zero hsub0
                have hdiv2 : d.m_len % 4 = 0 := by omega
                have hbound : iv * (d.m_len / 4) ≤ 3 * (d.m_len / 4) :=
                  Nat.mul_le_mul_right _ (by omega)
                refine ⟨hptr, hwhy, hdiv2, hsub, by omega, ⟨iv, hi⟩, ?_⟩
                cases hs : subs ⟨iv, hi⟩ with
                | null =>
                  rw [hs] at hrec
                  simp only at hrec
                  have hm : mul64 iv (d.m_len / 4) = iv * (d.m_len / 4) :=
                    mul64_of_lt (by omega)
                  have hadd : add64 (iv * (d.m_len / 4)) d.m_address
                      = d.m_address + iv * (d.m_len / 4) := by
                    rw [add64_of_lt (by omega)]
                    omega
                  rw [hm, hadd] at hrec
                  exact ⟨_, c, q, rfl, rfl,
                    WF_new _ _ _ _ _
                      (by show d.m_address + iv * (d.m_len / 4) + d.m_len / 4 ≤ U64; omega),
                    rfl, rfl, hrec,
                    Or.inr ⟨rfl, rfl⟩⟩
                | mk cd cs =>
                  rw [hs] at hrec
                  simp only at hrec
                  have hc := hch ⟨iv, hi⟩ (by rw [hs]; rfl)
                  have hw := hsubwf ⟨iv, hi⟩
                  rw [hs] at hc hw
                  exact ⟨_, c, q, rfl, rfl, hw, hc.2.2.2.2.1, hc.2.2.2.2.2, hrec,
                    Or.inl ⟨rfl, rfl⟩⟩
            · cases hacc

/-! ## The split rule -/

theorem Fresh_new (address len max_size min_size : Nat) (filename : String) :
    (SubBlock.new address len max_size min_size filename).Fresh :=
  ⟨rfl, rfl, fun _ => rfl⟩

theorem SplitRule_mk (h : Host) (d : SubBlockData) (subs : Fin 4 → SubBlock) :
    (SubBlock.mk d subs).SplitRule h ↔
      (d.m_use_sub_blocks = true ↔ (d.m_len > d.m_max_size ∨ d.allocFails h = true)) ∧
      (d.m_use_sub_blocks = true → d.m_ptr = none) ∧
      (d.m_use_sub_blocks = false → d.m_ptr.isSome = true) ∧
      ∀ i : Fin 4, (subs i).SplitRule h := by
  simp [SubBlock.SplitRule]

/-- A returning `access` on a block that is fresh, or whose tree obeys the split
rule, leaves a tree that obeys the split rule. -/
theorem access_SplitRule (h : Host) : ∀ (fuel : Nat) (t : SubBlock) (a : Nat) (t1 : SubBlock)
    (p : List (Fin 4)), t.WF → (t.SplitRule h ∨ t.Fresh) → t.access h fuel a = .ok (t1, p) →
    t1.SplitRule h := by
  intro fuel
  induction fuel with
  | zero =>
    intro t a t1 p _ _ hacc
    simp [SubBlock.access] at hacc
  | succ fuel ih =>
    intro t a t1 p hwf hpre hacc
    cases t with
    | null => simp [SubBlock.access] at hacc
    | mk d subs =>
      have hkids : ∀ j : Fin 4, (subs j).SplitRule h := by
        intro j
        rcases hpre with hs | hf
        · rw [SplitRule_mk] at hs
          exact hs.2.2.2 j
        · rw [hf.2.2 j]
          simp [SubBlock.SplitRule]
      rcases access_inv h fuel d subs a t1 p hwf hacc with
        ⟨hp, _, e1, _⟩ | ⟨hp, hu, hmax, hal, buf, mp, _, e1, _⟩ |
        ⟨hp, hwhy, _, _, _, i, child, c, q, e1, _, hcwf, _, _, hrec, hchild⟩
      · subst e1
        rcases hpre with hs | hf
        · exact hs
        · rw [hf.1] at hp
          cases hp
      · subst e1
        rw [SplitRule_mk]
        refine ⟨?_, ?_, ?_, hkids⟩
        · constructor
          · intro hx
            rw [hu] at hx
            cases hx
          · intro hx
            rcases hx with hx | hx
            · exact absurd hx (by show ¬ d.m_max_size < d.m_len; omega)
            · have : d.allocFails h = true := hx
              rw [hal] at this
              cases this
        · intro hx
          rw [hu] at hx
          cases hx
        · intro _
          rfl
      · subst e1
        rw [SplitRule_mk]
        refine ⟨?_, fun _ => hp, ?_, ?_⟩
        · constructor
          · intro _
            rcases hwhy with hw | hw | hw
            · rcases hpre with hs | hf
              · rw [SplitRule_mk] at hs
                exact hs.1.1 hw
              · rw [hf.2.1] at hw
                cases hw
            · exact Or.inl hw
            · exact Or.inr hw
          · intro _
            rfl
        · intro hx
          cases hx
        · intro j
          by_cases hji : j = i
          · subst hji
            rw [setSub_same]
            refine ih child a c q hcwf ?_ hrec
            rcases hchild with ⟨e, _⟩ | ⟨_, e⟩
            · left
              rw [← e]
              exact hkids j
            · right
              rw [e]
              exact Fresh_new _ _ _ _ _
          · rw [setSub_other _ _ _ _ hji]
            exact hkids j

theorem accesses_WF (h : Host) : ∀ (as : List Nat) (t t2 : SubBlock) (ps : List (List (Fin 4))),
    t.WF → (∀ a ∈ as, a < U64) → t.accesses h as = .ok (t2, ps) → t2.WF := by
  intro as
  induction as with
  | nil =>
    intro t t2 ps hwf _ hrun
    simp only [SubBlock.accesses] at hrun
    injection hrun with hrun
    injection hrun with e1 _
    subst e1
    exact hwf
  | cons a rest ih =>
    intro t t2 ps hwf hty hrun
    simp only [SubBlock.accesses] at hrun
    split at hrun
    · cases hrun
    · rename_i t1 p hacc
      split at hrun
      · cases hrun
      · rename_i t3 ps3 hrest
        injection hrun with hrun
        injection hrun with e1 _
        subst e1
        have hw1 := (access_ok h _ t a t1 p hwf (hty a (List.mem_cons_self _ _)) hacc).1
        exact ih t1 _ ps3 hw1 (fun b hb => hty b (List.mem_cons_of_mem _ hb)) hrest

theorem accesses_SplitRule (h : Host) : ∀ (as : List Nat) (t t2 : SubBlock)
    (ps : List (List (Fin 4))), t.WF → (∀ a ∈ as, a < U64) → t.SplitRule h →
    t.accesses h as = .ok (t2, ps) → t2.SplitRule h := by
  intro as
  induction as with
  | nil =>
    intro t t2 ps _ _ hs hrun
    simp only [SubBlock.accesses] at hrun
    injection hrun with hrun
    injection hrun with e1 _
    subst e1
    exact hs
  | cons a rest ih =>
    intro t t2 ps hwf hty hs hrun
    simp only [SubBlock.accesses] at hrun
    split at hrun
    · cases hrun
    · rename_i t1 p hacc
      split at hrun
      · cases hrun
      · rename_i t3 ps3 hrest
        injection hrun with hrun
        injection hrun with e1 _
        subst e1
        have hw1 := (access_ok h _ t a t1 p hwf (hty a (List.mem_cons_self _ _)) hacc).1
        exact ih t1 _ ps3 hw1 (fun b hb => hty b (List.mem_cons_of_mem _ hb))
          (access_SplitRule h _ t a t1 p hwf (Or.inl hs) hacc) hrest

theorem SplitRule_get (h : Host) : ∀ (q : List (Fin 4)) (t : SubBlock) (d : SubBlockData)
    (subs : Fin 4 → SubBlock), t.SplitRule h → t.get q = .mk d subs →
    (SubBlock.mk d subs).SplitRule h := by
  intro q
  induction q with
  | nil =>
    intro t d subs hs hg
    simp only [SubBlock.get] at hg
    rw [← hg]
    exact hs
  | cons i q ih =>
    intro t d subs hs hg
    cases t with
    | null => simp [SubBlock.get] at hg
    | mk d0 subs0 =>
      simp only [SubBlock.get] at hg
      rw [SplitRule_mk] at hs
      exact ih (subs0 i) d subs (hs.2.2.2 i) hg

/-- C25 (amended).  After any non-empty sequence of returning accesses to a
freshly constructed block, every block of the tree is split exactly when its
length exceeds the maximum leaf size or every allocation attempt for it fails;
a split block has no buffer and an unsplit block has one.  So a block longer
than the maximum leaf size is always split and never has a buffer, and a block
within the maximum leaf size is split only when the host could not allocate
it. -/
theorem split_rule (h : Host) (address len max_size min_size : Nat) (filename : String)
    (as : List Nat) (t : SubBlock) (ps : List (List (Fin 4)))
    (hfit : address + len ≤ U64) (hty : ∀ a ∈ as, a < U64) (hne : as ≠ [])
    (hrun : (SubBlock.new address len max_size min_size filename).accesses h as = .ok (t, ps)) :
    ∀ (q : List (Fin 4)) (d : SubBlockData) (subs : Fin 4 → SubBlock), t.get q = .mk d subs →
      (d.m_use_sub_blocks = true ↔ (d.m_len > d.m_max_size ∨ d.allocFails h = true)) ∧
      (d.m_len > d.m_max_size → d.m_use_sub_blocks = true ∧ d.m_ptr = none) ∧
      (d.m_use_sub_blocks = true → d.m_ptr = none) ∧
      (d.m_use_sub_blocks = false → d.m_ptr.isSome = true) := by
  have hrule : t.SplitRule h := by
    cases as with
    | nil => exact absurd rfl hne
    | cons a rest =>
      simp only [SubBlock.accesses] at hrun
      split at hrun
      · cases hrun
      · rename_i t1 p hacc
        split at hrun
        · cases hrun
        · rename_i t3 ps3 hrest
          injection hrun with hrun
          injection hrun with e1 _
          subst e1
          have hwf0 := WF_new address len max_size min_size filename hfit
          have hw1 := (access_ok h _ _ a t1 p hwf0 (hty a (List.mem_cons_self _ _)) hacc).1
          exact accesses_SplitRule h rest t1 _ ps3 hw1
            (fun b hb => hty b (List.mem_cons_of_mem _ hb))
            (access_SplitRule h _ _ a t1 p hwf0 (Or.inr (Fresh_new _ _ _ _ _)) hacc) hrest
  intro q d subs hg
  have := SplitRule_get h q t d subs hrule hg
  rw [SplitRule_mk] at this
  obtain ⟨k1, k2, k3, _⟩ := this
  exact ⟨k1, fun hgt => ⟨k1.2 (Or.inl hgt), k2 (k1.2 (Or.inl hgt))⟩, k2, k3⟩

/-- Instance of C25 (amended): a 16-byte block with maximum leaf size 64 on the
host that cannot allocate more than 4 bytes at once, after accesses to the
addresses 5 and 9: the root is split because its allocation failed, the two
children returned are leaves. -/
theorem split_rule_witness :
    (SubBlock.new 0 16 64 1 "").accesses demoScarceHost [5, 9]
      = .ok ((SubBlock.new 0 16 64 1 "").after demoScarceHost [5, 9], [[1], [2]]) ∧
    ∀ (q : List (Fin 4)) (d : SubBlockData) (subs : Fin 4 → SubBlock),
      ((SubBlock.new 0 16 64 1 "").after demoScarceHost [5, 9]).get q = .mk d subs →
        (d.m_use_sub_blocks = true ↔
          (d.m_len > d.m_max_size ∨ d.allocFails demoScarceHost = true)) ∧
        (d.m_len > d.m_max_size → d.m_use_sub_blocks = true ∧ d.m_ptr = none) ∧
        (d.m_use_sub_blocks = true → d.m_ptr = none) ∧
        (d.m_use_sub_blocks = false → d.m_ptr.isSome = true) :=
  ⟨rfl,
    split_rule demoScarceHost 0 16 64 1 "" [5, 9]
      ((SubBlock.new 0 16 64 1 "").after demoScarceHost [5, 9]) [[1], [2]]
      (by decide) (by decide) (by decide) rfl⟩

/-! ## Lazy allocation -/

theorem allocated_mk_none (d : SubBlockData) (subs : Fin 4 → SubBlock) (hp : d.m_ptr = none) :
    (SubBlock.mk d subs).allocated
      = (subs 0).allocated + (subs 1).allocated + (subs 2).allocated + (subs 3).allocated := by
  simp [SubBlock.allocated, hp]

theorem allocated_mk_some (d : SubBlockData) (subs : Fin 4 → SubBlock) (buf : List Nat)
    (hp : d.m_ptr = some buf) :
    (SubBlock.mk d subs).allocated
      = buf.length
        + ((subs 0).allocated + (subs 1).allocated + (subs 2).allocated + (subs 3).allocated) := by
  simp [SubBlock.allocated, hp]

theorem allocated_setSub (subs : Fin 4 → SubBlock) (i : Fin 4) (c : SubBlock) :
    ((setSub subs i c) 0).allocated + ((setSub subs i c) 1).allocated
        + ((setSub subs i c) 2).allocated + ((setSub subs i c) 3).allocated
        + (subs i).allocated
      = (subs 0).allocated + (subs 1).allocated + (subs 2).allocated + (subs 3).allocated
        + c.allocated := by
  fin_cases i <;> simp [setSub] <;> omega

theorem Fresh_no_leaf {t : SubBlock} (hf : t.Fresh) (q : List (Fin 4)) (dl : SubBlockData) :
    ¬ t.LeafAt q dl := by
  intro hl
  cases t with
  | null => exact hf
  | mk d subs =>
    cases q with
    | nil =>
      rw [LeafAt_nil] at hl
      rw [hf.1] at hl
      cases hl.2.1
    | cons i q =>
      rw [LeafAt_cons] at hl
      rw [hf.2.1] at hl
      cases hl.1

theorem Fresh_allocated {t : SubBlock} (hf : t.Fresh) : t.allocated = 0 := by
  cases t with
  | null => rfl
  | mk d subs =>
    rw [allocated_mk_none d subs hf.1, hf.2.2 0, hf.2.2 1, hf.2.2 2, hf.2.2 3]
    rfl

/-- What one returning `access` changes: the only leaf of the tree after the
call that was not a leaf before is the returned one; if the returned block was a
leaf already, the tree is unchanged; otherwise the allocated bytes grow by the
length of the returned leaf. -/
theorem access_step (h : Host) : ∀ (fuel : Nat) (t : SubBlock) (a : Nat) (t1 : SubBlock)
    (p : List (Fin 4)), t.WF → t.access h fuel a = .ok (t1, p) →
    (∀ q dl, t1.LeafAt q dl → q = p ∨ t.LeafAt q dl) ∧
    ((∃ dl0, t.LeafAt p dl0) → t1 = t) ∧
    (∀ dl, t1.LeafAt p dl → (¬ ∃ dl0, t.LeafAt p dl0) →
      t1.allocated = t.allocated + dl.m_len) := by
  intro fuel
  induction fuel with
  | zero =>
    intro t a t1 p _ hacc
    simp [SubBlock.access] at hacc
  | succ fuel ih =>
    intro t a t1 p hwf hacc
    cases t with
    | null => simp [SubBlock.access] at hacc
    | mk d subs =>
      have hwf0 := hwf
      rw [WF_mk] at hwf
      obtain ⟨hfit, hbuf, hch, hsubwf⟩ := hwf
      rcases access_inv h fuel d subs a t1 p hwf0 hacc with
        ⟨hp, hu, e1, e2⟩ | ⟨hp, hu, hmax, hal, buf, mp, hbl, e1, e2⟩ |
        ⟨hp, hwhy, _, _, _, i, child, c, q, e1, e2, hcwf, _, _, hrec, hchild⟩
      · subst e1 e2
        refine ⟨fun q dl hl => Or.inr hl, fun _ => rfl, ?_⟩
        intro dl _ hno
        exact absurd ⟨d, by rw [LeafAt_nil]; exact ⟨rfl, hp, hu⟩⟩ hno
      · subst e1 e2
        refine ⟨?_, ?_, ?_⟩
        · intro q dl hl
          cases q with
          | nil => exact Or.inl rfl
          | cons j q =>
            rw [LeafAt_cons] at hl
            have : d.m_use_sub_blocks = true := hl.1
            rw [hu] at this
            cases this
        · rintro ⟨dl0, hl0⟩
          rw [LeafAt_nil] at hl0
          rw [hp] at hl0
          cases hl0.2.1
        · intro dl hl _
          rw [LeafAt_nil] at hl
          rw [← hl.1, allocated_mk_some _ subs buf rfl, allocated_mk_none d subs hp]
          show buf.length + _ = _ + d.m_len
          omega
      · subst e1 e2
        obtain ⟨ia, ib, ic⟩ := ih child a c q hcwf hrec
        have hchild_alloc : child.allocated = (subs i).allocated := by
          rcases hchild with ⟨e, _⟩ | ⟨e0, e⟩
          · rw [e]
          · rw [e0, e]
            rfl
        have hchild_leaf : ∀ q' dl, child.LeafAt q' dl →
            d.m_use_sub_blocks = true ∧ (subs i).LeafAt q' dl := by
          intro q' dl hl
          rcases hchild with ⟨e, hb⟩ | ⟨_, e⟩
          · rw [← e] at hb
            exact ⟨(hch i hb).1, by rw [e]; exact hl⟩
          · rw [e] at hl
            exact absurd hl (Fresh_no_leaf (Fresh_new _ _ _ _ _) q' dl)
        refine ⟨?_, ?_, ?_⟩
        · intro q0 dl hl
          cases q0 with
          | nil =>
            rw [LeafAt_nil] at hl
            cases hl.2.2
          | cons j q' =>
            rw [LeafAt_cons] at hl
            by_cases hji : j = i
            · subst hji
              rw [setSub_same] at hl
              rcases ia q' dl hl.2 with hq | hl2
              · left
                rw [hq]
              · right
                rw [LeafAt_cons]
                exact hchild_leaf q' dl hl2
            · rw [setSub_other _ _ _ _ hji] at hl
              right
              rw [LeafAt_cons]
              exact ⟨(hch j (LeafAt_isBlock _ _ _ hl.2)).1, hl.2⟩
        · rintro ⟨dl0, hl0⟩
          rw [LeafAt_cons] at hl0
          have hsub : subs i = child := by
            rcases hchild with ⟨e, _⟩ | ⟨e0, _⟩
            · exact e
            · rw [e0] at hl0
              cases q <;> simp [SubBlock.LeafAt] at hl0
          have hc : c = child := ib ⟨dl0, by rw [← hsub]; exact hl0.2⟩
          rw [hc, ← hsub, setSub_self]
          have hd : ({ d with m_use_sub_blocks := true } : SubBlockData) = d := by
            have hu := hl0.1
            cases d
            simp only at hu
            subst hu
            rfl
          rw [hd]
        · intro dl hl hno
          rw [LeafAt_cons, setSub_same] at hl
          have hno2 : ¬ ∃ dl0, child.LeafAt q dl0 := by
            rintro ⟨dl0, hl0⟩
            exact hno ⟨dl0, by rw [LeafAt_cons]; exact hchild_leaf q dl0 hl0⟩
          have hinc := ic dl hl.2 hno2
          rw [allocated_mk_none _ _ (show ({ d with m_use_sub_blocks := true } : SubBlockData).m_ptr
            = none from hp), allocated_mk_none d subs hp]
          have := allocated_setSub subs i c
          omega

theorem accesses_LeafAt (h : Host) : ∀ (as : List Nat) (t t2 : SubBlock)
    (ps : List (List (Fin 4))), t.accesses h as = .ok (t2, ps) →
    ∀ q dl, t.LeafAt q dl → t2.LeafAt q dl := by
  intro as
  induction as with
  | nil =>
    intro t t2 ps hrun q dl hl
    simp only [SubBlock.accesses] at hrun
    injection hrun with hrun
    injection hrun with e1 _
    subst e1
    exact hl
  | cons a rest ih =>
    intro t t2 ps hrun q dl hl
    simp only [SubBlock.accesses] at hrun
    split at hrun
    · cases hrun
    · rename_i t1 p hacc
      split at hrun
      · cases hrun
      · rename_i t3 ps3 hrest
        injection hrun with hrun
        injection hrun with e1 _
        subst e1
        exact ih t1 _ ps3 hrest q dl (access_LeafAt h _ t a t1 p hacc q dl hl)

/-- The allocated bytes after a sequence of accesses: those before it plus the
lengths of the distinct returned leaves that were not leaves before. -/
theorem accesses_allocated (h : Host) : ∀ (as : List Nat) (t t2 : SubBlock)
    (ps : List (List (Fin 4))) (S : Finset (List (Fin 4))),
    t.WF → (∀ a ∈ as, a < U64) → t.accesses h as = .ok (t2, ps) →
    (∀ q, q ∈ S ↔ ∃ dl, t.LeafAt q dl) →
    t2.allocated = t.allocated + Finset.sum (ps.toFinset \ S) (fun q => (t2.get q).get_len) := by
  intro as
  induction as with
  | nil =>
    intro t t2 ps S _ _ hrun _
    simp only [SubBlock.accesses] at hrun
    injection hrun with hrun
    injection hrun with e1 e2
    subst e1 e2
    simp
  | cons a rest ih =>
    intro t t2 ps S hwf hty hrun hS
    simp only [SubBlock.accesses] at hrun
    split at hrun
    · cases hrun
    · rename_i t1 p hacc
      split at hrun
      · cases hrun
      · rename_i t3 ps3 hrest
        injection hrun with hrun
        injection hrun with e1 e2
        subst e1 e2
        have hta := hty a (List.mem_cons_self _ _)
        obtain ⟨w1, _, _, _, _, dl, hl, _⟩ := access_ok h _ t a t1 p hwf hta hacc
        obtain ⟨sa, sb, sc⟩ := access_step h _ t a t1 p hwf hacc
        have hS1 : ∀ q, q ∈ insert p S ↔ ∃ dl, t1.LeafAt q dl := by
          intro q
          rw [Finset.mem_insert]
          constructor
          · rintro (hq | hq)
            · rw [hq]
              exact ⟨dl, hl⟩
            · obtain ⟨dl0, hl0⟩ := (hS q).1 hq
              exact ⟨dl0, access_LeafAt h _ t a t1 p hacc q dl0 hl0⟩
          · rintro ⟨dl0, hl0⟩
            rcases sa q dl0 hl0 with hq | hq
            · exact Or.inl hq
            · exact Or.inr ((hS q).2 ⟨dl0, hq⟩)
        have hrec := ih t1 t3 ps3 (insert p S) w1
          (fun b hb => hty b (List.mem_cons_of_mem _ hb)) hrest hS1
        rw [hrec, List.toFinset_cons]
        by_cases hp : p ∈ S
        · have e : t1 = t := sb ((hS p).1 hp)
          rw [e, Finset.insert_eq_of_mem hp, Finset.insert_sdiff_of_mem _ hp]
        · have hno : ¬ ∃ dl0, t.LeafAt p dl0 := fun hx => hp ((hS p).2 hx)
          rw [sc dl hl hno, Finset.insert_sdiff_of_not_mem _ hp]
          have hset : insert p (ps3.toFinset \ S) = insert p (ps3.toFinset \ insert p S) := by
            ext q
            simp only [Finset.mem_insert, Finset.mem_sdiff, List.mem_toFinset]
            tauto
          have hnot : p ∉ ps3.toFinset \ insert p S := by
            simp
          rw [hset, Finset.sum_insert hnot]
          obtain ⟨subs, hget⟩ := LeafAt_get p t3 dl (accesses_LeafAt h rest t1 t3 ps3 hrest p dl hl)
          rw [hget]
          simp only [get_len_mk]
          omega

/-- C27 (lazy allocation).  A freshly constructed block has no buffer and no
child, so no byte is allocated.  A returning `access` on a well-formed tree
allocates at most one buffer, that of the returned leaf, of exactly the length of
that leaf: every other leaf of the tree after the call was a leaf before it, the
tree is unchanged when the returned block was a leaf already, and otherwise the
allocated bytes grow by the length of the returned leaf.  After any sequence of
returning accesses to a freshly constructed block, the allocated bytes are the
sum of the lengths of the distinct leaves returned. -/
theorem lazy_allocation (h : Host) (address len max_size min_size : Nat) (filename : String)
    (as : List Nat) (t : SubBlock) (ps : List (List (Fin 4)))
    (hfit : address + len ≤ U64) (hty : ∀ a ∈ as, a < U64)
    (hrun : (SubBlock.new address len max_size min_size filename).accesses h as = .ok (t, ps)) :
    ((SubBlock.new address len max_size min_size filename).Fresh ∧
      (SubBlock.new address len max_size min_size filename).allocated = 0) ∧
    (∀ (t0 : SubBlock) (a : Nat) (t1 : SubBlock) (p : List (Fin 4)), t0.WF → a < U64 →
      t0.access h accessFuel a = .ok (t1, p) →
      ∃ dl, t1.LeafAt p dl ∧
        (t0.get_address ≤ a → a < t0.get_address + t0.get_len →
          dl.m_address ≤ a ∧ a < dl.m_address + dl.m_len) ∧
        (∀ q dl1, t1.LeafAt q dl1 → q = p ∨ t0.LeafAt q dl1) ∧
        ((∃ dl0, t0.LeafAt p dl0) → t1 = t0) ∧
        ((¬ ∃ dl0, t0.LeafAt p dl0) → t1.allocated = t0.allocated + dl.m_len)) ∧
    t.allocated = ((ps.dedup).map (fun q => (t.get q).get_len)).sum := by
  refine ⟨⟨Fresh_new _ _ _ _ _, rfl⟩, ?_, ?_⟩
  · intro t0 a t1 p hwf ha hacc
    obtain ⟨_, _, _, _, _, dl, hl, hin⟩ := access_ok h _ t0 a t1 p hwf ha hacc
    obtain ⟨sa, sb, sc⟩ := access_step h _ t0 a t1 p hwf hacc
    exact ⟨dl, hl, hin, sa, sb, sc dl hl⟩
  · have hS : ∀ q, q ∈ (∅ : Finset (List (Fin 4))) ↔
        ∃ dl, (SubBlock.new address len max_size min_size filename).LeafAt q dl := by
      intro q
      constructor
      · intro hq
        simp at hq
      · rintro ⟨dl, hl⟩
        exact absurd hl (Fresh_no_leaf (Fresh_new _ _ _ _ _) q dl)
    have := accesses_allocated h as _ t ps ∅ (WF_new _ _ _ _ _ hfit) hty hrun hS
    rw [this, Fresh_allocated (Fresh_new _ _ _ _ _), Nat.zero_add, Finset.sdiff_empty,
      ← List.sum_toFinset _ (List.nodup_dedup ps)]
    congr 1
    ext q
    simp

/-- Instance of C27: the accesses to the addresses 5, 6, 9 and 5 of a 16-byte
block with 4-byte leaves return the leaves `[1]`, `[1]`, `[2]`, `[1]`, and 8
bytes are allocated. -/
theorem lazy_allocation_witness :
    (SubBlock.new 0 16 4 1 "").accesses demoHost [5, 6, 9, 5]
      = .ok ((SubBlock.new 0 16 4 1 "").after demoHost [5, 6, 9, 5], [[1], [1], [2], [1]]) ∧
    ((SubBlock.new 0 16 4 1 "").after demoHost [5, 6, 9, 5]).allocated = 8 ∧
    ((SubBlock.new 0 16 4 1 "").after demoHost [5, 6, 9, 5]).allocated
      = ((([[1], [1], [2], [1]] : List (List (Fin 4))).dedup).map
          (fun q => (((SubBlock.new 0 16 4 1 "").after demoHost [5, 6, 9, 5]).get q).get_len)).sum :=
  ⟨rfl, rfl,
    (lazy_allocation demoHost 0 16 4 1 "" [5, 6, 9, 5]
      ((SubBlock.new 0 16 4 1 "").after demoHost [5, 6, 9, 5]) [[1], [1], [2], [1]]
      (by decide) (by decide) rfl).2.2⟩

/-! ## Leaves stay in place -/

theorem LeafAt_ptr : ∀ (t : SubBlock) (q : List (Fin 4)) (dl : SubBlockData),
    t.LeafAt q dl → ∃ buf, dl.m_ptr = some buf ∧ ({ dl with m_ptr := some buf } : SubBlockData) = dl := by
  intro t q
  induction q generalizing t with
  | nil =>
    intro dl hl
    cases t with
    | null => simp [SubBlock.LeafAt] at hl
    | mk d subs =>
      rw [LeafAt_nil] at hl
      obtain ⟨e, hp, _⟩ := hl
      subst e
      cases hb : d.m_ptr with
      | none =>
        rw [hb] at hp
        cases hp
      | some buf =>
        refine ⟨buf, rfl, ?_⟩
        cases d
        simp only at hb
        subst hb
        rfl
  | cons i q ih =>
    intro dl hl
    cases t with
    | null => simp [SubBlock.LeafAt] at hl
    | mk d subs =>
      rw [LeafAt_cons] at hl
      exact ih (subs i) dl hl.2

theorem Keeps_refl (t : SubBlock) : t.Keeps t := by
  intro q dl hl
  obtain ⟨buf, _, e⟩ := LeafAt_ptr t q dl hl
  exact ⟨buf, by rw [e]; exact hl⟩

theorem Keeps_trans {t t1 t2 : SubBlock} (h1 : t.Keeps t1) (h2 : t1.Keeps t2) : t.Keeps t2 := by
  intro q dl hl
  obtain ⟨b1, hl1⟩ := h1 q dl hl
  obtain ⟨b2, hl2⟩ := h2 q _ hl1
  exact ⟨b2, hl2⟩

theorem access_Keeps {h : Host} {fuel : Nat} {t t1 : SubBlock} {a : Nat} {p : List (Fin 4)}
    (hacc : t.access h fuel a = .ok (t1, p)) : t.Keeps t1 := by
  intro q dl hl
  obtain ⟨buf, _, e⟩ := LeafAt_ptr t q dl hl
  exact ⟨buf, by rw [e]; exact access_LeafAt h fuel t a t1 p hacc q dl hl⟩

/-- Replacing the buffer of a leaf keeps every leaf of the tree in place. -/
theorem set_leaf_Keeps : ∀ (p : List (Fin 4)) (t : SubBlock) (dl : SubBlockData)
    (subs : Fin 4 → SubBlock) (buf1 : List Nat), t.LeafAt p dl → t.get p = .mk dl subs →
    t.Keeps (t.set p (.mk { dl with m_ptr := some buf1 } subs)) := by
  intro p
  induction p with
  | nil =>
    intro t dl subs buf1 hl hg q dl0 hl0
    cases t with
    | null => simp [SubBlock.LeafAt] at hl
    | mk d subs0 =>
      rw [LeafAt_nil] at hl
      obtain ⟨e, hp, hu⟩ := hl
      subst e
      cases q with
      | nil =>
        rw [LeafAt_nil] at hl0
        obtain ⟨e0, _, _⟩ := hl0
        subst e0
        refine ⟨buf1, ?_⟩
        simp only [SubBlock.set]
        rw [LeafAt_nil]
        exact ⟨rfl, rfl, hu⟩
      | cons j q =>
        rw [LeafAt_cons] at hl0
        rw [hu] at hl0
        cases hl0.1
  | cons i p ih =>
    intro t dl subs buf1 hl hg q dl0 hl0
    cases t with
    | null => simp [SubBlock.LeafAt] at hl
    | mk d subs0 =>
      rw [LeafAt_cons] at hl
      simp only [SubBlock.get] at hg
      simp only [SubBlock.set]
      cases q with
      | nil =>
        rw [LeafAt_nil] at hl0
        rw [hl0.2.2] at hl
        cases hl.1
      | cons j q =>
        rw [LeafAt_cons] at hl0
        by_cases hji : j = i
        · subst hji
          obtain ⟨b, hb⟩ := ih (subs0 j) dl subs buf1 hl.2 hg q dl0 hl0.2
          refine ⟨b, ?_⟩
          rw [LeafAt_cons, setSub_same]
          exact ⟨hl0.1, hb⟩
        · obtain ⟨b, _, e⟩ := LeafAt_ptr _ q dl0 hl0.2
          refine ⟨b, ?_⟩
          rw [LeafAt_cons, setSub_other _ _ _ _ hji, e]
          exact hl0

theorem write_loop_Keeps (h : Host) (data : List Nat) (di offset : Nat) :
    ∀ (fuel : Nat) (root : SubBlock) (dpo len : Nat) (root1 : SubBlock),
    root.WF → Memory.write_loop h fuel root data di offset dpo len = .ok root1 →
    root.Keeps root1 := by
  intro fuel
  induction fuel with
  | zero =>
    intro root dpo len root1 _ hw
    simp only [Memory.write_loop] at hw
    split at hw
    · injection hw with hw
      subst hw
      exact Keeps_refl _
    · cases hw
  | succ fuel ih =>
    intro root dpo len root1 hwf hw
    simp only [Memory.write_loop] at hw
    split at hw
    · injection hw with hw
      subst hw
      exact Keeps_refl _
    · have ha : add64 offset dpo < U64 := Nat.mod_lt _ (by unfold U64; omega)
      split at hw
      · cases hw
      · rename_i r1 p hacc
        obtain ⟨w1, _, _, _, _, dl, hl, _⟩ := access_ok h _ _ _ _ _ hwf ha hacc
        obtain ⟨_, _, _, buf, hb, hbl⟩ := LeafAt_range p r1 dl w1 hl
        obtain ⟨subs, hget⟩ := LeafAt_get p r1 dl hl
        rw [hget] at hw
        split at hw
        · cases hw
        · rename_i blk n hwsb
          obtain ⟨_, buf1, rfl, hc⟩ := write_sub_blocks_ok hb hwsb
          obtain ⟨s1, _⟩ :=
            set_LeafAt p r1 dl subs buf1 w1 hl hget (by rw [memcpy_length hc, hbl])
          exact Keeps_trans (access_Keeps hacc)
            (Keeps_trans (set_leaf_Keeps p r1 dl subs buf1 hl hget) (ih _ _ _ root1 s1 hw))

theorem read_loop_Keeps (h : Host) (di offset : Nat) :
    ∀ (fuel : Nat) (root : SubBlock) (data : List Nat) (dpo len : Nat) (root1 : SubBlock)
      (data1 : List Nat),
    Memory.read_loop h fuel root data di offset dpo len = .ok (root1, data1) →
    root.Keeps root1 := by
  intro fuel
  induction fuel with
  | zero =>
    intro root data dpo len root1 data1 hr
    simp only [Memory.read_loop] at hr
    split at hr
    · injection hr with hr
      injection hr with e1 e2
      subst e1
      exact Keeps_refl _
    · cases hr
  | succ fuel ih =>
    intro root data dpo len root1 data1 hr
    simp only [Memory.read_loop] at hr
    split at hr
    · injection hr with hr
      injection hr with e1 e2
      subst e1
      exact Keeps_refl _
    · split at hr
      · cases hr
      · rename_i r1 p hacc
        split at hr
        · cases hr
        · exact Keeps_trans (access_Keeps hacc) (ih r1 _ _ _ root1 data1 hr)

theorem Memory.write_Keeps {h : Host} {m m1 : Memory} {data : List Nat} {di offset len : Nat}
    (hm : m.Elaborated) (hw : m.write h data di offset len = .ok m1) :
    m.m_sub_block.Keeps m1.m_sub_block := by
  unfold Memory.write at hw
  rw [before_end_of_elaboration_elaborated hm] at hw
  simp only at hw
  split at hw
  · split at hw
    · cases hw
    · rename_i root hloop
      injection hw with hw
      subst hw
      exact write_loop_Keeps h data di offset _ _ _ _ _ hm.2.2.2.2.2 hloop
  · cases hw

theorem Memory.read_Keeps {h : Host} {m m1 : Memory} {data data1 : List Nat} {di offset len : Nat}
    (hm : m.Elaborated) (hr : m.read h data di offset len = .ok (m1, data1)) :
    m.m_sub_block.Keeps m1.m_sub_block := by
  unfold Memory.read at hr
  rw [before_end_of_elaboration_elaborated hm] at hr
  simp only at hr
  split at hr
  · split at hr
    · cases hr
    · rename_i root d1 hloop
      injection hr with hr
      injection hr with k1 k2
      subst k1
      exact read_loop_Keeps h di offset _ _ _ _ _ _ _ hloop
  · cases hr

/-- The loop of byte-enabled reads keeps every leaf and every stored byte. -/
theorem read_enabled_frame (h : Host) (byt : List Nat) (bel addr : Nat) :
    ∀ (n i : Nat) (m : Memory) (ptr : List Nat) (m1 : Memory) (ptr1 : List Nat),
    m.Elaborated → Memory.read_enabled h byt bel addr n i m ptr = .ok (m1, ptr1) →
    m.m_sub_block.Keeps m1.m_sub_block ∧
    (∀ b v, m.m_sub_block.peek b = some v → m1.m_sub_block.peek b = some v) := by
  intro n
  induction n with
  | zero =>
    intro i m ptr m1 ptr1 hm hr
    simp only [Memory.read_enabled] at hr
    injection hr with hr
    injection hr with k1 k2
    subst k1
    exact ⟨Keeps_refl _, fun _ _ hv => hv⟩
  | succ n ih =>
    intro i m ptr m1 ptr1 hm hr
    simp only [Memory.read_enabled] at hr
    split at hr
    · cases hr
    · split at hr
      · cases hr
      · split at hr
        · split at hr
          · cases hr
          · rename_i m2 p2 hrd
            obtain ⟨_, a2, a3⟩ := Memory.read_ok hm hrd
            obtain ⟨b1, b2⟩ := ih _ _ _ _ _ a2 hr
            exact ⟨Keeps_trans (Memory.read_Keeps hm hrd) b1, fun b v hv => b2 b v (a3 b v hv)⟩
        · exact ih _ _ _ _ _ hm hr

/-- The loop of byte-enabled writes keeps every leaf, and every stored byte
that is not one of the bytes `addr + j` of the loop. -/
theorem write_enabled_frame (h : Host) (byt : List Nat) (bel addr : Nat) (ptr : List Nat) :
    ∀ (n i : Nat) (m m1 : Memory),
    m.Elaborated → Memory.write_enabled h byt bel addr ptr n i m = .ok m1 →
    m.m_sub_block.Keeps m1.m_sub_block ∧
    (∀ b v, (∀ j, i ≤ j → j < i + n → b ≠ add64 addr j) →
      m.m_sub_block.peek b = some v → m1.m_sub_block.peek b = some v) := by
  intro n
  induction n with
  | zero =>
    intro i m m1 hm hr
    simp only [Memory.write_enabled] at hr
    injection hr with hr
    subst hr
    exact ⟨Keeps_refl _, fun _ _ _ hv => hv⟩
  | succ n ih =>
    intro i m m1 hm hr
    simp only [Memory.write_enabled] at hr
    split at hr
    · cases hr
    · split at hr
      · cases hr
      · split at hr
        · split at hr
          · cases hr
          · rename_i m2 hwr
            have ha : add64 addr i < U64 := Nat.mod_lt _ (by unfold U64; omega)
            obtain ⟨_, a2, _, _, a5⟩ := Memory.write_ok hm ha hwr
            obtain ⟨b1, b2⟩ := ih _ _ _ a2 hr
            refine ⟨Keeps_trans (Memory.write_Keeps hm hwr) b1, ?_⟩
            intro b v hout hv
            apply b2 b v (fun j h1 h2 => hout j (by omega) (by omega))
            apply a5 b v _ hv
            have := hout i (Nat.le_refl _) (by omega)
            omega
        · obtain ⟨b1, b2⟩ := ih _ _ _ hm hr
          exact ⟨b1, fun b v hout hv => b2 b v (fun j h1 h2 => hout j (by omega) (by omega)) hv⟩

theorem inRange64_false {offset len b : Nat} (hr : inRange64 offset len b = false) :
    ∀ j, j < len → b ≠ add64 offset j := by
  intro j hj hb
  unfold inRange64 at hr
  have : (List.range len).any (fun i => decide (b = add64 offset i)) = true := by
    rw [List.any_eq_true]
    exact ⟨j, List.mem_range.2 hj, by simp [hb]⟩
  rw [hr] at this
  cases this

/-- A returning `b_transport` keeps every leaf in place, and every stored byte
outside the range of a write. -/
theorem b_transport_tree {h : Host} {m m1 : Memory} {t t1 : Txn}
    (hm : m.Elaborated) (hta : t.address < U64) (hres : m.b_transport h t = .ok (m1, t1)) :
    m.m_sub_block.Keeps m1.m_sub_block ∧
    (∀ b v, (Memory.Op.b_transport t).writes m b = false →
      m.m_sub_block.peek b = some v → m1.m_sub_block.peek b = some v) := by
  rcases t with ⟨cmd, address, data, data_length, be, bel, sw, resp, dmi, ext⟩
  simp only at hta
  unfold Memory.b_transport at hres
  simp only [Memory.Op.writes]
  simp only at hres
  by_cases hbase : (!m.m_relative_addresses && decide (address < m.m_address)) = true
  · simp only [if_pos hbase] at hres
    injection hres with hres
    injection hres with e1 _
    subst e1
    exact ⟨Keeps_refl _, fun _ _ _ hv => hv⟩
  · simp only [if_neg hbase] at hres
    generalize hgen : (if (!m.m_relative_addresses) = true then sub64 address m.m_address
      else address) = addr at hres
    by_cases hov : add64 addr data_length > m.m_size
    · simp only [if_pos hov] at hres
      injection hres with hres
      injection hres with e1 _
      subst e1
      exact ⟨Keeps_refl _, fun _ _ _ hv => hv⟩
    · simp only [if_neg hov] at hres
      cases cmd with
      | read =>
        simp only at hres
        cases be with
        | none =>
          simp only at hres
          cases hr : Memory.read h m data 0 addr data_length with
          | error x =>
            rw [hr] at hres
            cases hres
          | ok v =>
            obtain ⟨m2, d2⟩ := v
            rw [hr] at hres
            injection hres with hres
            injection hres with e1 _
            subst e1
            obtain ⟨_, _, a3⟩ := Memory.read_ok hm hr
            exact ⟨Memory.read_Keeps hm hr, fun b v _ hv => a3 b v hv⟩
        | some byt =>
          simp only at hres
          cases hr : Memory.read_enabled h byt bel addr data_length 0 m data with
          | error x =>
            rw [hr] at hres
            cases hres
          | ok v =>
            obtain ⟨m2, d2⟩ := v
            rw [hr] at hres
            injection hres with hres
            injection hres with e1 _
            subst e1
            obtain ⟨k1, k2⟩ := read_enabled_frame h byt bel addr _ _ _ _ _ _ hm hr
            exact ⟨k1, fun b v _ hv => k2 b v hv⟩
      | write =>
        simp only at hres
        by_cases hrom : m.p_rom = true
        · simp only [if_pos hrom] at hres
          injection hres with hres
          injection hres with e1 _
          subst e1
          exact ⟨Keeps_refl _, fun _ _ _ hv => hv⟩
        · simp only [if_neg hrom] at hres
          cases be with
          | none =>
            simp only at hres
            cases hr : Memory.write h m data 0 addr data_length with
            | error x =>
              rw [hr] at hres
              cases hres
            | ok v =>
              rw [hr] at hres
              injection hres with hres
              injection hres with e1 _
              subst e1
              have hlt : addr < U64 := by
                rw [← hgen]
                split
                · exact Nat.mod_lt _ (by unfold U64; omega)
                · exact hta
              obtain ⟨_, _, a3, _, a5⟩ := Memory.write_ok hm hlt hr
              refine ⟨Memory.write_Keeps hm hr, ?_⟩
              intro b v hw hv
              simp only [decide_True, Bool.true_and] at hw
              apply a5 b v _ hv
              intro hin
              have hsz := hm.1
              exact inRange64_false hw (b - addr) (by omega)
                (by rw [add64_of_lt (by omega)]; omega)
          | some byt =>
            simp only at hres
            cases hr : Memory.write_enabled h byt bel addr data data_length 0 m with
            | error x =>
              rw [hr] at hres
              cases hres
            | ok v =>
              rw [hr] at hres
              injection hres with hres
              injection hres with e1 _
              subst e1
              obtain ⟨k1, k2⟩ := write_enabled_frame h byt bel addr data _ _ _ _ hm hr
              refine ⟨k1, ?_⟩
              intro b v hw hv
              simp only [decide_True, Bool.true_and] at hw
              exact k2 b v (fun j _ hj => inRange64_false hw j (by omega)) hv
      | ignore =>
        simp only at hres
        cases hres

/-- A returning `get_direct_mem_ptr` keeps an elaborated memory elaborated,
changes nothing but the tree, and keeps every leaf and every stored byte. -/
theorem get_direct_mem_ptr_tree {h : Host} {m m1 : Memory} {t t1 : Txn} {dmi_data dmi1 : tlm_dmi}
    {status : Bool} (hm : m.Elaborated) (hta : t.address < U64)
    (hres : m.get_direct_mem_ptr h t dmi_data = .ok (m1, t1, dmi1, status)) :
    m1 = { m with m_sub_block := m1.m_sub_block } ∧ m1.Elaborated ∧
    m.m_sub_block.Keeps m1.m_sub_block ∧
    (∀ b v, m.m_sub_block.peek b = some v → m1.m_sub_block.peek b = some v) := by
  unfold Memory.get_direct_mem_ptr at hres
  split at hres
  · injection hres with hres
    injection hres with e1 _
    subst e1
    exact ⟨rfl, hm, Keeps_refl _, fun _ _ hv => hv⟩
  · split at hres
    · injection hres with hres
      injection hres with e1 _
      subst e1
      exact ⟨rfl, hm, Keeps_refl _, fun _ _ hv => hv⟩
    · simp only at hres
      generalize hgen : (if (!m.m_relative_addresses) = true then sub64 t.address m.m_address
        else t.address) = addr at hres
      have hlt : addr < U64 := by
        rw [← hgen]
        split
        · exact Nat.mod_lt _ (by unfold U64; omega)
        · exact hta
      split at hres
      · injection hres with hres
        injection hres with e1 _
        subst e1
        exact ⟨rfl, hm, Keeps_refl _, fun _ _ hv => hv⟩
      · split at hres
        · cases hres
        · rename_i root p hacc
          injection hres with hres
          injection hres with e1 _
          subst e1
          obtain ⟨e1, e2, e3, e4, e5, e6⟩ := hm
          obtain ⟨w1, w2, w3, w4, w5, _⟩ := access_ok h _ _ _ _ _ e6 hlt hacc
          exact ⟨rfl, ⟨e1, e2, w2, by rw [w4]; exact e4, by rw [w3]; exact e5, w1⟩,
            access_Keeps hacc, w5⟩

/-- What every returning operation on an elaborated memory keeps: the memory
stays elaborated, nothing but the tree changes, every leaf stays in place, and
every stored byte outside the range of a write keeps its value. -/
theorem apply_frame {h : Host} {m m1 : Memory} {op : Memory.Op}
    (hm : m.Elaborated) (hty : op.typed) (hres : m.apply h op = .ok m1) :
    m1 = { m with m_sub_block := m1.m_sub_block } ∧ m1.Elaborated ∧
    m.m_sub_block.Keeps m1.m_sub_block ∧
    (∀ b v, op.writes m b = false →
      m.m_sub_block.peek b = some v → m1.m_sub_block.peek b = some v) := by
  cases op with
  | access address =>
    simp only [Memory.apply] at hres
    split at hres
    · cases hres
    · rename_i root p hacc
      injection hres with hres
      subst hres
      obtain ⟨e1, e2, e3, e4, e5, e6⟩ := hm
      obtain ⟨w1, w2, w3, w4, w5, _⟩ := access_ok h _ _ _ _ _ e6 hty hacc
      exact ⟨rfl, ⟨e1, e2, w2, by rw [w4]; exact e4, by rw [w3]; exact e5, w1⟩,
        access_Keeps hacc, fun b v _ hv => w5 b v hv⟩
  | read data di offset len =>
    simp only [Memory.apply] at hres
    split at hres
    · cases hres
    · rename_i m2 d2 hr
      injection hres with hres
      subst hres
      obtain ⟨a1, a2, a3⟩ := Memory.read_ok hm hr
      exact ⟨a1, a2, Memory.read_Keeps hm hr, fun b v _ hv => a3 b v hv⟩
  | write data di offset len =>
    simp only [Memory.apply] at hres
    obtain ⟨a1, a2, a3, _, a5⟩ := Memory.write_ok hm hty hres
    refine ⟨a1, a2, Memory.write_Keeps hm hres, ?_⟩
    intro b v hw hv
    simp only [Memory.Op.writes] at hw
    apply a5 b v _ hv
    intro hin
    have hsz := hm.1
    exact inRange64_false hw (b - offset) (by omega) (by rw [add64_of_lt (by omega)]; omega)
  | b_transport txn =>
    simp only [Memory.apply] at hres
    split at hres
    · cases hres
    · rename_i m2 t2 hr
      injection hres with hres
      subst hres
      obtain ⟨a1, a2⟩ := b_transport_elaborated hm hty hr
      obtain ⟨k1, k2⟩ := b_transport_tree hm hty hr
      exact ⟨a1, a2, k1, k2⟩
  | transport_dbg txn =>
    simp only [Memory.apply, Memory.transport_dbg] at hres
    cases hr : m.b_transport h txn with
    | error e =>
      rw [hr] at hres
      cases hres
    | ok v =>
      obtain ⟨m2, t2⟩ := v
      rw [hr] at hres
      have hm12 : m1 = m2 := by
        simp only at hres
        split at hres
        · cases hres
        · rename_i m3 x heq
          injection hres with hres
          subst hres
          split at heq
          · injection heq with heq
            injection heq with e1 _
            exact e1.symm
          · injection heq with heq
            injection heq with e1 _
            exact e1.symm
      subst hm12
      obtain ⟨a1, a2⟩ := b_transport_elaborated hm hty hr
      obtain ⟨k1, k2⟩ := b_transport_tree hm hty hr
      exact ⟨a1, a2, k1, k2⟩
  | get_direct_mem_ptr txn dmi_data =>
    simp only [Memory.apply] at hres
    split at hres
    · cases hres
    · rename_i m2 x hr
      injection hres with hres
      subst hres
      obtain ⟨t2, dmi2, st⟩ := x
      obtain ⟨a1, a2, a3, a4⟩ := get_direct_mem_ptr_tree hm hty hr
      exact ⟨a1, a2, a3, fun b v _ hv => a4 b v hv⟩

theorem writes_congr (m m1 : Memory) (op : Memory.Op) (b : Nat)
    (he : m1 = { m with m_sub_block := m1.m_sub_block }) : op.writes m1 b = op.writes m b := by
  rw [he]
  cases op <;> rfl

/-- The frame of a sequence of returning operations. -/
theorem run_frame (h : Host) : ∀ (ops : List Memory.Op) (m m1 : Memory),
    m.Elaborated → (∀ op ∈ ops, op.typed) → m.run h ops = .ok m1 →
    m1 = { m with m_sub_block := m1.m_sub_block } ∧ m1.Elaborated ∧
    m.m_sub_block.Keeps m1.m_sub_block ∧
    (∀ b v, (∀ op ∈ ops, op.writes m b = false) →
      m.m_sub_block.peek b = some v → m1.m_sub_block.peek b = some v) := by
  intro ops
  induction ops with
  | nil =>
    intro m m1 hm _ hrun
    simp only [Memory.run] at hrun
    injection hrun with hrun
    subst hrun
    exact ⟨rfl, hm, Keeps_refl _, fun _ _ _ hv => hv⟩
  | cons op rest ih =>
    intro m m1 hm hty hrun
    simp only [Memory.run] at hrun
    split at hrun
    · cases hrun
    · rename_i m2 hap
      obtain ⟨a1, a2, a3, a4⟩ := apply_frame hm (hty op (List.mem_cons_self _ _)) hap
      obtain ⟨b1, b2, b3, b4⟩ := ih m2 m1 a2 (fun o ho => hty o (List.mem_cons_of_mem _ ho)) hrun
      refine ⟨?_, b2, Keeps_trans a3 b3, ?_⟩
      · rw [b1, a1]
      · intro b v hw hv
        apply b4 b v _ (a4 b v (hw op (List.mem_cons_self _ _)) hv)
        intro o ho
        rw [writes_congr m m2 o b a1]
        exact hw o (List.mem_cons_of_mem _ ho)

/-- C24 (leaves are never moved or freed).  On an elaborated memory, once
`access` has returned a leaf for an address, after any sequence of returning
operations on the memory (calls of `access`, `Memory::read`, `Memory::write`,
`b_transport`, `transport_dbg` and `get_direct_mem_ptr`, with any arguments) the
same reference still leads to a leaf with the same base, length and other data
members and a buffer of the same length; `access` to any address in the range of
the leaf returns that reference and leaves the tree as it is; and a byte of the
leaf that lies in the range of none of the writes of the sequence has the value
it had. -/
theorem leaves_never_move (h : Host) (m : Memory) (a : Nat) (root : SubBlock)
    (p : List (Fin 4)) (ops : List Memory.Op) (m1 : Memory)
    (hm : m.Elaborated) (ha : a < U64)
    (hacc : m.m_sub_block.access h accessFuel a = .ok (root, p))
    (hty : ∀ op ∈ ops, op.typed)
    (hrun : ({ m with m_sub_block := root } : Memory).run h ops = .ok m1) :
    ∃ dl buf buf1,
      root.LeafAt p dl ∧ dl.m_ptr = some buf ∧ buf.length = dl.m_len ∧
      m1.m_sub_block.LeafAt p { dl with m_ptr := some buf1 } ∧ buf1.length = dl.m_len ∧
      (∀ b, dl.m_address ≤ b → b < dl.m_address + dl.m_len →
        m1.m_sub_block.access h accessFuel b = .ok (m1.m_sub_block, p)) ∧
      (∀ b, dl.m_address ≤ b → b < dl.m_address + dl.m_len →
        (∀ op ∈ ops, op.writes m b = false) →
        buf1.get? (b - dl.m_address) = buf.get? (b - dl.m_address) ∧
        m1.m_sub_block.peek b = root.peek b) := by
  obtain ⟨e1, e2, e3, e4, e5, e6⟩ := hm
  obtain ⟨w1, w2, w3, w4, _, dl, hl, _⟩ := access_ok h _ _ _ _ _ e6 ha hacc
  have hm0 : ({ m with m_sub_block := root } : Memory).Elaborated :=
    ⟨e1, e2, w2, by rw [w4]; exact e4, by rw [w3]; exact e5, w1⟩
  obtain ⟨_, hm1, hkeep, hpeek⟩ := run_frame h ops _ m1 hm0 hty hrun
  obtain ⟨g1, g2, _, buf, hb, hbl⟩ := LeafAt_range p root dl w1 hl
  obtain ⟨buf1, hl1⟩ := hkeep p dl hl
  have hwf1 : m1.m_sub_block.WF := hm1.2.2.2.2.2
  obtain ⟨_, _, _, buf2, hb2, hbl2⟩ := LeafAt_range p _ _ hwf1 hl1
  have hb21 : buf2 = buf1 := by
    simp only at hb2
    injection hb2 with hb2
    exact hb2.symm
  subst hb21
  have hbl1 : buf2.length = dl.m_len := hbl2
  have hrange : dl.m_address + dl.m_len < U64 := by
    rw [w3, w4, e4, e5] at g2
    omega
  have hlen1 : m1.m_sub_block.get_len < 4 ^ 32 := by
    rw [hm1.2.2.2.2.1, ← U64_eq_pow]
    exact hm1.1
  have hpk1 : ∀ b, dl.m_address ≤ b → b < dl.m_address + dl.m_len →
      m1.m_sub_block.peek b = buf2.get? (b - dl.m_address) := by
    intro b h1 h2
    exact peek_LeafAt p _ { dl with m_ptr := some buf2 } buf2 b hwf1 hl1 rfl h1 h2
  refine ⟨dl, buf, buf2, hl, hb, hbl, hl1, hbl1, ?_, ?_⟩
  · intro b h1 h2
    have hidx : b - dl.m_address < buf2.length := by omega
    have hv : m1.m_sub_block.peek b = some (buf2[b - dl.m_address]) := by
      rw [hpk1 b h1 h2, List.get?_eq_getElem?, List.getElem?_eq_getElem hidx]
    obtain ⟨p2, dl2, hacc2, hl2, c1, c2⟩ :=
      access_present h 32 m1.m_sub_block b _ hwf1 (by omega) hv hlen1
    rcases LeafAt_disjoint p p2 _ _ _ hwf1 hl1 hl2 with ⟨hp, _⟩ | hd | hd
    · rw [hp]
      exact hacc2
    · simp only at hd
      omega
    · simp only at hd
      omega
  · intro b h1 h2 hw
    have hidx : b - dl.m_address < buf.length := by omega
    have hv0 : root.peek b = some (buf[b - dl.m_address]) := by
      rw [peek_LeafAt p root dl buf b w1 hl hb h1 h2, List.get?_eq_getElem?,
        List.getElem?_eq_getElem hidx]
    have hv1 := hpeek b _ (fun op hop => hw op hop) hv0
    refine ⟨?_, by rw [hv1, hv0]⟩
    rw [← hpk1 b h1 h2, hv1, List.get?_eq_getElem?, List.getElem?_eq_getElem hidx]

/-- Instance of C24: on a 16-byte memory with 4-byte leaves, address 5 is
resolved to the leaf `[4, 8)`; then byte 8 is written, direct access is
negotiated for address 12, byte 5 is read and byte 6 is written. -/
theorem leaves_never_move_witness :
    ∃ dl buf buf1,
      (demoTouched (demoMemory 0 true false).m_sub_block 5).LeafAt [1] dl ∧
      dl.m_ptr = some buf ∧ buf.length = dl.m_len ∧
      ((({ demoMemory 0 true false with
            m_sub_block := demoTouched (demoMemory 0 true false).m_sub_block 5 } : Memory).after
          demoHost
          [.b_transport (demoWrite 8 [7]), .get_direct_mem_ptr (demoRead 12 1) tlm_dmi.init,
            .b_transport (demoRead 5 1), .write [9] 0 6 1]).m_sub_block).LeafAt [1]
        { dl with m_ptr := some buf1 } ∧
      buf1.length = dl.m_len ∧
      (∀ b, dl.m_address ≤ b → b < dl.m_address + dl.m_len →
        (({ demoMemory 0 true false with
            m_sub_block := demoTouched (demoMemory 0 true false).m_sub_block 5 } : Memory).after
          demoHost
          [.b_transport (demoWrite 8 [7]), .get_direct_mem_ptr (demoRead 12 1) tlm_dmi.init,
            .b_transport (demoRead 5 1), .write [9] 0 6 1]).m_sub_block.access demoHost
            accessFuel b
          = .ok ((({ demoMemory 0 true false with
            m_sub_block := demoTouched (demoMemory 0 true false).m_sub_block 5 } : Memory).after
          demoHost
          [.b_transport (demoWrite 8 [7]), .get_direct_mem_ptr (demoRead 12 1) tlm_dmi.init,
            .b_transport (demoRead 5 1), .write [9] 0 6 1]).m_sub_block, [1])) ∧
      (∀ b, dl.m_address ≤ b → b < dl.m_address + dl.m_len →
        (∀ op ∈ ([.b_transport (demoWrite 8 [7]),
            .get_direct_mem_ptr (demoRead 12 1) tlm_dmi.init,
            .b_transport (demoRead 5 1), .write [9] 0 6 1] : List Memory.Op),
          op.writes (demoMemory 0 true false) b = false) →
        buf1.get? (b - dl.m_address) = buf.get? (b - dl.m_address) ∧
        (({ demoMemory 0 true false with
            m_sub_block := demoTouched (demoMemory 0 true false).m_sub_block 5 } : Memory).after
          demoHost
          [.b_transport (demoWrite 8 [7]), .get_direct_mem_ptr (demoRead 12 1) tlm_dmi.init,
            .b_transport (demoRead 5 1), .write [9] 0 6 1]).m_sub_block.peek b
          = (demoTouched (demoMemory 0 true false).m_sub_block 5).peek b) :=
  leaves_never_move demoHost (demoMemory 0 true false) 5
    (demoTouched (demoMemory 0 true false).m_sub_block 5) [1]
    [.b_transport (demoWrite 8 [7]), .get_direct_mem_ptr (demoRead 12 1) tlm_dmi.init,
      .b_transport (demoRead 5 1), .write [9] 0 6 1]
    (({ demoMemory 0 true false with
        m_sub_block := demoTouched (demoMemory 0 true false).m_sub_block 5 } : Memory).after
      demoHost
      [.b_transport (demoWrite 8 [7]), .get_direct_mem_ptr (demoRead 12 1) tlm_dmi.init,
        .b_transport (demoRead 5 1), .write [9] 0 6 1])
    (Elaborated_demoMemory 0 true false (by decide)) (by decide) rfl
    (by
      intro op hop
      simp only [List.mem_cons, List.mem_singleton, List.not_mem_nil, or_false] at hop
      rcases hop with rfl | rfl | rfl | rfl
      · show (8 : Nat) < U64
        decide
      · show (12 : Nat) < U64
        decide
      · show (5 : Nat) < U64
        decide
      · show (6 : Nat) < U64
        decide)
    rfl

/-! ## Path tags: the untag check -/

theorem resolve_missing (b : Broker) : ∀ (ts : List target_info),
    (∃ ti ∈ ts, b.address ti.name = none ∨ b.size ti.name = none) →
    Router.resolve b ts = .error .fatal := by
  intro ts
  induction ts with
  | nil => rintro ⟨ti, hm, _⟩; cases hm
  | cons t rest ih =>
    intro hex
    unfold Router.resolve
    cases hadr : b.address t.name with
    | none => rfl
    | some address =>
      cases hsz : b.size t.name with
      | none => rfl
      | some size =>
        have hrest : ∃ ti ∈ rest, b.address ti.name = none ∨ b.size ti.name = none := by
          obtain ⟨ti, hm, hti⟩ := hex
          rcases List.mem_cons.1 hm with rfl | hm
          · rcases hti with h | h
            · rw [hadr] at h; cases h
            · rw [hsz] at h; cases h
          · exact ⟨ti, hm, hti⟩
        simp only [ih hrest]

/-- C29 (amended).  Resolution of the target table reports an error exactly when
an entry lacks its address or its size preset.  A table whose entries all have
both presets passes, with each entry's base, size and relative-addressing flag
(true when not preset) as the broker gives them; the ranges play no role. -/
theorem resolution_checks_presets_only (b : Broker) (r : Router) :
    ((∀ ti ∈ r.targets, (b.address ti.name).isSome = true ∧ (b.size ti.name).isSome = true) →
      r.before_end_of_elaboration b = .ok
        { r with targets := r.targets.map (fun ti =>
            { ti with
              address := (b.address ti.name).getD 0
              size := (b.size ti.name).getD 0
              mask_addr := (b.relative_addresses ti.name).getD true }) }) ∧
    ((∃ ti ∈ r.targets, b.address ti.name = none ∨ b.size ti.name = none) →
      r.before_end_of_elaboration b = .error .fatal) := by
  constructor
  · intro hall
    obtain ⟨ts1, h1, h2⟩ := resolve_total b r.targets hall
    simp only [Router.before_end_of_elaboration, h1, h2]
  · intro hex
    simp only [Router.before_end_of_elaboration, resolve_missing b r.targets hex]

/-- C29 (witness).  The presets of `demoOverlapBroker` are complete for the
targets `A` and `B`; a broker without presets fails resolution. -/
theorem resolution_checks_presets_only_witness :
    ((({ targets := [], m_pathIDPool := [] } : Router).register_boundto "A").register_boundto
        "B").before_end_of_elaboration demoOverlapBroker = .ok demoOverlapRouter ∧
    ((({ targets := [], m_pathIDPool := [] } : Router).register_boundto "A").register_boundto
        "B").before_end_of_elaboration
          { address := fun _ => none, size := fun _ => none, relative_addresses := fun _ => none }
      = .error .fatal :=
  ⟨(resolution_checks_presets_only demoOverlapBroker
      ((({ targets := [], m_pathIDPool := [] } : Router).register_boundto "A").register_boundto
        "B")).1 (by decide),
   (resolution_checks_presets_only
      { address := fun _ => none, size := fun _ => none, relative_addresses := fun _ => none }
      ((({ targets := [], m_pathIDPool := [] } : Router).register_boundto "A").register_boundto
        "B")).2 ⟨_, List.mem_cons_self _ _, Or.inl rfl⟩⟩

/-- C39 (failing input).  A memory with `dmi_allowed = false` is bound as the
region-relative target `T0` (size 0x1000).  Asked for direct access with a fresh
descriptor, whose window is `[0, 2^64 - 1]`, the memory returns false and leaves
the descriptor alone; `Router::get_direct_mem_ptr` then does not return false:
it passes the untouched end address to `compose_address`, whose assertion
`address < targets[index].size` fails.  The same happens for every target that
refuses without writing the window, such as the probe. -/
theorem dmi_refusal_fails_compose_assertion :
    demoNoDmiMemory.get_direct_mem_ptr demoHost (demoRead 0 4) tlm_dmi.init
      = .ok (demoNoDmiMemory, demoRead 0 4, tlm_dmi.init, false) ∧
    demoRouter.get_direct_mem_ptr (memorySockets demoHost 2) (demoRead 0 4) tlm_dmi.init
        [demoNoDmiMemory, demoNoDmiMemory]
      = .error .assertion ∧
    demoRouter.compose_address 0 tlm_dmi.init.end_address = .error .assertion ∧
    demoRouter.get_direct_mem_ptr [probe 0 none, probe 0 none] (demoRead 0 4) tlm_dmi.init []
      = .error .assertion := by
  refine ⟨rfl, rfl, rfl, rfl⟩

/-! ## The UART transmit path -/

theorem tx_loop_ok (regs : qupv3_regs) (v : Nat) : ∀ (n count : Nat) (s : QUPv3) (out : List Nat),
    s.chr = some out → s.qupv3_handle regs.UART_TX_TRANS_LEN < U32 →
    ∃ s1, QUPv3.tx_loop regs v n count s = .ok s1 ∧
      s1.chr = some (out ++ (List.range (min n (s.qupv3_handle regs.UART_TX_TRANS_LEN))).map
        (fun i => (v >>> ((count + i) * 8)) &&& 255)) ∧
      s1.qupv3_handle regs.UART_TX_TRANS_LEN
        = s.qupv3_handle regs.UART_TX_TRANS_LEN
          - min n (s.qupv3_handle regs.UART_TX_TRANS_LEN) ∧
      (∀ key, key ≠ regs.UART_TX_TRANS_LEN → s1.qupv3_handle key = s.qupv3_handle key) ∧
      s1.irq = s.irq ∧ s1.update_event = s.update_event := by
  intro n
  induction n with
  | zero =>
    intro count s out hchr _
    refine ⟨s, rfl, ?_, ?_, fun _ _ => rfl, rfl, rfl⟩
    · simp [hchr]
    · simp
  | succ n ih =>
    intro count s out hchr hL
    unfold QUPv3.tx_loop
    by_cases h0 : s.qupv3_handle regs.UART_TX_TRANS_LEN = 0
    · refine ⟨s, by simp [h0], ?_, ?_, fun _ _ => rfl, rfl, rfl⟩
      · simp [hchr, h0]
      · simp [h0]
    · simp only [ne_eq, h0, not_false_eq_true, if_true, hchr]
      have hdec : (s.qupv3_handle regs.UART_TX_TRANS_LEN + U32 - 1) % U32
          = s.qupv3_handle regs.UART_TX_TRANS_LEN - 1 := by
        have : s.qupv3_handle regs.UART_TX_TRANS_LEN + U32 - 1
            = (s.qupv3_handle regs.UART_TX_TRANS_LEN - 1) + U32 := by omega
        rw [this, Nat.add_mod_right, Nat.mod_eq_of_lt (by omega)]
      rw [hdec]
      have hL1 : (({ s with chr := some (out ++ [(v >>> (count * 8)) &&& 255]) } : QUPv3).set
          regs.UART_TX_TRANS_LEN (s.qupv3_handle regs.UART_TX_TRANS_LEN - 1)).qupv3_handle
            regs.UART_TX_TRANS_LEN = s.qupv3_handle regs.UART_TX_TRANS_LEN - 1 := by
        simp [QUPv3.set]
      obtain ⟨s1, hrun, hc, hl, hk, hi, hu⟩ := ih (count + 1)
        (({ s with chr := some (out ++ [(v >>> (count * 8)) &&& 255]) } : QUPv3).set
          regs.UART_TX_TRANS_LEN (s.qupv3_handle regs.UART_TX_TRANS_LEN - 1))
        (out ++ [(v >>> (count * 8)) &&& 255]) rfl (by rw [hL1]; omega)
      rw [hL1] at hc hl
      refine ⟨s1, hrun, ?_, ?_, ?_, by rw [hi]; rfl, by rw [hu]; rfl⟩
      · rw [hc]
        have hmin : min (n + 1) (s.qupv3_handle regs.UART_TX_TRANS_LEN)
            = min n (s.qupv3_handle regs.UART_TX_TRANS_LEN - 1) + 1 := by omega
        have hlist : ∀ m, (List.range (m + 1)).map (fun i => (v >>> ((count + i) * 8)) &&& 255)
            = ((v >>> (count * 8)) &&& 255) ::
              (List.range m).map (fun i => (v >>> ((count + 1 + i) * 8)) &&& 255) := by
          intro m
          rw [List.range_succ_eq_map, List.map_cons, List.map_map]
          refine congrArg₂ List.cons rfl (List.map_congr_left ?_)
          intro i _
          show (v >>> ((count + (i + 1)) * 8)) &&& 255 = _
          rw [show count + (i + 1) = count + 1 + i by omega]
        rw [hmin, hlist, List.append_assoc]
        rfl
      · rw [hl]; omega
      · intro key hkey
        rw [hk key hkey]
        simp [QUPv3.set, hkey]

/-- C40.  In a `QUPv3` with a character backend, whose switch cases and
register keys are distinct and whose transfer length `L` is a 32-bit value:
when `GENI_M_CMD_0` holds `0x08000000` and `L ≥ 1`, writing `v` to
`GENI_TX_FIFO_0` appends exactly `k = min(4, L)` bytes to the backend, the
`i`-th being `(v >> 8i) & 0xFF`, sets `UART_TX_TRANS_LEN` to `L - k`, and exactly
when `L - k = 0` clears `GENI_M_CMD_0` and sets `M_CMD_DONE` in
`GENI_M_IRQ_STATUS` (otherwise both keep their values); every other register
keeps its value.  When the command is not armed or `L = 0` the call only
reports an error: nothing is sent and no register changes. -/
theorem uart_transmit (regs : qupv3_regs) (s : QUPv3) (v : Nat) (out : List Nat)
    (hcase : regs.GENI_TX_FIFO_0 ≠ regs.GENI_M_CMD_0 ∧
      regs.GENI_TX_FIFO_0 ≠ regs.GENI_M_IRQ_CLEAR ∧
      regs.GENI_TX_FIFO_0 ≠ regs.GENI_S_IRQ_CLEAR)
    (hkeys : regs.UART_TX_TRANS_LEN ≠ regs.GENI_M_CMD_0 ∧
      regs.GENI_M_IRQ_STATUS ≠ regs.GENI_M_CMD_0 ∧
      regs.GENI_M_IRQ_STATUS ≠ regs.UART_TX_TRANS_LEN)
    (hL : s.qupv3_handle regs.UART_TX_TRANS_LEN < U32)
    (hchr : s.chr = some out) :
    (s.qupv3_handle regs.GENI_M_CMD_0 = 134217728 →
      1 ≤ s.qupv3_handle regs.UART_TX_TRANS_LEN →
      ∃ s1, s.qupv3_write regs regs.GENI_TX_FIFO_0 v = .ok s1 ∧
        s1.chr = some (out ++ (List.range (min 4 (s.qupv3_handle regs.UART_TX_TRANS_LEN))).map
          (fun i => (v >>> (8 * i)) &&& 255)) ∧
        s1.qupv3_handle regs.UART_TX_TRANS_LEN
          = s.qupv3_handle regs.UART_TX_TRANS_LEN
            - min 4 (s.qupv3_handle regs.UART_TX_TRANS_LEN) ∧
        (s.qupv3_handle regs.UART_TX_TRANS_LEN
            - min 4 (s.qupv3_handle regs.UART_TX_TRANS_LEN) = 0 →
          s1.qupv3_handle regs.GENI_M_CMD_0 = 0 ∧
          s1.qupv3_handle regs.GENI_M_IRQ_STATUS
            = s.qupv3_handle regs.GENI_M_IRQ_STATUS ||| regs.M_CMD_DONE) ∧
        (s.qupv3_handle regs.UART_TX_TRANS_LEN
            - min 4 (s.qupv3_handle regs.UART_TX_TRANS_LEN) ≠ 0 →
          s1.qupv3_handle regs.GENI_M_CMD_0 = 134217728 ∧
          s1.qupv3_handle regs.GENI_M_IRQ_STATUS = s.qupv3_handle regs.GENI_M_IRQ_STATUS) ∧
        (∀ key, key ≠ regs.UART_TX_TRANS_LEN → key ≠ regs.GENI_M_CMD_0 →
          key ≠ regs.GENI_M_IRQ_STATUS → s1.qupv3_handle key = s.qupv3_handle key)) ∧
    (¬ (s.qupv3_handle regs.GENI_M_CMD_0 = 134217728 ∧
        1 ≤ s.qupv3_handle regs.UART_TX_TRANS_LEN) →
      s.qupv3_write regs regs.GENI_TX_FIFO_0 v = .ok { s with scp_err := s.scp_err + 1 }) := by
  obtain ⟨hc1, hc2, hc3⟩ := hcase
  obtain ⟨hk1, hk2, hk3⟩ := hkeys
  constructor
  · intro harmed h1
    obtain ⟨s1, hrun, hc, hl, hk, _, _⟩ := tx_loop_ok regs v 4 0 s out hchr hL
    have hcmd1 : s1.qupv3_handle regs.GENI_M_CMD_0 = 134217728 := by
      rw [hk _ (Ne.symm hk1), harmed]
    have hirq1 : s1.qupv3_handle regs.GENI_M_IRQ_STATUS
        = s.qupv3_handle regs.GENI_M_IRQ_STATUS := hk _ hk3
    have hbytes : s1.chr = some (out ++
        (List.range (min 4 (s.qupv3_handle regs.UART_TX_TRANS_LEN))).map
          (fun i => (v >>> (8 * i)) &&& 255)) := by
      rw [hc]
      congr 2
      apply List.map_congr_left
      intro i _
      simp only [Nat.zero_add, Nat.mul_comm]
    unfold QUPv3.qupv3_write
    simp only [hc1, hc2, hc3, if_false, harmed, ge_iff_le, h1, and_self, if_true, hrun]
    by_cases hz : s.qupv3_handle regs.UART_TX_TRANS_LEN
        - min 4 (s.qupv3_handle regs.UART_TX_TRANS_LEN) = 0
    · have hz1 : s1.qupv3_handle regs.UART_TX_TRANS_LEN = 0 := by rw [hl, hz]
      simp only [hcmd1, hz1, and_self, if_true]
      refine ⟨_, rfl, ?_, ?_, ?_, ?_, ?_⟩
      · unfold QUPv3.qupv3_update
        split <;> exact hbytes
      · have : ∀ x : QUPv3, (QUPv3.qupv3_update regs x).qupv3_handle = x.qupv3_handle := by
          intro x; unfold QUPv3.qupv3_update; split <;> rfl
        rw [this]
        simp only [QUPv3.set, hk1, Ne.symm hk3, if_false]
        rw [hl]
      · intro _
        have : ∀ x : QUPv3, (QUPv3.qupv3_update regs x).qupv3_handle = x.qupv3_handle := by
          intro x; unfold QUPv3.qupv3_update; split <;> rfl
        rw [this]
        simp only [QUPv3.set, Ne.symm hk2, hk2, if_false, if_true]
        exact ⟨trivial, by rw [hirq1]⟩
      · intro hne; exact absurd hz hne
      · intro key h1 h2 h3
        have : ∀ x : QUPv3, (QUPv3.qupv3_update regs x).qupv3_handle = x.qupv3_handle := by
          intro x; unfold QUPv3.qupv3_update; split <;> rfl
        rw [this]
        simp only [QUPv3.set, h2, h3, if_false]
        exact hk key h1
    · have hz1 : ¬ s1.qupv3_handle regs.UART_TX_TRANS_LEN = 0 := by rw [hl]; exact hz
      simp only [hcmd1, hz1, and_false, if_false]
      refine ⟨_, rfl, hbytes, hl, fun h => absurd h hz, fun _ => ⟨hcmd1, hirq1⟩, ?_⟩
      intro key h1 _ _
      exact hk key h1
  · intro hn
    unfold QUPv3.qupv3_write
    simp only [hc1, hc2, hc3, if_false, ge_iff_le, hn, if_true]

/-- C40 (witness).  Armed for 6 bytes, a write of `0x64636261` to the transmit
FIFO sends the four bytes `0x61, 0x62, 0x63, 0x64` and leaves 2 bytes to send,
the command armed; armed for 3 bytes, it sends three bytes, clears the command
and sets `M_CMD_DONE`. -/
theorem uart_transmit_witness :
    (∃ s1, (demoUart 6).qupv3_write demoRegs demoRegs.GENI_TX_FIFO_0 1684234849 = .ok s1 ∧
      s1.chr = some [97, 98, 99, 100] ∧
      s1.qupv3_handle demoRegs.UART_TX_TRANS_LEN = 2 ∧
      s1.qupv3_handle demoRegs.GENI_M_CMD_0 = 134217728 ∧
      s1.qupv3_handle demoRegs.GENI_M_IRQ_STATUS = 0) ∧
    (∃ s1, (demoUart 3).qupv3_write demoRegs demoRegs.GENI_TX_FIFO_0 1684234849 = .ok s1 ∧
      s1.chr = some [97, 98, 99] ∧
      s1.qupv3_handle demoRegs.UART_TX_TRANS_LEN = 0 ∧
      s1.qupv3_handle demoRegs.GENI_M_CMD_0 = 0 ∧
      s1.qupv3_handle demoRegs.GENI_M_IRQ_STATUS = 1) := by
  constructor
  · obtain ⟨s1, h1, h2, h3, _, h5, _⟩ :=
      (uart_transmit demoRegs (demoUart 6) 1684234849 [] (by decide) (by decide) (by decide)
        rfl).1 rfl (by decide)
    exact ⟨s1, h1, h2, h3, (h5 (by decide)).1, (h5 (by decide)).2⟩
  · obtain ⟨s1, h1, h2, h3, h4, _, _⟩ :=
      (uart_transmit demoRegs (demoUart 3) 1684234849 [] (by decide) (by decide) (by decide)
        rfl).1 rfl (by decide)
    exact ⟨s1, h1, h2, h3, (h4 (by decide)).1, (h4 (by decide)).2⟩

/-! ## Transfers on a leaf -/

theorem write_sub_blocks_leaf (dl : SubBlockData) (subs : Fin 4 → SubBlock)
    (buf data : List Nat) (di offset len : Nat)
    (hp : dl.m_ptr = some buf) (hbuf : buf.length = dl.m_len)
    (hlen : dl.m_len < U64) (hoff : offset < U64)
    (h1 : dl.m_address ≤ offset) (h2 : offset < dl.m_address + dl.m_len)
    (hdata : di + len ≤ data.length) :
    ∃ buf1,
      (SubBlock.mk dl subs).write_sub_blocks data di offset len
        = .ok (.mk { dl with m_ptr := some buf1 } subs,
            min len (dl.m_len - (offset - dl.m_address))) ∧
      buf1.length = buf.length ∧
      ∀ j, buf1.get? j =
        if offset - dl.m_address ≤ j ∧
            j < offset - dl.m_address + min len (dl.m_len - (offset - dl.m_address)) then
          data.get? (di + (j - (offset - dl.m_address)))
        else buf.get? j := by
  have hmin : min len (dl.m_address + dl.m_len - offset)
      = min len (dl.m_len - (offset - dl.m_address)) := by omega
  obtain ⟨hs, hn⟩ := chunk_in_leaf dl offset len hoff hlen h1 h2
  rw [hmin, hs] at hn
  have hc := memcpy_eq_ok buf (offset - dl.m_address) data di
    (min len (dl.m_len - (offset - dl.m_address))) (by omega) (by omega)
  refine ⟨_, ?_, memcpy_length hc, memcpy_get? hc⟩
  simp only [SubBlock.write_sub_blocks, hp, hs, hn, hc]

theorem read_sub_blocks_leaf (dl : SubBlockData) (subs : Fin 4 → SubBlock)
    (buf data : List Nat) (di offset len : Nat)
    (hp : dl.m_ptr = some buf) (hbuf : buf.length = dl.m_len)
    (hlen : dl.m_len < U64) (hoff : offset < U64)
    (h1 : dl.m_address ≤ offset) (h2 : offset < dl.m_address + dl.m_len)
    (hdata : di + len ≤ data.length) :
    ∃ data1,
      (SubBlock.mk dl subs).read_sub_blocks data di offset len
        = .ok (data1, min len (dl.m_len - (offset - dl.m_address))) ∧
      data1.length = data.length ∧
      ∀ j, data1.get? j =
        if di ≤ j ∧ j < di + min len (dl.m_len - (offset - dl.m_address)) then
          buf.get? (offset - dl.m_address + (j - di))
        else data.get? j := by
  have hmin : min len (dl.m_address + dl.m_len - offset)
      = min len (dl.m_len - (offset - dl.m_address)) := by omega
  obtain ⟨hs, hn⟩ := chunk_in_leaf dl offset len hoff hlen h1 h2
  rw [hmin, hs] at hn
  have hc := memcpy_eq_ok data di buf (offset - dl.m_address)
    (min len (dl.m_len - (offset - dl.m_address))) (by omega) (by omega)
  refine ⟨_, ?_, memcpy_length hc, memcpy_get? hc⟩
  simp only [SubBlock.read_sub_blocks, hp, hs, hn, hc]

/-- C32.  On an allocated leaf (base `dl.m_address`, length `dl.m_len`, buffer
`buf` of that length, all 64-bit values) and an offset inside its range, with a
caller's buffer
that holds `len` bytes from position `di` on, `write_sub_blocks` and
`read_sub_blocks` return `n = min(len, length - (offset - base))`:
`write_sub_blocks` leaves the leaf with a buffer that holds the caller's bytes
`di .. di + n - 1` at positions `offset - base .. offset - base + n - 1` and its
old bytes everywhere else; `read_sub_blocks` leaves the caller's buffer with the
leaf's bytes of these positions at `di .. di + n - 1` and its old bytes
everywhere else; and `n ≥ 1` whenever `len ≥ 1`. -/
theorem partial_transfer (dl : SubBlockData) (subs : Fin 4 → SubBlock) (buf data : List Nat)
    (di offset len : Nat)
    (hp : dl.m_ptr = some buf) (hbuf : buf.length = dl.m_len)
    (hlen : dl.m_len < U64) (hoff : offset < U64)
    (h1 : dl.m_address ≤ offset) (h2 : offset < dl.m_address + dl.m_len)
    (hdata : di + len ≤ data.length) :
    (∃ buf1,
      (SubBlock.mk dl subs).write_sub_blocks data di offset len
        = .ok (.mk { dl with m_ptr := some buf1 } subs,
            min len (dl.m_len - (offset - dl.m_address))) ∧
      buf1.length = buf.length ∧
      ∀ j, buf1.get? j =
        if offset - dl.m_address ≤ j ∧
            j < offset - dl.m_address + min len (dl.m_len - (offset - dl.m_address)) then
          data.get? (di + (j - (offset - dl.m_address)))
        else buf.get? j) ∧
    (∃ data1,
      (SubBlock.mk dl subs).read_sub_blocks data di offset len
        = .ok (data1, min len (dl.m_len - (offset - dl.m_address))) ∧
      data1.length = data.length ∧
      ∀ j, data1.get? j =
        if di ≤ j ∧ j < di + min len (dl.m_len - (offset - dl.m_address)) then
          buf.get? (offset - dl.m_address + (j - di))
        else data.get? j) ∧
    (1 ≤ len → 1 ≤ min len (dl.m_len - (offset - dl.m_address))) :=
  ⟨write_sub_blocks_leaf dl subs buf data di offset len hp hbuf hlen hoff h1 h2 hdata,
   read_sub_blocks_leaf dl subs buf data di offset len hp hbuf hlen hoff h1 h2 hdata,
   by omega⟩

/-- C32 (witness).  On the leaf `demoLeaf` a transfer of 3 bytes at offset 6
moves the 2 bytes up to the end of the leaf. -/
theorem partial_transfer_witness :
    (SubBlock.mk demoLeaf (fun _ => .null)).write_sub_blocks [7, 8, 9] 0 6 3
      = .ok (.mk { demoLeaf with m_ptr := some [1, 2, 7, 8] } (fun _ => .null), 2) ∧
    (SubBlock.mk demoLeaf (fun _ => .null)).read_sub_blocks [7, 8, 9] 0 6 3
      = .ok ([3, 4, 9], 2) ∧
    1 ≤ min 3 (demoLeaf.m_len - (6 - demoLeaf.m_address)) := by
  have key := partial_transfer demoLeaf (fun _ => .null) [1, 2, 3, 4] [7, 8, 9] 0 6 3 rfl rfl
    (by decide) (by decide) (by decide) (by decide) (by decide)
  exact ⟨rfl, rfl, key.2.2 (by decide)⟩

/-! ## Exclusivity of buffers and children -/

theorem WF_get : ∀ (q : List (Fin 4)) (t : SubBlock), t.WF → (t.get q).WF := by
  intro q
  induction q with
  | nil => intro t hwf; cases t <;> exact hwf
  | cons i q ih =>
    intro t hwf
    cases t with
    | null => exact trivial
    | mk d subs =>
      show ((subs i).get q).WF
      exact ih (subs i) (((WF_mk d subs).1 hwf).2.2.2 i)

/-- C38.  In every tree that a sequence of returning `access` calls leaves from a
freshly constructed block, no block has a buffer together with the split flag or
a child: a block with a buffer is unsplit and has no child, and a block with a
child is split and has no buffer. -/
theorem leaf_branch_exclusive (h : Host) (address len max_size min_size : Nat)
    (filename : String) (as : List Nat) (t : SubBlock) (ps : List (List (Fin 4)))
    (hfit : address + len ≤ U64) (hty : ∀ a ∈ as, a < U64)
    (hrun : (SubBlock.new address len max_size min_size filename).accesses h as = .ok (t, ps))
    (q : List (Fin 4)) (d : SubBlockData) (subs : Fin 4 → SubBlock)
    (hget : t.get q = .mk d subs) :
    ¬ (d.m_ptr.isSome = true ∧
        (d.m_use_sub_blocks = true ∨ ∃ i : Fin 4, (subs i).isBlock = true)) ∧
    (d.m_ptr.isSome = true → d.m_use_sub_blocks = false ∧ ∀ i : Fin 4, subs i = .null) ∧
    ((∃ i : Fin 4, (subs i).isBlock = true) → d.m_use_sub_blocks = true ∧ d.m_ptr = none) := by
  have hwf : t.WF := accesses_WF h as _ t ps (WF_new _ _ _ _ _ hfit) hty hrun
  have hq := WF_get q t hwf
  rw [hget] at hq
  obtain ⟨_, hbuf, hch, _⟩ := (WF_mk d subs).1 hq
  have a1 : d.m_ptr.isSome = true → d.m_use_sub_blocks = false := by
    intro hs
    obtain ⟨buf, hb⟩ := Option.isSome_iff_exists.1 hs
    exact (hbuf buf hb).2
  have a2 : (∃ i : Fin 4, (subs i).isBlock = true) → d.m_use_sub_blocks = true := by
    rintro ⟨i, hi⟩
    exact (hch i hi).1
  refine ⟨?_, ?_, ?_⟩
  · rintro ⟨hs, hu | hc⟩
    · rw [a1 hs] at hu; cases hu
    · rw [a1 hs] at a2; exact absurd (a2 hc) (by decide)
  · intro hs
    refine ⟨a1 hs, ?_⟩
    intro i
    cases hsi : subs i with
    | null => rfl
    | mk cd cs =>
      have : d.m_use_sub_blocks = true := a2 ⟨i, by rw [hsi]; rfl⟩
      rw [a1 hs] at this; cases this
  · intro hc
    refine ⟨a2 hc, ?_⟩
    cases hp : d.m_ptr with
    | none => rfl
    | some buf =>
      have := a1 (by rw [hp]; rfl)
      rw [a2 hc] at this; cases this

/-- C38 (witness).  After the accesses 0, 5 and 0 to a block of 16 bytes with
leaves of 4 bytes, the root is split, has children and no buffer, and its child 1
has a buffer, is unsplit and has no child. -/
theorem leaf_branch_exclusive_witness :
    (∃ d subs, ((SubBlock.new 0 16 4 1 "").after demoHost [0, 5, 0]).get [] = .mk d subs ∧
      d.m_use_sub_blocks = true ∧ d.m_ptr = none ∧ (subs 1).isBlock = true) ∧
    (∃ d subs, ((SubBlock.new 0 16 4 1 "").after demoHost [0, 5, 0]).get [1] = .mk d subs ∧
      d.m_ptr.isSome = true ∧ d.m_use_sub_blocks = false ∧ ∀ i : Fin 4, subs i = .null) := by
  refine ⟨⟨_, _, rfl, ?_⟩, ⟨_, _, rfl, rfl, ?_⟩⟩
  · have k := (leaf_branch_exclusive demoHost 0 16 4 1 "" [0, 5, 0]
      ((SubBlock.new 0 16 4 1 "").after demoHost [0, 5, 0]) _ (by decide) (by decide) rfl
      [] _ _ rfl).2.2 ⟨1, rfl⟩
    exact ⟨k.1, k.2, rfl⟩
  · exact (leaf_branch_exclusive demoHost 0 16 4 1 "" [0, 5, 0]
      ((SubBlock.new 0 16 4 1 "").after demoHost [0, 5, 0]) _ (by decide) (by decide) rfl
      [1] _ _ rfl).2.1 rfl

/-! ## Geometry of the children -/

theorem allocate_fails {h : Host} {d : SubBlockData}
    (hu : d.m_use_sub_blocks = false) (hp : d.m_ptr = none) (hf : d.allocFails h = true) :
    d.allocate h = .ok ({ d with m_use_sub_blocks := true }, false) := by
  rcases d with ⟨len, address, max_size, min_size, filename, ptr, use, mapped⟩
  simp only at hu hp
  subst hu hp
  unfold SubBlockData.allocFails at hf
  unfold SubBlockData.allocate
  simp only [Bool.false_eq_true, if_false]
  by_cases hfn : filename ≠ ""
  · simp only [if_pos hfn] at hf ⊢
    simp only [Bool.and_eq_true, Option.isNone_iff_eq_none] at hf
    unfold SubBlockData.map
    simp only [hf.1, if_true, hf.2]
  · simp only [if_neg hfn] at hf ⊢
    simp only [Bool.and_eq_true, Option.isNone_iff_eq_none] at hf
    simp only [hf.1, hf.2]

/-- The descent of `access`: on a block without buffer that is or becomes split,
is not shorter than the minimum and has a length divisible by four, a call for
an address of its range continues on the child that covers the address, created
if the slot is empty. -/
theorem access_descend (h : Host) (fuel : Nat) (d : SubBlockData) (subs : Fin 4 → SubBlock)
    (a : Nat) (hfit : d.m_address + d.m_len ≤ U64) (hp : d.m_ptr = none)
    (hsplit : d.m_use_sub_blocks = true ∨ d.m_max_size < d.m_len ∨ d.allocFails h = true)
    (hmin : d.m_min_size ≤ d.m_len) (h4 : d.m_len % 4 = 0)
    (h1 : d.m_address ≤ a) (h2 : a < d.m_address + d.m_len) :
    ∃ (i : Fin 4) (child : SubBlock),
      i.val = (a - d.m_address) / (d.m_len / 4) ∧
      ((subs i = child ∧ child.isBlock = true) ∨
        (subs i = .null ∧
          child = SubBlock.new (d.m_address + i.val * (d.m_len / 4)) (d.m_len / 4)
            d.m_max_size d.m_min_size d.m_filename)) ∧
      (∀ e, child.access h fuel a = .error e →
        (SubBlock.mk d subs).access h (fuel + 1) a = .error e) ∧
      (∀ c q, child.access h fuel a = .ok (c, q) →
        (SubBlock.mk d subs).access h (fuel + 1) a
          = .ok (.mk { d with m_use_sub_blocks := true } (setSub subs i c), i :: q)) := by
  have hall : (if d.m_len > d.m_max_size then { d with m_use_sub_blocks := true } else d).allocate h
      = .ok ({ d with m_use_sub_blocks := true }, false) := by
    by_cases hgt : d.m_len > d.m_max_size
    · rw [if_pos hgt]; exact allocate_split rfl
    · rw [if_neg hgt]
      cases hu : d.m_use_sub_blocks with
      | true =>
        have hd : ({ d with m_use_sub_blocks := true } : SubBlockData) = d := by
          cases d
          simp only at hu
          subst hu
          rfl
        rw [hd]; exact allocate_split hu
      | false =>
        rcases hsplit with hs | hs | hs
        · rw [hu] at hs; cases hs
        · exact absurd hs hgt
        · exact allocate_fails hu hp hs
  have hsub : 0 < d.m_len / 4 := by omega
  have hlt : (a - d.m_address) / (d.m_len / 4) < 4 := by
    rw [Nat.div_lt_iff_lt_mul hsub]; omega
  have hs64 : sub64 a d.m_address = a - d.m_address := by
    unfold sub64
    have : a + U64 - d.m_address = (a - d.m_address) + U64 := by omega
    rw [this, Nat.add_mod_right, Nat.mod_eq_of_lt (by omega)]
  have hidx : sub64 a d.m_address / (d.m_len / 4) % U32 = (a - d.m_address) / (d.m_len / 4) := by
    rw [hs64, Nat.mod_eq_of_lt]
    have : (4 : Nat) < U32 := by decide
    omega
  have hbound : (a - d.m_address) / (d.m_len / 4) * (d.m_len / 4) ≤ 3 * (d.m_len / 4) :=
    Nat.mul_le_mul_right _ (by omega)
  have hm : mul64 ((a - d.m_address) / (d.m_len / 4)) (d.m_len / 4)
      = (a - d.m_address) / (d.m_len / 4) * (d.m_len / 4) := mul64_of_lt (by omega)
  have hadd : add64 ((a - d.m_address) / (d.m_len / 4) * (d.m_len / 4)) d.m_address
      = d.m_address + (a - d.m_address) / (d.m_len / 4) * (d.m_len / 4) := by
    rw [add64_of_lt (by omega)]
    omega
  have hc : (d.m_ptr.isSome && !d.m_use_sub_blocks) = false := by rw [hp]; rfl
  cases hs : subs ⟨(a - d.m_address) / (d.m_len / 4), hlt⟩ with
  | null =>
    refine ⟨⟨_, hlt⟩, _, rfl, Or.inr ⟨hs, rfl⟩, ?_, ?_⟩
    · intro e he
      simp only [SubBlock.access, hc, Bool.false_eq_true,
        if_false, hall, Nat.not_lt.2 hmin, h4, ne_eq, not_true_eq_false, Nat.ne_of_gt hsub,
        hidx, hlt, dite_true, hm, hadd, hs, he]
    · intro c q hq
      simp only [SubBlock.access, hc, Bool.false_eq_true,
        if_false, hall, Nat.not_lt.2 hmin, h4, ne_eq, not_true_eq_false, Nat.ne_of_gt hsub,
        hidx, hlt, dite_true, hm, hadd, hs, hq]
  | mk cd cs =>
    refine ⟨⟨_, hlt⟩, .mk cd cs, rfl, Or.inl ⟨hs, rfl⟩, ?_, ?_⟩
    · intro e he
      simp only [SubBlock.access, hc, Bool.false_eq_true,
        if_false, hall, Nat.not_lt.2 hmin, h4, ne_eq, not_true_eq_false, Nat.ne_of_gt hsub,
        hidx, hlt, dite_true, hm, hadd, hs, he]
    · intro c q hq
      simp only [SubBlock.access, hc, Bool.false_eq_true,
        if_false, hall, Nat.not_lt.2 hmin, h4, ne_eq, not_true_eq_false, Nat.ne_of_gt hsub,
        hidx, hlt, dite_true, hm, hadd, hs, hq]

theorem Inherits_mk (d : SubBlockData) (subs : Fin 4 → SubBlock) :
    (SubBlock.mk d subs).Inherits ↔
      (∀ (i : Fin 4) (cd : SubBlockData) (cs : Fin 4 → SubBlock), subs i = .mk cd cs →
        cd.m_max_size = d.m_max_size ∧ cd.m_min_size = d.m_min_size ∧
        cd.m_filename = d.m_filename) ∧
      ∀ i : Fin 4, (subs i).Inherits := by
  rw [SubBlock.Inherits]

theorem Inherits_new (address len max_size min_size : Nat) (filename : String) :
    (SubBlock.new address len max_size min_size filename).Inherits := by
  unfold SubBlock.new
  rw [Inherits_mk]
  refine ⟨?_, fun i => trivial⟩
  intro i cd cs hc
  cases hc

/-- A returning `access` leaves the maximum and minimum leaf size and the file
name of the block it is called on as they were. -/
theorem access_root_params (h : Host) (fuel : Nat) (d : SubBlockData) (subs : Fin 4 → SubBlock)
    (a : Nat) (t1 : SubBlock) (p : List (Fin 4)) (hwf : (SubBlock.mk d subs).WF)
    (hacc : (SubBlock.mk d subs).access h fuel a = .ok (t1, p)) :
    ∃ d1 subs1, t1 = .mk d1 subs1 ∧ d1.m_max_size = d.m_max_size ∧
      d1.m_min_size = d.m_min_size ∧ d1.m_filename = d.m_filename := by
  cases fuel with
  | zero => simp [SubBlock.access] at hacc
  | succ fuel =>
    rcases access_inv h fuel d subs a t1 p hwf hacc with
      ⟨_, _, e, _⟩ | ⟨_, _, _, _, buf, mp, _, e, _⟩ | ⟨_, _, _, _, _, i, child, c, q, e, _⟩
    · exact ⟨_, _, e, rfl, rfl, rfl⟩
    · exact ⟨_, _, e, rfl, rfl, rfl⟩
    · exact ⟨_, _, e, rfl, rfl, rfl⟩

theorem access_Inherits (h : Host) : ∀ (fuel : Nat) (t : SubBlock) (a : Nat) (t1 : SubBlock)
    (p : List (Fin 4)), t.WF → t.Inherits → t.access h fuel a = .ok (t1, p) → t1.Inherits := by
  intro fuel
  induction fuel with
  | zero => intro t a t1 p _ _ hacc; simp [SubBlock.access] at hacc
  | succ fuel ih =>
    intro t a t1 p hwf hinh hacc
    cases t with
    | null => simp [SubBlock.access] at hacc
    | mk d subs =>
      have hinh0 := hinh
      rw [Inherits_mk] at hinh
      rcases access_inv h fuel d subs a t1 p hwf hacc with
        ⟨_, _, e, _⟩ | ⟨_, _, _, _, buf, mp, _, e, _⟩ |
        ⟨_, _, _, _, _, i, child, c, q, e, _, hcwf, _, _, hrec, hwhich⟩
      · rw [e]; exact hinh0
      · rw [e, Inherits_mk]; exact hinh
      · rw [e, Inherits_mk]
        have hchild : child.Inherits ∧ ∀ cd cs, child = .mk cd cs →
            cd.m_max_size = d.m_max_size ∧ cd.m_min_size = d.m_min_size ∧
            cd.m_filename = d.m_filename := by
          rcases hwhich with ⟨hs, _⟩ | ⟨_, hn⟩
          · rw [← hs]
            exact ⟨hinh.2 i, fun cd cs hc => hinh.1 i cd cs hc⟩
          · rw [hn]
            refine ⟨Inherits_new _ _ _ _ _, ?_⟩
            intro cd cs hc
            unfold SubBlock.new at hc
            injection hc with e1 _
            subst e1
            exact ⟨rfl, rfl, rfl⟩
        have hcI : c.Inherits := ih child a c q hcwf hchild.1 hrec
        constructor
        · intro j cd cs hj
          by_cases hji : j = i
          · subst hji
            simp only [setSub, if_true] at hj
            cases hch : child with
            | null => rw [hch] at hrec; cases fuel <;> simp [SubBlock.access] at hrec
            | mk cd0 cs0 =>
              rw [hch] at hrec hcwf
              obtain ⟨d1, s1, e1, k1, k2, k3⟩ :=
                access_root_params h fuel cd0 cs0 a c q hcwf hrec
              rw [hj] at e1
              injection e1 with e1 _
              subst e1
              obtain ⟨m1, m2, m3⟩ := hchild.2 cd0 cs0 hch
              exact ⟨k1.trans m1, k2.trans m2, k3.trans m3⟩
          · simp only [setSub, if_neg hji] at hj
            exact hinh.1 j cd cs hj
        · intro j
          by_cases hji : j = i
          · subst hji
            simp only [setSub, if_true]
            exact hcI
          · simp only [setSub, if_neg hji]
            exact hinh.2 j

theorem accesses_Inherits (h : Host) : ∀ (as : List Nat) (t t2 : SubBlock)
    (ps : List (List (Fin 4))), t.WF → t.Inherits → (∀ a ∈ as, a < U64) →
    t.accesses h as = .ok (t2, ps) → t2.Inherits := by
  intro as
  induction as with
  | nil =>
    intro t t2 ps _ hinh _ hrun
    simp only [SubBlock.accesses] at hrun
    injection hrun with hrun
    injection hrun with e1 _
    subst e1
    exact hinh
  | cons a rest ih =>
    intro t t2 ps hwf hinh hty hrun
    simp only [SubBlock.accesses] at hrun
    split at hrun
    · cases hrun
    · rename_i t1 p hacc
      split at hrun
      · cases hrun
      · rename_i t3 ps3 hrest
        injection hrun with hrun
        injection hrun with e1 _
        subst e1
        have hwf1 := (access_ok h _ t a t1 p hwf (hty a (List.mem_cons_self _ _)) hacc).1
        exact ih t1 t3 ps3 hwf1 (access_Inherits h _ t a t1 p hwf hinh hacc)
          (fun b hb => hty b (List.mem_cons_of_mem _ hb)) hrest

/-- C31.  A call of `access` on a well-formed block without buffer (base
`d.m_address`, length `d.m_len` divisible by 4, not below the minimum) that is
split or is split by the call (length above the maximum, or no buffer could be
allocated), for an address `a` of its range, descends into the child with index
`i = (a - base) / (length / 4)`, which is below 4.  The child, reused from slot
`i` or created there, has base `base + i * (length / 4)`, length `length / 4` and
the maximum and minimum leaf size and file name of its parent, and its range
contains `a`.  The call returns what `access` on the child returns, with the
child after that call in slot `i`, which still has the same base, length,
sizes and file name.  Every address of the parent's range lies in the range of
exactly one of the four children. -/
theorem child_geometry (h : Host) (fuel : Nat) (d : SubBlockData) (subs : Fin 4 → SubBlock)
    (a : Nat) (hwf : (SubBlock.mk d subs).WF) (hinh : (SubBlock.mk d subs).Inherits)
    (hp : d.m_ptr = none)
    (hsplit : d.m_use_sub_blocks = true ∨ d.m_max_size < d.m_len ∨ d.allocFails h = true)
    (hmin : d.m_min_size ≤ d.m_len) (h4 : d.m_len % 4 = 0)
    (h1 : d.m_address ≤ a) (h2 : a < d.m_address + d.m_len) :
    (∃ (i : Fin 4) (cd : SubBlockData) (cs : Fin 4 → SubBlock),
      i.val = (a - d.m_address) / (d.m_len / 4) ∧
      (subs i = .mk cd cs ∨
        (subs i = .null ∧
          SubBlock.mk cd cs = SubBlock.new (d.m_address + i.val * (d.m_len / 4)) (d.m_len / 4)
            d.m_max_size d.m_min_size d.m_filename)) ∧
      cd.m_address = d.m_address + i.val * (d.m_len / 4) ∧ cd.m_len = d.m_len / 4 ∧
      cd.m_max_size = d.m_max_size ∧ cd.m_min_size = d.m_min_size ∧
      cd.m_filename = d.m_filename ∧
      cd.m_address ≤ a ∧ a < cd.m_address + cd.m_len ∧
      (∀ e, (SubBlock.mk cd cs).access h fuel a = .error e →
        (SubBlock.mk d subs).access h (fuel + 1) a = .error e) ∧
      (∀ c q, (SubBlock.mk cd cs).access h fuel a = .ok (c, q) →
        (SubBlock.mk d subs).access h (fuel + 1) a
          = .ok (.mk { d with m_use_sub_blocks := true } (setSub subs i c), i :: q) ∧
        ∃ cd1 cs1, c = .mk cd1 cs1 ∧
          cd1.m_address = cd.m_address ∧ cd1.m_len = cd.m_len ∧
          cd1.m_max_size = d.m_max_size ∧ cd1.m_min_size = d.m_min_size ∧
          cd1.m_filename = d.m_filename)) ∧
    (∀ b, d.m_address ≤ b → b < d.m_address + d.m_len →
      ∃! j : Fin 4, d.m_address + j.val * (d.m_len / 4) ≤ b ∧
        b < d.m_address + j.val * (d.m_len / 4) + d.m_len / 4) := by
  have hwf0 := hwf
  rw [WF_mk] at hwf
  obtain ⟨hfit, _, hch, hsubwf⟩ := hwf
  rw [Inherits_mk] at hinh
  have hsub : 0 < d.m_len / 4 := by omega
  constructor
  · obtain ⟨i, child, hi, hwhich, herr, hok⟩ :=
      access_descend h fuel d subs a hfit hp hsplit hmin h4 h1 h2
    have hlo : i.val * (d.m_len / 4) ≤ a - d.m_address := by
      rw [hi]; exact Nat.div_mul_le_self _ _
    have hhi : a - d.m_address < i.val * (d.m_len / 4) + d.m_len / 4 := by
      rw [hi]
      have := Nat.lt_div_mul_add (a := a - d.m_address) hsub
      exact this
    have hgeo : ∃ cd cs, child = .mk cd cs ∧
        (subs i = .mk cd cs ∨
          (subs i = .null ∧
            SubBlock.mk cd cs = SubBlock.new (d.m_address + i.val * (d.m_len / 4))
              (d.m_len / 4) d.m_max_size d.m_min_size d.m_filename)) ∧
        cd.m_address = d.m_address + i.val * (d.m_len / 4) ∧ cd.m_len = d.m_len / 4 ∧
        cd.m_max_size = d.m_max_size ∧ cd.m_min_size = d.m_min_size ∧
        cd.m_filename = d.m_filename ∧ (SubBlock.mk cd cs).WF := by
      rcases hwhich with ⟨hs, hb⟩ | ⟨hs, hn⟩
      · cases hc : child with
        | null => rw [hc] at hb; cases hb
        | mk cd cs =>
          rw [hc] at hs
          have hb2 : (subs i).isBlock = true := by rw [hs]; rfl
          obtain ⟨_, _, _, _, g1, g2⟩ := hch i hb2
          rw [hs] at g1 g2
          obtain ⟨m1, m2, m3⟩ := hinh.1 i cd cs hs
          have hw := hsubwf i
          rw [hs] at hw
          exact ⟨cd, cs, rfl, Or.inl hs, g2, g1, m1, m2, m3, hw⟩
      · have hbound : i.val * (d.m_len / 4) ≤ 3 * (d.m_len / 4) :=
          Nat.mul_le_mul_right _ (by omega)
        refine ⟨_, _, hn, Or.inr ⟨hs, rfl⟩, rfl, rfl, rfl, rfl, rfl, ?_⟩
        exact WF_new _ _ _ _ _ (by omega)
    obtain ⟨cd, cs, hc, hslot, g1, g2, m1, m2, m3, hcwf⟩ := hgeo
    subst hc
    refine ⟨i, cd, cs, hi, hslot, g1, g2, m1, m2, m3, by omega, by omega, herr, ?_⟩
    intro c q hrec
    refine ⟨hok c q hrec, ?_⟩
    obtain ⟨d1, s1, e1, k1, k2, k3⟩ := access_root_params h fuel cd cs a c q hcwf hrec
    obtain ⟨_, _, r1, r2, _⟩ := access_ok h fuel _ a c q hcwf (by omega) hrec
    subst e1
    exact ⟨d1, s1, rfl, r2, r1, k1.trans m1, k2.trans m2, k3.trans m3⟩
  · intro b hb1 hb2
    have hlt : (b - d.m_address) / (d.m_len / 4) < 4 := by
      rw [Nat.div_lt_iff_lt_mul hsub]; omega
    refine ⟨⟨_, hlt⟩, ⟨?_, ?_⟩, ?_⟩
    · have := Nat.div_mul_le_self (b - d.m_address) (d.m_len / 4)
      show d.m_address + (b - d.m_address) / (d.m_len / 4) * (d.m_len / 4) ≤ b
      omega
    · have := Nat.lt_div_mul_add (a := b - d.m_address) hsub
      show b < d.m_address + (b - d.m_address) / (d.m_len / 4) * (d.m_len / 4) + d.m_len / 4
      omega
    · rintro ⟨j, hj⟩ ⟨k1, k2⟩
      apply Fin.ext
      show j = (b - d.m_address) / (d.m_len / 4)
      symm
      apply Nat.div_eq_of_lt_le
      · show j * (d.m_len / 4) ≤ b - d.m_address
        simp only at k1
        omega
      · show b - d.m_address < (j + 1) * (d.m_len / 4)
        simp only at k2
        rw [Nat.add_mul, Nat.one_mul]
        omega

/-- C31 (witness).  A block of 16 bytes at 0 with leaves of at most 4 bytes is
split by the first call; for address 5 the call descends into child 1, created
with base 4, length 4 and the sizes and file name of its parent. -/
theorem child_geometry_witness :
    ∃ (i : Fin 4) (cd : SubBlockData), i.val = 1 ∧ cd.m_address = 4 ∧ cd.m_len = 4 ∧
      cd.m_max_size = 4 ∧ cd.m_min_size = 1 ∧ cd.m_filename = "" ∧
      cd.m_address ≤ 5 ∧ 5 < cd.m_address + cd.m_len := by
  obtain ⟨⟨i, cd, cs, hi, _, ha, hl, m1, m2, m3, r1, r2, _⟩, _⟩ :=
    child_geometry demoHost 32 demoRootData (fun _ => .null) 5
      (WF_new 0 16 4 1 "" (by decide)) (Inherits_new 0 16 4 1 "") rfl
      (Or.inr (Or.inl (by decide))) (by decide) (by decide) (by decide) (by decide)
  have hi1 : i.val = 1 := hi
  rw [hi1] at ha
  exact ⟨i, cd, hi1, ha, hl, m1, m2, m3, r1, r2⟩

/-! ## Termination of `access` -/

/-- The ways in which `access` on a well-formed block fails for an address of
its range: a fatal error or a failed assertion (or the recursion bound of the
model). -/
theorem access_faults (h : Host) : ∀ (fuel : Nat) (t : SubBlock) (a : Nat) (e : Fault),
    t.WF → t.get_address ≤ a → a < t.get_address + t.get_len →
    t.access h fuel a = .error e → e = .fatal ∨ e = .assertion ∨ e = .fuel := by
  intro fuel
  induction fuel with
  | zero =>
    intro t a e _ _ _ hacc
    simp only [SubBlock.access] at hacc
    injection hacc with hacc
    exact Or.inr (Or.inr hacc.symm)
  | succ fuel ih =>
    intro t a e hwf h1 h2 hacc
    cases t with
    | null => simp [SubBlock.get_len, SubBlock.get_address] at h1 h2
    | mk d subs =>
      rw [WF_mk] at hwf
      obtain ⟨hfit, hbuf, hch, hsubwf⟩ := hwf
      simp only [get_len_mk, get_address_mk] at h1 h2
      simp only [SubBlock.access] at hacc
      split at hacc
      · cases hacc
      · split at hacc
        · rename_i e0 halloc
          injection hacc with hacc
          subst hacc
          exact Or.inl (allocate_error halloc)
        · cases hacc
        · rename_i d2 halloc
          obtain ⟨a1, a2, _⟩ := allocate_ok halloc
          have hd1len : (if d.m_len > d.m_max_size then { d with m_use_sub_blocks := true }
              else d).m_len = d.m_len := by
            split <;> rfl
          have hd1ad : (if d.m_len > d.m_max_size then { d with m_use_sub_blocks := true }
              else d).m_address = d.m_address := by
            split <;> rfl
          rw [hd1len] at a1
          rw [hd1ad] at a2
          split at hacc
          · injection hacc with hacc
            exact Or.inl hacc.symm
          · split at hacc
            · injection hacc with hacc
              exact Or.inr (Or.inl hacc.symm)
            · rename_i hdiv
              split at hacc
              · rename_i hsub0
                rw [a1] at hsub0 hdiv
                omega
              · rename_i hsub0
                generalize hiv : sub64 a d2.m_address / (d2.m_len / 4) % U32 = iv at hacc
                rw [a1] at hsub0 hdiv
                rw [a1, a2] at hacc hiv
                have hsub : 0 < d.m_len / 4 := Nat.pos_of_ne_zero hsub0
                have hs64 : sub64 a d.m_address = a - d.m_address :=
                  sub64_of_le h1 (by omega)
                have hlt : (a - d.m_address) / (d.m_len / 4) < 4 := by
                  rw [Nat.div_lt_iff_lt_mul hsub]; omega
                have hivv : iv = (a - d.m_address) / (d.m_len / 4) := by
                  rw [← hiv, hs64, Nat.mod_eq_of_lt]
                  have : (4 : Nat) < U32 := by decide
                  omega
                have hlo : iv * (d.m_len / 4) ≤ a - d.m_address := by
                  rw [hivv]; exact Nat.div_mul_le_self _ _
                have hhi : a - d.m_address < iv * (d.m_len / 4) + d.m_len / 4 := by
                  rw [hivv]
                  exact Nat.lt_div_mul_add (a := a - d.m_address) hsub
                split at hacc
                · rename_i hi
                  have hbound : iv * (d.m_len / 4) ≤ 3 * (d.m_len / 4) :=
                    Nat.mul_le_mul_right _ (by omega)
                  split at hacc
                  · rename_i e1 hrec
                    injection hacc with hacc
                    subst hacc
                    cases hs : subs ⟨iv, hi⟩ with
                    | null =>
                      rw [hs] at hrec
                      simp only at hrec
                      have hm : mul64 iv (d.m_len / 4) = iv * (d.m_len / 4) :=
                        mul64_of_lt (by omega)
                      have hadd : add64 (iv * (d.m_len / 4)) d.m_address
                          = d.m_address + iv * (d.m_len / 4) := by
                        rw [add64_of_lt (by omega)]
                        omega
                      rw [hm, hadd] at hrec
                      refine ih _ a e1 (WF_new _ _ _ _ _ (by omega)) ?_ ?_ hrec
                      · show d.m_address + iv * (d.m_len / 4) ≤ a
                        omega
                      · show a < d.m_address + iv * (d.m_len / 4) + d.m_len / 4
                        omega
                    | mk cd cs =>
                      rw [hs] at hrec
                      simp only at hrec
                      have hc := hch ⟨iv, hi⟩ (by rw [hs]; rfl)
                      have hw := hsubwf ⟨iv, hi⟩
                      rw [hs] at hc hw
                      obtain ⟨_, _, _, _, g1, g2⟩ := hc
                      simp only [get_len_mk, get_address_mk] at g1 g2
                      refine ih _ a e1 hw ?_ ?_ hrec
                      · simp only [get_address_mk]; omega
                      · simp only [get_len_mk, get_address_mk]; omega
                  · cases hacc
                · rename_i hi
                  omega

/-- C37 (failing input).  A block of 6 bytes with leaves of at most 4 bytes and
minimum 1, on a host on which every allocation succeeds, and a block of 16 bytes
(maximum 16, minimum 1) on a host without memory: `access(0)` ends, but neither by
returning a leaf nor by the fatal out-of-memory error: it fails the assertion
`(m_len & 3) == 0`, in the first case on the block of 6 bytes, in the second on
the block of 1 byte reached after two splits.  The bound on the depth is as the
claim says: on a well-formed block shorter than `4 ^ n` the call needs no more
than `n + 1` levels, whatever the host does, and for an address of the range it
ends by returning a leaf, by the fatal error or by the failed assertion. -/
theorem access_ends_by_failed_assertion :
    (SubBlock.new 0 6 4 1 "").access demoHost accessFuel 0 = .error .assertion ∧
    (SubBlock.new 0 16 16 1 "").access demoFailHost accessFuel 0 = .error .assertion ∧
    (∀ (h : Host) (n : Nat) (t : SubBlock) (a : Nat), t.WF → t.get_len < 4 ^ n →
      t.get_address ≤ a → a < t.get_address + t.get_len →
      (∃ t1 p dl, t.access h (n + 1) a = .ok (t1, p) ∧ t1.LeafAt p dl) ∨
      t.access h (n + 1) a = .error .fatal ∨ t.access h (n + 1) a = .error .assertion) := by
  refine ⟨rfl, rfl, ?_⟩
  intro h n t a hwf hlen h1 h2
  cases hacc : t.access h (n + 1) a with
  | error e =>
    rcases access_faults h (n + 1) t a e hwf h1 h2 hacc with he | he | he
    · right; left; rw [he]
    · right; right; rw [he]
    · rw [he] at hacc
      exact absurd hacc (access_fuel h n t a hwf hlen)
  | ok r =>
    obtain ⟨t1, p⟩ := r
    left
    have ha : a < U64 := by
      cases t with
      | null => simp [SubBlock.get_len, SubBlock.get_address] at h1 h2
      | mk d subs =>
        rw [WF_mk] at hwf
        simp only [get_len_mk, get_address_mk] at h1 h2
        omega
    obtain ⟨_, _, _, _, _, dl, hl, _⟩ := access_ok h _ t a t1 p hwf ha hacc
    exact ⟨t1, p, dl, rfl, hl⟩

/-! ## The transfer loops -/

/-- The recorded loop of `Memory::write` returns the tree the loop returns. -/
theorem write_trace_loop (h : Host) (data : List Nat) (di offset : Nat) :
    ∀ (fuel : Nat) (root : SubBlock) (dpo len : Nat) (root1 : SubBlock)
      (cs : List (List (Fin 4) × Nat × Nat)),
    Memory.write_trace h fuel root data di offset dpo len = .ok (root1, cs) →
    Memory.write_loop h fuel root data di offset dpo len = .ok root1 := by
  intro fuel
  induction fuel with
  | zero =>
    intro root dpo len root1 cs hh
    simp only [Memory.write_trace] at hh
    simp only [Memory.write_loop]
    split at hh
    · rename_i hl
      injection hh with hh
      injection hh with e1 _
      rw [if_pos hl, e1]
    · cases hh
  | succ fuel ih =>
    intro root dpo len root1 cs hh
    simp only [Memory.write_trace] at hh
    simp only [Memory.write_loop]
    split at hh
    · rename_i hl
      injection hh with hh
      injection hh with e1 _
      rw [if_pos hl, e1]
    · rename_i hl
      rw [if_neg hl]
      split at hh
      · cases hh
      · rename_i r1 p hacc
        split at hh
        · cases hh
        · rename_i blk n hw
          split at hh
          · cases hh
          · rename_i root2 cs2 ht
            injection hh with hh
            injection hh with e1 _
            subst e1
            exact ih _ _ _ _ _ ht

/-- The recorded loop of `Memory::write` fails as the loop fails. -/
theorem write_trace_loop_error (h : Host) (data : List Nat) (di offset : Nat) :
    ∀ (fuel : Nat) (root : SubBlock) (dpo len : Nat) (e : Fault),
    Memory.write_trace h fuel root data di offset dpo len = .error e →
    Memory.write_loop h fuel root data di offset dpo len = .error e := by
  intro fuel
  induction fuel with
  | zero =>
    intro root dpo len e hh
    simp only [Memory.write_trace] at hh
    simp only [Memory.write_loop]
    split at hh
    · cases hh
    · rename_i hl
      injection hh with hh
      rw [if_neg hl, hh]
  | succ fuel ih =>
    intro root dpo len e hh
    simp only [Memory.write_trace] at hh
    simp only [Memory.write_loop]
    split at hh
    · cases hh
    · rename_i hl
      rw [if_neg hl]
      split at hh
      · rename_i e0 hacc
        injection hh with hh
        rw [hh]
      · rename_i r1 p hacc
        split at hh
        · rename_i e0 hw
          injection hh with hh
          rw [hh]
        · rename_i blk n hw
          split at hh
          · rename_i e0 ht
            injection hh with hh
            subst hh
            exact ih _ _ _ _ ht
          · cases hh

/-- The recorded loop of `Memory::read` returns the tree and the buffer the loop
returns. -/
theorem read_trace_loop (h : Host) (di offset : Nat) :
    ∀ (fuel : Nat) (root : SubBlock) (data : List Nat) (dpo len : Nat) (root1 : SubBlock)
      (data1 : List Nat) (cs : List (List (Fin 4) × Nat × Nat)),
    Memory.read_trace h fuel root data di offset dpo len = .ok (root1, data1, cs) →
    Memory.read_loop h fuel root data di offset dpo len = .ok (root1, data1) := by
  intro fuel
  induction fuel with
  | zero =>
    intro root data dpo len root1 data1 cs hh
    simp only [Memory.read_trace] at hh
    simp only [Memory.read_loop]
    split at hh
    · rename_i hl
      injection hh with hh
      injection hh with e1 e2
      injection e2 with e2 _
      rw [if_pos hl, e1, e2]
    · cases hh
  | succ fuel ih =>
    intro root data dpo len root1 data1 cs hh
    simp only [Memory.read_trace] at hh
    simp only [Memory.read_loop]
    split at hh
    · rename_i hl
      injection hh with hh
      injection hh with e1 e2
      injection e2 with e2 _
      rw [if_pos hl, e1, e2]
    · rename_i hl
      rw [if_neg hl]
      split at hh
      · cases hh
      · rename_i r1 p hacc
        split at hh
        · cases hh
        · rename_i d1 n hw
          split at hh
          · cases hh
          · rename_i root2 data2 cs2 ht
            injection hh with hh
            injection hh with e1 e2
            injection e2 with e2 _
            subst e1 e2
            exact ih _ _ _ _ _ _ _ ht

/-- The recorded loop of `Memory::read` fails as the loop fails. -/
theorem read_trace_loop_error (h : Host) (di offset : Nat) :
    ∀ (fuel : Nat) (root : SubBlock) (data : List Nat) (dpo len : Nat) (e : Fault),
    Memory.read_trace h fuel root data di offset dpo len = .error e →
    Memory.read_loop h fuel root data di offset dpo len = .error e := by
  intro fuel
  induction fuel with
  | zero =>
    intro root data dpo len e hh
    simp only [Memory.read_trace] at hh
    simp only [Memory.read_loop]
    split at hh
    · cases hh
    · rename_i hl
      injection hh with hh
      rw [if_neg hl, hh]
  | succ fuel ih =>
    intro root data dpo len e hh
    simp only [Memory.read_trace] at hh
    simp only [Memory.read_loop]
    split at hh
    · cases hh
    · rename_i hl
      rw [if_neg hl]
      split at hh
      · rename_i e0 hacc
        injection hh with hh
        rw [hh]
      · rename_i r1 p hacc
        split at hh
        · rename_i e0 hw
          injection hh with hh
          rw [hh]
        · rename_i d1 n hw
          split at hh
          · rename_i e0 ht
            injection hh with hh
            subst hh
            exact ih _ _ _ _ _ ht
          · cases hh

theorem Chunks_Keeps {t t1 : SubBlock} (hk : t.Keeps t1) :
    ∀ (cs : List (List (Fin 4) × Nat × Nat)) (start len : Nat),
    t.Chunks start len cs → t1.Chunks start len cs := by
  intro cs
  induction cs with
  | nil => intro start len hc; exact hc
  | cons c cs ih =>
    intro start len hc
    obtain ⟨p, s, n⟩ := c
    simp only [SubBlock.Chunks] at hc ⊢
    obtain ⟨c1, c2, c3, ⟨dl, hl, c4, c5⟩, c6⟩ := hc
    obtain ⟨buf1, hl1⟩ := hk p dl hl
    exact ⟨c1, c2, c3, ⟨_, hl1, c4, c5⟩, ih _ _ c6⟩

theorem Chunks_sum (t : SubBlock) : ∀ (cs : List (List (Fin 4) × Nat × Nat)) (start len : Nat),
    t.Chunks start len cs →
    (cs.map (fun c => c.2.2)).sum = len ∧ ∀ c ∈ cs, 1 ≤ c.2.2 := by
  intro cs
  induction cs with
  | nil =>
    intro start len hc
    simp only [SubBlock.Chunks] at hc
    subst hc
    exact ⟨rfl, fun c hc => by cases hc⟩
  | cons c cs ih =>
    intro start len hc
    obtain ⟨p, s, n⟩ := c
    simp only [SubBlock.Chunks] at hc
    obtain ⟨_, c2, c3, _, c6⟩ := hc
    obtain ⟨i1, i2⟩ := ih _ _ c6
    refine ⟨?_, ?_⟩
    · simp only [List.map_cons, List.sum_cons, i1]
      omega
    · intro c hc
      rcases List.mem_cons.1 hc with rfl | hc
      · exact c2
      · exact i2 c hc

theorem write_trace_run (h : Host) (data : List Nat) (di offset : Nat) :
    ∀ (fuel : Nat) (root : SubBlock) (dpo len : Nat),
    root.WF → root.get_address = 0 → root.get_len < U64 →
    offset + dpo + len ≤ root.get_len → di + dpo + len ≤ data.length → len ≤ fuel →
    (∃ root1 cs, Memory.write_trace h fuel root data di offset dpo len = .ok (root1, cs) ∧
      root1.Chunks (offset + dpo) len cs) ∨
    Memory.write_trace h fuel root data di offset dpo len = .error .fatal ∨
    Memory.write_trace h fuel root data di offset dpo len = .error .assertion := by
  intro fuel
  induction fuel with
  | zero =>
    intro root dpo len _ _ _ _ _ hf
    have hl : len = 0 := by omega
    subst hl
    exact Or.inl ⟨root, [], rfl, rfl⟩
  | succ fuel ih =>
    intro root dpo len hwf had hlt hin hdata hf
    by_cases hl : len = 0
    · subst hl
      exact Or.inl ⟨root, [], rfl, rfl⟩
    · have hadd : add64 offset dpo = offset + dpo := add64_of_lt (by omega)
      cases hacc : root.access h accessFuel (offset + dpo) with
      | error e =>
        have htr : Memory.write_trace h (fuel + 1) root data di offset dpo len = .error e := by
          simp only [Memory.write_trace, if_neg hl, hadd, hacc]
        rw [htr]
        rcases access_faults h _ root _ e hwf (by omega) (by omega) hacc with he | he | he
        · right; left; rw [he]
        · right; right; rw [he]
        · rw [he] at hacc
          exact absurd hacc (access_fuel h 32 root _ hwf (by rw [← U64_eq_pow]; exact hlt))
      | ok r =>
        obtain ⟨r1, p⟩ := r
        obtain ⟨w1, _, w3, w4, _, dl, hleaf, w6⟩ :=
          access_ok h _ _ _ _ _ hwf (by omega) hacc
        obtain ⟨c1, c2⟩ := w6 (by omega) (by omega)
        obtain ⟨_, g2, _, buf, hb, hbl⟩ := LeafAt_range p r1 dl w1 hleaf
        obtain ⟨subs, hget⟩ := LeafAt_get p r1 dl hleaf
        rw [w3, w4, had] at g2
        obtain ⟨buf1, hw, hbl1, _⟩ := write_sub_blocks_leaf dl subs buf data (di + dpo)
          (offset + dpo) len hb hbl (by omega) (by omega) c1 c2 (by omega)
        obtain ⟨s1, _, s3, s4, s5, _⟩ :=
          set_LeafAt p r1 dl subs buf1 w1 hleaf hget (by rw [hbl1, hbl])
        have hadd2 : add64 dpo (min len (dl.m_len - (offset + dpo - dl.m_address)))
            = dpo + min len (dl.m_len - (offset + dpo - dl.m_address)) :=
          add64_of_lt (by omega)
        have hstep := ih (r1.set p (.mk { dl with m_ptr := some buf1 } subs))
          (dpo + min len (dl.m_len - (offset + dpo - dl.m_address)))
          (len - min len (dl.m_len - (offset + dpo - dl.m_address))) s1
          (by rw [s4, w4, had]) (by rw [s3, w3]; exact hlt) (by rw [s3, w3]; omega)
          (by omega) (by omega)
        rcases hstep with ⟨root2, cs2, ht, hc⟩ | ht | ht
        · left
          refine ⟨root2, (p, offset + dpo, min len (dl.m_len - (offset + dpo - dl.m_address)))
            :: cs2, ?_, ?_⟩
          · simp only [Memory.write_trace, if_neg hl, hadd, hacc, hget, hw, hadd2, ht]
          · have hk := write_loop_Keeps h data di offset fuel _ _ _ root2 s1
              (write_trace_loop h data di offset fuel _ _ _ root2 cs2 ht)
            obtain ⟨buf2, hl2⟩ := hk p _ s5
            simp only [SubBlock.Chunks]
            refine ⟨trivial, by omega, by omega, ⟨_, hl2, c1, ?_⟩, ?_⟩
            · show offset + dpo + min len (dl.m_len - (offset + dpo - dl.m_address))
                ≤ dl.m_address + dl.m_len
              omega
            · rw [Nat.add_assoc]
              exact hc
        · right; left
          simp only [Memory.write_trace, if_neg hl, hadd, hacc, hget, hw, hadd2, ht]
        · right; right
          simp only [Memory.write_trace, if_neg hl, hadd, hacc, hget, hw, hadd2, ht]

theorem read_trace_run (h : Host) (di offset : Nat) :
    ∀ (fuel : Nat) (root : SubBlock) (data : List Nat) (dpo len : Nat),
    root.WF → root.get_address = 0 → root.get_len < U64 →
    offset + dpo + len ≤ root.get_len → di + dpo + len ≤ data.length → len ≤ fuel →
    (∃ root1 data1 cs,
      Memory.read_trace h fuel root data di offset dpo len = .ok (root1, data1, cs) ∧
      root1.Chunks (offset + dpo) len cs) ∨
    Memory.read_trace h fuel root data di offset dpo len = .error .fatal ∨
    Memory.read_trace h fuel root data di offset dpo len = .error .assertion := by
  intro fuel
  induction fuel with
  | zero =>
    intro root data dpo len _ _ _ _ _ hf
    have hl : len = 0 := by omega
    subst hl
    exact Or.inl ⟨root, data, [], rfl, rfl⟩
  | succ fuel ih =>
    intro root data dpo len hwf had hlt hin hdata hf
    by_cases hl : len = 0
    · subst hl
      exact Or.inl ⟨root, data, [], rfl, rfl⟩
    · have hadd : add64 offset dpo = offset + dpo := add64_of_lt (by omega)
      cases hacc : root.access h accessFuel (offset + dpo) with
      | error e =>
        have htr : Memory.read_trace h (fuel + 1) root data di offset dpo len = .error e := by
          simp only [Memory.read_trace, if_neg hl, hadd, hacc]
        rw [htr]
        rcases access_faults h _ root _ e hwf (by omega) (by omega) hacc with he | he | he
        · right; left; rw [he]
        · right; right; rw [he]
        · rw [he] at hacc
          exact absurd hacc (access_fuel h 32 root _ hwf (by rw [← U64_eq_pow]; exact hlt))
      | ok r =>
        obtain ⟨r1, p⟩ := r
        obtain ⟨w1, _, w3, w4, _, dl, hleaf, w6⟩ :=
          access_ok h _ _ _ _ _ hwf (by omega) hacc
        obtain ⟨c1, c2⟩ := w6 (by omega) (by omega)
        obtain ⟨_, g2, _, buf, hb, hbl⟩ := LeafAt_range p r1 dl w1 hleaf
        obtain ⟨subs, hget⟩ := LeafAt_get p r1 dl hleaf
        rw [w3, w4, had] at g2
        obtain ⟨data1, hw, hdl1, _⟩ := read_sub_blocks_leaf dl subs buf data (di + dpo)
          (offset + dpo) len hb hbl (by omega) (by omega) c1 c2 (by omega)
        have hadd2 : add64 dpo (min len (dl.m_len - (offset + dpo - dl.m_address)))
            = dpo + min len (dl.m_len - (offset + dpo - dl.m_address)) :=
          add64_of_lt (by omega)
        have hstep := ih r1 data1
          (dpo + min len (dl.m_len - (offset + dpo - dl.m_address)))
          (len - min len (dl.m_len - (offset + dpo - dl.m_address))) w1
          (by rw [w4, had]) (by rw [w3]; exact hlt) (by rw [w3]; omega)
          (by rw [hdl1]; omega) (by omega)
        rcases hstep with ⟨root2, data2, cs2, ht, hc⟩ | ht | ht
        · left
          refine ⟨root2, data2,
            (p, offset + dpo, min len (dl.m_len - (offset + dpo - dl.m_address))) :: cs2,
            ?_, ?_⟩
          · simp only [Memory.read_trace, if_neg hl, hadd, hacc, hget, hw, hadd2, ht]
          · have hk := read_loop_Keeps h di offset fuel _ _ _ _ root2 data2
              (read_trace_loop h di offset fuel _ _ _ _ root2 data2 cs2 ht)
            obtain ⟨buf2, hl2⟩ := hk p _ hleaf
            simp only [SubBlock.Chunks]
            refine ⟨trivial, by omega, by omega, ⟨_, hl2, c1, ?_⟩, ?_⟩
            · show offset + dpo + min len (dl.m_len - (offset + dpo - dl.m_address))
                ≤ dl.m_address + dl.m_len
              omega
            · rw [Nat.add_assoc]
              exact hc
        · right; left
          simp only [Memory.read_trace, if_neg hl, hadd, hacc, hget, hw, hadd2, ht]
        · right; right
          simp only [Memory.read_trace, if_neg hl, hadd, hacc, hget, hw, hadd2, ht]

/-- The chunks of the transfer loops.  The loops of `Memory::write` and `Memory::read`, for a request of
`len` bytes at region offset `offset` within the root block, with a caller's
buffer that holds the `len` bytes, end within `len` iterations.  Either a call of
`access` did not return (the fatal error of a failed allocation, or a failed
assertion), or the loop returns, and then its iterations move chunks
`(reference, start, n)` of which each has `n ≥ 1`, the first starts at `offset`
and each next one where the one before ended, each lies within the leaf its
reference leads to, which contains its start, and the lengths add up to `len`. -/
theorem transfer_loop (h : Host) (root : SubBlock) (data : List Nat) (di offset len : Nat)
    (hwf : root.WF) (had : root.get_address = 0) (hlt : root.get_len < U64)
    (hin : offset + len ≤ root.get_len) (hdata : di + len ≤ data.length) :
    ((∃ root1 cs, Memory.write_trace h len root data di offset 0 len = .ok (root1, cs) ∧
        Memory.write_loop h len root data di offset 0 len = .ok root1 ∧
        root1.Chunks offset len cs ∧
        (cs.map (fun c => c.2.2)).sum = len ∧ ∀ c ∈ cs, 1 ≤ c.2.2) ∨
      Memory.write_loop h len root data di offset 0 len = .error .fatal ∨
      Memory.write_loop h len root data di offset 0 len = .error .assertion) ∧
    ((∃ root1 data1 cs,
        Memory.read_trace h len root data di offset 0 len = .ok (root1, data1, cs) ∧
        Memory.read_loop h len root data di offset 0 len = .ok (root1, data1) ∧
        root1.Chunks offset len cs ∧
        (cs.map (fun c => c.2.2)).sum = len ∧ ∀ c ∈ cs, 1 ≤ c.2.2) ∨
      Memory.read_loop h len root data di offset 0 len = .error .fatal ∨
      Memory.read_loop h len root data di offset 0 len = .error .assertion) := by
  constructor
  · rcases write_trace_run h data di offset len root 0 len hwf had hlt (by omega) (by omega)
      (Nat.le_refl _) with ⟨root1, cs, ht, hc⟩ | ht | ht
    · left
      rw [Nat.add_zero] at hc
      obtain ⟨k1, k2⟩ := Chunks_sum root1 cs _ _ hc
      exact ⟨root1, cs, ht, write_trace_loop h data di offset _ _ _ _ _ _ ht, hc, k1, k2⟩
    · right; left; exact write_trace_loop_error h data di offset _ _ _ _ _ ht
    · right; right; exact write_trace_loop_error h data di offset _ _ _ _ _ ht
  · rcases read_trace_run h di offset len root data 0 len hwf had hlt (by omega) (by omega)
      (Nat.le_refl _) with ⟨root1, data1, cs, ht, hc⟩ | ht | ht
    · left
      rw [Nat.add_zero] at hc
      obtain ⟨k1, k2⟩ := Chunks_sum root1 cs _ _ hc
      exact ⟨root1, data1, cs, ht, read_trace_loop h di offset _ _ _ _ _ _ _ _ ht, hc, k1, k2⟩
    · right; left; exact read_trace_loop_error h di offset _ _ _ _ _ _ ht
    · right; right; exact read_trace_loop_error h di offset _ _ _ _ _ _ ht

/-- Instance of the chunks of the transfer loops.  A write of 6 bytes at offset 3 to a fresh block of 16 bytes
with leaves of 4 bytes moves the three chunks of 1, 4 and 1 bytes at the offsets
3, 4 and 8, to the leaves of the children 0, 1 and 2. -/
theorem transfer_loop_witness :
    (∃ root1, Memory.write_trace demoHost 6 (SubBlock.new 0 16 4 1 "") [1, 2, 3, 4, 5, 6] 0 3 0 6
      = .ok (root1, [([0], 3, 1), ([1], 4, 4), ([2], 8, 1)])) ∧
    ((∃ root1 cs, Memory.write_trace demoHost 6 (SubBlock.new 0 16 4 1 "") [1, 2, 3, 4, 5, 6]
          0 3 0 6 = .ok (root1, cs) ∧
        Memory.write_loop demoHost 6 (SubBlock.new 0 16 4 1 "") [1, 2, 3, 4, 5, 6] 0 3 0 6
          = .ok root1 ∧
        root1.Chunks 3 6 cs ∧
        (cs.map (fun c => c.2.2)).sum = 6 ∧ ∀ c ∈ cs, 1 ≤ c.2.2) ∨
      Memory.write_loop demoHost 6 (SubBlock.new 0 16 4 1 "") [1, 2, 3, 4, 5, 6] 0 3 0 6
        = .error .fatal ∨
      Memory.write_loop demoHost 6 (SubBlock.new 0 16 4 1 "") [1, 2, 3, 4, 5, 6] 0 3 0 6
        = .error .assertion) :=
  ⟨⟨_, rfl⟩,
   (transfer_loop demoHost (SubBlock.new 0 16 4 1 "") [1, 2, 3, 4, 5, 6] 0 3 6
      (WF_new 0 16 4 1 "" (by decide)) rfl (by decide) (by decide) (by decide)).1⟩

/-! ## The frame of a write, and byte enables -/

theorem inRange64_eq_false {offset len b : Nat} (hr : ∀ j, j < len → b ≠ add64 offset j) :
    inRange64 offset len b = false := by
  unfold inRange64
  rw [List.any_eq_false]
  intro j hj
  simp only [decide_eq_true_eq]
  exact hr j (List.mem_range.1 hj)

/-- C35.  After a returning `Memory::b_transport` with the write command, for
`len` bytes at region offset `o`, every stored byte at an offset that is none of
`o, o + 1, .., o + len - 1` (in the 64-bit arithmetic of the code) has the value
it had before, however many leaves the write spans or allocates; when
`o + len` does not exceed `2^64`, as for every request within the region, these
are the offsets outside `[o, o + len)`.  After a returning call with the read
command every stored byte has the value it had before.  In both cases every leaf
is where it was. -/
theorem write_frame (h : Host) (m m1 : Memory) (t t1 : Txn)
    (hm : m.Elaborated) (hta : t.address < U64) (hres : m.b_transport h t = .ok (m1, t1)) :
    (t.command = .write →
      (∀ b v, (∀ j, j < t.data_length → b ≠ add64 (m.offset t.address) j) →
        m.m_sub_block.peek b = some v → m1.m_sub_block.peek b = some v) ∧
      (m.offset t.address + t.data_length ≤ U64 →
        ∀ b v, ¬ (m.offset t.address ≤ b ∧ b < m.offset t.address + t.data_length) →
          m.m_sub_block.peek b = some v → m1.m_sub_block.peek b = some v)) ∧
    (t.command = .read →
      ∀ b v, m.m_sub_block.peek b = some v → m1.m_sub_block.peek b = some v) ∧
    m.m_sub_block.Keeps m1.m_sub_block := by
  obtain ⟨hk, hf⟩ := b_transport_tree hm hta hres
  have hmod : ∀ b v, (∀ j, j < t.data_length → b ≠ add64 (m.offset t.address) j) →
      m.m_sub_block.peek b = some v → m1.m_sub_block.peek b = some v := by
    intro b v hout hv
    by_cases hrel : m.m_relative_addresses = true
    · apply hf b v _ hv
      simp only [Memory.Op.writes, hrel, Bool.not_true, Bool.false_eq_true, if_false,
        Bool.and_eq_false_imp, decide_eq_true_eq]
      intro _
      apply inRange64_eq_false
      simpa only [Memory.offset, hrel, if_true] using hout
    · have hrel0 : m.m_relative_addresses = false := by simpa using hrel
      by_cases hlow : t.address < m.m_address
      · have : m1 = m := by
          unfold Memory.b_transport at hres
          simp only [hrel0, Bool.not_false, Bool.true_and, decide_eq_true_eq, hlow, if_true]
            at hres
          injection hres with hres
          injection hres with e1 _
          exact e1.symm
        rw [this]; exact hv
      · apply hf b v _ hv
        simp only [Memory.Op.writes, hrel0, Bool.not_false, if_true,
          Bool.and_eq_false_imp, decide_eq_true_eq]
        intro _
        apply inRange64_eq_false
        have hs : sub64 t.address m.m_address = t.address - m.m_address :=
          sub64_of_le (by omega) hta
        rw [hs]
        simpa only [Memory.offset, hrel0, Bool.false_eq_true, if_false] using hout
  refine ⟨fun _ => ⟨hmod, ?_⟩, ?_, hk⟩
  · intro hfit b v hout hv
    apply hmod b v _ hv
    intro j hj hb
    rw [add64_of_lt (by omega)] at hb
    omega
  · intro hr b v hv
    apply hf b v _ hv
    simp only [Memory.Op.writes, hr]
    rfl

/-- C35 (witness).  Six bytes written at offset 2 of a fresh 16-byte memory with
4-byte leaves allocate three leaves; after a second write of two bytes at offset
3, the byte at offset 2 still holds 1 and the byte at offset 5 still holds 4. -/
theorem write_frame_witness :
    ((demoMemory 0 true false).after demoHost
        [.b_transport (demoWrite 2 [1, 2, 3, 4, 5, 6])]).m_sub_block.peek 2 = some 1 ∧
    ((demoMemory 0 true false).after demoHost
        [.b_transport (demoWrite 2 [1, 2, 3, 4, 5, 6]),
          .b_transport (demoWrite 3 [8, 9])]).m_sub_block.peek 2 = some 1 ∧
    ((demoMemory 0 true false).after demoHost
        [.b_transport (demoWrite 2 [1, 2, 3, 4, 5, 6]),
          .b_transport (demoWrite 3 [8, 9])]).m_sub_block.peek 5 = some 4 := by
  have k := (write_frame demoHost
    ((demoMemory 0 true false).after demoHost [.b_transport (demoWrite 2 [1, 2, 3, 4, 5, 6])])
    ((demoMemory 0 true false).after demoHost
      [.b_transport (demoWrite 2 [1, 2, 3, 4, 5, 6]), .b_transport (demoWrite 3 [8, 9])])
    (demoWrite 3 [8, 9]) { demoWrite 3 [8, 9] with response := .ok, dmi_allowed := true }
    (run_frame demoHost [.b_transport (demoWrite 2 [1, 2, 3, 4, 5, 6])] (demoMemory 0 true false)
      _ (Elaborated_demoMemory 0 true false (by decide))
      (by intro op hop
          rw [List.mem_singleton] at hop
          subst hop
          show 2 < U64
          decide) rfl).2.1
    (by decide) rfl).1 rfl
  exact ⟨rfl, k.2 (by decide) 2 1 (by decide) rfl, k.2 (by decide) 5 4 (by decide) rfl⟩

/-- C36 (failing input).  A 16-byte writable memory receives a write of 4 bytes
at address 12 with a byte-enable array of length 1 that enables every byte.  The
request is within the region and passes the check of `b_transport`, but the
bytes are not stored: for `i = 3` the loop calls `write(&ptr[3], 15, 1)`, whose
assertion `offset + len < m_size` fails.  The same happens for the read.  With
the last byte disabled the transaction is answered OK. -/
theorem enabled_last_byte_fails_assertion :
    (demoMemory 0 true false).b_transport demoHost (demoMaskedWrite 12 [1, 2, 3, 4] [255])
      = .error .assertion ∧
    (demoMemory 0 true false).b_transport demoHost (demoMaskedRead 12 4 [255])
      = .error .assertion ∧
    (demoMemory 0 true false).write demoHost [1, 2, 3, 4] 3 15 1 = .error .assertion ∧
    responseOf ((demoMemory 0 true false).b_transport demoHost
      (demoMaskedWrite 12 [1, 2, 3, 4] [255, 255, 255, 0])) = some .ok ∧
    (List.range 16).map ((Memory.after demoHost (demoMemory 0 true false)
      [.b_transport (demoMaskedWrite 12 [1, 2, 3, 4] [255, 255, 255, 0])]).m_sub_block.peek)
      = [none, none, none, none, none, none, none, none, none, none, none, none,
          some 1, some 2, some 3, some 0] := by
  refine ⟨rfl, rfl, rfl, by decide, rfl⟩

/-! ## Decoding, direct access and the transfer loops at their failing inputs -/

/-- C10 (failing input).  The entry `TOP` has base `2^64 - 0x1000` and size
`0x1000`, so its range contains the addresses `2^64 - 0x1000` and `2^64 - 1`.
In the table `[TOP]` the address `2^64 - 1` is contained in the range of the
entry at position 0, yet `decode_address` returns no match.  In the table
`[TOP, ALL]`, where the range `[0, 2^64 - 1)` of `ALL` contains `2^64 - 0x1000`
as well, `decode_address` returns `ALL`, the entry at position 1, although the
entry at position 0 contains the address.  The cause is the 64-bit sum
`base + size` in the range test, which is 0 for `TOP`.  For a table in which no
entry has `base + size` reaching `2^64`, `decode_address` returns exactly the
entry at the smallest position whose range contains the address, and no match
exactly when no entry contains it; the three example addresses decode as the
claim says. -/
theorem first_containing_entry_is_missed :
    (demoTopEntry.address ≤ U64 - 1 ∧ U64 - 1 < demoTopEntry.address + demoTopEntry.size) ∧
    demoTopRouter.targets.get? 0 = some demoTopEntry ∧
    demoTopRouter.decode_address (U64 - 1) = none ∧
    (demoTopEntry.address ≤ U64 - 4096 ∧
      U64 - 4096 < demoTopEntry.address + demoTopEntry.size) ∧
    demoTopFirstRouter.targets.get? 0 = some demoTopEntry ∧
    demoTopFirstRouter.decode_address (U64 - 4096) = demoTopFirstRouter.targets.get? 1 ∧
    demoTopFirstRouter.decode_address (U64 - 1) = none ∧
    (∀ (r : Router) (addr : Nat), (∀ ti ∈ r.targets, ti.address + ti.size < U64) →
      (∀ ti, r.decode_address addr = some ti ↔
        ∃ i, r.targets.get? i = some ti ∧
          (ti.address ≤ addr ∧ addr < ti.address + ti.size) ∧
          ∀ j tj, j < i → r.targets.get? j = some tj →
            ¬ (tj.address ≤ addr ∧ addr < tj.address + tj.size)) ∧
      (r.decode_address addr = none ↔
        ∀ ti ∈ r.targets, ¬ (ti.address ≤ addr ∧ addr < ti.address + ti.size))) ∧
    demoRouter.decode_address 4095 = demoTable.get? 0 ∧
    demoRouter.decode_address 8192 = demoTable.get? 1 ∧
    demoRouter.decode_address 5376 = none := by
  refine ⟨by decide, rfl, by decide, by decide, rfl, by decide, by decide, ?_, by decide,
    by decide, by decide⟩
  intro r addr hfit
  have hmem : ∀ (i : Nat) (ti : target_info), r.targets.get? i = some ti → ti ∈ r.targets := by
    intro i ti hi
    exact List.get?_mem hi
  obtain ⟨k1, k2, k3, _⟩ := decode_address_first_match r addr
  have hm : ∀ ti ∈ r.targets,
      (ti.matches addr = true ↔ ti.address ≤ addr ∧ addr < ti.address + ti.size) :=
    fun ti hti => k3 ti (hfit ti hti)
  have hmf : ∀ ti ∈ r.targets,
      (ti.matches addr = false ↔ ¬ (ti.address ≤ addr ∧ addr < ti.address + ti.size)) := by
    intro ti hti
    rw [← hm ti hti]
    simp
  constructor
  · intro ti
    rw [k1 ti]
    constructor
    · rintro ⟨i, hi, hmt, hbefore⟩
      refine ⟨i, hi, (hm ti (hmem _ _ hi)).1 hmt, ?_⟩
      intro j tj hj hgj
      exact (hmf tj (hmem _ _ hgj)).1 (hbefore j tj hj hgj)
    · rintro ⟨i, hi, hin, hbefore⟩
      refine ⟨i, hi, (hm ti (hmem _ _ hi)).2 hin, ?_⟩
      intro j tj hj hgj
      exact (hmf tj (hmem _ _ hgj)).2 (hbefore j tj hj hgj)
  · rw [k2]
    constructor
    · intro hall ti hti
      exact (hmf ti hti).1 (hall ti hti)
    · intro hall ti hti
      exact (hmf ti hti).2 (hall ti hti)

/-- C19 (failing input).  An elaborated memory of 24 bytes with leaves of at
most 4 bytes and direct access enabled, on a host on which every allocation
succeeds: the addresses 0, 5 and 23 are valid (offset below the size), yet
`get_direct_mem_ptr` does not succeed for them: the root is split into children
of 6 bytes, and `access` fails the assertion `(m_len & 3) == 0` on the child.
The same happens with the default leaf sizes for a memory of `0x100000002`
bytes.  Whenever `access` resolves the offset of a valid address to a leaf,
`get_direct_mem_ptr` does return `true`, with the pointer to that leaf and the
window that is the range of the leaf (plus the region base in absolute mode),
contains the address and lies within the region; and it fails only with the
fault of `access`. -/
theorem dmi_request_fails_split_assertion :
    (demoSizedMemory 24 4 1).before_end_of_elaboration = .ok (demoSizedMemory 24 4 1) ∧
    (demoSizedMemory 24 4 1).p_dmi = true ∧
    (demoSizedMemory 24 4 1).offset 23 < (demoSizedMemory 24 4 1).m_size ∧
    (∀ l, (demoHost.aligned_alloc 0 l).isSome = true) ∧
    (demoSizedMemory 24 4 1).get_direct_mem_ptr demoHost (demoRead 0 1) tlm_dmi.init
      = .error .assertion ∧
    (demoSizedMemory 24 4 1).get_direct_mem_ptr demoHost (demoRead 5 1) tlm_dmi.init
      = .error .assertion ∧
    (demoSizedMemory 24 4 1).get_direct_mem_ptr demoHost (demoRead 23 1) tlm_dmi.init
      = .error .assertion ∧
    (demoSizedMemory 4294967298 4294967296 4096).get_direct_mem_ptr demoHost (demoRead 0 1)
        tlm_dmi.init
      = .error .assertion ∧
    (∀ (h : Host) (m : Memory) (txn : Txn) (dmi_data : tlm_dmi),
      m.Elaborated → m.p_dmi = true → txn.address < U64 →
      (m.m_relative_addresses = true ∨ m.m_address ≤ txn.address) →
      m.offset txn.address < m.m_size →
      (m.m_relative_addresses = false → m.m_address + m.m_size ≤ U64) →
      (∀ e, m.m_sub_block.access h accessFuel (m.offset txn.address) = .error e →
        m.get_direct_mem_ptr h txn dmi_data = .error e) ∧
      (∀ root p, m.m_sub_block.access h accessFuel (m.offset txn.address) = .ok (root, p) →
        ∃ dl dmi1, root.LeafAt p dl ∧
          m.get_direct_mem_ptr h txn dmi_data
            = .ok ({ m with m_sub_block := root }, txn, dmi1, true) ∧
          dmi1.dmi_ptr = some p ∧
          dmi1.granted_access = (if m.p_rom then .read else .read_write) ∧
          dmi1.start_address = m.origin + dl.m_address ∧
          dmi1.end_address - dmi1.start_address + 1 = dl.m_len ∧
          dmi1.start_address ≤ txn.address ∧ txn.address ≤ dmi1.end_address ∧
          m.origin ≤ dmi1.start_address ∧ dmi1.end_address < m.origin + m.m_size)) := by
  refine ⟨rfl, rfl, by decide, fun _ => rfl, rfl, rfl, rfl, rfl, ?_⟩
  intro h m txn dmi_data hm hdmi hta hbase hoff hfit
  obtain ⟨_, k2, _, k4⟩ := dmi_window_containment h m txn dmi_data hm hdmi hta hbase hoff hfit
  exact ⟨k2, k4⟩

/-- C33 (failing input).  A root block of 24 bytes with leaves of at most 4
bytes, on a host on which every allocation succeeds: a request of one byte at
offset 0 is within the block, yet the loops of `Memory::write` and
`Memory::read` move no byte: their first call of `access` splits the root into
children of 6 bytes and fails the assertion `(m_len & 3) == 0` on the child.
For every well-formed root block and every request within it, each loop ends
within `len` iterations: either it returns, having moved chunks of at least one
byte each, consecutive from `offset` on, each within the leaf that contains its
start, and `len` bytes in all, or it ends with the fatal error or a failed
assertion. -/
theorem transfer_loop_fails_split_assertion :
    (∀ a l, (demoHost.aligned_alloc a l).isSome = true) ∧
    (SubBlock.new 0 24 4 1 "").WF ∧ 0 + 1 ≤ (SubBlock.new 0 24 4 1 "").get_len ∧
    Memory.write_loop demoHost 1 (SubBlock.new 0 24 4 1 "") [7] 0 0 0 1 = .error .assertion ∧
    Memory.read_loop demoHost 1 (SubBlock.new 0 24 4 1 "") [0] 0 0 0 1 = .error .assertion ∧
    (demoSizedMemory 24 4 1).write demoHost [7] 0 0 1 = .error .assertion ∧
    (demoSizedMemory 24 4 1).read demoHost [0] 0 0 1 = .error .assertion ∧
    (∀ (h : Host) (root : SubBlock) (data : List Nat) (di offset len : Nat),
      root.WF → root.get_address = 0 → root.get_len < U64 →
      offset + len ≤ root.get_len → di + len ≤ data.length →
      ((∃ root1 cs, Memory.write_trace h len root data di offset 0 len = .ok (root1, cs) ∧
          Memory.write_loop h len root data di offset 0 len = .ok root1 ∧
          root1.Chunks offset len cs ∧
          (cs.map (fun c => c.2.2)).sum = len ∧ ∀ c ∈ cs, 1 ≤ c.2.2) ∨
        Memory.write_loop h len root data di offset 0 len = .error .fatal ∨
        Memory.write_loop h len root data di offset 0 len = .error .assertion) ∧
      ((∃ root1 data1 cs,
          Memory.read_trace h len root data di offset 0 len = .ok (root1, data1, cs) ∧
          Memory.read_loop h len root data di offset 0 len = .ok (root1, data1) ∧
          root1.Chunks offset len cs ∧
          (cs.map (fun c => c.2.2)).sum = len ∧ ∀ c ∈ cs, 1 ≤ c.2.2) ∨
        Memory.read_loop h len root data di offset 0 len = .error .fatal ∨
        Memory.read_loop h len root data di offset 0 len = .error .assertion)) := by
  refine ⟨fun _ _ => rfl, WF_new 0 24 4 1 "" (by decide), by decide, rfl, rfl, rfl, rfl, ?_⟩
  intro h root data di offset len hwf had hlt hin hdata
  exact transfer_loop h root data di offset len hwf had hlt hin hdata

end gs
